import Mathlib

/-!
# MOTU MIDI express driver: protocol engines

A shallow embedding of the encode/decode engines of `motu.c`:
the command-length table, the per-port input assembly buffers, the
protocol-1 and protocol-2 decoders, the protocol-1 encoder, the
protocol-2 output FIFO and the protocol-2 packer.

Conventions.
* `unsigned char` values are natural numbers below 256; `unsigned int`
  fields wrap modulo `2^32` where the source can make them wrap.
* Fixed-size C arrays are lists; a write `a[i] = v` is `List.set`, a read
  is `List.getD`.  Reads and writes outside an array are undefined in C;
  the embedding reads a blank value and drops the write.
* Calls into the kernel (`snd_rawmidi_receive`, `dev_warn`,
  `usb_submit_urb`) are recorded as a list of `Event`s, in call order.
-/

namespace Motu

/-! ## Constants and data model -/

/-- Size of `midi_in_buf` and `midi_out_buf`. -/
def BUFSIZE : Nat := 128

/-- Number of isochronous frame descriptors of the output URB. -/
def NUM_ISO : Nat := 4

/-- Capacity of one output FIFO. -/
def N_MBUF : Nat := 64

/-- Capacity of `motu_in_port.buf` (`sizeof(buf)`). -/
def IN_BUF_SIZE : Nat := 64

/-- Conversion of a C `int` to `unsigned char`. -/
def toU8 (x : Int) : Nat := (x % 256).toNat

/-- Conversion of a C `int` to `unsigned int`. -/
def toU32 (x : Int) : Nat := (x % 4294967296).toNat

/-- Record `struct motu_in_port`; `substream` is true when a consumer is
registered (the pointer is not NULL). -/
structure motu_in_port where
  substream : Bool
  last_cmd : Nat
  cmd_bytes_remaining : Nat
  buf : List Nat
  buf_len : Nat
  buf_send_len : Nat
deriving DecidableEq, Repr

/-- Record `struct motufifo` (the fields `rd_bytes` and `missing_bytes` are
never accessed by the driver). -/
structure motufifo where
  mbuf : List Nat
  p_in : Nat
  p_out : Nat
  last_cmd : Nat
  buf_len : Nat
  buf_send_len : Nat
  cmd_len : Nat
  remaining : Nat
deriving DecidableEq, Repr

/-- One entry of `urb->iso_frame_desc`. -/
structure iso_desc where
  offset : Nat
  length : Nat
  status : Int
deriving DecidableEq, Repr

/-- The fields of `midi_out_urb` written by the encoders. -/
structure out_urb where
  transfer_buffer_length : Nat
  iso_frame_desc : List iso_desc
  number_of_packets : Nat
deriving DecidableEq, Repr

/-- Record `struct motu`, restricted to the fields the protocol engines use.
`out_ports` holds, per output port, whether a producer substream is
registered. -/
structure motu where
  midi_out_active : Int
  in_ports : List motu_in_port
  out_ports : List Bool
  counter : Nat
  midi_out_buf : List Nat
  midi_out_urb : out_urb
  n_ports_in : Int
  n_ports_out : Int
  last_out_port : Int
  last_in_port : Int
  in_state : Int
  mfifo : List motufifo
deriving DecidableEq, Repr

/-- Calls into the kernel made by the engines, in call order. -/
inductive Event where
  /-- Call `snd_rawmidi_receive(substream of port, buf, len)`. -/
  | receive (port : Nat) (data : List Nat)
  /-- The warning "invalid port number". -/
  | warn_invalid_port (b : Nat)
  /-- The warning "input buffer overflow on port". -/
  | warn_in_overflow (port : Int)
  /-- The warning "FIFO overflow on port". -/
  | warn_fifo_overflow (port : Nat)
  /-- The warning "output buffer full, stopping". -/
  | warn_out_full
  /-- The error report after a negative `snd_rawmidi_transmit`. -/
  | err_transmit (port : Nat) (code : Int)
  /-- Call `usb_submit_urb` on the interrupt URB: the bytes handed over. -/
  | submit_int (data : List Nat)
  /-- Call `usb_submit_urb` on the isochronous URB: the buffer and the
  frame descriptors `0 .. number_of_packets - 1`. -/
  | submit_iso (data : List Nat) (frames : List iso_desc)
  /-- The error report after a negative `usb_submit_urb`. -/
  | err_submit (ret : Int)
deriving DecidableEq, Repr

/-- A blank input port: what a read outside `in_ports` yields. -/
def blank_in_port : motu_in_port :=
  { substream := false, last_cmd := 0, cmd_bytes_remaining := 0,
    buf := List.replicate 64 0, buf_len := 0, buf_send_len := 0 }

/-- A blank FIFO: what a read outside `mfifo` yields. -/
def blank_fifo : motufifo :=
  { mbuf := List.replicate 64 0, p_in := 0, p_out := 0, last_cmd := 0,
    buf_len := 0, buf_send_len := 0, cmd_len := 0, remaining := 0 }

/-- Read `motu->in_ports[i]`. -/
def motu.in_port (m : motu) (i : Int) : motu_in_port :=
  if 0 ≤ i then m.in_ports.getD i.toNat blank_in_port else blank_in_port

/-- Write `motu->in_ports[i]`. -/
def motu.set_in_port (m : motu) (i : Int) (ip : motu_in_port) : motu :=
  if 0 ≤ i then { m with in_ports := m.in_ports.set i.toNat ip } else m

/-- Read `motu->mfifo[i]`. -/
def motu.fifo (m : motu) (i : Nat) : motufifo :=
  m.mfifo.getD i blank_fifo

/-- Write `motu->mfifo[i]`. -/
def motu.set_fifo (m : motu) (i : Nat) (f : motufifo) : motu :=
  { m with mfifo := m.mfifo.set i f }

/-- The assignment `motu->in_state = s`. -/
def motu.goto (m : motu) (s : Int) : motu := { m with in_state := s }

/-- The assignment `motu->last_in_port = p`. -/
def motu.select (m : motu) (p : Int) : motu := { m with last_in_port := p }

/-! ## Command-length table -/

/-- Table `num_bytes` of `get_cmd_num_bytes`, indexed by high nibble minus 8. -/
def num_bytes_tab : List Int := [3, 3, 3, 3, 2, 2, 3]

/-- Table `fx_bytes` of `get_cmd_num_bytes`, indexed by low nibble. -/
def fx_bytes_tab : List Int :=
  [-1, 2, 1, 2, -1, -1, 1, 1, 1, 1, 1, 1, 1, -1, 1, 1]

/-- Function `get_cmd_num_bytes`. -/
def get_cmd_num_bytes (b : Nat) : Int :=
  if b ≥ 0xf0 then fx_bytes_tab.getD (b &&& 0x0f) 0
  else if b ≥ 0x80 then num_bytes_tab.getD ((b >>> 4) - 8) 0
  else -1

/-! ## Input assembly buffers (protocol 1) -/

/-- Body of `motu_in_port_append_byte`, on the port record. -/
def in_port_append_byte (ip : motu_in_port) (b : Nat) : motu_in_port :=
  if ip.buf_len < IN_BUF_SIZE then
    { ip with buf := ip.buf.set ip.buf_len b, buf_len := ip.buf_len + 1 }
  else ip

/-- Function `motu_in_port_append_byte`. -/
def motu_in_port_append_byte (m : motu) (port : Int) (b : Nat) : motu :=
  m.set_in_port port (in_port_append_byte (m.in_port port) b)

/-- Branch `num_bytes == 0` of `motu_in_port_write_byte`: a one-byte
command. -/
def write_single (ip : motu_in_port) (b : Nat) : motu_in_port :=
  let ip1 := { ip with last_cmd := 0, cmd_bytes_remaining := 0 }
  let ip2 := in_port_append_byte ip1 b
  { ip2 with buf_send_len := ip2.buf_len }

/-- Branch `num_bytes > 0` of `motu_in_port_write_byte`: the status byte of a
command with data bytes. -/
def write_command (ip : motu_in_port) (b : Nat) (num_bytes : Int) : motu_in_port :=
  let ip1 := { ip with last_cmd := b, cmd_bytes_remaining := toU8 num_bytes,
                       buf_send_len := ip.buf_len }
  in_port_append_byte ip1 b

/-- The block `if(cmd_bytes_remaining <= 0)` of the branch
`last_cmd > 0`: start a new message under the stored status byte. -/
def write_prime (ip : motu_in_port) : motu_in_port :=
  if ip.cmd_bytes_remaining ≤ 0 then
    let a := { ip with buf_send_len := ip.buf_len }
    let a1 := in_port_append_byte a a.last_cmd
    { a1 with cmd_bytes_remaining := toU8 (get_cmd_num_bytes a1.last_cmd - 1) }
  else ip

/-- Branch `last_cmd > 0` of `motu_in_port_write_byte`: a byte under the
stored status byte. -/
def write_running (ip : motu_in_port) (b : Nat) : motu_in_port :=
  let ip1 := write_prime ip
  let ip2 := { ip1 with cmd_bytes_remaining := toU8 ((ip1.cmd_bytes_remaining : Int) - 1) }
  let ip3 := in_port_append_byte ip2 b
  if ip3.cmd_bytes_remaining = 0 then { ip3 with buf_send_len := ip3.buf_len } else ip3

/-- Last branch of `motu_in_port_write_byte`: no stored status byte. -/
def write_plain (ip : motu_in_port) (b : Nat) : motu_in_port :=
  let ip1 := in_port_append_byte ip b
  { ip1 with buf_send_len := ip1.buf_len }

/-- Body of `motu_in_port_write_byte`, on the port record. -/
def in_port_write_byte (ip : motu_in_port) (b : Nat) : motu_in_port :=
  let num_bytes : Int := get_cmd_num_bytes b - 1
  if num_bytes = 0 then write_single ip b
  else if num_bytes > 0 then write_command ip b num_bytes
  else if ip.last_cmd > 0 then write_running ip b
  else write_plain ip b

/-- Function `motu_in_port_write_byte`. -/
def motu_in_port_write_byte (m : motu) (port : Int) (b : Nat) : motu :=
  m.set_in_port port (in_port_write_byte (m.in_port port) b)

/-- Body of `motu_in_port_get_buf_size`, on the port record. -/
def in_port_get_buf_size (ip : motu_in_port) : Nat :=
  if ip.buf_len ≤ ip.buf_send_len then ip.buf_len else ip.buf_send_len

/-- Function `motu_in_port_get_buf_size`. -/
def motu_in_port_get_buf_size (m : motu) (port : Int) : Nat :=
  in_port_get_buf_size (m.in_port port)

/-- The effect of `memcpy(buf, buf + src, n)` on a list: the first `n` cells
receive the cells `src .. src + n - 1` (copied front to back). -/
def memcpy_front (buf : List Nat) (src n : Nat) : List Nat :=
  ((buf.drop src).take n) ++ buf.drop n

/-- Body of `motu_in_port_flush`, on the port record. -/
def in_port_flush (ip : motu_in_port) : motu_in_port :=
  if ip.buf_send_len = 0 then ip
  else
    let buf1 :=
      if ip.buf_len > ip.buf_send_len then
        memcpy_front ip.buf ip.buf_send_len (ip.buf_len - ip.buf_send_len)
      else ip.buf
    { ip with buf := buf1,
              buf_len := toU32 ((ip.buf_len : Int) - (ip.buf_send_len : Int)),
              buf_send_len := 0 }

/-- Function `motu_in_port_flush`. -/
def motu_in_port_flush (m : motu) (port : Int) : motu :=
  m.set_in_port port (in_port_flush (m.in_port port))

/-! ## Protocol-1 decoder -/

/-- Local variables `in_data`, `mask`, `chan` of
`motu_midi_handle_input_prot1`. -/
structure prot1_scan where
  in_data : Bool
  mask : Nat
  chan : Nat
deriving DecidableEq, Repr

/-- The inner loop `for(; chan < 8 && mask != 0; chan++)` of the protocol-1
decoder: the port that receives the current byte (if any) and the values of
`mask` and `chan` when the loop is left.  The loop body runs at most 8
times, so it is unrolled on a counter that starts at 8. -/
def prot1_find_port : Nat → Nat → Nat → Option Nat × Nat × Nat
  | 0, mask, chan => (none, mask, chan)
  | fuel + 1, mask, chan =>
    if chan < 8 ∧ mask ≠ 0 then
      if mask &&& 1 ≠ 0 then (some chan, mask >>> 1, chan + 1)
      else prot1_find_port fuel (mask >>> 1) (chan + 1)
    else (none, mask, chan)

/-- One iteration of the loop `for(i = 2; i < buf_len; i++)` of
`motu_midi_handle_input_prot1` on the byte `b = buf[i]`. -/
def prot1_byte (s : motu × prot1_scan) (b : Nat) : motu × prot1_scan :=
  if s.2.in_data then
    let r := prot1_find_port 8 s.2.mask s.2.chan
    let m1 :=
      match r.1 with
      | some c => motu_in_port_write_byte s.1 c b
      | none => s.1
    (m1, { in_data := if r.2.1 = 0 then false else true, mask := r.2.1, chan := r.2.2 })
  else
    (s.1, { in_data := if b = 0 then false else true, mask := b, chan := 0 })

/-- One iteration of the loop `for(p = 0; p < 8; p++)` that ends
`motu_midi_handle_input_prot1`: deliver and flush port `p`. -/
def prot1_deliver (s : motu × List Event) (p : Nat) : motu × List Event :=
  let len := motu_in_port_get_buf_size s.1 p
  if len > 0 then
    let ip := s.1.in_port p
    let ev := if ip.substream then [Event.receive p (ip.buf.take len)] else []
    (motu_in_port_flush s.1 p, s.2 ++ ev)
  else s

/-- The scanning loop of `motu_midi_handle_input_prot1`, from index 2. -/
def prot1_scan_packet (m : motu) (buf : List Nat) : motu × prot1_scan :=
  (buf.drop 2).foldl prot1_byte (m, { in_data := false, mask := 0, chan := 0 })

/-- Function `motu_midi_handle_input_prot1`; `buf_len` is the length of
`buf`. -/
def motu_midi_handle_input_prot1 (m : motu) (buf : List Nat) : motu × List Event :=
  if buf.length < 2 then (m, [])
  else (List.range 8).foldl prot1_deliver ((prot1_scan_packet m buf).1, [])

/-! ## Protocol-2 decoder -/

/-- The statement `buf[buf_len++] = b` on the port record (the caller has
checked `buf_len < sizeof(buf)`). -/
def in_port_store (ip : motu_in_port) (b : Nat) : motu_in_port :=
  { ip with buf := ip.buf.set ip.buf_len b, buf_len := ip.buf_len + 1 }

/-- Second half of `case 2` of the protocol-2 decoder: the bounds check, the
store of `b` and the classification of `last_cmd`; `ip` is the selected
port after the first half. -/
def prot2_data_store (m : motu) (ip : motu_in_port) (b : Nat) : motu × List Event :=
  if ip.buf_len ≥ IN_BUF_SIZE then
    ((m.set_in_port m.last_in_port ip).goto 0, [Event.warn_in_overflow m.last_in_port])
  else
    let ip1 := in_port_store ip b
    if ip1.last_cmd = 0xF5 then
      ((m.set_in_port m.last_in_port ip1).goto 1, [])
    else if ip1.last_cmd = 0xF0 then
      ((m.set_in_port m.last_in_port ip1).goto 4, [])
    else
      let ip2 :=
        if b < 0xF0 then
          { ip1 with cmd_bytes_remaining := toU8 (get_cmd_num_bytes ip1.last_cmd) }
        else { ip1 with cmd_bytes_remaining := 3 }
      ((m.set_in_port m.last_in_port ip2).goto 3, [])

/-- The delivery in `case 3` / `case 4`: the call of `snd_rawmidi_receive`
when a consumer is registered. -/
def prot2_receive (port : Int) (ip : motu_in_port) : List Event :=
  if ip.substream then [Event.receive port.toNat (ip.buf.take ip.buf_len)] else []

/-- Branch `case 0` of the protocol-2 decoder (wait for the marker). -/
def prot2_case0 (m : motu) (b : Nat) : motu × List Event :=
  if b = 0xF5 then (m.goto 1, []) else (m, [])

/-- Branch `case 1` of the protocol-2 decoder (desired port). -/
def prot2_case1 (m : motu) (b : Nat) : motu × List Event :=
  if b ≠ 0xFF then
    if (b : Int) ≥ m.n_ports_in then
      (m.goto 0, [Event.warn_invalid_port b])
    else
      let m1 := m.select (b : Int)
      let m2 := m1.set_in_port m1.last_in_port
        { (m1.in_port m1.last_in_port) with buf_len := 0 }
      (m2.goto 2, [])
  else (m, [])

/-- Branch `case 2` of the protocol-2 decoder (data section). -/
def prot2_case2 (m : motu) (b : Nat) : motu × List Event :=
  if b ≠ 0xFF then
    let ip := m.in_port m.last_in_port
    if b &&& 0x80 = 0 then
      if ip.buf_len ≥ IN_BUF_SIZE then
        (m.goto 0, [Event.warn_in_overflow m.last_in_port])
      else prot2_data_store m (in_port_store ip ip.last_cmd) b
    else prot2_data_store m { ip with last_cmd := b } b
  else (m, [])

/-- Branches `case 3` and `case 4` of the protocol-2 decoder (fixed-length
command and system exclusive). -/
def prot2_case34 (m : motu) (b : Nat) : motu × List Event :=
  if b ≠ 0xFF then
    let ip := m.in_port m.last_in_port
    if ip.buf_len ≥ IN_BUF_SIZE then
      (m.goto 0, [Event.warn_in_overflow m.last_in_port])
    else
      let ip1 := in_port_store ip b
      if (m.in_state = 3 ∧ ip1.buf_len = ip1.cmd_bytes_remaining) ∨
          (m.in_state = 4 ∧ b = 0xF7) then
        ((m.set_in_port m.last_in_port { ip1 with buf_len := 0 }).goto 2,
          prot2_receive m.last_in_port ip1)
      else (m.set_in_port m.last_in_port ip1, [])
  else (m, [])

/-- One iteration of the loop `while(i < buf_len)` of
`motu_midi_handle_input_prot2` on the byte `b = buf[i]`: the `switch` on
`in_state`. -/
def prot2_byte (m : motu) (b : Nat) : motu × List Event :=
  if m.in_state = 0 then prot2_case0 m b
  else if m.in_state = 1 then prot2_case1 m b
  else if m.in_state = 2 then prot2_case2 m b
  else if m.in_state = 3 ∨ m.in_state = 4 then prot2_case34 m b
  else (m, [])

/-- The loop `while(i < buf_len)` of `motu_midi_handle_input_prot2` over the
bytes still to be read, with the events of every iteration in order. -/
def prot2_bytes : motu → List Nat → motu × List Event
  | m, [] => (m, [])
  | m, b :: bs =>
    let r := prot2_byte m b
    let r1 := prot2_bytes r.1 bs
    (r1.1, r.2 ++ r1.2)

/-- Function `motu_midi_handle_input_prot2`: byte 0 of the packet is
ignored (`i = 1`). -/
def motu_midi_handle_input_prot2 (m : motu) (buf : List Nat) : motu × List Event :=
  prot2_bytes m (buf.drop 1)

/-- Decoding a sequence of packets with the protocol-2 decoder. -/
def prot2_packets : motu → List (List Nat) → motu × List Event
  | m, [] => (m, [])
  | m, pkt :: pkts =>
    let r := motu_midi_handle_input_prot2 m pkt
    let r1 := prot2_packets r.1 pkts
    (r1.1, r.2 ++ r1.2)

/-- Decoding a sequence of packets with the protocol-1 decoder. -/
def prot1_packets : motu → List (List Nat) → motu × List Event
  | m, [] => (m, [])
  | m, pkt :: pkts =>
    let r := motu_midi_handle_input_prot1 m pkt
    let r1 := prot1_packets r.1 pkts
    (r1.1, r.2 ++ r1.2)

/-! ## Protocol-1 encoder -/

/-- What `snd_rawmidi_transmit(substream, bufs[p], 3)` gave for one port:
the return value and the content of `bufs[p]`. -/
structure pulled where
  len : Int
  bytes : List Nat
deriving DecidableEq, Repr

/-- The value of `lens[p]` after the pull loop: 0 without a producer. -/
def pull_len (m : motu) (tx : Nat → pulled) (p : Nat) : Int :=
  if m.out_ports.getD p false then (tx p).len else 0

/-- The value of `bufs[p][i]`. -/
def pull_byte (tx : Nat → pulled) (p i : Nat) : Nat :=
  (tx p).bytes.getD i 0

/-- The error reports of the pull loop of both encoders. -/
def pull_errors (m : motu) (tx : Nat → pulled) : List Event :=
  (List.range m.n_ports_out.toNat).foldl
    (fun ev p => if pull_len m tx p < 0 then ev ++ [Event.err_transmit p (pull_len m tx p)] else ev)
    []

/-- The loop `for(p = 0, bit = 1; p < n_ports_out; p++, bit <<= 1)` of
`motu_midi_send_prot1`: the pair `(mask, bit)` when it ends. -/
def prot1_mask_loop (lens : Nat → Int) (n i : Nat) : Nat × Nat :=
  (List.range n).foldl
    (fun (a : Nat × Nat) p => (if lens p > (i : Int) then a.1 ||| a.2 else a.1, a.2 <<< 1))
    (0, 1)

/-- The statement `if(outlen < BUFSIZE) midi_out_buf[outlen++] = b`, on the
pair `(midi_out_buf, outlen)`. -/
def prot1_put (o : List Nat × Nat) (b : Nat) : List Nat × Nat :=
  if o.2 < BUFSIZE then (o.1.set o.2 b, o.2 + 1) else o

/-- The loop `for(i = 0; i < 3; i++)` of `motu_midi_send_prot1` over the
offsets still to do; the flag tells that the loop was left by `break`
(which clears `midi_out_active`). -/
def prot1_rows (lens : Nat → Int) (bufs : Nat → Nat → Nat) (n : Nat) :
    List Nat → List Nat × Nat → (List Nat × Nat) × Bool
  | [], o => (o, false)
  | i :: rest, o =>
    let mask := (prot1_mask_loop lens n i).1
    if mask = 0 then (o, true)
    else
      let o1 := prot1_put o (mask % 256)
      let o2 := (List.range n).foldl
        (fun (a : List Nat × Nat) p =>
          if lens p > (i : Int) ∧ a.2 < BUFSIZE then (a.1.set a.2 (bufs p i), a.2 + 1) else a)
        o1
      prot1_rows lens bufs n rest o2

/-- Function `motu_midi_send_prot1`.  `tx` is what the producers hand over
and `submit_ret` the return value of `usb_submit_urb`. -/
def motu_midi_send_prot1 (m : motu) (tx : Nat → pulled) (submit_ret : Int) :
    motu × List Event :=
  let buf0 := (m.midi_out_buf.set 0 m.counter).set 1 0
  let m1 := { m with counter := (m.counter + 1) % 256, midi_out_buf := buf0 }
  let ev0 := pull_errors m tx
  let r := prot1_rows (pull_len m tx) (pull_byte tx) m.n_ports_out.toNat [0, 1, 2] (buf0, 2)
  let m2 := { m1 with midi_out_buf := r.1.1,
                      midi_out_active := if r.2 then 0 else m1.midi_out_active }
  if r.1.2 ≤ 2 then (m2, ev0)
  else
    let o3 := prot1_put (prot1_put r.1 0) 0
    let m3 := { m2 with midi_out_buf := o3.1,
                        midi_out_urb := { m2.midi_out_urb with transfer_buffer_length := o3.2 } }
    if submit_ret < 0 then
      (m3, ev0 ++ [Event.submit_int (o3.1.take o3.2), Event.err_submit submit_ret])
    else
      ({ m3 with midi_out_active := 1 }, ev0 ++ [Event.submit_int (o3.1.take o3.2)])

/-! ## Protocol-2 output FIFO -/

/-- One iteration of the loop of `mfifo_in` after the capacity check: store
the byte `b` and update the message bookkeeping. -/
def fifo_in_byte (f : motufifo) (b : Nat) : motufifo :=
  let f1 := { f with mbuf := f.mbuf.set f.p_in b,
                     p_in := if f.p_in + 1 ≥ N_MBUF then 0 else f.p_in + 1,
                     buf_len := f.buf_len + 1 }
  if b &&& 0x80 ≠ 0 then
    if b = 0xF0 then { f1 with cmd_len := 0 }
    else if b = 0xF7 then { f1 with cmd_len := 0, buf_send_len := f1.buf_len }
    else
      { f1 with cmd_len := toU32 (get_cmd_num_bytes b - 1),
                remaining := toU32 (get_cmd_num_bytes b - 1) }
  else if f1.cmd_len ≠ 0 then
    let f2 := if f1.remaining = 0 then { f1 with remaining := f1.cmd_len } else f1
    let f3 := { f2 with remaining := toU32 ((f2.remaining : Int) - 1) }
    if f3.remaining = 0 then { f3 with buf_send_len := f3.buf_len } else f3
  else f1

/-- The loop of `mfifo_in` on one FIFO over the bytes still to push; the
flag tells that the overflow warning was issued (and the loop left). -/
def fifo_in : motufifo → List Nat → motufifo × Bool
  | f, [] => (f, false)
  | f, b :: bs =>
    if f.buf_len ≥ N_MBUF then (f, true)
    else fifo_in (fifo_in_byte f b) bs

/-- Function `mfifo_in`: push `buf[0 .. len-1]` into the FIFO of `port`. -/
def mfifo_in (m : motu) (port : Nat) (buf : List Nat) (len : Int) : motu × List Event :=
  let r := fifo_in (m.fifo port) (buf.take len.toNat)
  (m.set_fifo port r.1, if r.2 then [Event.warn_fifo_overflow port] else [])

/-! ## Protocol-2 packer -/

/-- The local variables `i`, `k` of `motu_midi_send_prot2` together with the
driver state and the events so far. -/
structure pack_state where
  m : motu
  i : Nat
  k : Nat
  ev : List Event
deriving DecidableEq, Repr

/-- The statement `midi_out_buf[i++] = b`. -/
def pack_emit (s : pack_state) (b : Nat) : pack_state :=
  { s with m := { s.m with midi_out_buf := s.m.midi_out_buf.set s.i b }, i := s.i + 1 }

/-- The warning before `goto send_buffer`. -/
def pack_stop (s : pack_state) : pack_state × Bool :=
  ({ s with ev := s.ev ++ [Event.warn_out_full] }, true)

/-- The filler loop `while(k < 12)` inside the packing loop; the flag tells
that it left by `goto send_buffer`.  The body runs at most 12 times. -/
def pack_fill : Nat → pack_state → pack_state × Bool
  | 0, s => (s, false)
  | n + 1, s =>
    if s.k < 12 then
      if s.i ≥ BUFSIZE then pack_stop s
      else pack_fill n { (pack_emit s 0xFF) with k := s.k + 1 }
    else (s, false)

/-- The statements that emit the switch marker `F5 p` and make `p` the
current port. -/
def pack_switch (s : pack_state) (p : Nat) : pack_state :=
  let s1 := pack_emit (pack_emit s 0xF5) p
  { s1 with k := s1.k + 2, m := { s1.m with last_out_port := (p : Int) } }

/-- The switch marker branch of the packing loop (`p != last_out_port`,
`k < 10`). -/
def pack_marker (s : pack_state) (p : Nat) : pack_state × Bool :=
  if s.i + 3 ≥ BUFSIZE then pack_stop s
  else
    let s2 := pack_switch s p
    let f := s2.m.fifo p
    if (f.mbuf.getD f.p_out 0) &&& 0x80 = 0 then
      ({ (pack_emit s2 f.last_cmd) with k := s2.k + 1 }, false)
    else (s2, false)

/-- The branch of the packing loop that emits the next byte of the FIFO of
the current port `p`. -/
def pack_data (s : pack_state) (p : Nat) : pack_state × Bool :=
  if s.i ≥ BUFSIZE then pack_stop s
  else
    let f := s.m.fifo p
    let c := f.mbuf.getD f.p_out 0
    let f1 := if c &&& 0x80 ≠ 0 then { f with last_cmd := c } else f
    let s1 := pack_emit { s with m := s.m.set_fifo p f1 } c
    let f2 := { f1 with p_out := if f1.p_out + 1 ≥ N_MBUF then 0 else f1.p_out + 1,
                        buf_len := toU32 ((f1.buf_len : Int) - 1),
                        buf_send_len := toU32 ((f1.buf_send_len : Int) - 1) }
    ({ s1 with m := s1.m.set_fifo p f2, k := s1.k + 1 }, false)

/-- The group trailer `if(k == 12)` that ends one iteration of the packing
loop. -/
def pack_trailer (s : pack_state) : pack_state × Bool :=
  if s.k = 12 then
    if s.i + 2 ≥ BUFSIZE then pack_stop s
    else ({ (pack_emit (pack_emit s 1) 0) with k := 0 }, false)
  else (s, false)

/-- The `if(p != last_out_port)` statement of the packing loop. -/
def pack_branch (s : pack_state) (p : Nat) : pack_state × Bool :=
  if (p : Int) ≠ s.m.last_out_port then
    if s.k < 10 then pack_marker s p else pack_fill 12 s
  else pack_data s p

/-- One iteration of the loop `while(mfifo[p].buf_send_len)` of
`motu_midi_send_prot2`; the flag tells that it left by
`goto send_buffer`. -/
def pack_iter (s : pack_state) (p : Nat) : pack_state × Bool :=
  let r := pack_branch s p
  if r.2 then r else pack_trailer r.1

/-- The loop `while(mfifo[p].buf_send_len)` for port `p`, unrolled on a
counter; `none` when the counter runs out. -/
def pack_port : Nat → pack_state → Nat → Option (pack_state × Bool)
  | 0, _, _ => none
  | fuel + 1, s, p =>
    if (s.m.fifo p).buf_send_len ≠ 0 then
      let r := pack_iter s p
      if r.2 then some r else pack_port fuel r.1 p
    else some (s, false)

/-- Iterations granted to the loop of one port: every iteration that does
not leave the loop advances `i`, and `i` never passes `BUFSIZE`. -/
def PACK_FUEL : Nat := BUFSIZE + 2

/-- The loop `for(p = 0; p < n_ports_out; p++)` of the packer over the ports
still to do. -/
def pack_ports : List Nat → pack_state → Option (pack_state × Bool)
  | [], s => some (s, false)
  | p :: ps, s =>
    match pack_port PACK_FUEL s p with
    | none => none
    | some r => if r.2 then some r else pack_ports ps r.1

/-- The closing filler loop `while(k < 12 && i < BUFSIZE)` after
`send_buffer`. -/
def pack_fill_rest : Nat → pack_state → pack_state
  | 0, s => s
  | n + 1, s =>
    if s.k < 12 ∧ s.i < BUFSIZE then pack_fill_rest n { (pack_emit s 0xFF) with k := s.k + 1 }
    else s

/-- The sub-frame loop `while(out_count > 0)`: the descriptor array and the
value of `k` when it ends.  Each iteration lowers `out_count`, so the loop
is unrolled on a counter that starts at `out_count`. -/
def split_frames : Nat → Nat → Nat → Nat → List iso_desc → List iso_desc × Nat
  | 0, _, _, k, d => (d, k)
  | fuel + 1, out_count, out_offset, k, d =>
    if out_count > 0 then
      let j := if out_count > 14 then 14 else out_count
      if k < NUM_ISO then
        split_frames fuel (out_count - j) (out_offset + j) (k + 1)
          (d.set k { offset := out_offset, length := j, status := 0 })
      else split_frames fuel (out_count - j) (out_offset + j) k d
    else (d, k)

/-- The pull loop of `motu_midi_send_prot2` over the ports still to do. -/
def prot2_pull (tx : Nat → pulled) : List Nat → motu × List Event → motu × List Event
  | [], s => s
  | p :: ps, s =>
    if s.1.out_ports.getD p false then
      let r := mfifo_in s.1 p (tx p).bytes (tx p).len
      let e := if (tx p).len < 0 then [Event.err_transmit p (tx p).len] else []
      prot2_pull tx ps (r.1, s.2 ++ r.2 ++ e)
    else prot2_pull tx ps s

/-- The statement `if(k)` after `send_buffer`: fill the open group and add
its trailer. -/
def pack_close (s : pack_state) : pack_state :=
  if s.k ≠ 0 then
    let a := pack_fill_rest 12 s
    if a.i + 2 ≤ BUFSIZE then pack_emit (pack_emit a 1) 0 else a
  else s

/-- The sub-frame descriptors and the submission that end
`motu_midi_send_prot2`, for the assembled state `s1`. -/
def pack_submit (s1 : pack_state) (submit_ret : Int) : motu × List Event :=
  let fr := split_frames s1.i s1.i 0 0 s1.m.midi_out_urb.iso_frame_desc
  let urb := { s1.m.midi_out_urb with iso_frame_desc := fr.1, number_of_packets := fr.2 }
  let m1 := { s1.m with midi_out_urb := urb }
  let sub := Event.submit_iso (m1.midi_out_buf.take s1.i) (fr.1.take fr.2)
  if submit_ret < 0 then (m1, s1.ev ++ [sub, Event.err_submit submit_ret])
  else ({ m1 with midi_out_active := 1 }, s1.ev ++ [sub])

/-- The part of `motu_midi_send_prot2` from the label `send_buffer` on. -/
def pack_send (s : pack_state) (submit_ret : Int) : motu × List Event :=
  if s.i ≠ 0 then pack_submit (pack_close s) submit_ret
  else (s.m, s.ev)

/-- Function `motu_midi_send_prot2`.  `tx` is what the producers hand over
and `submit_ret` the return value of `usb_submit_urb`; `none` when a packing
loop runs out of its iteration allowance. -/
def motu_midi_send_prot2 (m : motu) (tx : Nat → pulled) (submit_ret : Int) :
    Option (motu × List Event) :=
  let ports := List.range m.n_ports_out.toNat
  let r0 := prot2_pull tx ports (m, [])
  match pack_ports ports { m := r0.1, i := 0, k := 0, ev := r0.2 } with
  | none => none
  | some r => some (pack_send r.1 submit_ret)

/-! ## Session start -/

/-- The zeroed driver record as `motu_probe` leaves it: all buffers and
FIFOs empty, no substream registered, with the port counts and the values of
`last_out_port` and `last_in_port` chosen for the device. -/
def probe_state (n_in n_out last_port : Int) : motu :=
  { midi_out_active := 0,
    in_ports := List.replicate 9 blank_in_port,
    out_ports := List.replicate 9 false,
    counter := 0,
    midi_out_buf := List.replicate 128 0,
    midi_out_urb := { transfer_buffer_length := 128,
                      iso_frame_desc := List.replicate 4 { offset := 0, length := 0, status := 0 },
                      number_of_packets := 1 },
    n_ports_in := n_in,
    n_ports_out := n_out,
    last_out_port := last_port,
    last_in_port := last_port,
    in_state := 0,
    mfifo := List.replicate 9 blank_fifo }

/-- Function `motu_midi_input_trigger`: (de)register the consumer of input
port `number`. -/
def motu_midi_input_trigger (m : motu) (number : Nat) (up : Bool) : motu :=
  if (number : Int) ≥ m.n_ports_in then m
  else m.set_in_port number { (m.in_port number) with substream := up }

/-- Function `motu_midi_output_trigger`, registration part: (de)register the
producer of output port `number`. -/
def out_port_register (m : motu) (number : Nat) (up : Bool) : motu :=
  { m with out_ports := m.out_ports.set number up }

/-- The micro express after probing, with a consumer on every input port. -/
def micro_express_open : motu :=
  (List.range 5).foldl (fun m p => motu_midi_input_trigger m p true) (probe_state 5 7 (-1))

/-- The express XT after probing, with a consumer on every input port. -/
def express_xt_open : motu :=
  (List.range 9).foldl (fun m p => motu_midi_input_trigger m p true) (probe_state 9 9 (-1))

/-- The express 128 after probing, with a consumer on every input port and
a producer on every output port. -/
def express_128_open : motu :=
  (List.range 8).foldl (fun m p => out_port_register (motu_midi_input_trigger m p true) p true)
    (probe_state 8 8 0)

/-! ## Notions used in the statements -/

/-- The bytes currently buffered in an input port: `buf[0 .. buf_len-1]`. -/
def motu_in_port.contents (ip : motu_in_port) : List Nat := ip.buf.take ip.buf_len

/-- States of a protocol-2 session that can be reached after probing, by
(de)registering consumers and producers and by decoding bytes of received packets (byte 0
of a packet is never decoded, so a packet is a run of `byte` steps). -/
inductive prot2_reachable : motu → Prop where
  | probe (n_in n_out : Int) (h : n_in ≤ 9) :
      prot2_reachable (probe_state n_in n_out (-1))
  | trigger (m : motu) (number : Nat) (up : Bool) :
      prot2_reachable m → prot2_reachable (motu_midi_input_trigger m number up)
  | out_trigger (m : motu) (number : Nat) (up : Bool) :
      prot2_reachable m → prot2_reachable (out_port_register m number up)
  | byte (m : motu) (b : Nat) :
      prot2_reachable m → prot2_reachable (prot2_byte m b).1

/-- The byte `0xFF` occurs in no buffered byte of the port, nor in its
stored command byte. -/
def motu_in_port.filler_free (ip : motu_in_port) : Prop :=
  ip.last_cmd ≠ 0xFF ∧ ∀ b ∈ ip.contents, b ≠ 0xFF

/-- The protocol-2 decoder is in state `st` with port `p` selected, `p` is
inside `in_ports`, and the record of port `p` is `ip`. -/
def prot2_view (m : motu) (st : Int) (p : Nat) (ip : motu_in_port) : Prop :=
  m.in_state = st ∧ m.last_in_port = (p : Int) ∧ p < m.in_ports.length ∧
    m.in_port (p : Int) = ip

/-- Pushing a sequence of chunks into the FIFO of one port, one call of
`mfifo_in` per chunk. -/
def mfifo_push_all (m : motu) (port : Nat) (chunks : List (List Nat)) : motu :=
  chunks.foldl (fun a c => (mfifo_in a port c c.length).1) m

/-- The express XT after probing, with a consumer on every input port and a
producer on every output port. -/
def express_xt_ready : motu :=
  (List.range 9).foldl (fun m p => out_port_register m p true) express_xt_open

/-- Every producer hands over one note-on message `90 40 7F`. -/
def tx_note_on : Nat → pulled := fun _ => { len := 3, bytes := [0x90, 0x40, 0x7F] }

/-- The packing state `r` continues `s`: the write index has not gone back
and the bytes of `midi_out_buf` below the write index of `s` are the same. -/
def pack_stable (s r : pack_state) : Prop :=
  s.i ≤ r.i ∧ r.m.midi_out_buf.length = s.m.midi_out_buf.length ∧
    ∀ j, j < s.i → r.m.midi_out_buf.getD j 0 = s.m.midi_out_buf.getD j 0

/-- A FIFO that holds the complete running-status group `40 7F` of an
earlier note-on: the byte at the read cursor is a data byte and `last_cmd` is
`90`. -/
def fifo_running_group : motufifo :=
  { blank_fifo with mbuf := (blank_fifo.mbuf.set 0 0x40).set 1 0x7F, p_in := 2,
                    last_cmd := 0x90, buf_len := 2, buf_send_len := 2, cmd_len := 2 }

/-- The start of a packer run on the express XT whose port 1 holds
`fifo_running_group`. -/
def pack_start_running : pack_state :=
  { m := express_xt_ready.set_fifo 1 fifo_running_group, i := 0, k := 0, ev := [] }

/-- States of a protocol-1 session that can be reached after probing, by
(de)registering consumers, by iterations of the scanning loop of the decoder
(the loop variables are reset for every packet, so any values are allowed
here) and by iterations of its closing deliver-and-flush loop. -/
inductive prot1_reachable : motu → Prop where
  | probe (n_in n_out : Int) : prot1_reachable (probe_state n_in n_out 0)
  | trigger (m : motu) (number : Nat) (up : Bool) :
      prot1_reachable m → prot1_reachable (motu_midi_input_trigger m number up)
  | out_trigger (m : motu) (number : Nat) (up : Bool) :
      prot1_reachable m → prot1_reachable (out_port_register m number up)
  | scan (m : motu) (sc : prot1_scan) (b : Nat) :
      prot1_reachable m → prot1_reachable (prot1_byte (m, sc) b).1
  | deliver (m : motu) (ev : List Event) (p : Nat) :
      prot1_reachable m → prot1_reachable (prot1_deliver (m, ev) p).1

/-- The input-buffer invariant of one port:
`buf_send_len ≤ buf_len ≤ sizeof(buf)`. -/
def motu_in_port.bounded (ip : motu_in_port) : Prop :=
  ip.buf_send_len ≤ ip.buf_len ∧ ip.buf_len ≤ IN_BUF_SIZE

/-! ### MIDI messages and the protocol-1 loop-back -/

/-- A complete MIDI message, as the producer of a port writes it. -/
inductive midi_msg where
  /-- A channel message with its status byte written out. -/
  | chan (status : Nat) (data : List Nat)
  /-- A channel message in running status: only the data bytes are written,
  `status` is the implied status byte. -/
  | run (status : Nat) (data : List Nat)
  /-- A system common or system real-time message. -/
  | sys (status : Nat) (data : List Nat)
  /-- A system-exclusive message `F0 data F7`. -/
  | sysex (data : List Nat)
deriving DecidableEq, Repr

/-- The bytes of a message on the wire. -/
def midi_msg.wire : midi_msg → List Nat
  | .chan s ds => s :: ds
  | .run _ ds => ds
  | .sys s ds => s :: ds
  | .sysex ds => 0xF0 :: ds ++ [0xF7]

/-- The bytes of a message with the implied status byte written out. -/
def midi_msg.explicit : midi_msg → List Nat
  | .chan s ds => s :: ds
  | .run s ds => s :: ds
  | .sys s ds => s :: ds
  | .sysex ds => 0xF0 :: ds ++ [0xF7]

/-- Length of a channel message of the MIDI standard, status byte included:
2 for program change and channel pressure, 3 otherwise. -/
def midi_channel_length (s : Nat) : Nat := if 0xC0 ≤ s ∧ s ≤ 0xDF then 2 else 3

/-- Length of a system common or real-time message of the MIDI standard,
status byte included; `none` for a byte that starts no such message. -/
def midi_system_length (s : Nat) : Option Nat :=
  if s = 0xF1 ∨ s = 0xF3 then some 2
  else if s = 0xF2 then some 3
  else if s = 0xF6 ∨ s = 0xF8 ∨ s = 0xFA ∨ s = 0xFB ∨ s = 0xFC ∨ s = 0xFE ∨ s = 0xFF then some 1
  else none

/-- All bytes are data bytes (high bit clear). -/
def all_data (ds : List Nat) : Bool := ds.all (fun d => decide (d < 0x80))

/-- The message has a status byte of its kind, the number of data bytes the
MIDI standard asks for, and data bytes with the high bit clear. -/
def midi_msg.well_formed : midi_msg → Bool
  | .chan s ds => decide (0x80 ≤ s) && decide (s ≤ 0xEF) &&
      decide (ds.length + 1 = midi_channel_length s) && all_data ds
  | .run s ds => decide (0x80 ≤ s) && decide (s ≤ 0xEF) &&
      decide (ds.length + 1 = midi_channel_length s) && all_data ds
  | .sys s ds => decide (midi_system_length s = some (ds.length + 1)) && all_data ds
  | .sysex ds => all_data ds

/-- A sequence of complete valid MIDI messages, given the running status in
force at its start: running status needs the status of the latest channel
message, which real-time messages (`F8 .. FF`) leave in force and system
common and system-exclusive messages cancel. -/
def midi_valid : Option Nat → List midi_msg → Bool
  | _, [] => true
  | _, .chan s ds :: rest => (midi_msg.chan s ds).well_formed && midi_valid (some s) rest
  | ctx, .run s ds :: rest =>
      (midi_msg.run s ds).well_formed && decide (ctx = some s) && midi_valid ctx rest
  | ctx, .sys s ds :: rest =>
      (midi_msg.sys s ds).well_formed && midi_valid (if 0xF8 ≤ s then ctx else none) rest
  | _, .sysex ds :: rest => (midi_msg.sysex ds).well_formed && midi_valid none rest

/-- The sequences of complete valid MIDI messages that the protocol-1 decoder
reassembles, given the status byte it has stored (`none` for no stored
status): a running-status message comes directly after a channel message
with the same status, a system-exclusive message comes when no status is
stored, that is first or directly after a system-exclusive message or a
system message other than `F1` and `F3`. -/
def loopback_valid : Option Nat → List midi_msg → Bool
  | _, [] => true
  | _, .chan s ds :: rest => (midi_msg.chan s ds).well_formed && loopback_valid (some s) rest
  | ctx, .run s ds :: rest =>
      (midi_msg.run s ds).well_formed && decide (ctx = some s) && loopback_valid ctx rest
  | _, .sys s ds :: rest =>
      (midi_msg.sys s ds).well_formed &&
        loopback_valid (if s = 0xF1 ∨ s = 0xF3 then some s else none) rest
  | ctx, .sysex ds :: rest =>
      (midi_msg.sysex ds).well_formed && decide (ctx = none) && loopback_valid none rest

/-- The wire bytes of a sequence of messages. -/
def wire_bytes (msgs : List midi_msg) : List Nat := (msgs.map midi_msg.wire).flatten

/-- The bytes of a sequence of messages with every implied status byte
written out. -/
def explicit_bytes (msgs : List midi_msg) : List Nat := (msgs.map midi_msg.explicit).flatten

/-- The packets handed to `usb_submit_urb` on the interrupt URB. -/
def submitted : List Event → List (List Nat)
  | [] => []
  | Event.submit_int d :: rest => d :: submitted rest
  | _ :: rest => submitted rest

/-- The bytes delivered to the consumer of input port `p`, in order. -/
def received : List Event → Nat → List Nat
  | [], _ => []
  | Event.receive q d :: rest, p => if q = p then d ++ received rest p else received rest p
  | _ :: rest, p => received rest p

/-- One round of the protocol-1 loop-back: `motu_midi_send_prot1` pulls `tx`
and every packet it submits is fed to `motu_midi_handle_input_prot1`. -/
def prot1_loop_round (s : motu × List Event) (tx : Nat → pulled) : motu × List Event :=
  let r := motu_midi_send_prot1 s.1 tx 0
  let d := prot1_packets r.1 (submitted r.2)
  (d.1, s.2 ++ d.2)

/-- The protocol-1 loop-back over a sequence of pulls. -/
def prot1_loopback (m : motu) (rounds : List (Nat → pulled)) : motu × List Event :=
  rounds.foldl prot1_loop_round (m, [])

/-- The bytes the producer of port `p` hands over in a sequence of pulls. -/
def sent (rounds : List (Nat → pulled)) (p : Nat) : List Nat :=
  (rounds.map (fun tx => (tx p).bytes)).flatten

/-- A pull that hands `bytes` to port 0 and nothing to the other ports. -/
def pull_port0 (bytes : List Nat) : Nat → pulled :=
  fun p => if p = 0 then { len := bytes.length, bytes := bytes } else { len := 0, bytes := [] }

/-- The assembly state of one input port with the bytes already delivered
put back in front of the buffer: `out` is every byte ever appended,
`sendable` how many of them have been marked deliverable.  A flush does not
change it. -/
structure aport where
  last_cmd : Nat
  cbr : Nat
  out : List Nat
  sendable : Nat
deriving DecidableEq, Repr

/-- Function `motu_in_port_write_byte` on an `aport` (no capacity limit). -/
def aport.write (a : aport) (b : Nat) : aport :=
  let num_bytes : Int := get_cmd_num_bytes b - 1
  if num_bytes = 0 then
    { last_cmd := 0, cbr := 0, out := a.out ++ [b], sendable := a.out.length + 1 }
  else if num_bytes > 0 then
    { last_cmd := b, cbr := toU8 num_bytes, out := a.out ++ [b], sendable := a.out.length }
  else if a.last_cmd > 0 then
    if a.cbr ≤ 0 then
      let c := toU8 ((toU8 (get_cmd_num_bytes a.last_cmd - 1) : Int) - 1)
      { a with cbr := c, out := a.out ++ [a.last_cmd, b],
               sendable := if c = 0 then a.out.length + 2 else a.out.length }
    else
      let c := toU8 ((a.cbr : Int) - 1)
      { a with cbr := c, out := a.out ++ [b],
               sendable := if c = 0 then a.out.length + 1 else a.sendable }
  else { a with out := a.out ++ [b], sendable := a.out.length + 1 }

/-- Writing a sequence of bytes to an `aport`. -/
def aport.run (a : aport) (bs : List Nat) : aport := bs.foldl aport.write a

/-- The `aport` is between two messages: everything is marked deliverable
and the stored status byte is that of `ctx`. -/
def aport.at_boundary (a : aport) (ctx : Option Nat) : Prop :=
  a.sendable = a.out.length ∧ a.cbr = 0 ∧ a.last_cmd = ctx.getD 0

/-- What every reachable `aport` satisfies: at most 3 bytes are appended
and not yet marked deliverable. -/
def aport.ok (a : aport) : Prop :=
  (a.last_cmd = 0 → a.cbr = 0) ∧
  (a.last_cmd > 0 → get_cmd_num_bytes a.last_cmd = 2 ∨ get_cmd_num_bytes a.last_cmd = 3) ∧
  a.sendable ≤ a.out.length ∧ a.out.length - a.sendable + a.cbr ≤ 3

/-- The input port `ip`, with `D` the bytes delivered from it so far, is in
the assembly state `a`. -/
def port_sim (ip : motu_in_port) (D : List Nat) (a : aport) : Prop :=
  a.last_cmd = ip.last_cmd ∧ a.cbr = ip.cmd_bytes_remaining ∧ a.out = D ++ ip.contents ∧
  a.sendable = D.length + ip.buf_send_len ∧ ip.buf_send_len ≤ ip.buf_len ∧
  ip.buf.length = 64

/-- The statement `if(len > 0) { ...; motu_in_port_flush }` of the closing
loop of the protocol-1 decoder, on the port record. -/
def in_port_deliver (ip : motu_in_port) : motu_in_port :=
  if in_port_get_buf_size ip > 0 then in_port_flush ip else ip

/-- One row of a protocol-1 packet, port by port: the byte of port `p` at
offset `i`, if the port has one. -/
def pull_cells (lens : Nat → Int) (bufs : Nat → Nat → Nat) (n i : Nat) : List (Option Nat) :=
  (List.range n).map (fun p => if lens p > (i : Int) then some (bufs p i) else none)

/-- The mask of a row: bit `p` is set when port `p` has a byte. -/
def mask_value : List (Option Nat) → Nat
  | [] => 0
  | c :: cs => (if c.isSome then 1 else 0) + 2 * mask_value cs

/-- The payload of a row: the bytes of the ports that have one, in
ascending port order. -/
def row_payload : List (Option Nat) → List Nat
  | [] => []
  | none :: cs => row_payload cs
  | some b :: cs => b :: row_payload cs

/-- The rows of a protocol-1 packet for the offsets `is`, up to the first
offset at which no port has a byte. -/
def rows_bytes (lens : Nat → Int) (bufs : Nat → Nat → Nat) (n : Nat) : List Nat → List Nat
  | [] => []
  | i :: rest =>
    if mask_value (pull_cells lens bufs n i) = 0 then []
    else (mask_value (pull_cells lens bufs n i) % 256) ::
      (row_payload (pull_cells lens bufs n i) ++ rows_bytes lens bufs n rest)

/-- Writing the bytes of a row to the input ports `base`, `base + 1`, ... -/
def write_cells : motu → Nat → List (Option Nat) → motu
  | m, _, [] => m
  | m, base, none :: cs => write_cells m (base + 1) cs
  | m, base, some b :: cs => write_cells (motu_in_port_write_byte m base b) (base + 1) cs

/-- Writing the rows for the offsets `is` to the input ports, up to the
first offset at which no port has a byte. -/
def write_rows (lens : Nat → Int) (bufs : Nat → Nat → Nat) (n : Nat) : motu → List Nat → motu
  | m, [] => m
  | m, i :: rest =>
    if mask_value (pull_cells lens bufs n i) = 0 then m
    else write_rows lens bufs n (write_cells m 0 (pull_cells lens bufs n i)) rest

/-- What the loop-back needs of the driver record besides the input ports:
the arrays have their size, the port count is `n` and the first `n` output
ports have a producer. -/
def frame_ok (m : motu) (n : Nat) : Prop :=
  m.in_ports.length = 9 ∧ m.midi_out_buf.length = BUFSIZE ∧ m.n_ports_out.toNat = n ∧
    ∀ p, p < n → m.out_ports.getD p false = true

/-- What the loop-back keeps true of port `p` between two rounds: the port
record, with the bytes received so far, is in assembly state `a`, nothing
is waiting for delivery, and at most 3 bytes are buffered. -/
def loop_inv (n p : Nat) (s : motu × List Event) (a : aport) : Prop :=
  frame_ok s.1 n ∧ port_sim (s.1.in_port p) (received s.2 p) a ∧
    (s.1.in_port p).buf_send_len = 0 ∧ (s.1.in_port p).substream = true ∧
    (s.1.in_port p).buf_len ≤ 3 ∧ a.ok

/-- The event is a call of `usb_submit_urb`. -/
def Event.is_submit : Event → Bool
  | .submit_int _ => true
  | .submit_iso _ _ => true
  | _ => false

/-- The protocol-1 packet for the counter value `c` and the pull result
`lens`, `bufs` of `n` ports: the header `c, 0`, the rows for the offsets 0,
1, 2 up to the first empty row, and the end marker `0, 0`. -/
def prot1_packet (c : Nat) (lens : Nat → Int) (bufs : Nat → Nat → Nat) (n : Nat) : List Nat :=
  [c, 0] ++ rows_bytes lens bufs n [0, 1, 2] ++ [0, 0]

/-- The positions of the set bits of a mask byte, lowest first. -/
def mask_ports (msk : Nat) : List Nat := (List.range 8).filter (fun p => msk.testBit p)

/-- The bytes of one block of a protocol-1 packet: the mask byte and its
payload (a zero byte is the block with mask 0 and no payload). -/
def block_bytes (blk : Nat × List Nat) : List Nat := blk.1 :: blk.2

/-- The writes one block asks for: payload byte `j` goes to the port at the
`j`-th lowest set bit of the mask. -/
def block_writes (blk : Nat × List Nat) : List (Nat × Nat) := (mask_ports blk.1).zip blk.2

/-- A sequence of calls `motu_in_port_write_byte(motu, port, byte)`. -/
def apply_writes (m : motu) (ws : List (Nat × Nat)) : motu :=
  ws.foldl (fun a w => motu_in_port_write_byte a w.1 w.2) m

/-- The set bits of `v` from position `base` on, looking at `fuel` bits. -/
def bits_from : Nat → Nat → Nat → List Nat
  | 0, _, _ => []
  | fuel + 1, v, base =>
    if v % 2 = 1 then base :: bits_from fuel (v / 2) (base + 1)
    else bits_from fuel (v / 2) (base + 1)

/-- The part of the decoder state the selected port depends on: `in_state`
is one of the five states and, in Data, FixedLen and SysEx,
`0 ≤ last_in_port < n_ports_in`. -/
def prot2_select_ok (m : motu) : Prop :=
  (m.in_state = 0 ∨ m.in_state = 1 ∨ m.in_state = 2 ∨ m.in_state = 3 ∨ m.in_state = 4) ∧
  ((m.in_state = 2 ∨ m.in_state = 3 ∨ m.in_state = 4) →
    0 ≤ m.last_in_port ∧ m.last_in_port < m.n_ports_in)

/-- Every array access of one iteration of the protocol-2 decoder loop, in
state `m` on the byte `b`, is inside its array: the index of `in_ports[..]`
(the byte itself in PortSelect, `last_in_port` in Data, FixedLen and SysEx)
is within `in_ports`, and the buffer of the selected record has the
`sizeof(buf)` cells that the test `buf_len >= sizeof(buf)` in front of every
write `buf[buf_len++] = ..` relies on. -/
def prot2_access_ok (m : motu) (b : Nat) : Prop :=
  (m.in_state = 1 → b ≠ 0xFF → (b : Int) < m.n_ports_in → b < m.in_ports.length) ∧
  ((m.in_state = 2 ∨ m.in_state = 3 ∨ m.in_state = 4) → b ≠ 0xFF →
    0 ≤ m.last_in_port ∧ m.last_in_port.toNat < m.in_ports.length ∧
    (m.in_port m.last_in_port).buf.length = IN_BUF_SIZE)

/-- The counters of the packer agree: at most 12 slots of the open group are
used, the write index is `14 * (closed groups) + k`, and it has not passed
the end of `midi_out_buf`. -/
def pack_counted (s : pack_state) : Prop :=
  s.k ≤ 12 ∧ s.i % 14 = s.k ∧ s.i ≤ BUFSIZE

/-- The state in which `motu_midi_send_prot2` enters its packing loop: the
pull loop is done, `i = 0`, `k = 0`. -/
def pack_start (m : motu) (tx : Nat → pulled) : pack_state :=
  { m := (prot2_pull tx (List.range m.n_ports_out.toNat) (m, [])).1, i := 0, k := 0,
    ev := (prot2_pull tx (List.range m.n_ports_out.toNat) (m, [])).2 }

/-- The states at the head of the packing loop `while(mfifo[p].buf_send_len)`
in a run that enters the loops in state `s0`: `s0` itself, and the state
after every iteration that did not leave by `goto send_buffer`. -/
inductive pack_head (s0 : pack_state) : pack_state → Prop where
  | start : pack_head s0 s0
  | next (s : pack_state) (p : Nat) :
      pack_head s0 s → (s.m.fifo p).buf_send_len ≠ 0 → (pack_iter s p).2 = false →
      pack_head s0 (pack_iter s p).1

/-- Every closed 14-byte group of `midi_out_buf` below the write index ends
with the trailer `01 00`. -/
def pack_trailers (s : pack_state) : Prop :=
  ∀ g, 14 * g + 14 ≤ s.i →
    s.m.midi_out_buf.getD (14 * g + 12) 0 = 1 ∧ s.m.midi_out_buf.getD (14 * g + 13) 0 = 0

/-- What the packing loop keeps true at its head: the counters agree, a
group is open (`k < 12`), `midi_out_buf` has its size and every closed group
has its trailer. -/
def pack_framed (s : pack_state) : Prop :=
  pack_counted s ∧ s.k < 12 ∧ s.m.midi_out_buf.length = BUFSIZE ∧ pack_trailers s

/-- The state in which the packing loops end on the express XT when port 0
has pulled one note-on `90 40 7F` and the other ports nothing. -/
def pack_one_note : pack_state :=
  match pack_ports (List.range 9) (pack_start express_xt_ready (pull_port0 [0x90, 0x40, 0x7F])) with
  | some r => r.1
  | none => pack_start express_xt_ready (pull_port0 [0x90, 0x40, 0x7F])

/-- The output-FIFO invariant of one FIFO:
`buf_send_len ≤ buf_len ≤ N_MBUF`. -/
def motufifo.bounded (f : motufifo) : Prop :=
  f.buf_send_len ≤ f.buf_len ∧ f.buf_len ≤ N_MBUF

/-- States of a protocol-2 session that can be reached after probing (all
FIFOs empty) by (de)registering consumers and producers, by pushes into any
FIFO with `mfifo_in`, and by invocations of `motu_midi_send_prot2`. -/
inductive fifo_reachable : motu → Prop where
  | probe (n_in n_out last_port : Int) : fifo_reachable (probe_state n_in n_out last_port)
  | trigger (m : motu) (number : Nat) (up : Bool) :
      fifo_reachable m → fifo_reachable (motu_midi_input_trigger m number up)
  | out_trigger (m : motu) (number : Nat) (up : Bool) :
      fifo_reachable m → fifo_reachable (out_port_register m number up)
  | push (m : motu) (port : Nat) (buf : List Nat) (len : Int) :
      fifo_reachable m → fifo_reachable (mfifo_in m port buf len).1
  | send (m : motu) (tx : Nat → pulled) (ret : Int) (r : motu × List Event) :
      fifo_reachable m → motu_midi_send_prot2 m tx ret = some r → fifo_reachable r.1

/-- The express XT with a complete 64-byte system-exclusive message in the
FIFO of port 0 and a complete 41-byte one in the FIFO of port 1. -/
def express_xt_two_sysex : motu :=
  mfifo_push_all (mfifo_push_all express_xt_ready 0 [0xF0 :: List.replicate 62 1 ++ [0xF7]]) 1
    [0xF0 :: List.replicate 39 1 ++ [0xF7]]

/-- A protocol-1 packet of 84 bytes for port 0: the status byte `C0` and 40
data bytes `05`, every byte behind its mask byte `01`.  From the second data
byte on the decoder re-inserts the status byte, so the packet yields the 80
bytes `C0 05 C0 05 ...` for port 0. -/
def prot1_running_packet : List Nat := [0, 0, 1, 0xC0] ++ (List.replicate 40 [1, 5]).flatten

/-- A protocol-1 buffer of 132 bytes that routes 65 bytes `05` to port 0,
every one behind its mask byte `01`. -/
def prot1_plain_packet : List Nat := [0, 0] ++ (List.replicate 65 [1, 5]).flatten

/-- States that follow `m0` in a protocol-2 session: reached from `m0` by
(de)registering consumers and producers, by pushes into any FIFO with
`mfifo_in`, and by invocations of `motu_midi_send_prot2`. -/
inductive fifo_later (m0 : motu) : motu → Prop where
  | start : fifo_later m0 m0
  | trigger (m : motu) (number : Nat) (up : Bool) :
      fifo_later m0 m → fifo_later m0 (motu_midi_input_trigger m number up)
  | out_trigger (m : motu) (number : Nat) (up : Bool) :
      fifo_later m0 m → fifo_later m0 (out_port_register m number up)
  | push (m : motu) (port : Nat) (buf : List Nat) (len : Int) :
      fifo_later m0 m → fifo_later m0 (mfifo_in m port buf len).1
  | send (m : motu) (tx : Nat → pulled) (ret : Int) (r : motu × List Event) :
      fifo_later m0 m → motu_midi_send_prot2 m tx ret = some r → fifo_later m0 r.1

/-- The express XT with the first 64 bytes of a longer system-exclusive
message in the FIFO of port 0: `F0` and 63 data bytes, no `F7`. -/
def express_xt_long_sysex : motu :=
  mfifo_push_all express_xt_ready 0 [0xF0 :: List.replicate 63 1]

/-- The iteration of the packing loop from `s` to `r` for port `p` dequeued
a byte: `p` was the current port and the read side of its FIFO moved on by
one byte. -/
def pack_dequeued (s r : pack_state) (p : Nat) : Prop :=
  (p : Int) = s.m.last_out_port ∧
  (r.m.fifo p).buf_send_len = toU32 (((s.m.fifo p).buf_send_len : Int) - 1) ∧
  (r.m.fifo p).buf_len = toU32 (((s.m.fifo p).buf_len : Int) - 1) ∧
  (r.m.fifo p).p_out =
    (if (s.m.fifo p).p_out + 1 ≥ N_MBUF then 0 else (s.m.fifo p).p_out + 1)

/-- The iteration of the packing loop from `s` to `r` for port `p` emitted a
switch marker: `p` was not the current port, the group had room (`k < 10`),
and `p` is the current port now; no FIFO changed. -/
def pack_switched (s r : pack_state) (p : Nat) : Prop :=
  (p : Int) ≠ s.m.last_out_port ∧ s.k < 10 ∧ r.m.last_out_port = (p : Int) ∧
  r.m.mfifo = s.m.mfifo

/-- The iteration of the packing loop from `s` to `r` for port `p` completed
the open group: `p` was not the current port, the group had no room for a
marker (`k ≥ 10`), its payload was filled and its trailer written, so a new
group starts (`k = 0`); no FIFO and no port selection changed. -/
def pack_completed (s r : pack_state) (p : Nat) : Prop :=
  (p : Int) ≠ s.m.last_out_port ∧ 10 ≤ s.k ∧ r.k = 0 ∧ r.i = s.i + (12 - s.k) + 2 ∧
  r.m.mfifo = s.m.mfifo ∧ r.m.last_out_port = s.m.last_out_port

/-- A sequence of complete channel messages (status `0x80 .. 0xEF`), given
the running status in force at its start: a message in running status
needs the status of the latest message with explicit status. -/
def channel_valid : Option Nat → List midi_msg → Bool
  | _, [] => true
  | _, .chan s ds :: rest => (midi_msg.chan s ds).well_formed && channel_valid (some s) rest
  | ctx, .run s ds :: rest =>
      (midi_msg.run s ds).well_formed && decide (ctx = some s) && channel_valid ctx rest
  | _, .sys _ _ :: _ => false
  | _, .sysex _ :: _ => false

/-- The first `k` wire bytes of a message with the implied status byte
written out: for a message in running status the status byte comes with the
first data byte. -/
def midi_msg.explicit_part : midi_msg → Nat → List Nat
  | .run s ds, k => if k = 0 then [] else s :: ds.take k
  | msg, k => msg.wire.take k

/-- Feeding a sequence of bytes to `motu_in_port_write_byte` for one port. -/
def motu_in_port_write_bytes (m : motu) (port : Nat) (bs : List Nat) : motu :=
  bs.foldl (fun a b => motu_in_port_write_byte a port b) m

/-- The input port holds the bytes `E`, the first `c` of them marked
deliverable, with `lc` the stored status byte and `r` the number of bytes
the message in progress still needs. -/
def port_holds (ip : motu_in_port) (E : List Nat) (c lc r : Nat) : Prop :=
  ip.contents = E ∧ ip.buf_len = E.length ∧ ip.buf_send_len = c ∧ ip.last_cmd = lc ∧
  ip.cmd_bytes_remaining = r ∧ ip.buf.length = 64

/-- The queued bytes number `d .. d + n - 1` of a FIFO, counted from the
read cursor on around the ring: the order in which they were pushed. -/
def fifo_cells (f : motufifo) (d n : Nat) : List Nat :=
  (List.range' d n).map (fun j => f.mbuf.getD ((f.p_out + j) % N_MBUF) 0)

/-- The first `n` queued bytes of a FIFO, in the order in which they were
pushed. -/
def fifo_queue (f : motufifo) (n : Nat) : List Nat := fifo_cells f 0 n

/-- The value of `last_cmd` once the bytes `bs` have been dequeued: the last
of them with the high bit set, the old value if there is none. -/
def last_command (old : Nat) (bs : List Nat) : Nat :=
  bs.foldl (fun lc b => if b &&& 0x80 ≠ 0 then b else lc) old

/-- The FIFO `f` with its first `d` queued bytes dequeued. -/
def fifo_advance (f : motufifo) (d : Nat) : motufifo :=
  { f with p_out := (f.p_out + d) % N_MBUF, buf_len := f.buf_len - d,
           buf_send_len := f.buf_send_len - d,
           last_cmd := last_command f.last_cmd (fifo_queue f d) }

/-- The FIFO is consistent: the write cursor is `buf_len` cells ahead of the
read cursor around the ring, `buf_send_len ≤ buf_len ≤ 64`, and the read
cursor is inside the ring. -/
def motufifo.ring_ok (f : motufifo) : Prop :=
  f.p_in = (f.p_out + f.buf_len) % N_MBUF ∧ f.buf_send_len ≤ f.buf_len ∧
  f.buf_len ≤ N_MBUF ∧ f.p_out < N_MBUF

/-- The statements of the branch `p == last_out_port` of the packing loop
on the FIFO record: note a command byte in `last_cmd`, advance the read
cursor, decrement `buf_len` and `buf_send_len`. -/
def fifo_dequeue (g : motufifo) : motufifo :=
  let c := g.mbuf.getD g.p_out 0
  let g1 := if c &&& 0x80 ≠ 0 then { g with last_cmd := c } else g
  { g1 with p_out := if g1.p_out + 1 ≥ N_MBUF then 0 else g1.p_out + 1,
            buf_len := toU32 ((g1.buf_len : Int) - 1),
            buf_send_len := toU32 ((g1.buf_send_len : Int) - 1) }

/-- The dequeue log of the packing loops from `s0` on: the loop-head states
that are reached (as in `pack_head`), each with the list of the bytes
dequeued so far.  An iteration for port `p` dequeues when `p` is the current
port: it stores the byte `mbuf[p_out]` of the FIFO of `p` at
`midi_out_buf[i]`; the entry is (`i`, `p`, byte). -/
inductive pack_trace (s0 : pack_state) : pack_state → List (Nat × Nat × Nat) → Prop where
  | start : pack_trace s0 s0 []
  | data (s : pack_state) (p : Nat) (log : List (Nat × Nat × Nat)) :
      pack_trace s0 s log → (s.m.fifo p).buf_send_len ≠ 0 → (pack_iter s p).2 = false →
      (p : Int) = s.m.last_out_port →
      pack_trace s0 (pack_iter s p).1
        (log ++ [(s.i, p, (s.m.fifo p).mbuf.getD (s.m.fifo p).p_out 0)])
  | other (s : pack_state) (p : Nat) (log : List (Nat × Nat × Nat)) :
      pack_trace s0 s log → (s.m.fifo p).buf_send_len ≠ 0 → (pack_iter s p).2 = false →
      (p : Int) ≠ s.m.last_out_port → pack_trace s0 (pack_iter s p).1 log

/-- The state in which the packing loops of an invocation end. -/
def pack_result (m : motu) (tx : Nat → pulled) : pack_state :=
  match pack_ports (List.range m.n_ports_out.toNat) (pack_start m tx) with
  | some r => r.1
  | none => pack_start m tx

/-- The express XT with the note-on `90 40 7F` and the first byte `41` of a
running-status group in the FIFO of port 0, and the program change `C0 05`
in the FIFO of port 2. -/
def express_xt_pending : motu :=
  mfifo_push_all (mfifo_push_all express_xt_ready 0 [[0x90, 0x40, 0x7F, 0x41]]) 2 [[0xC0, 0x05]]

/-- No producer hands over a byte. -/
def pull_nothing : Nat → pulled := fun _ => { len := 0, bytes := [] }

/-- The logged bytes are in the packet under assembly: the positions
increase along the log, lie below the write index, and hold the bytes. -/
def log_in_buffer (log : List (Nat × Nat × Nat)) (s : pack_state) : Prop :=
  (log.map (fun e => e.1)).Pairwise (fun a b => a < b) ∧
  ∀ e ∈ log, e.1 < s.i ∧ s.m.midi_out_buf.getD e.1 0 = e.2.2

/-- One piece of the payload of a protocol-2 packet: the switch marker
`F5 p`, the priming byte (the stored command byte of the port), a byte taken
from the FIFO of port `p`, or the filler `FF`. -/
inductive out_piece where
  | marker (p : Nat)
  | prime (b : Nat)
  | data (p : Nat) (b : Nat)
  | filler
deriving DecidableEq, Repr

/-- The bytes of a payload piece. -/
def out_piece.bytes : out_piece → List Nat
  | .marker p => [0xF5, p]
  | .prime b => [b]
  | .data _ b => [b]
  | .filler => [0xFF]

/-- The bytes of a sequence of payload pieces. -/
def render (ps : List out_piece) : List Nat := (ps.map out_piece.bytes).flatten

/-- The payload pieces of one iteration of the packing loop for port `p`, as
the specification words them: for another port than the current one, the
switch marker (with the priming byte when the next byte of the FIFO is a
data byte) if fewer than 10 slots of the group are used, else fillers up to
slot 12; for the current port, the next byte of its FIFO. -/
def iter_payload (s : pack_state) (p : Nat) : List out_piece :=
  if (p : Int) ≠ s.m.last_out_port then
    if s.k < 10 then
      if (s.m.fifo p).mbuf.getD (s.m.fifo p).p_out 0 &&& 0x80 = 0 then
        [out_piece.marker p, out_piece.prime (s.m.fifo p).last_cmd]
      else [out_piece.marker p]
    else List.replicate (12 - s.k) out_piece.filler
  else [out_piece.data p ((s.m.fifo p).mbuf.getD (s.m.fifo p).p_out 0)]

/-- The layout of a packet under assembly: the closed groups and the open
group, each as its payload pieces.  Adding pieces to the open group closes
it when its payload reaches 12 bytes. -/
def layout_add (L : List (List out_piece) × List out_piece) (ps : List out_piece) :
    List (List out_piece) × List out_piece :=
  if (render (L.2 ++ ps)).length = 12 then (L.1 ++ [L.2 ++ ps], []) else (L.1, L.2 ++ ps)

/-- The groups of the finished packet: a partial open group is padded with
fillers to 12 payload bytes and closed. -/
def layout_close (L : List (List out_piece) × List out_piece) : List (List out_piece) :=
  if (render L.2).length = 0 then L.1
  else L.1 ++ [L.2 ++ List.replicate (12 - (render L.2).length) out_piece.filler]

/-- The bytes of a packet made of the groups `gs`: the 12 payload bytes of
every group followed by its trailer `01 00`. -/
def render_groups (gs : List (List out_piece)) : List Nat :=
  (gs.map (fun g => render g ++ [0x01, 0x00])).flatten

/-- The layout of the packet at the heads of the packing loop in a run that
enters the loops in state `s0`: every iteration that does not leave by
`goto send_buffer` adds its payload pieces. -/
inductive pack_layout (s0 : pack_state) :
    pack_state → List (List out_piece) × List out_piece → Prop where
  | start : pack_layout s0 s0 ([], [])
  | next (s : pack_state) (p : Nat) (L : List (List out_piece) × List out_piece) :
      pack_layout s0 s L → (s.m.fifo p).buf_send_len ≠ 0 → (pack_iter s p).2 = false →
      pack_layout s0 (pack_iter s p).1 (layout_add L (iter_payload s p))

/-- The layout `L` describes the assembled bytes of the packing state `s`:
they are the closed groups, each with 12 payload bytes and its trailer,
followed by the `k` payload bytes of the open group. -/
def pack_laid_out (s : pack_state) (L : List (List out_piece) × List out_piece) : Prop :=
  s.m.midi_out_buf.take s.i = render_groups L.1 ++ render L.2 ∧
  (render L.2).length = s.k ∧ ∀ g ∈ L.1, (render g).length = 12

/-- The packing state `r` continues `s` by the bytes `bs`: they are appended
to the assembled bytes of `midi_out_buf`. -/
def pack_appends (s r : pack_state) (bs : List Nat) : Prop :=
  r.i = s.i + bs.length ∧ r.m.midi_out_buf.length = s.m.midi_out_buf.length ∧
  r.m.midi_out_buf.take r.i = s.m.midi_out_buf.take s.i ++ bs

/-! # Properties

## Basic facts about the data model -/

theorem in_port_nat (m : motu) (p : Nat) :
    m.in_port (p : Int) = m.in_ports.getD p blank_in_port := by
  simp [motu.in_port]

theorem set_in_port_nat (m : motu) (p : Nat) (ip : motu_in_port) :
    m.set_in_port (p : Int) ip = { m with in_ports := m.in_ports.set p ip } := by
  simp [motu.set_in_port]

theorem in_port_set_same (m : motu) (i : Int) (ip : motu_in_port)
    (h0 : 0 ≤ i) (h1 : i.toNat < m.in_ports.length) :
    (m.set_in_port i ip).in_port i = ip := by
  simp [motu.in_port, motu.set_in_port, h0, h1]

theorem in_port_set_other (m : motu) (i j : Int) (ip : motu_in_port) (h : i ≠ j) :
    (m.set_in_port i ip).in_port j = m.in_port j := by
  unfold motu.in_port motu.set_in_port
  by_cases hi : 0 ≤ i <;> by_cases hj : 0 ≤ j <;> simp [hi, hj]
  have : i.toNat ≠ j.toNat := by omega
  simp [List.getElem?_set_ne this]

@[simp] theorem set_in_port_in_state (m : motu) (i : Int) (ip : motu_in_port) :
    (m.set_in_port i ip).in_state = m.in_state := by
  unfold motu.set_in_port; split <;> rfl

@[simp] theorem set_in_port_last_in_port (m : motu) (i : Int) (ip : motu_in_port) :
    (m.set_in_port i ip).last_in_port = m.last_in_port := by
  unfold motu.set_in_port; split <;> rfl

@[simp] theorem set_in_port_n_ports_in (m : motu) (i : Int) (ip : motu_in_port) :
    (m.set_in_port i ip).n_ports_in = m.n_ports_in := by
  unfold motu.set_in_port; split <;> rfl

@[simp] theorem set_in_port_length (m : motu) (i : Int) (ip : motu_in_port) :
    (m.set_in_port i ip).in_ports.length = m.in_ports.length := by
  unfold motu.set_in_port; split <;> simp

theorem take_set_succ (l : List Nat) (n b : Nat) (h : n < l.length) :
    (l.set n b).take (n + 1) = l.take n ++ [b] := by
  induction l generalizing n with
  | nil => simp at h
  | cons a l ih =>
    cases n with
    | zero => simp
    | succ n =>
      simp only [List.set_cons_succ, List.take_succ_cons, List.cons_append, List.cons.injEq, true_and]
      exact ih n (by simpa using h)

theorem contents_store (ip : motu_in_port) (b : Nat) (h : ip.buf_len < ip.buf.length) :
    (in_port_store ip b).contents = ip.contents ++ [b] := by
  simp [motu_in_port.contents, in_port_store, take_set_succ _ _ _ h]

set_option maxRecDepth 8000 in
theorem byte_high_clear (b : Nat) (h : b < 0x80) : b &&& 0x80 = 0 := by
  have key : ∀ c, c < 0x80 → c &&& 0x80 = 0 := by decide
  exact key b h

set_option maxRecDepth 8000 in
theorem byte_high_set (b : Nat) (h0 : 0x80 ≤ b) (h1 : b < 0x100) : b &&& 0x80 ≠ 0 := by
  have key : ∀ c, c < 0x100 → 0x80 ≤ c → c &&& 0x80 ≠ 0 := by decide
  exact key b h1 h0

theorem in_port_set_cases (m : motu) (i j : Int) (ip : motu_in_port) :
    (m.set_in_port i ip).in_port j = ip ∨ (m.set_in_port i ip).in_port j = m.in_port j := by
  by_cases h : i = j
  · subst h
    by_cases h0 : 0 ≤ i
    · by_cases h1 : i.toNat < m.in_ports.length
      · exact Or.inl (in_port_set_same m i ip h0 h1)
      · right
        simp only [motu.in_port, motu.set_in_port, h0, if_true]
        rw [List.set_eq_of_length_le (by omega)]
    · right; simp [motu.set_in_port, h0]
  · exact Or.inr (in_port_set_other m i j ip h)

theorem in_port_set_pred (P : motu_in_port → Prop) (m : motu) (i : Int) (ip : motu_in_port)
    (hip : P ip) (hm : ∀ j, P (m.in_port j)) : ∀ j, P ((m.set_in_port i ip).in_port j) := by
  intro j
  rcases in_port_set_cases m i j ip with h | h <;> rw [h]
  · exact hip
  · exact hm j

theorem in_port_congr (m1 m2 : motu) (h : m1.in_ports = m2.in_ports) (j : Int) :
    m1.in_port j = m2.in_port j := by
  simp [motu.in_port, h]

@[simp] theorem goto_in_state (m : motu) (s : Int) : (m.goto s).in_state = s := rfl

@[simp] theorem goto_last_in_port (m : motu) (s : Int) :
    (m.goto s).last_in_port = m.last_in_port := rfl

@[simp] theorem goto_n_ports_in (m : motu) (s : Int) :
    (m.goto s).n_ports_in = m.n_ports_in := rfl

@[simp] theorem goto_in_ports (m : motu) (s : Int) : (m.goto s).in_ports = m.in_ports := rfl

@[simp] theorem goto_in_port (m : motu) (s : Int) (j : Int) :
    (m.goto s).in_port j = m.in_port j := rfl

@[simp] theorem select_in_state (m : motu) (p : Int) : (m.select p).in_state = m.in_state := rfl

@[simp] theorem select_last_in_port (m : motu) (p : Int) : (m.select p).last_in_port = p := rfl

@[simp] theorem select_n_ports_in (m : motu) (p : Int) :
    (m.select p).n_ports_in = m.n_ports_in := rfl

@[simp] theorem select_in_ports (m : motu) (p : Int) : (m.select p).in_ports = m.in_ports := rfl

@[simp] theorem select_in_port (m : motu) (p : Int) (j : Int) :
    (m.select p).in_port j = m.in_port j := rfl

/-! ## Protocol-2 decoder: one byte -/

theorem prot2_data_store_pred (P : motu_in_port → Prop)
    (hstore : ∀ ip b, P ip → ip.buf_len < IN_BUF_SIZE → b ≠ 0xFF → P (in_port_store ip b))
    (hrem : ∀ ip x, P ip → P { ip with cmd_bytes_remaining := x })
    (m : motu) (ip : motu_in_port) (b : Nat) (hb : b ≠ 0xFF)
    (hip : P ip) (hm : ∀ j, P (m.in_port j)) :
    ∀ j, P ((prot2_data_store m ip b).1.in_port j) := by
  unfold prot2_data_store
  by_cases h : ip.buf_len ≥ IN_BUF_SIZE
  · rw [if_pos h]
    exact in_port_set_pred P _ _ _ hip hm
  · rw [if_neg h]
    have hs := hstore ip b hip (by omega) hb
    dsimp only
    split_ifs
    · exact in_port_set_pred P _ _ _ hs hm
    · exact in_port_set_pred P _ _ _ hs hm
    · exact in_port_set_pred P _ _ _ (hrem _ _ hs) hm
    · exact in_port_set_pred P _ _ _ (hrem _ _ hs) hm

/-- A property of input ports that the operations of the protocol-2 decoder
keep is kept, on every port, by one decoded byte. -/
theorem prot2_byte_pred (P : motu_in_port → Prop)
    (hstore : ∀ ip b, P ip → ip.buf_len < IN_BUF_SIZE → b ≠ 0xFF → P (in_port_store ip b))
    (hprime : ∀ ip, P ip → ip.buf_len < IN_BUF_SIZE → P (in_port_store ip ip.last_cmd))
    (hreset : ∀ ip, P ip → P { ip with buf_len := 0 })
    (hcmd : ∀ ip b, P ip → b ≠ 0xFF → P { ip with last_cmd := b })
    (hrem : ∀ ip x, P ip → P { ip with cmd_bytes_remaining := x })
    (m : motu) (b : Nat) (hm : ∀ j, P (m.in_port j)) :
    ∀ j, P ((prot2_byte m b).1.in_port j) := by
  have hcur := hm m.last_in_port
  unfold prot2_byte
  split_ifs
  · unfold prot2_case0
    split_ifs
    · exact hm
    · exact hm
  · unfold prot2_case1
    split_ifs
    · exact hm
    · exact in_port_set_pred P _ _ _ (hreset _ (hm _)) hm
    · exact hm
  · unfold prot2_case2
    by_cases hb : b ≠ 0xFF
    · rw [if_pos hb]
      dsimp only
      by_cases h1 : b &&& 0x80 = 0
      · rw [if_pos h1]
        by_cases h2 : (m.in_port m.last_in_port).buf_len ≥ IN_BUF_SIZE
        · rw [if_pos h2]; exact hm
        · rw [if_neg h2]
          exact prot2_data_store_pred P hstore hrem m _ b hb (hprime _ hcur (by omega)) hm
      · rw [if_neg h1]
        exact prot2_data_store_pred P hstore hrem m _ b hb (hcmd _ _ hcur hb) hm
    · rw [if_neg hb]; exact hm
  · unfold prot2_case34
    by_cases hb : b ≠ 0xFF
    · rw [if_pos hb]
      dsimp only
      by_cases h2 : (m.in_port m.last_in_port).buf_len ≥ IN_BUF_SIZE
      · rw [if_pos h2]; exact hm
      · rw [if_neg h2]
        have hs := hstore _ b hcur (by omega) hb
        split_ifs
        · exact in_port_set_pred P _ _ _ (hreset _ hs) hm
        · exact in_port_set_pred P _ _ _ hs hm
    · rw [if_neg hb]; exact hm
  · exact hm

theorem prot2_byte_filler (m : motu) : prot2_byte m 0xFF = (m, []) := by
  unfold prot2_byte prot2_case0 prot2_case1 prot2_case2 prot2_case34
  split_ifs <;> first | rfl | (exfalso; omega)

theorem prot2_bytes_append (m : motu) (a b : List Nat) :
    prot2_bytes m (a ++ b) =
      ((prot2_bytes (prot2_bytes m a).1 b).1,
        (prot2_bytes m a).2 ++ (prot2_bytes (prot2_bytes m a).1 b).2) := by
  induction a generalizing m with
  | nil => simp [prot2_bytes]
  | cons x a ih => simp [prot2_bytes, ih, List.append_assoc]

theorem prot2_bytes_filter (m : motu) (bs : List Nat) :
    prot2_bytes m bs = prot2_bytes m (bs.filter (fun b => b ≠ 0xFF)) := by
  induction bs generalizing m with
  | nil => rfl
  | cons b bs ih =>
    by_cases hb : b = 0xFF
    · subst hb
      simp only [prot2_bytes, prot2_byte_filler, List.nil_append]
      rw [ih]
      simp
    · rw [List.filter_cons_of_pos (by simpa using hb)]
      simp only [prot2_bytes]
      rw [ih]

theorem mem_take_set_succ (l : List Nat) (n b x : Nat) (h : x ∈ (l.set n b).take (n + 1)) :
    x ∈ l.take n ∨ x = b := by
  by_cases hn : n < l.length
  · rw [take_set_succ l n b hn] at h
    simpa using h
  · rw [List.set_eq_of_length_le (by omega), List.take_of_length_le (by omega)] at h
    left
    rw [List.take_of_length_le (by omega)]
    exact h

theorem filler_free_store (ip : motu_in_port) (b : Nat) (h : ip.filler_free) (hb : b ≠ 0xFF) :
    (in_port_store ip b).filler_free := by
  refine ⟨h.1, ?_⟩
  intro x hx
  rcases mem_take_set_succ _ _ _ _ hx with h1 | h1
  · exact h.2 x h1
  · rw [h1]; exact hb

theorem prot2_byte_filler_free (m : motu) (b : Nat) (hm : ∀ j, (m.in_port j).filler_free) :
    ∀ j, ((prot2_byte m b).1.in_port j).filler_free := by
  apply prot2_byte_pred motu_in_port.filler_free _ _ _ _ _ m b hm
  · intro ip b h _ hb; exact filler_free_store ip b h hb
  · intro ip h _; exact filler_free_store ip _ h h.1
  · intro ip h; exact ⟨h.1, by simp [motu_in_port.contents]⟩
  · intro ip b h hb; exact ⟨hb, h.2⟩
  · intro ip x h; exact h

theorem prot2_data_store_events (m : motu) (ip : motu_in_port) (b : Nat) :
    ∀ e ∈ (prot2_data_store m ip b).2, e = Event.warn_in_overflow m.last_in_port := by
  unfold prot2_data_store
  by_cases h : ip.buf_len ≥ IN_BUF_SIZE
  · rw [if_pos h]; simp
  · rw [if_neg h]
    dsimp only
    split_ifs <;> simp

theorem prot2_case2_events (m : motu) (b : Nat) :
    ∀ e ∈ (prot2_case2 m b).2, e = Event.warn_in_overflow m.last_in_port := by
  unfold prot2_case2
  by_cases hb : b ≠ 0xFF
  · rw [if_pos hb]
    dsimp only
    by_cases h1 : b &&& 0x80 = 0
    · rw [if_pos h1]
      by_cases h2 : (m.in_port m.last_in_port).buf_len ≥ IN_BUF_SIZE
      · rw [if_pos h2]; simp
      · rw [if_neg h2]; exact prot2_data_store_events m _ b
    · rw [if_neg h1]; exact prot2_data_store_events m _ b
  · rw [if_neg hb]; simp

theorem prot2_byte_receive (m : motu) (b : Nat) (port : Nat) (data : List Nat)
    (h : Event.receive port data ∈ (prot2_byte m b).2) :
    b ≠ 0xFF ∧ data = (in_port_store (m.in_port m.last_in_port) b).contents := by
  unfold prot2_byte at h
  split_ifs at h
  · unfold prot2_case0 at h; split_ifs at h <;> simp at h
  · unfold prot2_case1 at h; split_ifs at h <;> simp at h
  · have := prot2_case2_events m b _ h
    simp at this
  · unfold prot2_case34 prot2_receive at h
    by_cases hb : b ≠ 0xFF
    · rw [if_pos hb] at h
      dsimp only at h
      by_cases h2 : (m.in_port m.last_in_port).buf_len ≥ IN_BUF_SIZE
      · rw [if_pos h2] at h; simp at h
      · rw [if_neg h2] at h
        split_ifs at h <;> simp at h
        exact ⟨hb, by rw [h.2]; rfl⟩
    · rw [if_neg hb] at h; simp at h
  · simp at h

theorem blank_in_port_filler_free : blank_in_port.filler_free := by
  simp [motu_in_port.filler_free, motu_in_port.contents, blank_in_port]

theorem probe_state_in_port (n_in n_out lp : Int) (j : Int) :
    (probe_state n_in n_out lp).in_port j = blank_in_port := by
  unfold motu.in_port probe_state
  split
  · simp only [List.getD_eq_getElem?_getD]
    exact List.getElem?_getD_replicate_default_eq (d := blank_in_port) 9 _
  · rfl

theorem trigger_in_port (m : motu) (number : Nat) (up : Bool) (j : Int) :
    (motu_midi_input_trigger m number up).in_port j = m.in_port j ∨
    (motu_midi_input_trigger m number up).in_port j =
      { (m.in_port number) with substream := up } := by
  unfold motu_midi_input_trigger
  split
  · exact Or.inl rfl
  · rcases in_port_set_cases m number j { (m.in_port number) with substream := up } with h | h
    · exact Or.inr h
    · exact Or.inl h

theorem prot2_reachable_filler_free (m : motu) (h : prot2_reachable m) :
    ∀ j, (m.in_port j).filler_free := by
  induction h with
  | probe n_in n_out h =>
    intro j; rw [probe_state_in_port]; exact blank_in_port_filler_free
  | trigger m number up _ ih =>
    intro j
    rcases trigger_in_port m number up j with h | h <;> rw [h]
    · exact ih j
    · exact ih number
  | out_trigger m number up _ ih => exact ih
  | byte m b _ ih => exact prot2_byte_filler_free m b ih

theorem prot2_bytes_reachable (m : motu) (bs : List Nat) (h : prot2_reachable m) :
    prot2_reachable (prot2_bytes m bs).1 := by
  induction bs generalizing m with
  | nil => exact h
  | cons b bs ih => exact ih _ (prot2_reachable.byte m b h)

theorem prot2_packet_reachable (m : motu) (pkt : List Nat) (h : prot2_reachable m) :
    prot2_reachable (motu_midi_handle_input_prot2 m pkt).1 :=
  prot2_bytes_reachable m _ h

theorem prot2_bytes_receive_filler_free (m : motu) (bs : List Nat)
    (hm : ∀ j, (m.in_port j).filler_free) (port : Nat) (data : List Nat)
    (h : Event.receive port data ∈ (prot2_bytes m bs).2) : 0xFF ∉ data := by
  induction bs generalizing m with
  | nil => simp [prot2_bytes] at h
  | cons b bs ih =>
    simp only [prot2_bytes, List.mem_append] at h
    rcases h with h | h
    · obtain ⟨hb, hd⟩ := prot2_byte_receive m b port data h
      have := filler_free_store _ b (hm m.last_in_port) hb
      rw [hd]
      intro hmem
      exact this.2 _ hmem rfl
    · exact ih _ (prot2_byte_filler_free m b hm) h

theorem micro_express_open_reachable : prot2_reachable micro_express_open := by
  unfold micro_express_open
  simp only [List.range, List.range.loop, List.foldl]
  repeat apply prot2_reachable.trigger
  exact prot2_reachable.probe 5 7 (by decide)

/-! ## Protocol-2 decoder: the steps of a well-formed stream -/

theorem view_after_set (m : motu) (st : Int) (p : Nat) (ip : motu_in_port)
    (hl : m.last_in_port = (p : Int)) (hp : p < m.in_ports.length) :
    prot2_view ((m.set_in_port m.last_in_port ip).goto st) st p ip := by
  refine ⟨rfl, by simp [hl], by simpa using hp, ?_⟩
  rw [goto_in_port, hl]
  exact in_port_set_same m _ ip (by omega) (by simpa using hp)

theorem prot2_step_marker (m : motu) (h : m.in_state = 0) :
    prot2_byte m 0xF5 = (m.goto 1, []) := by
  simp [prot2_byte, prot2_case0, h]

theorem prot2_step_idle (m : motu) (b : Nat) (h : m.in_state = 0) (hb : b ≠ 0xF5) :
    prot2_byte m b = (m, []) := by
  simp [prot2_byte, prot2_case0, h, hb]

theorem prot2_step_select (m : motu) (p : Nat) (h : m.in_state = 1)
    (hp : (p : Int) < m.n_ports_in) (hl : p < m.in_ports.length) (hff : p ≠ 0xFF) :
    (prot2_byte m p).2 = [] ∧
    prot2_view (prot2_byte m p).1 2 p { (m.in_port p) with buf_len := 0 } := by
  have e : prot2_byte m p =
      (((m.select p).set_in_port (m.select p).last_in_port
          { ((m.select p).in_port (m.select p).last_in_port) with buf_len := 0 }).goto 2, []) := by
    simp [prot2_byte, prot2_case1, h, hff, not_le.mpr hp]
  rw [e]
  exact ⟨rfl, view_after_set (m.select p) 2 p _ rfl hl⟩

theorem prot2_data_store_ok (m : motu) (ip : motu_in_port) (b : Nat) (p : Nat)
    (hl : m.last_in_port = (p : Int)) (hp : p < m.in_ports.length)
    (hlen : ip.buf_len < IN_BUF_SIZE) :
    (prot2_data_store m ip b).2 = [] ∧
    (ip.last_cmd = 0xF5 →
      prot2_view (prot2_data_store m ip b).1 1 p (in_port_store ip b)) ∧
    (ip.last_cmd = 0xF0 →
      prot2_view (prot2_data_store m ip b).1 4 p (in_port_store ip b)) ∧
    (ip.last_cmd ≠ 0xF5 → ip.last_cmd ≠ 0xF0 → b < 0xF0 →
      prot2_view (prot2_data_store m ip b).1 3 p
        { (in_port_store ip b) with
          cmd_bytes_remaining := toU8 (get_cmd_num_bytes ip.last_cmd) }) := by
  unfold prot2_data_store
  rw [if_neg (by omega)]
  dsimp only
  have hc : (in_port_store ip b).last_cmd = ip.last_cmd := rfl
  rw [hc]
  by_cases h5 : ip.last_cmd = 0xF5
  · rw [if_pos h5]
    refine ⟨rfl, fun _ => view_after_set m 1 p _ hl hp, ?_, ?_⟩
    · intro h; rw [h5] at h; exact absurd h (by decide)
    · intro h; exact absurd h5 h
  · rw [if_neg h5]
    by_cases h0 : ip.last_cmd = 0xF0
    · rw [if_pos h0]
      refine ⟨rfl, fun h => absurd h h5, fun _ => view_after_set m 4 p _ hl hp, ?_⟩
      intro _ h; exact absurd h0 h
    · rw [if_neg h0]
      refine ⟨rfl, fun h => absurd h h5, fun h => absurd h h0, ?_⟩
      intro _ _ hb
      rw [if_pos hb]
      exact view_after_set m 3 p _ hl hp

theorem prot2_step_command (m : motu) (p : Nat) (ip : motu_in_port) (b : Nat)
    (hv : prot2_view m 2 p ip) (hb0 : 0x80 ≤ b) (hb1 : b < 0xF0)
    (hlen : ip.buf_len < IN_BUF_SIZE) :
    (prot2_byte m b).2 = [] ∧
    prot2_view (prot2_byte m b).1 3 p
      { (in_port_store { ip with last_cmd := b } b) with
        cmd_bytes_remaining := toU8 (get_cmd_num_bytes b) } := by
  obtain ⟨hst, hl, hp, hip⟩ := hv
  have e : prot2_byte m b = prot2_data_store m { ip with last_cmd := b } b := by
    have hh : b &&& 0x80 ≠ 0 := byte_high_set b hb0 (by omega)
    have hff : b ≠ 0xFF := by omega
    simp [prot2_byte, prot2_case2, hst, hff, hh, hl, hip]
  rw [e]
  have := prot2_data_store_ok m { ip with last_cmd := b } b p hl hp hlen
  exact ⟨this.1, this.2.2.2 (by simp; omega) (by simp; omega) hb1⟩

theorem prot2_step_sysex_start (m : motu) (p : Nat) (ip : motu_in_port)
    (hv : prot2_view m 2 p ip) (hlen : ip.buf_len < IN_BUF_SIZE) :
    (prot2_byte m 0xF0).2 = [] ∧
    prot2_view (prot2_byte m 0xF0).1 4 p (in_port_store { ip with last_cmd := 0xF0 } 0xF0) := by
  obtain ⟨hst, hl, hp, hip⟩ := hv
  have e : prot2_byte m 0xF0 = prot2_data_store m { ip with last_cmd := 0xF0 } 0xF0 := by
    simp [prot2_byte, prot2_case2, hst, hl, hip]
  rw [e]
  have := prot2_data_store_ok m { ip with last_cmd := 0xF0 } 0xF0 p hl hp hlen
  exact ⟨this.1, this.2.2.1 rfl⟩

theorem prot2_step_running (m : motu) (p : Nat) (ip : motu_in_port) (b : Nat)
    (hv : prot2_view m 2 p ip) (hb : b < 0x80) (hlen : ip.buf_len + 1 < IN_BUF_SIZE)
    (h5 : ip.last_cmd ≠ 0xF5) (h0 : ip.last_cmd ≠ 0xF0) :
    (prot2_byte m b).2 = [] ∧
    prot2_view (prot2_byte m b).1 3 p
      { (in_port_store (in_port_store ip ip.last_cmd) b) with
        cmd_bytes_remaining := toU8 (get_cmd_num_bytes ip.last_cmd) } := by
  obtain ⟨hst, hl, hp, hip⟩ := hv
  have e : prot2_byte m b = prot2_data_store m (in_port_store ip ip.last_cmd) b := by
    have hh : b &&& 0x80 = 0 := byte_high_clear b hb
    have hff : b ≠ 0xFF := by omega
    have hn : ¬ IN_BUF_SIZE ≤ ip.buf_len := by omega
    simp [prot2_byte, prot2_case2, hst, hff, hh, hl, hip, hn]
  rw [e]
  have := prot2_data_store_ok m (in_port_store ip ip.last_cmd) b p hl hp
    (by simp [in_port_store]; omega)
  exact ⟨this.1, this.2.2.2 h5 h0 (by omega)⟩

theorem prot2_step_store (m : motu) (st : Int) (p : Nat) (ip : motu_in_port) (b : Nat)
    (hv : prot2_view m st p ip) (hst : st = 3 ∨ st = 4) (hb : b ≠ 0xFF)
    (hlen : ip.buf_len < IN_BUF_SIZE)
    (hmore : ¬ ((st = 3 ∧ ip.buf_len + 1 = ip.cmd_bytes_remaining) ∨ (st = 4 ∧ b = 0xF7))) :
    (prot2_byte m b).2 = [] ∧ prot2_view (prot2_byte m b).1 st p (in_port_store ip b) := by
  obtain ⟨hs, hl, hp, hip⟩ := hv
  have e : prot2_byte m b = (m.set_in_port m.last_in_port (in_port_store ip b), []) := by
    have hn : ¬ IN_BUF_SIZE ≤ ip.buf_len := by omega
    have h0 : m.in_state ≠ 0 := by omega
    have h1 : m.in_state ≠ 1 := by omega
    have h2 : m.in_state ≠ 2 := by omega
    have h34 : m.in_state = 3 ∨ m.in_state = 4 := by omega
    unfold prot2_byte prot2_case34
    rw [if_neg h0, if_neg h1, if_neg h2, if_pos h34, if_pos hb]
    dsimp only
    rw [hl, hip, if_neg hn, if_neg]
    rw [hs]
    exact hmore
  rw [e]
  refine ⟨rfl, by simpa using hs, by simpa using hl, by simpa using hp, ?_⟩
  rw [hl]
  exact in_port_set_same m _ _ (by omega) (by simpa using hp)

theorem prot2_step_deliver (m : motu) (st : Int) (p : Nat) (ip : motu_in_port) (b : Nat)
    (hv : prot2_view m st p ip) (hb : b ≠ 0xFF) (hlen : ip.buf_len < IN_BUF_SIZE)
    (hdone : (st = 3 ∧ ip.buf_len + 1 = ip.cmd_bytes_remaining) ∨ (st = 4 ∧ b = 0xF7)) :
    (prot2_byte m b).2 = prot2_receive p (in_port_store ip b) ∧
    prot2_view (prot2_byte m b).1 2 p { (in_port_store ip b) with buf_len := 0 } := by
  obtain ⟨hs, hl, hp, hip⟩ := hv
  have e : prot2_byte m b =
      ((m.set_in_port m.last_in_port { (in_port_store ip b) with buf_len := 0 }).goto 2,
        prot2_receive m.last_in_port (in_port_store ip b)) := by
    have hn : ¬ IN_BUF_SIZE ≤ ip.buf_len := by omega
    have h0 : m.in_state ≠ 0 := by omega
    have h1 : m.in_state ≠ 1 := by omega
    have h2 : m.in_state ≠ 2 := by omega
    have h34 : m.in_state = 3 ∨ m.in_state = 4 := by omega
    unfold prot2_byte prot2_case34
    rw [if_neg h0, if_neg h1, if_neg h2, if_pos h34, if_pos hb]
    dsimp only
    rw [hl, hip, if_neg hn, if_pos]
    rw [hs]
    exact hdone
  rw [e]
  refine ⟨by rw [hl], view_after_set m 2 p _ hl hp⟩

theorem prot2_step_overflow (m : motu) (b : Nat)
    (hst : m.in_state = 3 ∨ m.in_state = 4) (hb : b ≠ 0xFF)
    (hlen : IN_BUF_SIZE ≤ (m.in_port m.last_in_port).buf_len) :
    prot2_byte m b = (m.goto 0, [Event.warn_in_overflow m.last_in_port]) := by
  have h0 : m.in_state ≠ 0 := by omega
  have h1 : m.in_state ≠ 1 := by omega
  have h2 : m.in_state ≠ 2 := by omega
  unfold prot2_byte prot2_case34
  rw [if_neg h0, if_neg h1, if_neg h2, if_pos hst, if_pos hb]
  dsimp only
  rw [if_pos hlen]

theorem prot2_bytes_cons (m : motu) (b : Nat) (bs : List Nat) :
    prot2_bytes m (b :: bs) =
      ((prot2_bytes (prot2_byte m b).1 bs).1,
        (prot2_byte m b).2 ++ (prot2_bytes (prot2_byte m b).1 bs).2) := rfl

theorem prot2_receive_eq (p : Nat) (ip : motu_in_port) (h : ip.substream = true) :
    prot2_receive (p : Int) ip = [Event.receive p ip.contents] := by
  simp [prot2_receive, h, motu_in_port.contents]

/-- From the FixedLen state, the data bytes that complete the buffered
command are stored and the whole buffer is delivered with the last one. -/
theorem prot2_fixed_complete (ds : List Nat) :
    ∀ (m : motu) (p : Nat) (ip : motu_in_port),
      prot2_view m 3 p ip → ds ≠ [] → (∀ d ∈ ds, d ≠ 0xFF) →
      ip.buf_len + ds.length = ip.cmd_bytes_remaining →
      ip.cmd_bytes_remaining ≤ IN_BUF_SIZE → ip.buf.length = 64 →
      (prot2_bytes m ds).2 =
        (if ip.substream then [Event.receive p (ip.contents ++ ds)] else []) ∧
      ∃ ip1, prot2_view (prot2_bytes m ds).1 2 p ip1 ∧ ip1.buf_len = 0 ∧
        ip1.last_cmd = ip.last_cmd ∧ ip1.substream = ip.substream ∧
        ip1.buf.length = 64 ∧ ip1.cmd_bytes_remaining = ip.cmd_bytes_remaining ∧
        ip1.buf_send_len = ip.buf_send_len := by
  induction ds with
  | nil => intro m p ip _ h; exact absurd rfl h
  | cons d rest ih =>
    intro m p ip hv _ hd hlen hcap hbuf
    have hdff : d ≠ 0xFF := hd d (by simp)
    have hlt : ip.buf_len < IN_BUF_SIZE := by
      simp only [List.length_cons] at hlen; omega
    have hlt2 : ip.buf_len < ip.buf.length := by rw [hbuf]; exact hlt
    rw [prot2_bytes_cons]
    by_cases hr : rest = []
    · subst hr
      simp only [List.length_cons, List.length_nil] at hlen
      obtain ⟨e, v⟩ := prot2_step_deliver m 3 p ip d hv hdff hlt (Or.inl ⟨rfl, by omega⟩)
      simp only [prot2_bytes, List.append_nil]
      refine ⟨?_, _, v, rfl, rfl, rfl, ?_, rfl, rfl⟩
      · rw [e]
        have hc := contents_store ip d hlt2
        simp only [motu_in_port.contents] at hc
        simp only [prot2_receive, Int.toNat_ofNat, hc]
        rfl
      · simp [in_port_store, hbuf]
    · simp only [List.length_cons] at hlen
      have hpos : 0 < rest.length := List.length_pos.mpr hr
      obtain ⟨e, v⟩ := prot2_step_store m 3 p ip d hv (Or.inl rfl) hdff hlt
        (by intro h; rcases h with h | h
            · omega
            · exact absurd h.1 (by decide))
      have := ih _ p (in_port_store ip d) v hr (fun x hx => hd x (by simp [hx]))
        (by simp [in_port_store]; omega) hcap (by simp [in_port_store, hbuf])
      obtain ⟨e2, ip1, v1, h1, h2, h3, h4, h5, h6⟩ := this
      refine ⟨?_, ip1, v1, h1, h2, h3, h4, h5, h6⟩
      rw [e, e2, contents_store ip d hlt2]
      simp [in_port_store]

set_option maxRecDepth 8000 in
theorem channel_status_length (s : Nat) (h0 : 0x80 ≤ s) (h1 : s ≤ 0xEF) :
    get_cmd_num_bytes s = 2 ∨ get_cmd_num_bytes s = 3 := by
  have key : ∀ c, c < 0xF0 → 0x80 ≤ c → get_cmd_num_bytes c = 2 ∨ get_cmd_num_bytes c = 3 := by
    decide
  exact key s (by omega) h0

theorem toU8_small (x : Int) (h0 : 0 ≤ x) (h1 : x < 256) : ((toU8 x : Nat) : Int) = x := by
  unfold toU8
  rw [Int.emod_eq_of_lt h0 h1]
  exact Int.toNat_of_nonneg h0

/-- After marker and port select, an explicit channel message is stored and
delivered as a whole; the decoder is back in the Data state. -/
theorem prot2_command_message (m : motu) (p s : Nat) (ds : List Nat) (ip : motu_in_port)
    (hv : prot2_view m 2 p ip) (hbl : ip.buf_len = 0) (hbuf : ip.buf.length = 64)
    (hs0 : 0x80 ≤ s) (hs1 : s ≤ 0xEF)
    (hL : get_cmd_num_bytes s = (ds.length : Int) + 1) (hd : ∀ d ∈ ds, d < 0x80) :
    (prot2_bytes m (s :: ds)).2 =
      (if ip.substream then [Event.receive p (s :: ds)] else []) ∧
    ∃ ip1, prot2_view (prot2_bytes m (s :: ds)).1 2 p ip1 ∧ ip1.buf_len = 0 ∧
      ip1.last_cmd = s ∧ ip1.substream = ip.substream ∧ ip1.buf.length = 64 ∧
      ip1.buf_send_len = ip.buf_send_len := by
  have hLL := channel_status_length s hs0 hs1
  obtain ⟨e, v⟩ := prot2_step_command m p ip s hv hs0 (by omega) (by rw [hbl]; decide)
  have hne : ds ≠ [] := by
    intro h; subst h; simp at hL; omega
  have hcbr : toU8 (get_cmd_num_bytes s) = ds.length + 1 := by
    have := toU8_small (get_cmd_num_bytes s) (by omega) (by omega)
    omega
  have := prot2_fixed_complete ds _ p _ v hne (fun d hd1 => by have := hd d hd1; omega)
    (by simp [in_port_store, hbl, hcbr]; omega)
    (by simp only [hcbr]; unfold IN_BUF_SIZE; omega)
    (by simp [in_port_store, hbuf])
  obtain ⟨e2, ip1, v1, h1, h2, h3, h4, _, h6⟩ := this
  rw [prot2_bytes_cons, e, e2]
  refine ⟨?_, ip1, v1, h1, h2, h3, h4, h6⟩
  have hc : ({ (in_port_store { ip with last_cmd := s } s) with
      cmd_bytes_remaining := toU8 (get_cmd_num_bytes s) } : motu_in_port).contents = [s] := by
    have hpos : 0 < ip.buf.length := by omega
    have := contents_store { ip with last_cmd := s } s (by simp [hbl, hpos])
    simp only [motu_in_port.contents] at this ⊢
    simp only [in_port_store] at this ⊢
    rw [this]
    simp [hbl]
  rw [hc]
  simp [in_port_store]

/-- A running-status group under a three-byte channel status: the stored
status byte is put in front of the two data bytes and the three bytes are
delivered. -/
theorem prot2_running_three (m : motu) (p e1 e2 : Nat) (ip : motu_in_port)
    (hv : prot2_view m 2 p ip) (hbl : ip.buf_len = 0) (hbuf : ip.buf.length = 64)
    (hs0 : 0x80 ≤ ip.last_cmd) (hs1 : ip.last_cmd ≤ 0xEF)
    (hL : get_cmd_num_bytes ip.last_cmd = 3) (he1 : e1 < 0x80) (he2 : e2 < 0x80) :
    (prot2_bytes m [e1, e2]).2 =
      (if ip.substream then [Event.receive p [ip.last_cmd, e1, e2]] else []) ∧
    ∃ ip1, prot2_view (prot2_bytes m [e1, e2]).1 2 p ip1 ∧ ip1.buf_len = 0 ∧
      ip1.last_cmd = ip.last_cmd := by
  obtain ⟨e, v⟩ := prot2_step_running m p ip e1 hv he1 (by rw [hbl]; decide)
    (by omega) (by omega)
  have := prot2_fixed_complete [e2] _ p _ v (by simp) (by simp; omega)
    (by simp [in_port_store, hbl, hL]; decide)
    (by simp [hL]; decide)
    (by simp [in_port_store, hbuf])
  obtain ⟨e3, ip1, v1, h1, h2, _⟩ := this
  rw [prot2_bytes_cons, e, e3]
  refine ⟨?_, ip1, v1, h1, h2⟩
  have hpos : 1 < ip.buf.length := by omega
  have hc : ({ (in_port_store (in_port_store ip ip.last_cmd) e1) with
      cmd_bytes_remaining := toU8 (get_cmd_num_bytes ip.last_cmd) } : motu_in_port).contents
      = [ip.last_cmd, e1] := by
    have h1 := contents_store ip ip.last_cmd (by omega)
    have h2 := contents_store (in_port_store ip ip.last_cmd) e1
      (by simp [in_port_store, hbl, hpos])
    rw [h1] at h2
    simp only [motu_in_port.contents] at h2 ⊢
    rw [h2]
    simp [hbl]
  rw [hc]
  simp [in_port_store]

theorem prot2_sysex_fill (ds : List Nat) :
    ∀ (m : motu) (p : Nat) (ip : motu_in_port),
      prot2_view m 4 p ip → (∀ d ∈ ds, d < 0x80) → ip.buf_len + ds.length ≤ IN_BUF_SIZE →
      (prot2_bytes m ds).2 = [] ∧
      ∃ ip1, prot2_view (prot2_bytes m ds).1 4 p ip1 ∧ ip1.buf_len = ip.buf_len + ds.length := by
  induction ds with
  | nil => intro m p ip hv _ _; exact ⟨rfl, ip, hv, rfl⟩
  | cons d rest ih =>
    intro m p ip hv hd hlen
    simp only [List.length_cons] at hlen
    have hd1 : d < 0x80 := hd d (by simp)
    obtain ⟨e, v⟩ := prot2_step_store m 4 p ip d hv (Or.inr rfl) (by omega) (by omega)
      (by intro h; rcases h with h | h
          · exact absurd h.1 (by decide)
          · omega)
    obtain ⟨e2, ip1, v1, h1⟩ := ih _ p _ v (fun x hx => hd x (by simp [hx]))
      (by simp [in_port_store]; omega)
    rw [prot2_bytes_cons, e, e2]
    refine ⟨rfl, ip1, v1, ?_⟩
    rw [h1]; simp [in_port_store]; omega

theorem prot2_idle_data (ds : List Nat) (m : motu) (h : m.in_state = 0)
    (hd : ∀ d ∈ ds, d < 0x80) : prot2_bytes m ds = (m, []) := by
  induction ds with
  | nil => rfl
  | cons d rest ih =>
    have hd1 : d < 0x80 := hd d (by simp)
    rw [prot2_bytes_cons, prot2_step_idle m d h (by omega), ih (fun x hx => hd x (by simp [hx]))]
    rfl

theorem prot2_packets_eq_bytes (pkts : List (List Nat)) (m : motu) :
    prot2_packets m pkts = prot2_bytes m (pkts.map (List.drop 1)).flatten := by
  induction pkts generalizing m with
  | nil => rfl
  | cons pkt pkts ih =>
    simp only [prot2_packets, List.map_cons, List.flatten_cons, prot2_bytes_append, ih]
    rfl

theorem prot2_bytes_buf_len_le (bs : List Nat) (m : motu)
    (hm : ∀ j, (m.in_port j).buf_len ≤ IN_BUF_SIZE) :
    ∀ j, ((prot2_bytes m bs).1.in_port j).buf_len ≤ IN_BUF_SIZE := by
  induction bs generalizing m with
  | nil => exact hm
  | cons b bs ih =>
    rw [prot2_bytes_cons]
    apply ih
    apply prot2_byte_pred (fun ip => ip.buf_len ≤ IN_BUF_SIZE) _ _ _ _ _ m b hm
    · intro ip b _ h _; simp only [in_port_store]; omega
    · intro ip _ h; simp only [in_port_store]; omega
    · intro ip _; simp
    · intro ip b h _; exact h
    · intro ip x h; exact h

/-- In the Data, FixedLen or SysEx state with the selected buffer full, a
byte other than the filler is dropped with one overflow report. -/
theorem prot2_full_step (m : motu) (b : Nat)
    (hst : m.in_state = 2 ∨ m.in_state = 3 ∨ m.in_state = 4)
    (hfull : (m.in_port m.last_in_port).buf_len = IN_BUF_SIZE) (hb : b ≠ 0xFF) :
    (prot2_byte m b).2 = [Event.warn_in_overflow m.last_in_port] ∧
    (prot2_byte m b).1.in_state = 0 ∧
    (prot2_byte m b).1.last_in_port = m.last_in_port ∧
    ((prot2_byte m b).1.in_port m.last_in_port).buf = (m.in_port m.last_in_port).buf ∧
    ((prot2_byte m b).1.in_port m.last_in_port).buf_len = IN_BUF_SIZE := by
  rcases hst with h2 | h34
  · have h0 : m.in_state ≠ 0 := by omega
    have h1 : m.in_state ≠ 1 := by omega
    unfold prot2_byte prot2_case2
    rw [if_neg h0, if_neg h1, if_pos h2, if_pos hb]
    dsimp only
    by_cases hh : b &&& 0x80 = 0
    · rw [if_pos hh, if_pos (by omega)]
      exact ⟨rfl, rfl, rfl, rfl, hfull⟩
    · rw [if_neg hh]
      unfold prot2_data_store
      rw [if_pos (by simp only []; omega)]
      refine ⟨rfl, rfl, by simp, ?_, ?_⟩
      · rw [goto_in_port]
        rcases in_port_set_cases m m.last_in_port m.last_in_port
          { (m.in_port m.last_in_port) with last_cmd := b } with h | h <;> rw [h]
      · rw [goto_in_port]
        rcases in_port_set_cases m m.last_in_port m.last_in_port
          { (m.in_port m.last_in_port) with last_cmd := b } with h | h <;> rw [h]
        · exact hfull
        · exact hfull
  · rw [prot2_step_overflow m b h34 hb (by omega)]
    exact ⟨rfl, rfl, rfl, rfl, hfull⟩

theorem prot2_byte_bounds (m : motu) (b : Nat)
    (hm : ∀ j, (m.in_port j).buf_send_len = 0 ∧ (m.in_port j).buf_len ≤ IN_BUF_SIZE) :
    ∀ j, ((prot2_byte m b).1.in_port j).buf_send_len = 0 ∧
      ((prot2_byte m b).1.in_port j).buf_len ≤ IN_BUF_SIZE := by
  apply prot2_byte_pred (fun ip => ip.buf_send_len = 0 ∧ ip.buf_len ≤ IN_BUF_SIZE) _ _ _ _ _ m b hm
  · intro ip b h hl _; exact ⟨h.1, by simp only [in_port_store]; omega⟩
  · intro ip h hl; exact ⟨h.1, by simp only [in_port_store]; omega⟩
  · intro ip h; exact ⟨h.1, by simp⟩
  · intro ip b h _; exact h
  · intro ip x h; exact h

/-- In a reachable protocol-2 state every input port has nothing marked
deliverable and at most 64 buffered bytes. -/
theorem prot2_reachable_bounds (m : motu) (h : prot2_reachable m) :
    ∀ j, (m.in_port j).buf_send_len = 0 ∧ (m.in_port j).buf_len ≤ IN_BUF_SIZE := by
  induction h with
  | probe n_in n_out h =>
    intro j; rw [probe_state_in_port]; exact ⟨rfl, by decide⟩
  | trigger m number up _ ih =>
    intro j
    rcases trigger_in_port m number up j with h | h <;> rw [h]
    · exact ih j
    · exact ih number
  | out_trigger m number up _ ih => exact ih
  | byte m b _ ih => exact prot2_byte_bounds m b ih

/-! ## Claims on the protocol-2 decoder -/

/-- C4: the filler byte `0xFF` is transparent to the protocol-2 decoder.  In
every decoder state, decoding `0xFF` changes nothing and produces no event;
hence a packet with `0xFF` inserted anywhere after byte 0 decodes to the same
events and final state as the packet without it (one insertion, or any number
of them: only the bytes other than `0xFF` matter); and from every reachable
state, no delivered message contains `0xFF`. -/
theorem prot2_filler_transparent :
    (∀ m : motu, prot2_byte m 0xFF = (m, [])) ∧
    (∀ (m : motu) (x : Nat) (pre post : List Nat),
      motu_midi_handle_input_prot2 m (x :: (pre ++ 0xFF :: post)) =
        motu_midi_handle_input_prot2 m (x :: (pre ++ post))) ∧
    (∀ (m : motu) (x : Nat) (bs : List Nat),
      motu_midi_handle_input_prot2 m (x :: bs) =
        motu_midi_handle_input_prot2 m (x :: bs.filter (fun b => b ≠ 0xFF))) ∧
    (∀ m : motu, prot2_reachable m → ∀ (pkt : List Nat) (port : Nat) (data : List Nat),
      Event.receive port data ∈ (motu_midi_handle_input_prot2 m pkt).2 → 0xFF ∉ data) := by
  refine ⟨prot2_byte_filler, ?_, ?_, ?_⟩
  · intro m x pre post
    simp only [motu_midi_handle_input_prot2, List.drop_succ_cons, List.drop_zero]
    rw [prot2_bytes_append, prot2_bytes_append]
    simp [prot2_bytes, prot2_byte_filler]
  · intro m x bs
    simp only [motu_midi_handle_input_prot2, List.drop_succ_cons, List.drop_zero]
    exact prot2_bytes_filter m bs
  · intro m hm pkt port data h
    exact prot2_bytes_receive_filler_free m _ (prot2_reachable_filler_free m hm) port data h

/-- Witness for C4: on the micro express, the packet `00 F5 01 90 FF 40 7F`
delivers `90 40 7F` to port 1, and the delivered bytes hold no `0xFF`. -/
theorem prot2_filler_transparent_witness :
    (motu_midi_handle_input_prot2 micro_express_open [0, 0xF5, 1, 0x90, 0xFF, 0x40, 0x7F]).2 =
      [Event.receive 1 [0x90, 0x40, 0x7F]] ∧
    0xFF ∉ [0x90, 0x40, 0x7F] :=
  ⟨by decide,
    prot2_filler_transparent.2.2.2 micro_express_open micro_express_open_reachable
      [0, 0xF5, 1, 0x90, 0xFF, 0x40, 0x7F] 1 [0x90, 0x40, 0x7F] (by decide)⟩

/-- C5: in the PortSelect state, a byte `b` that is not the filler and is not
below `n_ports_in` produces exactly one invalid-port report and no delivery,
sets `in_state` to WaitMarker, and leaves `last_in_port` and every input port
(buffer, length, last command) unchanged. -/
theorem prot2_invalid_port_select (m : motu) (b : Nat)
    (hs : m.in_state = 1) (hb : m.n_ports_in ≤ (b : Int)) (hff : b ≠ 0xFF) :
    (prot2_byte m b).2 = [Event.warn_invalid_port b] ∧
    (prot2_byte m b).1.in_state = 0 ∧
    (prot2_byte m b).1.last_in_port = m.last_in_port ∧
    (prot2_byte m b).1.in_ports = m.in_ports := by
  simp [prot2_byte, prot2_case1, hs, hff, hb]

/-- Witness for C5: five input ports, port-select byte 9. -/
theorem prot2_invalid_port_select_witness :
    (prot2_byte (micro_express_open.goto 1) 9).2 = [Event.warn_invalid_port 9] ∧
    (prot2_byte (micro_express_open.goto 1) 9).1.in_state = 0 ∧
    (prot2_byte (micro_express_open.goto 1) 9).1.last_in_port =
      (micro_express_open.goto 1).last_in_port ∧
    (prot2_byte (micro_express_open.goto 1) 9).1.in_ports =
      (micro_express_open.goto 1).in_ports :=
  prot2_invalid_port_select (micro_express_open.goto 1) 9 (by decide) (by decide) (by decide)

/-- C2: from WaitMarker, a packet `[x, F5, p, s, d1 .. d(L-1)]` with `p` a
valid port that has a consumer, `s` a channel status byte of table length
`L` and `L-1` data bytes delivers exactly the message `[s, d1 .. d(L-1)]` to
port `p` and produces no other event; the decoder ends in the Data state
with port `p` selected and its buffer empty. -/
theorem prot2_decode_channel_message (m : motu) (x p s : Nat) (ds : List Nat)
    (hst : m.in_state = 0) (hlen : m.in_ports.length = 9)
    (hn : m.n_ports_in ≤ 9) (hp : (p : Int) < m.n_ports_in)
    (hbuf : (m.in_port p).buf.length = 64) (hsub : (m.in_port p).substream = true)
    (hs0 : 0x80 ≤ s) (hs1 : s ≤ 0xEF)
    (hL : get_cmd_num_bytes s = (ds.length : Int) + 1) (hd : ∀ d ∈ ds, d < 0x80) :
    (motu_midi_handle_input_prot2 m (x :: 0xF5 :: p :: s :: ds)).2 =
      [Event.receive p (s :: ds)] ∧
    (motu_midi_handle_input_prot2 m (x :: 0xF5 :: p :: s :: ds)).1.in_state = 2 ∧
    (motu_midi_handle_input_prot2 m (x :: 0xF5 :: p :: s :: ds)).1.last_in_port = p ∧
    ((motu_midi_handle_input_prot2 m (x :: 0xF5 :: p :: s :: ds)).1.in_port p).buf_len = 0 := by
  simp only [motu_midi_handle_input_prot2, List.drop_succ_cons, List.drop_zero]
  rw [prot2_bytes_cons, prot2_step_marker m hst, prot2_bytes_cons]
  obtain ⟨e, v⟩ := prot2_step_select (m.goto 1) p rfl hp (by simp [hlen]; omega) (by omega)
  have := prot2_command_message _ p s ds _ v rfl (by simpa using hbuf) hs0 hs1 hL hd
  obtain ⟨e2, ip1, v1, h1, _⟩ := this
  rw [e, e2]
  simp only [goto_in_port, hsub, if_true, List.nil_append]
  refine ⟨trivial, v1.1, v1.2.1, ?_⟩
  rw [v1.2.2.2]; exact h1

/-- Witness for C2: on the micro express, `00 F5 00 90 40 7F` delivers
`90 40 7F` to port 0. -/
theorem prot2_decode_channel_message_witness :
    (motu_midi_handle_input_prot2 micro_express_open [0, 0xF5, 0, 0x90, 0x40, 0x7F]).2 =
      [Event.receive 0 [0x90, 0x40, 0x7F]] ∧
    (motu_midi_handle_input_prot2 micro_express_open [0, 0xF5, 0, 0x90, 0x40, 0x7F]).1.in_state = 2 ∧
    (motu_midi_handle_input_prot2 micro_express_open [0, 0xF5, 0, 0x90, 0x40, 0x7F]).1.last_in_port
      = (0 : Nat) ∧
    ((motu_midi_handle_input_prot2 micro_express_open
      [0, 0xF5, 0, 0x90, 0x40, 0x7F]).1.in_port (0 : Nat)).buf_len = 0 :=
  prot2_decode_channel_message micro_express_open 0 0 0x90 [0x40, 0x7F]
    (by decide) (by decide) (by decide) (by decide) (by decide) (by decide)
    (by decide) (by decide) (by decide) (by decide)

/-- C3 (failing input): on the micro express, the packet `00 F5 00 C0 05 06`
(program change `C0 05`, then the running-status data byte `06`) delivers
only `C0 05`; the second message `C0 06` stays in the buffer with the
decoder in the FixedLen state, and the following data byte `07` is appended
to it instead of completing anything. -/
theorem prot2_running_status_two_byte_lost :
    (motu_midi_handle_input_prot2 micro_express_open [0, 0xF5, 0, 0xC0, 0x05, 0x06]).2 =
      [Event.receive 0 [0xC0, 0x05]] ∧
    (motu_midi_handle_input_prot2 micro_express_open [0, 0xF5, 0, 0xC0, 0x05, 0x06]).1.in_state = 3 ∧
    ((motu_midi_handle_input_prot2 micro_express_open
      [0, 0xF5, 0, 0xC0, 0x05, 0x06]).1.in_port 0).contents = [0xC0, 0x06] ∧
    (motu_midi_handle_input_prot2 micro_express_open [0, 0xF5, 0, 0xC0, 0x05, 0x06, 0x07]).2 =
      [Event.receive 0 [0xC0, 0x05]] ∧
    ((motu_midi_handle_input_prot2 micro_express_open
      [0, 0xF5, 0, 0xC0, 0x05, 0x06, 0x07]).1.in_port 0).contents = [0xC0, 0x06, 0x07] := by
  decide

/-- C7: protocol-2 input overflow.  From WaitMarker, a stream
`F5 p F0 d1 .. dn` with `n ≥ 64` data bytes, cut into packets in any way
(byte 0 of each packet is skipped), produces exactly one event, the overflow
report for port `p`, hence no delivery; the decoder ends in WaitMarker and
no buffer length passes 64 after any number of decoded bytes.  And in the
Data, FixedLen or SysEx state with the selected buffer holding 64 bytes, a
byte other than `0xFF` is not stored, causes exactly one overflow report and
resets the decoder to WaitMarker. -/
theorem prot2_input_overflow :
    (∀ (m : motu) (p : Nat) (ds : List Nat) (pkts : List (List Nat)),
      m.in_state = 0 → m.in_ports.length = 9 → m.n_ports_in ≤ 9 → (p : Int) < m.n_ports_in →
      (∀ j, (m.in_port j).buf_len ≤ IN_BUF_SIZE) →
      64 ≤ ds.length → (∀ d ∈ ds, d < 0x80) →
      (pkts.map (List.drop 1)).flatten = 0xF5 :: p :: 0xF0 :: ds →
      (prot2_packets m pkts).2 = [Event.warn_in_overflow p] ∧
      (prot2_packets m pkts).1.in_state = 0 ∧
      ∀ k j, ((prot2_bytes m ((0xF5 :: p :: 0xF0 :: ds).take k)).1.in_port j).buf_len
        ≤ IN_BUF_SIZE) ∧
    (∀ (m : motu) (b : Nat),
      m.in_state = 2 ∨ m.in_state = 3 ∨ m.in_state = 4 →
      (m.in_port m.last_in_port).buf_len = IN_BUF_SIZE → b ≠ 0xFF →
      (prot2_byte m b).2 = [Event.warn_in_overflow m.last_in_port] ∧
      (prot2_byte m b).1.in_state = 0 ∧
      (prot2_byte m b).1.last_in_port = m.last_in_port ∧
      ((prot2_byte m b).1.in_port m.last_in_port).buf = (m.in_port m.last_in_port).buf ∧
      ((prot2_byte m b).1.in_port m.last_in_port).buf_len = IN_BUF_SIZE) := by
  refine ⟨?_, prot2_full_step⟩
  intro m p ds pkts hst hlen hn hp hwf hds hd hpk
  refine and_assoc.mp ⟨?_, fun k j => prot2_bytes_buf_len_le _ m hwf j⟩
  rw [prot2_packets_eq_bytes, hpk]
  -- split the data into the 63 bytes that fit, the byte that overflows, the rest
  obtain ⟨ds1, d, ds2, hsplit, hl1⟩ : ∃ ds1 d ds2, ds = ds1 ++ d :: ds2 ∧ ds1.length = 63 := by
    refine ⟨ds.take 63, ds.getD 63 0, ds.drop 64, ?_, by simp; omega⟩
    have h63 : 63 < ds.length := by omega
    rw [List.getD_eq_getElem _ _ h63]
    have := List.take_append_drop 63 ds
    rw [List.drop_eq_getElem_cons h63] at this
    exact this.symm
  have hd1 : ∀ x ∈ ds1, x < 0x80 := fun x hx => hd x (by rw [hsplit]; simp [hx])
  have hdd : d < 0x80 := hd d (by rw [hsplit]; simp)
  have hd2 : ∀ x ∈ ds2, x < 0x80 := fun x hx => hd x (by rw [hsplit]; simp [hx])
  rw [prot2_bytes_cons, prot2_step_marker m hst, prot2_bytes_cons]
  obtain ⟨e1, v1⟩ := prot2_step_select (m.goto 1) p rfl hp (by simp [hlen]; omega) (by omega)
  obtain ⟨e2, v2⟩ := prot2_step_sysex_start _ p _ v1 (by simp; decide)
  obtain ⟨e3, ip3, v3, h3⟩ := prot2_sysex_fill ds1 _ p _ v2 hd1
    (by simp [in_port_store, hl1]; decide)
  rw [e1, prot2_bytes_cons, e2, hsplit, prot2_bytes_append, e3, prot2_bytes_cons]
  have hfull : IN_BUF_SIZE ≤ ((prot2_bytes (prot2_byte (prot2_byte (m.goto 1) p).1 0xF0).1 ds1).1.in_port
      (prot2_bytes (prot2_byte (prot2_byte (m.goto 1) p).1 0xF0).1 ds1).1.last_in_port).buf_len := by
    rw [v3.2.1, v3.2.2.2, h3, hl1]
    simp [in_port_store]; decide
  rw [prot2_step_overflow _ d (Or.inr v3.1) (by omega) hfull,
    prot2_idle_data ds2 _ rfl hd2, v3.2.1]
  exact ⟨rfl, rfl⟩

set_option maxRecDepth 100000 in
/-- Witness for C7: on the micro express, the stream `F5 00 F0` followed by
64 data bytes, cut into two packets; and a full buffer in the SysEx state. -/
theorem prot2_input_overflow_witness :
    ((prot2_packets micro_express_open
        [0 :: 0xF5 :: 0 :: 0xF0 :: List.replicate 10 1, 0 :: List.replicate 54 1]).2 =
        [Event.warn_in_overflow (0 : Nat)] ∧
      (prot2_packets micro_express_open
        [0 :: 0xF5 :: 0 :: 0xF0 :: List.replicate 10 1, 0 :: List.replicate 54 1]).1.in_state = 0) ∧
    (prot2_byte (prot2_bytes micro_express_open (0xF5 :: 0 :: 0xF0 :: List.replicate 63 1)).1 1).2 =
      [Event.warn_in_overflow 0] := by
  have h1 := prot2_input_overflow.1 micro_express_open 0 (List.replicate 64 1)
    [0 :: 0xF5 :: 0 :: 0xF0 :: List.replicate 10 1, 0 :: List.replicate 54 1]
    (by decide) (by decide) (by decide) (by decide)
    (fun j => (prot2_reachable_bounds _ micro_express_open_reachable j).2)
    (by decide) (by decide) (by decide)
  have h2 := prot2_input_overflow.2
    (prot2_bytes micro_express_open (0xF5 :: 0 :: 0xF0 :: List.replicate 63 1)).1 1
    (by decide) (by decide) (by decide)
  exact ⟨⟨h1.1, h1.2.1⟩, h2.1⟩

/-! ## Protocol-2 output FIFO -/

theorem fifo_set_same (m : motu) (port : Nat) (f : motufifo) (h : port < m.mfifo.length) :
    (m.set_fifo port f).fifo port = f := by
  simp [motu.fifo, motu.set_fifo, h]

@[simp] theorem set_fifo_length (m : motu) (port : Nat) (f : motufifo) :
    (m.set_fifo port f).mfifo.length = m.mfifo.length := by
  simp [motu.set_fifo]

theorem fifo_in_append (f : motufifo) (a b : List Nat) :
    fifo_in f (a ++ b) =
      if (fifo_in f a).2 then fifo_in f a else fifo_in (fifo_in f a).1 b := by
  induction a generalizing f with
  | nil => simp [fifo_in]
  | cons x a ih =>
    simp only [List.cons_append, fifo_in]
    split
    · simp
    · exact ih _

@[simp] theorem fifo_in_byte_buf_len (f : motufifo) (b : Nat) :
    (fifo_in_byte f b).buf_len = f.buf_len + 1 := by
  unfold fifo_in_byte
  dsimp only
  split_ifs <;> rfl

theorem fifo_in_fits (bs : List Nat) (f : motufifo) (h : f.buf_len + bs.length ≤ N_MBUF) :
    (fifo_in f bs).2 = false ∧ (fifo_in f bs).1.buf_len = f.buf_len + bs.length := by
  induction bs generalizing f with
  | nil => exact ⟨rfl, rfl⟩
  | cons b bs ih =>
    simp only [List.length_cons] at h
    simp only [fifo_in]
    rw [if_neg (by omega)]
    have := ih (fifo_in_byte f b) (by rw [fifo_in_byte_buf_len]; omega)
    rw [fifo_in_byte_buf_len] at this
    exact ⟨this.1, by rw [this.2]; simp only [List.length_cons]; omega⟩

theorem mfifo_in_fifo (m : motu) (port : Nat) (c : List Nat) (h : port < m.mfifo.length) :
    ((mfifo_in m port c c.length).1).fifo port = (fifo_in (m.fifo port) c).1 := by
  simp [mfifo_in, fifo_set_same m port _ h]

theorem mfifo_push_all_fits (chunks : List (List Nat)) (m : motu) (port : Nat)
    (h : port < m.mfifo.length)
    (hfit : (m.fifo port).buf_len + chunks.flatten.length ≤ N_MBUF) :
    (mfifo_push_all m port chunks).fifo port = (fifo_in (m.fifo port) chunks.flatten).1 := by
  induction chunks generalizing m with
  | nil => rfl
  | cons c cs ih =>
    simp only [List.flatten_cons, List.length_append] at hfit
    have hc := fifo_in_fits c (m.fifo port) (by omega)
    have hm := mfifo_in_fifo m port c h
    simp only [mfifo_push_all, List.foldl_cons] at ih ⊢
    rw [ih _ (by simp [mfifo_in]; exact h) (by rw [hm, hc.2]; omega)]
    rw [hm, List.flatten_cons, fifo_in_append, hc.1]
    simp

theorem fifo_in_byte_sysex_start (f : motufifo) :
    (fifo_in_byte f 0xF0).cmd_len = 0 ∧ (fifo_in_byte f 0xF0).buf_send_len = f.buf_send_len := by
  simp [fifo_in_byte]

theorem fifo_in_byte_sysex_data (f : motufifo) (d : Nat) (hd : d < 0x80) (hc : f.cmd_len = 0) :
    (fifo_in_byte f d).cmd_len = 0 ∧ (fifo_in_byte f d).buf_send_len = f.buf_send_len := by
  simp [fifo_in_byte, byte_high_clear d hd, hc]

theorem fifo_in_byte_sysex_end (f : motufifo) :
    (fifo_in_byte f 0xF7).buf_send_len = f.buf_len + 1 := by
  simp [fifo_in_byte]

theorem fifo_in_sysex_data (ds : List Nat) (f : motufifo) (hd : ∀ d ∈ ds, d < 0x80)
    (hc : f.cmd_len = 0) (hfit : f.buf_len + ds.length ≤ N_MBUF) :
    (fifo_in f ds).1.cmd_len = 0 ∧ (fifo_in f ds).1.buf_send_len = f.buf_send_len := by
  induction ds generalizing f with
  | nil => exact ⟨hc, rfl⟩
  | cons d ds ih =>
    simp only [List.length_cons] at hfit
    simp only [fifo_in]
    rw [if_neg (by omega)]
    have h1 := fifo_in_byte_sysex_data f d (hd d (by simp)) hc
    have := ih (fifo_in_byte f d) (fun x hx => hd x (by simp [hx])) h1.1
      (by rw [fifo_in_byte_buf_len]; omega)
    exact ⟨this.1, by rw [this.2, h1.2]⟩

/-- On one FIFO: the first `k` bytes of `F0 d1 .. dn F7`, pushed into a
FIFO with nothing queued, leave nothing sendable while `k < n + 2` and make
all `n + 2` bytes sendable once the `F7` is in. -/
theorem fifo_in_sysex_take (f : motufifo) (ds : List Nat) (k : Nat)
    (h0 : f.buf_len = 0) (h1 : f.buf_send_len = 0) (hn : ds.length + 2 ≤ 64)
    (hd : ∀ d ∈ ds, d < 0x80) :
    (k < ds.length + 2 → (fifo_in f ((0xF0 :: ds ++ [0xF7]).take k)).1.buf_send_len = 0) ∧
    (ds.length + 2 ≤ k →
      (fifo_in f ((0xF0 :: ds ++ [0xF7]).take k)).1.buf_send_len = ds.length + 2 ∧
      (fifo_in f ((0xF0 :: ds ++ [0xF7]).take k)).1.buf_len = ds.length + 2) := by
  have hN : N_MBUF = 64 := rfl
  cases k with
  | zero =>
    refine ⟨fun _ => by simpa [fifo_in] using h1, fun h => by omega⟩
  | succ k =>
    have hs := fifo_in_byte_sysex_start f
    have hfirst : ∀ rest, fifo_in f (0xF0 :: rest) = fifo_in (fifo_in_byte f 0xF0) rest := by
      intro rest
      simp only [fifo_in]
      rw [if_neg (by omega)]
    simp only [List.cons_append, List.take_succ_cons]
    rw [hfirst]
    constructor
    · intro hk
      have hk1 : k ≤ ds.length := by omega
      rw [List.take_append_of_le_length hk1]
      have := fifo_in_sysex_data (ds.take k) (fifo_in_byte f 0xF0)
        (fun x hx => hd x (List.mem_of_mem_take hx)) hs.1
        (by rw [fifo_in_byte_buf_len, List.length_take]; omega)
      rw [this.2, hs.2, h1]
    · intro hk
      rw [List.take_of_length_le (by simp; omega), fifo_in_append]
      have hfit := fifo_in_fits ds (fifo_in_byte f 0xF0)
        (by rw [fifo_in_byte_buf_len]; omega)
      rw [hfit.1]
      simp only [Bool.false_eq_true, if_false, fifo_in]
      rw [if_neg (by rw [hfit.2, fifo_in_byte_buf_len]; omega)]
      refine ⟨?_, ?_⟩
      · rw [fifo_in_byte_sysex_end, hfit.2, fifo_in_byte_buf_len]; omega
      · rw [fifo_in_byte_buf_len, hfit.2, fifo_in_byte_buf_len]; omega

/-- C8: a system-exclusive message becomes sendable only at its end.  For
`n + 2 ≤ 64` and data bytes `d1 .. dn`, pushing the first `k` bytes of
`F0 d1 .. dn F7` with `mfifo_in`, cut into any number of calls, into the
FIFO of a port with `buf_len = buf_send_len = 0` leaves `buf_send_len = 0`
as long as `k < n + 2` (every proper prefix), and gives
`buf_send_len = buf_len = n + 2` once the whole message is in. -/
theorem mfifo_sysex_sendable_at_end (m : motu) (port : Nat) (ds : List Nat)
    (chunks : List (List Nat)) (k : Nat)
    (hport : port < m.mfifo.length)
    (h0 : (m.fifo port).buf_len = 0) (h1 : (m.fifo port).buf_send_len = 0)
    (hn : ds.length + 2 ≤ 64) (hd : ∀ d ∈ ds, d < 0x80)
    (hc : chunks.flatten = (0xF0 :: ds ++ [0xF7]).take k) :
    (k < ds.length + 2 → ((mfifo_push_all m port chunks).fifo port).buf_send_len = 0) ∧
    (ds.length + 2 ≤ k →
      ((mfifo_push_all m port chunks).fifo port).buf_send_len = ds.length + 2 ∧
      ((mfifo_push_all m port chunks).fifo port).buf_len = ds.length + 2) := by
  have hfit : (m.fifo port).buf_len + chunks.flatten.length ≤ N_MBUF := by
    rw [hc, h0, List.length_take]
    simp only [List.cons_append, List.length_cons, List.length_append, List.length_nil]
    unfold N_MBUF
    omega
  rw [mfifo_push_all_fits chunks m port hport hfit, hc]
  exact fifo_in_sysex_take (m.fifo port) ds k h0 h1 hn hd

/-- Witness for C8: `F0 01 02 F7` pushed into the empty FIFO of port 0, in
one call and cut after the third byte. -/
theorem mfifo_sysex_sendable_at_end_witness :
    (((mfifo_push_all express_xt_open 0 [[0xF0, 0x01], [0x02]]).fifo 0).buf_send_len = 0) ∧
    (((mfifo_push_all express_xt_open 0 [[0xF0, 0x01], [0x02, 0xF7]]).fifo 0).buf_send_len = 4 ∧
      ((mfifo_push_all express_xt_open 0 [[0xF0, 0x01], [0x02, 0xF7]]).fifo 0).buf_len = 4) :=
  ⟨(mfifo_sysex_sendable_at_end express_xt_open 0 [0x01, 0x02] [[0xF0, 0x01], [0x02]] 3
      (by decide) (by decide) (by decide) (by decide) (by decide) (by decide)).1 (by decide),
    (mfifo_sysex_sendable_at_end express_xt_open 0 [0x01, 0x02] [[0xF0, 0x01], [0x02, 0xF7]] 4
      (by decide) (by decide) (by decide) (by decide) (by decide) (by decide)).2 (by decide)⟩

/-! ## Protocol-2 packer -/

theorem getD_set_same (l : List Nat) (i a d : Nat) (h : i < l.length) :
    (l.set i a).getD i d = a := by
  simp [h]

theorem getD_set_ne (l : List Nat) (i j a d : Nat) (h : i ≠ j) :
    (l.set i a).getD j d = l.getD j d := by
  simp [List.getElem?_set_ne h]

theorem pack_stable_refl (s : pack_state) : pack_stable s s :=
  ⟨Nat.le_refl _, rfl, fun _ _ => rfl⟩

theorem pack_stable_trans (a b c : pack_state) (h1 : pack_stable a b) (h2 : pack_stable b c) :
    pack_stable a c :=
  ⟨Nat.le_trans h1.1 h2.1, h2.2.1.trans h1.2.1,
    fun j hj => (h2.2.2 j (Nat.lt_of_lt_of_le hj h1.1)).trans (h1.2.2 j hj)⟩

theorem pack_stable_of_eq (s r : pack_state) (hi : s.i ≤ r.i)
    (hb : r.m.midi_out_buf = s.m.midi_out_buf) : pack_stable s r :=
  ⟨hi, by rw [hb], fun _ _ => by rw [hb]⟩

theorem pack_emit_stable (s : pack_state) (b : Nat) : pack_stable s (pack_emit s b) := by
  refine ⟨Nat.le_succ _, by simp [pack_emit], ?_⟩
  intro j hj
  simp only [pack_emit]
  exact getD_set_ne _ _ _ _ _ (by omega)

theorem pack_emit_at (s : pack_state) (b : Nat) (h : s.i < s.m.midi_out_buf.length) :
    (pack_emit s b).m.midi_out_buf.getD s.i 0 = b ∧ (pack_emit s b).i = s.i + 1 :=
  ⟨getD_set_same _ _ _ _ h, rfl⟩

theorem pack_stop_stable (s : pack_state) : pack_stable s (pack_stop s).1 :=
  pack_stable_of_eq _ _ (Nat.le_refl _) rfl

theorem pack_fill_stable (n : Nat) (s : pack_state) : pack_stable s (pack_fill n s).1 := by
  induction n generalizing s with
  | zero => exact pack_stable_refl s
  | succ n ih =>
    simp only [pack_fill]
    split_ifs
    · exact pack_stop_stable s
    · refine pack_stable_trans _ _ _ ?_ (ih _)
      exact pack_stable_trans _ _ _ (pack_emit_stable s 0xFF)
        (pack_stable_of_eq _ _ (Nat.le_refl _) rfl)
    · exact pack_stable_refl s

theorem pack_switch_stable (s : pack_state) (p : Nat) : pack_stable s (pack_switch s p) := by
  refine pack_stable_trans _ _ _ (pack_emit_stable s 0xF5) ?_
  refine pack_stable_trans _ _ _ (pack_emit_stable _ p) ?_
  exact pack_stable_of_eq _ _ (Nat.le_refl _) rfl

theorem pack_marker_stable (s : pack_state) (p : Nat) : pack_stable s (pack_marker s p).1 := by
  unfold pack_marker
  by_cases h : s.i + 3 ≥ BUFSIZE
  · rw [if_pos h]; exact pack_stop_stable s
  · rw [if_neg h]
    dsimp only
    split_ifs
    · refine pack_stable_trans _ _ _ (pack_switch_stable s p) ?_
      refine pack_stable_trans _ _ _
        (pack_emit_stable _ ((pack_switch s p).m.fifo p).last_cmd) ?_
      exact pack_stable_of_eq _ _ (Nat.le_refl _) rfl
    · exact pack_switch_stable s p

theorem pack_data_stable (s : pack_state) (p : Nat) : pack_stable s (pack_data s p).1 := by
  unfold pack_data
  split_ifs
  · exact pack_stop_stable s
  · dsimp only
    refine pack_stable_trans _ (pack_emit s ((s.m.fifo p).mbuf.getD (s.m.fifo p).p_out 0)) _
      (pack_emit_stable s _) ?_
    exact pack_stable_of_eq _ _ (Nat.le_refl _) rfl

theorem pack_trailer_stable (s : pack_state) : pack_stable s (pack_trailer s).1 := by
  unfold pack_trailer
  split_ifs
  · exact pack_stop_stable s
  · refine pack_stable_trans _ _ _ (pack_emit_stable s 1) ?_
    refine pack_stable_trans _ _ _ (pack_emit_stable _ 0) ?_
    exact pack_stable_of_eq _ _ (Nat.le_refl _) rfl
  · exact pack_stable_refl s

theorem pack_branch_stable (s : pack_state) (p : Nat) :
    pack_stable s (pack_branch s p).1 := by
  unfold pack_branch
  split_ifs
  · exact pack_marker_stable s p
  · exact pack_fill_stable 12 s
  · exact pack_data_stable s p

theorem pack_iter_stable (s : pack_state) (p : Nat) : pack_stable s (pack_iter s p).1 := by
  unfold pack_iter
  dsimp only
  by_cases h : (pack_branch s p).2 = true
  · rw [if_pos h]; exact pack_branch_stable s p
  · rw [if_neg h]
    exact pack_stable_trans _ _ _ (pack_branch_stable s p) (pack_trailer_stable _)

theorem pack_port_stable (fuel : Nat) :
    ∀ (s : pack_state) (p : Nat) (r : pack_state × Bool),
      pack_port fuel s p = some r → pack_stable s r.1 := by
  induction fuel with
  | zero => intro s p r h; simp [pack_port] at h
  | succ n ih =>
    intro s p r h
    simp only [pack_port] at h
    split_ifs at h with h1 h2
    · cases h; exact pack_iter_stable s p
    · exact pack_stable_trans _ _ _ (pack_iter_stable s p) (ih _ _ _ h)
    · cases h; exact pack_stable_refl s

theorem pack_ports_stable (ps : List Nat) :
    ∀ (s : pack_state) (r : pack_state × Bool),
      pack_ports ps s = some r → pack_stable s r.1 := by
  induction ps with
  | nil => intro s r h; simp only [pack_ports] at h; cases h; exact pack_stable_refl s
  | cons p ps ih =>
    intro s r h
    simp only [pack_ports] at h
    cases hp : pack_port PACK_FUEL s p with
    | none => rw [hp] at h; simp at h
    | some r1 =>
      rw [hp] at h
      have h1 := pack_port_stable _ _ _ _ hp
      simp only at h
      split_ifs at h
      · cases h; exact h1
      · exact pack_stable_trans _ _ _ h1 (ih _ _ h)

theorem pack_fill_rest_stable (n : Nat) (s : pack_state) :
    pack_stable s (pack_fill_rest n s) := by
  induction n generalizing s with
  | zero => exact pack_stable_refl s
  | succ n ih =>
    simp only [pack_fill_rest]
    split_ifs
    · refine pack_stable_trans _ _ _ ?_ (ih _)
      exact pack_stable_trans _ _ _ (pack_emit_stable s 0xFF)
        (pack_stable_of_eq _ _ (Nat.le_refl _) rfl)
    · exact pack_stable_refl s

theorem pack_close_stable (s : pack_state) : pack_stable s (pack_close s) := by
  unfold pack_close
  dsimp only
  by_cases hk : s.k ≠ 0
  · rw [if_pos hk]
    by_cases hi : (pack_fill_rest 12 s).i + 2 ≤ BUFSIZE
    · rw [if_pos hi]
      exact pack_stable_trans _ _ _ (pack_fill_rest_stable 12 s)
        (pack_stable_trans _ _ _ (pack_emit_stable _ 1) (pack_emit_stable _ 0))
    · rw [if_neg hi]; exact pack_fill_rest_stable 12 s
  · rw [if_neg hk]; exact pack_stable_refl s

theorem pack_submit_buf (s : pack_state) (submit_ret : Int) :
    (pack_submit s submit_ret).1.midi_out_buf = s.m.midi_out_buf := by
  unfold pack_submit
  dsimp only
  split_ifs <;> rfl

theorem pack_send_stable (s : pack_state) (submit_ret : Int) (j : Nat) (hj : j < s.i) :
    (pack_send s submit_ret).1.midi_out_buf.getD j 0 = s.m.midi_out_buf.getD j 0 := by
  unfold pack_send
  rw [if_pos (by omega), pack_submit_buf]
  exact (pack_close_stable s).2.2 j hj

theorem pack_switch_emits (s : pack_state) (p : Nat)
    (hlen : s.m.midi_out_buf.length = BUFSIZE) (hi : s.i + 3 < BUFSIZE) :
    (pack_switch s p).m.midi_out_buf.getD s.i 0 = 0xF5 ∧
    (pack_switch s p).m.midi_out_buf.getD (s.i + 1) 0 = p ∧
    (pack_switch s p).m.last_out_port = p ∧ (pack_switch s p).i = s.i + 2 ∧
    (pack_switch s p).m.midi_out_buf.length = BUFSIZE ∧
    (pack_switch s p).m.fifo p = s.m.fifo p := by
  refine ⟨?_, ?_, rfl, rfl, by simp [pack_switch, pack_emit, hlen], rfl⟩
  · simp only [pack_switch, pack_emit]
    rw [getD_set_ne _ _ _ _ _ (by omega), getD_set_same _ _ _ _ (by omega)]
  · simp only [pack_switch, pack_emit]
    rw [getD_set_same _ _ _ _ (by simp; omega)]

theorem pack_marker_emits (s : pack_state) (p : Nat)
    (hlen : s.m.midi_out_buf.length = BUFSIZE) (hi : s.i + 3 < BUFSIZE) :
    (pack_marker s p).2 = false ∧
    (pack_marker s p).1.m.midi_out_buf.getD s.i 0 = 0xF5 ∧
    (pack_marker s p).1.m.midi_out_buf.getD (s.i + 1) 0 = p ∧
    (pack_marker s p).1.m.last_out_port = p ∧
    s.i + 2 ≤ (pack_marker s p).1.i ∧
    ((s.m.fifo p).mbuf.getD (s.m.fifo p).p_out 0 &&& 0x80 = 0 →
      (pack_marker s p).1.m.midi_out_buf.getD (s.i + 2) 0 = (s.m.fifo p).last_cmd ∧
      (pack_marker s p).1.i = s.i + 3) := by
  obtain ⟨h1, h2, h3, h4, h5, h6⟩ := pack_switch_emits s p hlen hi
  unfold pack_marker
  rw [if_neg (by omega)]
  dsimp only
  rw [h6]
  by_cases hd : (s.m.fifo p).mbuf.getD (s.m.fifo p).p_out 0 &&& 0x80 = 0
  · rw [if_pos hd]
    have hst := pack_emit_stable (pack_switch s p) (s.m.fifo p).last_cmd
    have hat := pack_emit_at (pack_switch s p) (s.m.fifo p).last_cmd (by rw [h5, h4]; omega)
    refine ⟨rfl, ?_, ?_, h3, ?_, fun _ => ⟨?_, ?_⟩⟩
    · exact (hst.2.2 s.i (by rw [h4]; omega)).trans h1
    · exact (hst.2.2 (s.i + 1) (by rw [h4]; omega)).trans h2
    · show s.i + 2 ≤ (pack_emit (pack_switch s p) (s.m.fifo p).last_cmd).i
      rw [hat.2, h4]; omega
    · have := hat.1
      rw [h4] at this
      exact this
    · show (pack_emit (pack_switch s p) (s.m.fifo p).last_cmd).i = s.i + 3
      rw [hat.2, h4]
  · rw [if_neg hd]
    exact ⟨rfl, h1, h2, h3, by rw [h4], fun h => absurd h hd⟩

theorem pack_trailer_last_out_port (s : pack_state) :
    (pack_trailer s).1.m.last_out_port = s.m.last_out_port := by
  unfold pack_trailer
  split_ifs <;> rfl

/-- C10: running-status priming after a port switch.  In every iteration of
the packing loop that takes the switch branch (`p != last_out_port`,
`k < 10`), for every FIFO state, write index and `last_out_port`: without
room (`i + 3 >= 128`) nothing is written and the loop is left; otherwise the
bytes `F5`, `p` are written at `i`, `i + 1`, and when the byte at the read
cursor of the FIFO of `p` has its high bit clear the byte at `i + 2 < 128` is
the stored `last_cmd` of `p`.  Nothing that follows in the invocation (later
iterations, later ports, the closing filler and trailer, the submission)
changes a byte below the write index, so these bytes are the ones
submitted. -/
theorem pack_marker_priming :
    (∀ (s : pack_state) (p : Nat),
      (p : Int) ≠ s.m.last_out_port → s.k < 10 → s.m.midi_out_buf.length = BUFSIZE →
      (BUFSIZE ≤ s.i + 3 →
        (pack_iter s p).2 = true ∧ (pack_iter s p).1.i = s.i ∧
        (pack_iter s p).1.m.midi_out_buf = s.m.midi_out_buf ∧
        (pack_iter s p).1.m.last_out_port = s.m.last_out_port) ∧
      (s.i + 3 < BUFSIZE →
        (pack_iter s p).1.m.midi_out_buf.getD s.i 0 = 0xF5 ∧
        (pack_iter s p).1.m.midi_out_buf.getD (s.i + 1) 0 = p ∧
        (pack_iter s p).1.m.last_out_port = p ∧
        ((s.m.fifo p).mbuf.getD (s.m.fifo p).p_out 0 &&& 0x80 = 0 →
          (pack_iter s p).1.m.midi_out_buf.getD (s.i + 2) 0 = (s.m.fifo p).last_cmd ∧
          s.i + 2 < BUFSIZE ∧ s.i + 3 ≤ (pack_iter s p).1.i))) ∧
    (∀ (s : pack_state) (p : Nat), pack_stable s (pack_iter s p).1) ∧
    (∀ (fuel : Nat) (s : pack_state) (p : Nat) (r : pack_state × Bool),
      pack_port fuel s p = some r → pack_stable s r.1) ∧
    (∀ (ps : List Nat) (s : pack_state) (r : pack_state × Bool),
      pack_ports ps s = some r → pack_stable s r.1) ∧
    (∀ (s : pack_state) (ret : Int) (j : Nat), j < s.i →
      (pack_send s ret).1.midi_out_buf.getD j 0 = s.m.midi_out_buf.getD j 0) := by
  refine ⟨?_, pack_iter_stable, pack_port_stable, pack_ports_stable, pack_send_stable⟩
  intro s p hp hk hlen
  have hb : pack_branch s p = pack_marker s p := by
    unfold pack_branch
    rw [if_pos hp, if_pos hk]
  constructor
  · intro hfull
    have hm : pack_marker s p = pack_stop s := by
      unfold pack_marker
      rw [if_pos hfull]
    unfold pack_iter
    dsimp only
    rw [hb, hm]
    exact ⟨rfl, rfl, rfl, rfl⟩
  · intro hroom
    obtain ⟨h0, h1, h2, h3, h4, h5⟩ := pack_marker_emits s p hlen hroom
    have hi : pack_iter s p = pack_trailer (pack_marker s p).1 := by
      unfold pack_iter
      dsimp only
      rw [hb, h0]
      rfl
    rw [hi]
    have hst := pack_trailer_stable (pack_marker s p).1
    refine ⟨?_, ?_, ?_, ?_⟩
    · exact (hst.2.2 s.i (by omega)).trans h1
    · exact (hst.2.2 (s.i + 1) (by omega)).trans h2
    · rw [pack_trailer_last_out_port]; exact h3
    · intro hd
      obtain ⟨h6, h7⟩ := h5 hd
      refine ⟨(hst.2.2 (s.i + 2) (by omega)).trans h6, by omega, ?_⟩
      have := hst.1
      omega

set_option maxRecDepth 100000 in
/-- Witness for C10: port 1 of the express XT holds the running-status group
`40 7F` with `last_cmd = 90`; the first iteration for port 1 writes
`F5 01 90`. -/
theorem pack_marker_priming_witness :
    (pack_iter pack_start_running 1).1.m.midi_out_buf.getD 0 0 = 0xF5 ∧
    (pack_iter pack_start_running 1).1.m.midi_out_buf.getD 1 0 = 1 ∧
    (pack_iter pack_start_running 1).1.m.midi_out_buf.getD 2 0 = 0x90 :=
  ⟨((pack_marker_priming.1 pack_start_running 1 (by decide) (by decide) (by decide)).2
      (by decide)).1,
    ((pack_marker_priming.1 pack_start_running 1 (by decide) (by decide) (by decide)).2
      (by decide)).2.1,
    (((pack_marker_priming.1 pack_start_running 1 (by decide) (by decide) (by decide)).2
      (by decide)).2.2.2 (by decide)).1⟩

set_option maxRecDepth 100000 in
/-- C9 (failing input): on the express XT with a producer on each of the 9
output ports, every producer hands over one note-on.  The packer takes all
27 bytes out of the FIFOs and assembles 70 bytes (five 14-byte groups), but
submits only 4 sub-frame descriptors, which cover the bytes 0 .. 55: the
message of port 8, at the offsets 58 .. 60, is in no sub-frame. -/
theorem send_prot2_drops_fifth_group :
    (motu_midi_send_prot2 express_xt_ready tx_note_on 0).map (fun r => r.2) =
      some [Event.submit_iso
        [0xF5, 0, 0x90, 0x40, 0x7F, 0xF5, 1, 0x90, 0x40, 0x7F, 0xFF, 0xFF, 1, 0,
         0xF5, 2, 0x90, 0x40, 0x7F, 0xF5, 3, 0x90, 0x40, 0x7F, 0xFF, 0xFF, 1, 0,
         0xF5, 4, 0x90, 0x40, 0x7F, 0xF5, 5, 0x90, 0x40, 0x7F, 0xFF, 0xFF, 1, 0,
         0xF5, 6, 0x90, 0x40, 0x7F, 0xF5, 7, 0x90, 0x40, 0x7F, 0xFF, 0xFF, 1, 0,
         0xF5, 8, 0x90, 0x40, 0x7F, 0xFF, 0xFF, 0xFF, 0xFF, 0xFF, 0xFF, 0xFF, 1, 0]
        [{ offset := 0, length := 14, status := 0 }, { offset := 14, length := 14, status := 0 },
         { offset := 28, length := 14, status := 0 }, { offset := 42, length := 14, status := 0 }]] ∧
    (motu_midi_send_prot2 express_xt_ready tx_note_on 0).map
        (fun r => (List.range 9).map (fun p => (r.1.fifo p).buf_len)) =
      some [0, 0, 0, 0, 0, 0, 0, 0, 0] := by
  decide

/-! ## Input buffers: the invariant of both decoders -/

theorem append_byte_fields (ip : motu_in_port) (b : Nat) :
    (in_port_append_byte ip b).buf_send_len = ip.buf_send_len ∧
    (in_port_append_byte ip b).last_cmd = ip.last_cmd ∧
    (in_port_append_byte ip b).cmd_bytes_remaining = ip.cmd_bytes_remaining ∧
    (in_port_append_byte ip b).substream = ip.substream ∧
    (in_port_append_byte ip b).buf.length = ip.buf.length ∧
    ip.buf_len ≤ (in_port_append_byte ip b).buf_len ∧
    (ip.buf_len ≤ IN_BUF_SIZE → (in_port_append_byte ip b).buf_len ≤ IN_BUF_SIZE) := by
  unfold in_port_append_byte
  split_ifs with h
  · refine ⟨rfl, rfl, rfl, rfl, by simp, Nat.le_succ _, fun _ => h⟩
  · exact ⟨rfl, rfl, rfl, rfl, rfl, Nat.le_refl _, fun h => h⟩

theorem write_single_bounded (ip : motu_in_port) (b : Nat) (h : ip.bounded) :
    (write_single ip b).bounded := by
  have a := append_byte_fields { ip with last_cmd := 0, cmd_bytes_remaining := 0 } b
  exact ⟨Nat.le_refl _, a.2.2.2.2.2.2 h.2⟩

theorem write_command_bounded (ip : motu_in_port) (b : Nat) (n : Int) (h : ip.bounded) :
    (write_command ip b n).bounded := by
  have a := append_byte_fields
    { ip with last_cmd := b, cmd_bytes_remaining := toU8 n, buf_send_len := ip.buf_len } b
  unfold write_command motu_in_port.bounded
  exact ⟨by rw [a.1]; exact a.2.2.2.2.2.1, a.2.2.2.2.2.2 h.2⟩

theorem write_prime_bounded (ip : motu_in_port) (h : ip.bounded) :
    (write_prime ip).bounded := by
  unfold write_prime
  split_ifs
  · have a := append_byte_fields { ip with buf_send_len := ip.buf_len } ip.last_cmd
    exact ⟨by
      show (in_port_append_byte { ip with buf_send_len := ip.buf_len } ip.last_cmd).buf_send_len
        ≤ (in_port_append_byte { ip with buf_send_len := ip.buf_len } ip.last_cmd).buf_len
      rw [a.1]; exact a.2.2.2.2.2.1, a.2.2.2.2.2.2 h.2⟩
  · exact h

theorem write_running_bounded (ip : motu_in_port) (b : Nat) (h : ip.bounded) :
    (write_running ip b).bounded := by
  have hp := write_prime_bounded ip h
  have a := append_byte_fields
    { (write_prime ip) with cmd_bytes_remaining := toU8 (((write_prime ip).cmd_bytes_remaining : Int) - 1) } b
  unfold write_running
  dsimp only
  split_ifs
  · exact ⟨Nat.le_refl _, a.2.2.2.2.2.2 hp.2⟩
  · exact ⟨by rw [a.1]; exact Nat.le_trans hp.1 a.2.2.2.2.2.1, a.2.2.2.2.2.2 hp.2⟩

theorem write_plain_bounded (ip : motu_in_port) (b : Nat) (h : ip.bounded) :
    (write_plain ip b).bounded :=
  ⟨Nat.le_refl _, (append_byte_fields ip b).2.2.2.2.2.2 h.2⟩

theorem write_byte_bounded (ip : motu_in_port) (b : Nat) (h : ip.bounded) :
    (in_port_write_byte ip b).bounded := by
  unfold in_port_write_byte
  dsimp only
  split_ifs
  · exact write_single_bounded ip b h
  · exact write_command_bounded ip b _ h
  · exact write_running_bounded ip b h
  · exact write_plain_bounded ip b h

theorem toU32_sub (a b : Nat) (h : b ≤ a) (ha : a < 4294967296) :
    toU32 ((a : Int) - (b : Int)) = a - b := by
  unfold toU32
  have h1 : (0 : Int) ≤ (a : Int) - b := by omega
  rw [Int.emod_eq_of_lt h1 (by omega)]
  omega

theorem flush_bounded (ip : motu_in_port) (h : ip.bounded) : (in_port_flush ip).bounded := by
  obtain ⟨h1, h2⟩ := h
  unfold in_port_flush
  by_cases h0 : ip.buf_send_len = 0
  · rw [if_pos h0]; exact ⟨h1, h2⟩
  · rw [if_neg h0]
    unfold motu_in_port.bounded
    dsimp only
    rw [toU32_sub _ _ h1 (by unfold IN_BUF_SIZE at h2; omega)]
    exact ⟨Nat.zero_le _, by omega⟩

theorem blank_in_port_bounded : blank_in_port.bounded := by
  unfold motu_in_port.bounded blank_in_port IN_BUF_SIZE
  exact ⟨Nat.le_refl _, by decide⟩

theorem prot1_byte_bounded (m : motu) (sc : prot1_scan) (b : Nat)
    (hm : ∀ j, (m.in_port j).bounded) : ∀ j, ((prot1_byte (m, sc) b).1.in_port j).bounded := by
  unfold prot1_byte
  dsimp only
  by_cases hd : sc.in_data = true
  · rw [if_pos hd]
    dsimp only
    cases (prot1_find_port 8 sc.mask sc.chan).1 with
    | none => exact hm
    | some c =>
      exact in_port_set_pred motu_in_port.bounded m _ _ (write_byte_bounded _ b (hm _)) hm
  · rw [if_neg hd]; exact hm

theorem prot1_deliver_bounded (m : motu) (ev : List Event) (p : Nat)
    (hm : ∀ j, (m.in_port j).bounded) :
    ∀ j, ((prot1_deliver (m, ev) p).1.in_port j).bounded := by
  unfold prot1_deliver
  dsimp only
  by_cases h : motu_in_port_get_buf_size m p > 0
  · rw [if_pos h]
    exact in_port_set_pred motu_in_port.bounded m _ _ (flush_bounded _ (hm _)) hm
  · rw [if_neg h]; exact hm

theorem prot1_reachable_bounded (m : motu) (h : prot1_reachable m) :
    ∀ j, (m.in_port j).bounded := by
  induction h with
  | probe n_in n_out =>
    intro j; rw [probe_state_in_port]; exact blank_in_port_bounded
  | trigger m number up _ ih =>
    intro j
    rcases trigger_in_port m number up j with h | h <;> rw [h]
    · exact ih j
    · exact ih number
  | out_trigger m number up _ ih => exact ih
  | scan m sc b _ ih => exact prot1_byte_bounded m sc b ih
  | deliver m ev p _ ih => exact prot1_deliver_bounded m ev p ih

theorem prot1_scan_reachable (bs : List Nat) (m : motu) (sc : prot1_scan)
    (h : prot1_reachable m) : prot1_reachable (bs.foldl prot1_byte (m, sc)).1 := by
  induction bs generalizing m sc with
  | nil => exact h
  | cons b bs ih =>
    simp only [List.foldl_cons]
    exact ih _ _ (prot1_reachable.scan m sc b h)

theorem prot1_deliver_reachable (ps : List Nat) (m : motu) (ev : List Event)
    (h : prot1_reachable m) : prot1_reachable (ps.foldl prot1_deliver (m, ev)).1 := by
  induction ps generalizing m ev with
  | nil => exact h
  | cons p ps ih =>
    simp only [List.foldl_cons]
    exact ih _ _ (prot1_reachable.deliver m ev p h)

theorem prot1_packet_reachable (m : motu) (pkt : List Nat) (h : prot1_reachable m) :
    prot1_reachable (motu_midi_handle_input_prot1 m pkt).1 := by
  unfold motu_midi_handle_input_prot1
  split_ifs
  · exact h
  · exact prot1_deliver_reachable _ _ _ (prot1_scan_reachable _ _ _ h)

/-- C6: the input-buffer invariant.  Every state reached from the probed
driver record (all input buffers empty) by (de)registering consumers and by
the steps of the session's decoder satisfies
`buf_send_len ≤ buf_len ≤ 64` on every input port: for protocol 1 after
every iteration of the scanning loop and after every iteration of the
deliver-and-flush loop, for protocol 2 after every decoded byte.  The
decoding of whole packets, and of every part of a packet, stays inside these
states. -/
theorem in_port_bounds_invariant :
    (∀ m : motu, prot1_reachable m →
      ∀ j, (m.in_port j).buf_send_len ≤ (m.in_port j).buf_len ∧
        (m.in_port j).buf_len ≤ 64) ∧
    (∀ m : motu, prot2_reachable m →
      ∀ j, (m.in_port j).buf_send_len ≤ (m.in_port j).buf_len ∧
        (m.in_port j).buf_len ≤ 64) ∧
    (∀ (m : motu) (pkt : List Nat), prot1_reachable m →
      prot1_reachable (motu_midi_handle_input_prot1 m pkt).1 ∧
      (∀ k, prot1_reachable (prot1_scan_packet m (pkt.take k)).1) ∧
      (∀ k, prot1_reachable
        ((List.range k).foldl prot1_deliver ((prot1_scan_packet m pkt).1, [])).1)) ∧
    (∀ (m : motu) (pkt : List Nat), prot2_reachable m →
      prot2_reachable (motu_midi_handle_input_prot2 m pkt).1 ∧
      (∀ k, prot2_reachable (motu_midi_handle_input_prot2 m (pkt.take k)).1)) := by
  refine ⟨fun m h j => prot1_reachable_bounded m h j, ?_, ?_, ?_⟩
  · intro m h j
    have := prot2_reachable_bounds m h j
    exact ⟨by rw [this.1]; exact Nat.zero_le _, this.2⟩
  · intro m pkt h
    refine ⟨prot1_packet_reachable m pkt h, fun k => prot1_scan_reachable _ _ _ h, fun k => ?_⟩
    exact prot1_deliver_reachable _ _ _ (prot1_scan_reachable _ _ _ h)
  · intro m pkt h
    exact ⟨prot2_packet_reachable m pkt h, fun k => prot2_packet_reachable m _ h⟩

theorem express_128_open_reachable : prot1_reachable express_128_open := by
  unfold express_128_open
  simp only [List.range, List.range.loop, List.foldl]
  repeat (apply prot1_reachable.out_trigger; apply prot1_reachable.trigger)
  exact prot1_reachable.probe 8 8

/-- Witness for C6: the express 128 after decoding the protocol-1 packet
`00 00 01 90 01 40 01 7F 00 00`, and the micro express after decoding the
protocol-2 packet `00 F5 00 90 40`. -/
theorem in_port_bounds_invariant_witness :
    (((motu_midi_handle_input_prot1 express_128_open
        [0, 0, 1, 0x90, 1, 0x40, 1, 0x7F, 0, 0]).1.in_port 0).buf_send_len ≤
      ((motu_midi_handle_input_prot1 express_128_open
        [0, 0, 1, 0x90, 1, 0x40, 1, 0x7F, 0, 0]).1.in_port 0).buf_len ∧
     ((motu_midi_handle_input_prot1 express_128_open
        [0, 0, 1, 0x90, 1, 0x40, 1, 0x7F, 0, 0]).1.in_port 0).buf_len ≤ 64) ∧
    (((motu_midi_handle_input_prot2 micro_express_open [0, 0xF5, 0, 0x90, 0x40]).1.in_port 0).buf_send_len
      ≤ ((motu_midi_handle_input_prot2 micro_express_open [0, 0xF5, 0, 0x90, 0x40]).1.in_port 0).buf_len ∧
     ((motu_midi_handle_input_prot2 micro_express_open [0, 0xF5, 0, 0x90, 0x40]).1.in_port 0).buf_len
      ≤ 64) :=
  ⟨in_port_bounds_invariant.1 _
      (in_port_bounds_invariant.2.2.1 express_128_open [0, 0, 1, 0x90, 1, 0x40, 1, 0x7F, 0, 0]
        express_128_open_reachable).1 0,
    in_port_bounds_invariant.2.1 _
      (in_port_bounds_invariant.2.2.2 micro_express_open [0, 0xF5, 0, 0x90, 0x40]
        micro_express_open_reachable).1 0⟩

/-! ## Protocol-1 loop-back -/

set_option maxRecDepth 100000 in
/-- C1 (failing input): the note-on `90 40 7F` followed by the
system-exclusive message `F0 01 F7` is a sequence of complete valid MIDI
messages without running status, so it should come back unchanged; the
loop-back on the express 128 delivers `90 40 7F 90 F0 01 F7` to port 0: the
decoder takes `F0` and `01` for data bytes under the stored status `90` and
puts the status byte in front of them.  The protocol-2 decoder, given the
same two messages for port 0, delivers them as they are.  A second input:
in `90 40 7F F8 41 7F` the timing clock `F8` leaves the running status of
the note-on in force, so `90 40 7F F8 90 41 7F` should come back; the
loop-back delivers `90 40 7F F8 41 7F`, without the implied status byte. -/
theorem prot1_loopback_sysex_counterexample :
    midi_valid none [midi_msg.chan 0x90 [0x40, 0x7F], midi_msg.sysex [0x01]] = true ∧
    sent [pull_port0 [0x90, 0x40, 0x7F], pull_port0 [0xF0, 0x01, 0xF7]] 0 =
      wire_bytes [midi_msg.chan 0x90 [0x40, 0x7F], midi_msg.sysex [0x01]] ∧
    explicit_bytes [midi_msg.chan 0x90 [0x40, 0x7F], midi_msg.sysex [0x01]] =
      [0x90, 0x40, 0x7F, 0xF0, 0x01, 0xF7] ∧
    received (prot1_loopback express_128_open
        [pull_port0 [0x90, 0x40, 0x7F], pull_port0 [0xF0, 0x01, 0xF7]]).2 0 =
      [0x90, 0x40, 0x7F, 0x90, 0xF0, 0x01, 0xF7] ∧
    received (prot1_loopback express_128_open
        [pull_port0 [0x90, 0x40, 0x7F], pull_port0 [0xF0, 0x01, 0xF7]]).2 0 ≠
      explicit_bytes [midi_msg.chan 0x90 [0x40, 0x7F], midi_msg.sysex [0x01]] ∧
    (motu_midi_handle_input_prot2 micro_express_open
        [0, 0xF5, 0, 0x90, 0x40, 0x7F, 0xF0, 0x01, 0xF7]).2 =
      [Event.receive 0 [0x90, 0x40, 0x7F], Event.receive 0 [0xF0, 0x01, 0xF7]] ∧
    midi_valid none [midi_msg.chan 0x90 [0x40, 0x7F], midi_msg.sys 0xF8 [],
      midi_msg.run 0x90 [0x41, 0x7F]] = true ∧
    sent [pull_port0 [0x90, 0x40, 0x7F], pull_port0 [0xF8, 0x41, 0x7F]] 0 =
      wire_bytes [midi_msg.chan 0x90 [0x40, 0x7F], midi_msg.sys 0xF8 [],
        midi_msg.run 0x90 [0x41, 0x7F]] ∧
    explicit_bytes [midi_msg.chan 0x90 [0x40, 0x7F], midi_msg.sys 0xF8 [],
      midi_msg.run 0x90 [0x41, 0x7F]] = [0x90, 0x40, 0x7F, 0xF8, 0x90, 0x41, 0x7F] ∧
    received (prot1_loopback express_128_open
        [pull_port0 [0x90, 0x40, 0x7F], pull_port0 [0xF8, 0x41, 0x7F]]).2 0 =
      [0x90, 0x40, 0x7F, 0xF8, 0x41, 0x7F] := by
  decide

/-! ### The command-length table on the bytes of MIDI messages -/

set_option maxRecDepth 8000 in
theorem get_cmd_data (d : Nat) (h : d < 0x80) : get_cmd_num_bytes d = -1 := by
  unfold get_cmd_num_bytes
  rw [if_neg (by omega), if_neg (by omega)]

set_option maxRecDepth 8000 in
theorem get_cmd_channel (s : Nat) (h0 : 0x80 ≤ s) (h1 : s ≤ 0xEF) :
    get_cmd_num_bytes s = (midi_channel_length s : Int) := by
  have key : ∀ c, c < 0xF0 → 0x80 ≤ c →
      get_cmd_num_bytes c = (midi_channel_length c : Int) := by decide
  exact key s (by omega) h0

theorem get_cmd_values (b : Nat) :
    get_cmd_num_bytes b = -1 ∨ get_cmd_num_bytes b = 1 ∨ get_cmd_num_bytes b = 2 ∨
      get_cmd_num_bytes b = 3 := by
  unfold get_cmd_num_bytes
  split_ifs with h1 h2
  · have e : b &&& 0x0f = b % 16 := Nat.and_pow_two_sub_one_eq_mod b 4
    rw [e]
    have hlt : b % 16 < 16 := Nat.mod_lt _ (by decide)
    generalize b % 16 = r at hlt
    interval_cases r <;> simp [fx_bytes_tab]
  · have e : b >>> 4 = b / 16 := Nat.shiftRight_eq_div_pow b 4
    rw [e]
    have hlt : b / 16 - 8 < 7 := by omega
    generalize b / 16 - 8 = r at hlt
    interval_cases r <;> simp [num_bytes_tab]
  · exact Or.inl rfl

/-! ### The assembly automaton -/

theorem aport_write_single (a : aport) (b : Nat) (h : get_cmd_num_bytes b = 1) :
    a.write b = { last_cmd := 0, cbr := 0, out := a.out ++ [b], sendable := a.out.length + 1 } := by
  unfold aport.write
  simp [h]

theorem aport_write_command (a : aport) (b : Nat)
    (h : get_cmd_num_bytes b = 2 ∨ get_cmd_num_bytes b = 3) :
    a.write b = { last_cmd := b, cbr := toU8 (get_cmd_num_bytes b - 1), out := a.out ++ [b],
                  sendable := a.out.length } := by
  unfold aport.write
  rcases h with h | h <;> simp [h]

theorem aport_write_plain (a : aport) (b : Nat) (h : get_cmd_num_bytes b = -1)
    (hl : a.last_cmd = 0) :
    a.write b = { a with out := a.out ++ [b], sendable := a.out.length + 1 } := by
  unfold aport.write
  simp [h, hl]

theorem aport_write_prime (a : aport) (b : Nat) (h : get_cmd_num_bytes b = -1)
    (hl : a.last_cmd > 0) (hc : a.cbr = 0) :
    a.write b =
      { a with cbr := toU8 ((toU8 (get_cmd_num_bytes a.last_cmd - 1) : Int) - 1),
               out := a.out ++ [a.last_cmd, b],
               sendable := if toU8 ((toU8 (get_cmd_num_bytes a.last_cmd - 1) : Int) - 1) = 0
                 then a.out.length + 2 else a.out.length } := by
  unfold aport.write
  simp [h, hl, hc]

theorem aport_write_next (a : aport) (b : Nat) (h : get_cmd_num_bytes b = -1)
    (hl : a.last_cmd > 0) (hc : a.cbr > 0) :
    a.write b =
      { a with cbr := toU8 ((a.cbr : Int) - 1), out := a.out ++ [b],
               sendable := if toU8 ((a.cbr : Int) - 1) = 0 then a.out.length + 1
                 else a.sendable } := by
  unfold aport.write
  have : ¬ a.cbr ≤ 0 := by omega
  simp [h, hl, this]

theorem toU8_pred (n : Nat) (h0 : 0 < n) (h1 : n ≤ 256) : toU8 ((n : Int) - 1) = n - 1 := by
  have := toU8_small ((n : Int) - 1) (by omega) (by omega)
  omega

theorem toU8_two : toU8 (2 - 1) = 1 := by decide

theorem toU8_three : toU8 (3 - 1) = 2 := by decide

theorem toU8_lit0 : toU8 0 = 0 := by decide

theorem toU8_lit1 : toU8 1 = 1 := by decide

theorem toU8_lit2 : toU8 2 = 2 := by decide

theorem aport_write_ok (a : aport) (b : Nat) (h : a.ok) : (a.write b).ok := by
  obtain ⟨h1, h2, h3, h4⟩ := h
  rcases get_cmd_values b with hb | hb | hb | hb
  · by_cases hl : a.last_cmd > 0
    · by_cases hc : a.cbr = 0
      · rw [aport_write_prime a b hb hl hc]
        refine ⟨fun h => absurd h (by simp; omega), fun _ => h2 hl, ?_, ?_⟩
        · simp only [List.length_append, List.length_cons, List.length_nil]
          split_ifs <;> omega
        · simp only [List.length_append, List.length_cons, List.length_nil]
          rcases h2 hl with e | e <;> rw [e]
          · simp [toU8_lit0, toU8_lit1]
          · simp [toU8_lit1, toU8_lit2]
      · have hc1 : a.cbr > 0 := by omega
        rw [aport_write_next a b hb hl hc1]
        have hp := toU8_pred a.cbr hc1 (by omega)
        refine ⟨fun h => absurd h (by simp; omega), fun _ => h2 hl, ?_, ?_⟩
        · simp only [List.length_append, List.length_cons, List.length_nil]
          split_ifs <;> omega
        · simp only [List.length_append, List.length_cons, List.length_nil, hp]
          split_ifs <;> omega
    · have hl0 : a.last_cmd = 0 := by omega
      rw [aport_write_plain a b hb hl0]
      refine ⟨fun _ => h1 hl0, fun h => absurd h (by simp; omega), ?_, ?_⟩
      · simp
      · simp [h1 hl0]
  · rw [aport_write_single a b hb]
    exact ⟨fun _ => rfl, fun h => absurd h (by simp), by simp, by simp⟩
  · rw [aport_write_command a b (Or.inl hb)]
    refine ⟨?_, fun _ => Or.inl hb, by simp, ?_⟩
    · intro h0
      simp only at h0
      rw [h0] at hb
      exact absurd hb (by decide)
    · simp [hb, toU8_lit1]
  · rw [aport_write_command a b (Or.inr hb)]
    refine ⟨?_, fun _ => Or.inr hb, by simp, ?_⟩
    · intro h0
      simp only at h0
      rw [h0] at hb
      exact absurd hb (by decide)
    · simp [hb, toU8_lit2]

theorem aport_run_ok (bs : List Nat) (a : aport) (h : a.ok) : (a.run bs).ok := by
  induction bs generalizing a with
  | nil => exact h
  | cons b bs ih => exact ih _ (aport_write_ok a b h)

theorem aport_run_append (a : aport) (xs ys : List Nat) :
    a.run (xs ++ ys) = (a.run xs).run ys := by
  simp [aport.run, List.foldl_append]

theorem aport_run_cons (a : aport) (x : Nat) (xs : List Nat) :
    a.run (x :: xs) = (a.write x).run xs := rfl

theorem all_data_iff (ds : List Nat) : all_data ds = true ↔ ∀ d ∈ ds, d < 0x80 := by
  simp [all_data]

/-- The data bytes that complete a message under a stored status byte. -/
theorem aport_run_data (ds : List Nat) :
    ∀ a : aport, a.last_cmd > 0 → a.cbr = ds.length → ds ≠ [] → ds.length ≤ 255 →
      (∀ d ∈ ds, d < 0x80) →
      a.run ds = { a with cbr := 0, out := a.out ++ ds, sendable := (a.out ++ ds).length } := by
  induction ds with
  | nil => intro a _ _ h; exact absurd rfl h
  | cons d rest ih =>
    intro a hl hc _ hlen hd
    simp only [List.length_cons] at hc hlen
    have hw := aport_write_next a d (get_cmd_data d (hd d (by simp))) hl (by omega)
    have hp : toU8 ((a.cbr : Int) - 1) = rest.length := by
      rw [toU8_pred a.cbr (by omega) (by omega)]; omega
    rw [aport_run_cons, hw, hp]
    by_cases hr : rest = []
    · subst hr
      simp [aport.run]
    · have hpos : 0 < rest.length := List.length_pos.mpr hr
      refine (ih _ (by exact hl) rfl hr (by omega) (fun x hx => hd x (by simp [hx]))).trans ?_
      simp

theorem aport_run_plain (ds : List Nat) :
    ∀ a : aport, a.last_cmd = 0 → a.sendable = a.out.length → (∀ d ∈ ds, d < 0x80) →
      a.run ds = { a with out := a.out ++ ds, sendable := (a.out ++ ds).length } := by
  induction ds with
  | nil => intro a _ hs _; simp [aport.run, ← hs]
  | cons d rest ih =>
    intro a hl hs hd
    rw [aport_run_cons, aport_write_plain a d (get_cmd_data d (hd d (by simp))) hl]
    refine (ih _ (by exact hl) (by simp) (fun x hx => hd x (by simp [hx]))).trans ?_
    simp

theorem midi_channel_length_cases (s : Nat) :
    midi_channel_length s = 2 ∨ midi_channel_length s = 3 := by
  unfold midi_channel_length; split_ifs <;> simp

theorem aport_run_chan (a : aport) (s : Nat) (ds : List Nat)
    (h0 : 0x80 ≤ s) (h1 : s ≤ 0xEF) (hlen : ds.length + 1 = midi_channel_length s)
    (hd : ∀ d ∈ ds, d < 0x80) :
    a.run (s :: ds) =
      { last_cmd := s, cbr := 0, out := a.out ++ s :: ds,
        sendable := (a.out ++ s :: ds).length } := by
  have hg := get_cmd_channel s h0 h1
  have hL := midi_channel_length_cases s
  have hg2 : get_cmd_num_bytes s = 2 ∨ get_cmd_num_bytes s = 3 := by
    rcases hL with e | e <;> rw [hg, e] <;> simp
  rw [aport_run_cons, aport_write_command a s hg2]
  have hc : toU8 (get_cmd_num_bytes s - 1) = ds.length := by
    rcases hL with e | e
    · rw [hg, e]; simp [toU8_lit1]; omega
    · rw [hg, e]; simp [toU8_lit2]; omega
  refine (aport_run_data ds _ (by simp; omega) (by simp [hc])
    (by intro h; subst h; simp at hlen; omega) (by omega) hd).trans ?_
  simp

theorem aport_run_running (a : aport) (s : Nat) (ds : List Nat)
    (hb : a.at_boundary (some s))
    (h0 : 0x80 ≤ s) (h1 : s ≤ 0xEF) (hlen : ds.length + 1 = midi_channel_length s)
    (hd : ∀ d ∈ ds, d < 0x80) :
    a.run ds = { last_cmd := s, cbr := 0, out := a.out ++ s :: ds,
                 sendable := (a.out ++ s :: ds).length } := by
  obtain ⟨_, hc, hl⟩ := hb
  simp only [Option.getD_some] at hl
  have hg := get_cmd_channel s h0 h1
  have hL := midi_channel_length_cases s
  cases ds with
  | nil => simp at hlen; omega
  | cons d rest =>
    simp only [List.length_cons] at hlen
    have hw := aport_write_prime a d (get_cmd_data d (hd d (by simp))) (by omega) hc
    have hp : toU8 ((toU8 (get_cmd_num_bytes a.last_cmd - 1) : Int) - 1) = rest.length := by
      rw [hl, hg]
      rcases hL with e | e
      · rw [e]; simp [toU8_lit0, toU8_lit1]; omega
      · rw [e]; simp [toU8_lit1, toU8_lit2]; omega
    rw [aport_run_cons, hw, hp, hl]
    by_cases hr : rest = []
    · subst hr
      simp [aport.run]
    · have hpos : 0 < rest.length := List.length_pos.mpr hr
      refine (aport_run_data rest _ (by simp; omega) rfl hr (by omega)
        (fun x hx => hd x (by simp [hx]))).trans ?_
      simp

theorem aport_run_sysex (a : aport) (ds : List Nat) (hb : a.at_boundary none)
    (hd : ∀ d ∈ ds, d < 0x80) :
    a.run (0xF0 :: ds ++ [0xF7]) =
      { last_cmd := 0, cbr := 0, out := a.out ++ (0xF0 :: ds ++ [0xF7]),
        sendable := (a.out ++ (0xF0 :: ds ++ [0xF7])).length } := by
  obtain ⟨hs, hc, hl⟩ := hb
  simp only [Option.getD_none] at hl
  have e0 : get_cmd_num_bytes 0xF0 = -1 := by decide
  have e7 : get_cmd_num_bytes 0xF7 = 1 := by decide
  rw [List.cons_append, aport_run_cons, aport_write_plain a 0xF0 e0 hl, aport_run_append]
  have h2 := aport_run_plain ds { a with out := a.out ++ [0xF0], sendable := a.out.length + 1 }
    hl (by simp) hd
  rw [h2, aport_run_cons, aport_write_single _ _ e7]
  simp [aport.run]
  omega

theorem aport_run_sys (a : aport) (s : Nat) (ds : List Nat)
    (hlen : midi_system_length s = some (ds.length + 1)) (hd : ∀ d ∈ ds, d < 0x80) :
    a.run (s :: ds) =
      { last_cmd := if s = 0xF1 ∨ s = 0xF3 then s else 0, cbr := 0, out := a.out ++ s :: ds,
        sendable := (a.out ++ s :: ds).length } := by
  unfold midi_system_length at hlen
  split_ifs at hlen with c1 c2 c3
  · -- F1, F3: a command with one data byte
    have hl1 : ds.length = 1 := by simpa using hlen.symm
    have hg : get_cmd_num_bytes s = 2 := by rcases c1 with e | e <;> subst e <;> decide
    rw [aport_run_cons, aport_write_command a s (Or.inl hg), hg]
    refine (aport_run_data ds _ (by rcases c1 with e | e <;> subst e <;> simp)
        (by simp [toU8_lit1, hl1]) (by intro h; subst h; simp at hl1) (by omega) hd).trans ?_
    simp [c1]
  · -- F2: taken for a one-byte command, its data bytes are stored as they come
    have hg : get_cmd_num_bytes s = 1 := by subst c2; decide
    have hn : ¬ (s = 0xF1 ∨ s = 0xF3) := c1
    rw [aport_run_cons, aport_write_single a s hg]
    refine (aport_run_plain ds _ rfl (by simp) hd).trans ?_
    simp [hn]
  · have hl0 : ds = [] := by
      have : ds.length = 0 := by simpa using hlen.symm
      exact List.length_eq_zero.mp this
    have hg : get_cmd_num_bytes s = 1 := by
      rcases c3 with e | e | e | e | e | e | e <;> subst e <;> decide
    subst hl0
    rw [aport_run_cons, aport_write_single a s hg]
    simp [aport.run, c1]

/-- The assembly automaton turns the wire bytes of a sequence of messages
that the decoder reassembles into the bytes with every status byte written
out, all of them marked deliverable. -/
theorem aport_run_messages (msgs : List midi_msg) :
    ∀ (ctx : Option Nat) (a : aport), loopback_valid ctx msgs = true → a.at_boundary ctx →
      (a.run (wire_bytes msgs)).out = a.out ++ explicit_bytes msgs ∧
      (a.run (wire_bytes msgs)).sendable = (a.run (wire_bytes msgs)).out.length := by
  induction msgs with
  | nil =>
    intro ctx a _ hb
    simp [wire_bytes, explicit_bytes, aport.run, hb.1]
  | cons msg rest ih =>
    intro ctx a hv hb
    have hw : wire_bytes (msg :: rest) = msg.wire ++ wire_bytes rest := by
      simp [wire_bytes]
    have he : explicit_bytes (msg :: rest) = msg.explicit ++ explicit_bytes rest := by
      simp [explicit_bytes]
    rw [hw, he, aport_run_append]
    -- one message: the automaton is at a boundary again, with the explicit bytes appended
    have step : ∃ ctx1, loopback_valid ctx1 rest = true ∧ (a.run msg.wire).at_boundary ctx1 ∧
        (a.run msg.wire).out = a.out ++ msg.explicit := by
      cases msg with
      | chan s ds =>
        simp only [loopback_valid, midi_msg.well_formed, Bool.and_eq_true, decide_eq_true_eq,
          all_data_iff] at hv
        obtain ⟨⟨⟨⟨h0, h1⟩, hlen⟩, hd⟩, hrest⟩ := hv
        refine ⟨some s, hrest, ?_⟩
        simp only [midi_msg.wire, midi_msg.explicit]
        rw [aport_run_chan a s ds h0 h1 hlen hd]
        exact ⟨⟨rfl, rfl, rfl⟩, rfl⟩
      | run s ds =>
        simp only [loopback_valid, midi_msg.well_formed, Bool.and_eq_true, decide_eq_true_eq,
          all_data_iff] at hv
        obtain ⟨⟨⟨⟨⟨h0, h1⟩, hlen⟩, hd⟩, hctx⟩, hrest⟩ := hv
        subst hctx
        refine ⟨some s, hrest, ?_⟩
        simp only [midi_msg.wire, midi_msg.explicit]
        rw [aport_run_running a s ds hb h0 h1 hlen hd]
        exact ⟨⟨rfl, rfl, rfl⟩, rfl⟩
      | sys s ds =>
        simp only [loopback_valid, midi_msg.well_formed, Bool.and_eq_true, decide_eq_true_eq,
          all_data_iff] at hv
        obtain ⟨⟨hlen, hd⟩, hrest⟩ := hv
        refine ⟨_, hrest, ?_⟩
        simp only [midi_msg.wire, midi_msg.explicit]
        rw [aport_run_sys a s ds hlen hd]
        refine ⟨⟨rfl, rfl, ?_⟩, rfl⟩
        split_ifs <;> rfl
      | sysex ds =>
        simp only [loopback_valid, midi_msg.well_formed, Bool.and_eq_true, decide_eq_true_eq,
          all_data_iff] at hv
        obtain ⟨⟨hd, hctx⟩, hrest⟩ := hv
        subst hctx
        refine ⟨none, hrest, ?_⟩
        simp only [midi_msg.wire, midi_msg.explicit]
        rw [aport_run_sysex a ds hb hd]
        exact ⟨⟨rfl, rfl, rfl⟩, rfl⟩
    obtain ⟨ctx1, hv1, hb1, ho1⟩ := step
    have := ih ctx1 _ hv1 hb1
    exact ⟨by rw [this.1, ho1]; simp, this.2⟩

/-! ### The input port follows the assembly automaton -/

theorem append_eq_store (ip : motu_in_port) (b : Nat) (h : ip.buf_len < IN_BUF_SIZE) :
    in_port_append_byte ip b = in_port_store ip b := by
  unfold in_port_append_byte
  rw [if_pos h]
  rfl

theorem contents_length (ip : motu_in_port) (h : ip.buf_len ≤ ip.buf.length) :
    ip.contents.length = ip.buf_len := by
  simp [motu_in_port.contents, h]

/-- Appending one byte to an input port with room. -/
theorem port_sim_store (ip : motu_in_port) (D : List Nat) (out : List Nat) (b : Nat)
    (hout : out = D ++ ip.contents) (hlen : ip.buf.length = 64) (hroom : ip.buf_len < 64) :
    out ++ [b] = D ++ (in_port_store ip b).contents ∧
    (in_port_store ip b).buf_len = ip.buf_len + 1 ∧
    (in_port_store ip b).buf.length = 64 ∧
    out.length = D.length + ip.buf_len := by
  refine ⟨?_, rfl, by simp [in_port_store, hlen], ?_⟩
  · rw [contents_store ip b (by omega), hout, List.append_assoc]
  · rw [hout, List.length_append, contents_length ip (by omega)]

theorem sim_write_single (ip : motu_in_port) (D : List Nat) (a : aport) (b : Nat)
    (h : port_sim ip D a) (hroom : ip.buf_len + 2 ≤ 64) :
    port_sim (write_single ip b) D
      { last_cmd := 0, cbr := 0, out := a.out ++ [b], sendable := a.out.length + 1 } ∧
    (write_single ip b).buf_len ≤ ip.buf_len + 2 ∧
    (write_single ip b).substream = ip.substream := by
  obtain ⟨h1, h2, h3, h4, h5, h6⟩ := h
  unfold write_single
  dsimp only
  rw [append_eq_store _ b (by unfold IN_BUF_SIZE; simp only []; omega)]
  obtain ⟨s1, s2, s3, s4⟩ :=
    port_sim_store { ip with last_cmd := 0, cmd_bytes_remaining := 0 } D a.out b h3 h6
      (by simp only []; omega)
  refine ⟨⟨rfl, rfl, s1, ?_, Nat.le_refl _, s3⟩, ?_, rfl⟩
  · show a.out.length + 1 = D.length + (in_port_store _ b).buf_len
    rw [s2, s4]; rfl
  · show (in_port_store _ b).buf_len ≤ ip.buf_len + 2
    rw [s2]; simp

theorem sim_write_command (ip : motu_in_port) (D : List Nat) (a : aport) (b : Nat) (n : Int)
    (h : port_sim ip D a) (hroom : ip.buf_len + 2 ≤ 64) :
    port_sim (write_command ip b n) D
      { last_cmd := b, cbr := toU8 n, out := a.out ++ [b], sendable := a.out.length } ∧
    (write_command ip b n).buf_len ≤ ip.buf_len + 2 ∧
    (write_command ip b n).substream = ip.substream := by
  obtain ⟨h1, h2, h3, h4, h5, h6⟩ := h
  unfold write_command
  dsimp only
  rw [append_eq_store _ b (by unfold IN_BUF_SIZE; simp only []; omega)]
  obtain ⟨s1, s2, s3, s4⟩ :=
    port_sim_store
      { ip with last_cmd := b, cmd_bytes_remaining := toU8 n, buf_send_len := ip.buf_len }
      D a.out b h3 h6 (by simp only []; omega)
  refine ⟨⟨rfl, rfl, s1, s4, ?_, s3⟩, ?_, rfl⟩
  · show ip.buf_len ≤ (in_port_store _ b).buf_len
    rw [s2]; simp
  · show (in_port_store _ b).buf_len ≤ ip.buf_len + 2
    rw [s2]; simp

theorem sim_write_plain (ip : motu_in_port) (D : List Nat) (a : aport) (b : Nat)
    (h : port_sim ip D a) (hroom : ip.buf_len + 2 ≤ 64) :
    port_sim (write_plain ip b) D
      { a with out := a.out ++ [b], sendable := a.out.length + 1 } ∧
    (write_plain ip b).buf_len ≤ ip.buf_len + 2 ∧
    (write_plain ip b).substream = ip.substream := by
  obtain ⟨h1, h2, h3, h4, h5, h6⟩ := h
  unfold write_plain
  dsimp only
  rw [append_eq_store _ b (by unfold IN_BUF_SIZE; omega)]
  obtain ⟨s1, s2, s3, s4⟩ := port_sim_store ip D a.out b h3 h6 (by omega)
  refine ⟨⟨h1, h2, s1, ?_, Nat.le_refl _, s3⟩, ?_, rfl⟩
  · show a.out.length + 1 = D.length + (in_port_store _ b).buf_len
    rw [s2, s4]; rfl
  · show (in_port_store _ b).buf_len ≤ ip.buf_len + 2
    rw [s2]; simp

/-- The last two statements of the branch `last_cmd > 0`: count the byte,
append it, mark the buffer deliverable when the message is complete. -/
theorem sim_write_count (ip : motu_in_port) (D : List Nat) (a : aport) (b : Nat)
    (h : port_sim ip D a) (hroom : ip.buf_len + 1 ≤ 64) :
    port_sim
      (if (in_port_append_byte
            { ip with cmd_bytes_remaining := toU8 ((ip.cmd_bytes_remaining : Int) - 1) }
            b).cmd_bytes_remaining = 0
        then
          { (in_port_append_byte
              { ip with cmd_bytes_remaining := toU8 ((ip.cmd_bytes_remaining : Int) - 1) } b) with
            buf_send_len := (in_port_append_byte
              { ip with cmd_bytes_remaining := toU8 ((ip.cmd_bytes_remaining : Int) - 1) }
              b).buf_len }
        else
          in_port_append_byte
            { ip with cmd_bytes_remaining := toU8 ((ip.cmd_bytes_remaining : Int) - 1) } b)
      D
      { a with cbr := toU8 ((a.cbr : Int) - 1), out := a.out ++ [b],
               sendable := if toU8 ((a.cbr : Int) - 1) = 0 then a.out.length + 1
                 else a.sendable } := by
  obtain ⟨h1, h2, h3, h4, h5, h6⟩ := h
  rw [append_eq_store _ b (by unfold IN_BUF_SIZE; simp only []; omega)]
  obtain ⟨s1, s2, s3, s4⟩ :=
    port_sim_store
      { ip with cmd_bytes_remaining := toU8 ((ip.cmd_bytes_remaining : Int) - 1) }
      D a.out b h3 h6 (by simp only []; omega)
  have hc : (in_port_store
      { ip with cmd_bytes_remaining := toU8 ((ip.cmd_bytes_remaining : Int) - 1) }
      b).cmd_bytes_remaining = toU8 ((a.cbr : Int) - 1) := by
    rw [h2]; rfl
  rw [hc]
  by_cases hz : toU8 ((a.cbr : Int) - 1) = 0
  · rw [if_pos hz, if_pos hz]
    refine ⟨h1, ?_, s1, ?_, Nat.le_refl _, s3⟩
    · show toU8 ((a.cbr : Int) - 1) = toU8 ((ip.cmd_bytes_remaining : Int) - 1)
      rw [h2]
    · show a.out.length + 1 = D.length + (in_port_store _ b).buf_len
      rw [s2, s4]; rfl
  · rw [if_neg hz, if_neg hz]
    refine ⟨h1, ?_, s1, h4, ?_, s3⟩
    · show toU8 ((a.cbr : Int) - 1) = toU8 ((ip.cmd_bytes_remaining : Int) - 1)
      rw [h2]
    · show ip.buf_send_len ≤ (in_port_store _ b).buf_len
      rw [s2]
      exact Nat.le_trans h5 (Nat.le_succ _)

theorem sim_write_prime (ip : motu_in_port) (D : List Nat) (a : aport)
    (h : port_sim ip D a) (hroom : ip.buf_len + 2 ≤ 64) (hc : a.cbr = 0) :
    port_sim (write_prime ip) D
      { a with cbr := toU8 (get_cmd_num_bytes a.last_cmd - 1), out := a.out ++ [a.last_cmd],
               sendable := a.out.length } ∧
    (write_prime ip).buf_len = ip.buf_len + 1 ∧
    (write_prime ip).substream = ip.substream := by
  obtain ⟨h1, h2, h3, h4, h5, h6⟩ := h
  unfold write_prime
  rw [if_pos (by rw [← h2, hc])]
  dsimp only
  rw [append_eq_store _ _ (by unfold IN_BUF_SIZE; simp only []; omega)]
  obtain ⟨s1, s2, s3, s4⟩ :=
    port_sim_store { ip with buf_send_len := ip.buf_len } D a.out ip.last_cmd h3 h6
      (by simp only []; omega)
  refine ⟨⟨h1, ?_, ?_, s4, ?_, s3⟩, s2, rfl⟩
  · show toU8 (get_cmd_num_bytes a.last_cmd - 1) = toU8 (get_cmd_num_bytes ip.last_cmd - 1)
    rw [h1]
  · show a.out ++ [a.last_cmd] = D ++ (in_port_store _ ip.last_cmd).contents
    rw [h1]; exact s1
  · show ip.buf_len ≤ (in_port_store _ ip.last_cmd).buf_len
    rw [s2]; simp

theorem write_prime_skip (ip : motu_in_port) (h : 0 < ip.cmd_bytes_remaining) :
    write_prime ip = ip := by
  unfold write_prime
  rw [if_neg (by omega)]

theorem sim_write_running (ip : motu_in_port) (D : List Nat) (a : aport) (b : Nat)
    (h : port_sim ip D a) (hroom : ip.buf_len + 2 ≤ 64) :
    port_sim (write_running ip b) D
      (if a.cbr ≤ 0 then
        { a with cbr := toU8 ((toU8 (get_cmd_num_bytes a.last_cmd - 1) : Int) - 1),
                 out := a.out ++ [a.last_cmd, b],
                 sendable := if toU8 ((toU8 (get_cmd_num_bytes a.last_cmd - 1) : Int) - 1) = 0
                   then a.out.length + 2 else a.out.length }
       else
        { a with cbr := toU8 ((a.cbr : Int) - 1), out := a.out ++ [b],
                 sendable := if toU8 ((a.cbr : Int) - 1) = 0 then a.out.length + 1
                   else a.sendable }) ∧
    (write_running ip b).buf_len ≤ ip.buf_len + 2 ∧
    (write_running ip b).substream = ip.substream := by
  have hlenfact : ∀ q : motu_in_port, q.buf_len + 1 ≤ 64 →
      (if (in_port_append_byte
            { q with cmd_bytes_remaining := toU8 ((q.cmd_bytes_remaining : Int) - 1) }
            b).cmd_bytes_remaining = 0
        then
          { (in_port_append_byte
              { q with cmd_bytes_remaining := toU8 ((q.cmd_bytes_remaining : Int) - 1) } b) with
            buf_send_len := (in_port_append_byte
              { q with cmd_bytes_remaining := toU8 ((q.cmd_bytes_remaining : Int) - 1) }
              b).buf_len }
        else
          in_port_append_byte
            { q with cmd_bytes_remaining := toU8 ((q.cmd_bytes_remaining : Int) - 1) }
            b).buf_len = q.buf_len + 1 ∧
      (if (in_port_append_byte
            { q with cmd_bytes_remaining := toU8 ((q.cmd_bytes_remaining : Int) - 1) }
            b).cmd_bytes_remaining = 0
        then
          { (in_port_append_byte
              { q with cmd_bytes_remaining := toU8 ((q.cmd_bytes_remaining : Int) - 1) } b) with
            buf_send_len := (in_port_append_byte
              { q with cmd_bytes_remaining := toU8 ((q.cmd_bytes_remaining : Int) - 1) }
              b).buf_len }
        else
          in_port_append_byte
            { q with cmd_bytes_remaining := toU8 ((q.cmd_bytes_remaining : Int) - 1) }
            b).substream = q.substream := by
    intro q hq
    rw [append_eq_store _ b (by unfold IN_BUF_SIZE; simp only []; omega)]
    split_ifs <;> exact ⟨rfl, rfl⟩
  unfold write_running
  dsimp only
  by_cases hc : a.cbr ≤ 0
  · rw [if_pos hc]
    obtain ⟨p1, p2, p3⟩ := sim_write_prime ip D a h hroom (by omega)
    have := sim_write_count (write_prime ip) D _ b p1 (by omega)
    have hl := hlenfact (write_prime ip) (by omega)
    refine ⟨?_, by rw [hl.1, p2], by rw [hl.2, p3]⟩
    simpa using this
  · rw [if_neg hc]
    have hpos : 0 < ip.cmd_bytes_remaining := by rw [← h.2.1]; omega
    rw [write_prime_skip ip hpos]
    have hl := hlenfact ip (by omega)
    exact ⟨sim_write_count ip D a b h (by omega), by rw [hl.1]; omega, hl.2⟩

theorem sim_write (ip : motu_in_port) (D : List Nat) (a : aport) (b : Nat)
    (h : port_sim ip D a) (hroom : ip.buf_len + 2 ≤ 64) :
    port_sim (in_port_write_byte ip b) D (a.write b) ∧
    (in_port_write_byte ip b).buf_len ≤ ip.buf_len + 2 ∧
    (in_port_write_byte ip b).substream = ip.substream := by
  unfold in_port_write_byte aport.write
  dsimp only
  by_cases h0 : get_cmd_num_bytes b - 1 = 0
  · rw [if_pos h0, if_pos h0]
    exact sim_write_single ip D a b h hroom
  · rw [if_neg h0, if_neg h0]
    by_cases h1 : get_cmd_num_bytes b - 1 > 0
    · rw [if_pos h1, if_pos h1]
      exact sim_write_command ip D a b _ h hroom
    · rw [if_neg h1, if_neg h1]
      by_cases h2 : a.last_cmd > 0
      · rw [if_pos h2, if_pos (by rw [← h.1]; exact h2)]
        exact sim_write_running ip D a b h hroom
      · rw [if_neg h2, if_neg (by rw [← h.1]; exact h2)]
        exact sim_write_plain ip D a b h hroom

theorem sim_write_chunk (chunk : List Nat) :
    ∀ (ip : motu_in_port) (D : List Nat) (a : aport),
      port_sim ip D a → ip.buf_len + 2 * chunk.length ≤ 64 →
      port_sim (chunk.foldl in_port_write_byte ip) D (a.run chunk) ∧
      (chunk.foldl in_port_write_byte ip).buf_len ≤ ip.buf_len + 2 * chunk.length ∧
      (chunk.foldl in_port_write_byte ip).substream = ip.substream := by
  induction chunk with
  | nil => intro ip D a h _; exact ⟨h, by simp, rfl⟩
  | cons b rest ih =>
    intro ip D a h hroom
    simp only [List.length_cons] at hroom
    obtain ⟨w1, w2, w3⟩ := sim_write ip D a b h (by omega)
    obtain ⟨r1, r2, r3⟩ := ih _ D _ w1 (by omega)
    refine ⟨r1, ?_, by rw [← w3]; exact r3⟩
    simp only [List.foldl_cons, List.length_cons]
    omega

theorem get_buf_size_eq (ip : motu_in_port) (h : ip.buf_send_len ≤ ip.buf_len) :
    in_port_get_buf_size ip = ip.buf_send_len := by
  unfold in_port_get_buf_size
  split_ifs <;> omega

theorem memcpy_front_take (buf : List Nat) (src n : Nat) (h : src + n ≤ buf.length) :
    (memcpy_front buf src n).take n = (buf.take (src + n)).drop src ∧
    (memcpy_front buf src n).length = buf.length := by
  unfold memcpy_front
  have hl : ((buf.drop src).take n).length = n := by
    rw [List.length_take, List.length_drop]; omega
  refine ⟨?_, ?_⟩
  · rw [List.take_left' hl, List.take_drop]
  · rw [List.length_append, hl, List.length_drop]; omega

/-- The deliver-and-flush statement moves the deliverable bytes from the
buffer to the delivered bytes and leaves the assembly state as it is. -/
theorem sim_deliver (ip : motu_in_port) (D : List Nat) (a : aport)
    (h : port_sim ip D a) (hcap : ip.buf_len ≤ 64) :
    port_sim (in_port_deliver ip) (D ++ ip.buf.take (in_port_get_buf_size ip)) a ∧
    (in_port_deliver ip).buf_send_len = 0 ∧
    (in_port_deliver ip).buf_len = ip.buf_len - ip.buf_send_len ∧
    (in_port_deliver ip).substream = ip.substream := by
  obtain ⟨h1, h2, h3, h4, h5, h6⟩ := h
  have hsz := get_buf_size_eq ip h5
  unfold in_port_deliver
  rw [hsz]
  by_cases h0 : ip.buf_send_len = 0
  · rw [if_neg (by omega)]
    have e : ip.buf.take ip.buf_send_len = [] := by rw [h0]; rfl
    rw [e, List.append_nil]
    exact ⟨⟨h1, h2, h3, h4, h5, h6⟩, h0, by omega, rfl⟩
  · rw [if_pos (by omega)]
    unfold in_port_flush
    rw [if_neg h0]
    dsimp only
    have hsub := toU32_sub ip.buf_len ip.buf_send_len h5 (by omega)
    have htake : (ip.buf.take ip.buf_send_len).length = ip.buf_send_len := by
      rw [List.length_take]; omega
    have hsplit : ip.contents = ip.buf.take ip.buf_send_len ++
        (ip.buf.take ip.buf_len).drop ip.buf_send_len := by
      have := List.take_append_drop ip.buf_send_len (ip.buf.take ip.buf_len)
      rw [List.take_take, Nat.min_eq_left h5] at this
      exact this.symm
    refine ⟨⟨h1, h2, ?_, ?_, Nat.zero_le _, ?_⟩, rfl, hsub, rfl⟩
    · -- the bytes left in the buffer are the tail that was not deliverable
      show a.out = (D ++ ip.buf.take ip.buf_send_len) ++ List.take _ _
      rw [hsub, h3, hsplit, List.append_assoc]
      congr 2
      by_cases hgt : ip.buf_len > ip.buf_send_len
      · rw [if_pos hgt]
        have := (memcpy_front_take ip.buf ip.buf_send_len (ip.buf_len - ip.buf_send_len)
          (by omega)).1
        rw [this]
        congr 2
        omega
      · rw [if_neg hgt]
        have e : ip.buf_len - ip.buf_send_len = 0 := by omega
        rw [e, List.take_zero, List.drop_eq_nil_of_le]
        rw [List.length_take]; omega
    · show a.sendable = (D ++ ip.buf.take ip.buf_send_len).length + 0
      rw [List.length_append, htake, h4]; rfl
    · show (if ip.buf_len > ip.buf_send_len then
          memcpy_front ip.buf ip.buf_send_len (ip.buf_len - ip.buf_send_len)
        else ip.buf).length = 64
      split_ifs
      · rw [(memcpy_front_take ip.buf ip.buf_send_len (ip.buf_len - ip.buf_send_len)
          (by omega)).2, h6]
      · exact h6

/-! ### The packet built by the protocol-1 encoder -/

theorem mask_value_append (cs : List (Option Nat)) (c : Option Nat) :
    mask_value (cs ++ [c]) = mask_value cs + (if c.isSome then 2 ^ cs.length else 0) := by
  induction cs with
  | nil => simp [mask_value]
  | cons x cs ih =>
    show (if x.isSome then 1 else 0) + 2 * mask_value (cs ++ [c]) =
      ((if x.isSome then 1 else 0) + 2 * mask_value cs) +
        (if c.isSome then 2 ^ (cs.length + 1) else 0)
    rw [ih, pow_succ]
    split_ifs <;> omega

theorem mask_value_lt (cs : List (Option Nat)) : mask_value cs < 2 ^ cs.length := by
  induction cs with
  | nil => simp [mask_value]
  | cons x cs ih =>
    simp only [mask_value, List.length_cons, pow_succ]
    split_ifs <;> omega

theorem row_payload_append (cs : List (Option Nat)) (c : Option Nat) :
    row_payload (cs ++ [c]) = row_payload cs ++ (match c with | some b => [b] | none => []) := by
  induction cs with
  | nil => cases c <;> simp [row_payload]
  | cons x cs ih =>
    cases x with
    | none => simpa [row_payload] using ih
    | some b => simp [row_payload, ih]

theorem row_payload_length_le (cs : List (Option Nat)) : (row_payload cs).length ≤ cs.length := by
  induction cs with
  | nil => simp [row_payload]
  | cons x cs ih =>
    cases x with
    | none => simp only [row_payload, List.length_cons]; omega
    | some b => simp only [row_payload, List.length_cons]; omega

theorem pull_cells_succ (lens : Nat → Int) (bufs : Nat → Nat → Nat) (n i : Nat) :
    pull_cells lens bufs (n + 1) i =
      pull_cells lens bufs n i ++ [if lens n > (i : Int) then some (bufs n i) else none] := by
  simp [pull_cells, List.range_succ]

@[simp] theorem pull_cells_length (lens : Nat → Int) (bufs : Nat → Nat → Nat) (n i : Nat) :
    (pull_cells lens bufs n i).length = n := by
  simp [pull_cells]

theorem lor_two_pow (a n : Nat) (h : a < 2 ^ n) : a ||| 2 ^ n = a + 2 ^ n := by
  have := Nat.mul_add_lt_is_or h 1
  rw [Nat.mul_one] at this
  rw [Nat.lor_comm, ← this, Nat.add_comm]

theorem prot1_mask_loop_eq (lens : Nat → Int) (bufs : Nat → Nat → Nat) (n i : Nat) :
    prot1_mask_loop lens n i = (mask_value (pull_cells lens bufs n i), 2 ^ n) := by
  induction n with
  | zero => simp [prot1_mask_loop, pull_cells, mask_value]
  | succ n ih =>
    have hstep : prot1_mask_loop lens (n + 1) i =
        (if lens n > (i : Int) then (prot1_mask_loop lens n i).1 ||| (prot1_mask_loop lens n i).2
          else (prot1_mask_loop lens n i).1, (prot1_mask_loop lens n i).2 <<< 1) := by
      simp [prot1_mask_loop, List.range_succ, List.foldl_append]
    rw [hstep, ih, pull_cells_succ, mask_value_append]
    have hlt := mask_value_lt (pull_cells lens bufs n i)
    rw [pull_cells_length] at hlt
    simp only [pull_cells_length, Nat.shiftLeft_eq, pow_succ]
    by_cases h : lens n > (i : Int)
    · simp [h, lor_two_pow _ _ hlt]
    · simp [h]

/-- The bytes written so far into `midi_out_buf`. -/
theorem prot1_put_view (o : List Nat × Nat) (b : Nat) (hl : o.1.length = BUFSIZE)
    (hr : o.2 < BUFSIZE) :
    (prot1_put o b).1.take (prot1_put o b).2 = o.1.take o.2 ++ [b] ∧
    (prot1_put o b).2 = o.2 + 1 ∧ (prot1_put o b).1.length = BUFSIZE := by
  unfold prot1_put
  rw [if_pos hr]
  exact ⟨take_set_succ _ _ _ (by omega), rfl, by simp [hl]⟩

theorem prot1_payload_loop (lens : Nat → Int) (bufs : Nat → Nat → Nat) (i n : Nat)
    (o : List Nat × Nat) (hl : o.1.length = BUFSIZE) (hr : o.2 + n ≤ BUFSIZE) :
    ((List.range n).foldl
        (fun (a : List Nat × Nat) p =>
          if lens p > (i : Int) ∧ a.2 < BUFSIZE then (a.1.set a.2 (bufs p i), a.2 + 1) else a)
        o).1.take
      ((List.range n).foldl
        (fun (a : List Nat × Nat) p =>
          if lens p > (i : Int) ∧ a.2 < BUFSIZE then (a.1.set a.2 (bufs p i), a.2 + 1) else a)
        o).2 = o.1.take o.2 ++ row_payload (pull_cells lens bufs n i) ∧
    ((List.range n).foldl
        (fun (a : List Nat × Nat) p =>
          if lens p > (i : Int) ∧ a.2 < BUFSIZE then (a.1.set a.2 (bufs p i), a.2 + 1) else a)
        o).2 = o.2 + (row_payload (pull_cells lens bufs n i)).length ∧
    ((List.range n).foldl
        (fun (a : List Nat × Nat) p =>
          if lens p > (i : Int) ∧ a.2 < BUFSIZE then (a.1.set a.2 (bufs p i), a.2 + 1) else a)
        o).1.length = BUFSIZE := by
  induction n with
  | zero => simp [pull_cells, row_payload, hl]
  | succ n ih =>
    obtain ⟨i1, i2, i3⟩ := ih (by omega)
    have hle := row_payload_length_le (pull_cells lens bufs n i)
    rw [pull_cells_length] at hle
    rw [List.range_succ, List.foldl_append, pull_cells_succ, row_payload_append]
    simp only [List.foldl_cons, List.foldl_nil]
    by_cases h : lens n > (i : Int)
    · rw [if_pos ⟨h, by omega⟩, if_pos h]
      refine ⟨?_, ?_, by simp [i3]⟩
      · rw [take_set_succ _ _ _ (by omega), i1, List.append_assoc]
      · simp only [List.length_append, List.length_cons, List.length_nil]
        omega
    · rw [if_neg (fun hh => h hh.1), if_neg h]
      exact ⟨by simpa using i1, by simpa using i2, i3⟩

theorem prot1_rows_view (lens : Nat → Int) (bufs : Nat → Nat → Nat) (n : Nat) (is : List Nat) :
    ∀ o : List Nat × Nat, o.1.length = BUFSIZE → o.2 + is.length * (n + 1) ≤ BUFSIZE →
      (prot1_rows lens bufs n is o).1.1.take (prot1_rows lens bufs n is o).1.2 =
        o.1.take o.2 ++ rows_bytes lens bufs n is ∧
      (prot1_rows lens bufs n is o).1.2 = o.2 + (rows_bytes lens bufs n is).length ∧
      (prot1_rows lens bufs n is o).1.1.length = BUFSIZE := by
  induction is with
  | nil => intro o hl _; simp [prot1_rows, rows_bytes, hl]
  | cons i rest ih =>
    intro o hl hr
    simp only [List.length_cons] at hr
    have hr2 : o.2 + (n + 1) + rest.length * (n + 1) ≤ BUFSIZE := by
      have : (rest.length + 1) * (n + 1) = rest.length * (n + 1) + (n + 1) := by ring
      omega
    simp only [prot1_rows, rows_bytes, prot1_mask_loop_eq lens bufs n i]
    by_cases hz : mask_value (pull_cells lens bufs n i) = 0
    · rw [if_pos hz, if_pos hz]
      simp [hl]
    · rw [if_neg hz, if_neg hz]
      obtain ⟨p1, p2, p3⟩ := prot1_put_view o (mask_value (pull_cells lens bufs n i) % 256) hl
        (by omega)
      obtain ⟨q1, q2, q3⟩ := prot1_payload_loop lens bufs i n _ p3 (by rw [p2]; omega)
      have hle := row_payload_length_le (pull_cells lens bufs n i)
      rw [pull_cells_length] at hle
      obtain ⟨r1, r2, r3⟩ := ih _ q3 (by rw [q2, p2]; omega)
      refine ⟨?_, ?_, r3⟩
      · rw [r1, q1, p1]
        simp [List.append_assoc]
      · rw [r2, q2, p2]
        simp only [List.length_cons, List.length_append]
        omega

theorem submitted_append (a b : List Event) :
    submitted (a ++ b) = submitted a ++ submitted b := by
  induction a with
  | nil => rfl
  | cons e a ih => cases e <;> simp [submitted, ih]

theorem received_append (a b : List Event) (p : Nat) :
    received (a ++ b) p = received a p ++ received b p := by
  induction a with
  | nil => rfl
  | cons e a ih =>
    cases e with
    | receive q d =>
      show (if q = p then d ++ received (a ++ b) p else received (a ++ b) p) =
        (if q = p then d ++ received a p else received a p) ++ received b p
      rw [ih]
      split_ifs <;> simp
    | _ => exact ih

theorem submitted_pull_errors (m : motu) (tx : Nat → pulled) :
    submitted (pull_errors m tx) = [] := by
  unfold pull_errors
  have key : ∀ (l : List Nat) (ev : List Event), submitted ev = [] →
      submitted (l.foldl
        (fun ev p =>
          if pull_len m tx p < 0 then ev ++ [Event.err_transmit p (pull_len m tx p)] else ev)
        ev) = [] := by
    intro l
    induction l with
    | nil => intro ev h; exact h
    | cons p l ih =>
      intro ev h
      simp only [List.foldl_cons]
      apply ih
      split_ifs
      · rw [submitted_append, h]; rfl
      · exact h
  exact key _ [] rfl

theorem take_two_set (l : List Nat) (a b : Nat) (h : 2 ≤ l.length) :
    ((l.set 0 a).set 1 b).take 2 = [a, b] := by
  match l, h with
  | x :: y :: rest, _ => simp

/-- What `motu_midi_send_prot1` submits: nothing when no port has a byte,
else the packet `[counter, 0] ++ rows ++ [0, 0]`; the input ports, the
producers and the port count stay as they are. -/
theorem send_prot1_packet (m : motu) (tx : Nat → pulled)
    (hbuf : m.midi_out_buf.length = BUFSIZE) (hn : m.n_ports_out.toNat ≤ 8) :
    (motu_midi_send_prot1 m tx 0).1.in_ports = m.in_ports ∧
    (motu_midi_send_prot1 m tx 0).1.out_ports = m.out_ports ∧
    (motu_midi_send_prot1 m tx 0).1.n_ports_out = m.n_ports_out ∧
    (motu_midi_send_prot1 m tx 0).1.midi_out_buf.length = BUFSIZE ∧
    submitted (motu_midi_send_prot1 m tx 0).2 =
      (if rows_bytes (pull_len m tx) (pull_byte tx) m.n_ports_out.toNat [0, 1, 2] = [] then []
       else [[m.counter, 0] ++
          rows_bytes (pull_len m tx) (pull_byte tx) m.n_ports_out.toNat [0, 1, 2] ++ [0, 0]]) := by
  have hB : BUFSIZE = 128 := rfl
  have hl0 : ((m.midi_out_buf.set 0 m.counter).set 1 0).length = BUFSIZE := by simp [hbuf]
  obtain ⟨r1, r2, r3⟩ := prot1_rows_view (pull_len m tx) (pull_byte tx) m.n_ports_out.toNat
    [0, 1, 2] ((m.midi_out_buf.set 0 m.counter).set 1 0, 2) hl0
    (by simp only [List.length_cons, List.length_nil]; omega)
  have hlen : (rows_bytes (pull_len m tx) (pull_byte tx) m.n_ports_out.toNat [0, 1, 2]).length
      ≤ 3 * (m.n_ports_out.toNat + 1) := by
    have hmono : ∀ is : List Nat,
        (rows_bytes (pull_len m tx) (pull_byte tx) m.n_ports_out.toNat is).length
          ≤ is.length * (m.n_ports_out.toNat + 1) := by
      intro is
      induction is with
      | nil => simp [rows_bytes]
      | cons i rest ih =>
        simp only [rows_bytes]
        split_ifs
        · simp
        · have hle := row_payload_length_le
            (pull_cells (pull_len m tx) (pull_byte tx) m.n_ports_out.toNat i)
          rw [pull_cells_length] at hle
          simp only [List.length_cons, List.length_append]
          have : (rest.length + 1) * (m.n_ports_out.toNat + 1)
              = rest.length * (m.n_ports_out.toNat + 1) + (m.n_ports_out.toNat + 1) := by ring
          omega
    simpa using hmono [0, 1, 2]
  unfold motu_midi_send_prot1
  dsimp only
  by_cases hz : rows_bytes (pull_len m tx) (pull_byte tx) m.n_ports_out.toNat [0, 1, 2] = []
  · rw [if_pos hz]
    rw [hz] at r2
    simp only [List.length_nil, Nat.add_zero] at r2
    rw [if_pos (by rw [r2])]
    exact ⟨rfl, rfl, rfl, r3, submitted_pull_errors m tx⟩
  · rw [if_neg hz]
    have hpos : 0 < (rows_bytes (pull_len m tx) (pull_byte tx)
        m.n_ports_out.toNat [0, 1, 2]).length := List.length_pos.mpr hz
    rw [if_neg (by rw [r2]; omega)]
    obtain ⟨p1, p2, p3⟩ := prot1_put_view _ 0 r3 (by rw [r2]; omega)
    obtain ⟨q1, q2, q3⟩ := prot1_put_view _ 0 p3 (by rw [p2, r2]; omega)
    rw [if_neg (by decide)]
    refine ⟨rfl, rfl, rfl, q3, ?_⟩
    rw [submitted_append, submitted_pull_errors]
    simp only [submitted, List.nil_append]
    rw [q1, p1, r1, take_two_set _ _ _ (by omega)]
    simp

/-! ### The protocol-1 decoder on a packet of the encoder -/

theorem prot1_find_fuel (fuel : Nat) :
    ∀ mask chan : Nat, 8 - chan ≤ fuel →
      prot1_find_port fuel mask chan = prot1_find_port (fuel + 1) mask chan := by
  induction fuel with
  | zero =>
    intro mask chan h
    have : ¬ (chan < 8 ∧ mask ≠ 0) := fun hh => by omega
    simp [prot1_find_port, this]
  | succ n ih =>
    intro mask chan h
    rw [prot1_find_port, prot1_find_port]
    by_cases hc : chan < 8 ∧ mask ≠ 0
    · rw [if_pos hc, if_pos hc]
      by_cases hb : mask &&& 1 ≠ 0
      · rw [if_pos hb, if_pos hb]
      · rw [if_neg hb, if_neg hb]
        exact ih _ _ (by omega)
    · rw [if_neg hc, if_neg hc]

theorem prot1_find_skip (v base : Nat) (hv : v ≠ 0) (hb : base < 8) :
    prot1_find_port 8 (2 * v) base = prot1_find_port 8 v (base + 1) := by
  have h1 : (2 * v) &&& 1 = 0 := by rw [Nat.and_one_is_mod]; omega
  have h2 : (2 * v) >>> 1 = v := by rw [Nat.shiftRight_eq_div_pow]; omega
  rw [prot1_find_port, if_pos ⟨hb, by omega⟩, if_neg (by rw [h1]; simp), h2]
  exact prot1_find_fuel 7 v (base + 1) (by omega)

theorem prot1_find_hit (v base : Nat) (hb : base < 8) :
    prot1_find_port 8 (1 + 2 * v) base = (some base, v, base + 1) := by
  have h1 : (1 + 2 * v) &&& 1 = 1 := by rw [Nat.and_one_is_mod]; omega
  have h2 : (1 + 2 * v) >>> 1 = v := by rw [Nat.shiftRight_eq_div_pow]; omega
  rw [prot1_find_port, if_pos ⟨hb, by omega⟩, if_pos (by rw [h1]; simp), h2]

theorem mask_value_zero (cs : List (Option Nat)) (h : mask_value cs = 0) :
    row_payload cs = [] ∧ ∀ (m : motu) (base : Nat), write_cells m base cs = m := by
  induction cs with
  | nil => exact ⟨rfl, fun _ _ => rfl⟩
  | cons c cs ih =>
    cases c with
    | none =>
      have hv : mask_value cs = 0 := by
        simp only [mask_value] at h
        simp at h
        exact h
      exact ⟨(ih hv).1, fun m base => (ih hv).2 m (base + 1)⟩
    | some b =>
      simp [mask_value] at h

theorem row_payload_ne_nil (cs : List (Option Nat)) (h : mask_value cs ≠ 0) :
    row_payload cs ≠ [] := by
  induction cs with
  | nil => exact absurd rfl h
  | cons c cs ih =>
    cases c with
    | none =>
      have hv : mask_value cs ≠ 0 := by
        intro e
        apply h
        simp [mask_value, e]
      exact ih hv
    | some b => simp [row_payload]

theorem prot1_byte_idle (m : motu) (sc : prot1_scan) (b : Nat) (h : sc.in_data = false) :
    prot1_byte (m, sc) b =
      (m, { in_data := if b = 0 then false else true, mask := b, chan := 0 }) := by
  unfold prot1_byte
  simp [h]

theorem prot1_byte_skip (m : motu) (v base b : Nat) (hv : v ≠ 0) (hb : base < 8) :
    prot1_byte (m, { in_data := true, mask := 2 * v, chan := base }) b =
      prot1_byte (m, { in_data := true, mask := v, chan := base + 1 }) b := by
  unfold prot1_byte
  simp only [if_true]
  rw [prot1_find_skip v base hv hb]

theorem prot1_byte_hit (m : motu) (v base b : Nat) (hb : base < 8) :
    prot1_byte (m, { in_data := true, mask := 1 + 2 * v, chan := base }) b =
      (motu_in_port_write_byte m base b,
        { in_data := if v = 0 then false else true, mask := v, chan := base + 1 }) := by
  unfold prot1_byte
  simp only [if_true]
  rw [prot1_find_hit v base hb]

/-- Scanning the payload of one row: the bytes go to the ports whose mask
bit is set, in ascending order, and the decoder is out of data mode after
the last one. -/
theorem prot1_scan_row (cells : List (Option Nat)) :
    ∀ (base : Nat) (m : motu) (tail : List Nat),
      base + cells.length ≤ 8 → mask_value cells ≠ 0 →
      ∃ c, (row_payload cells ++ tail).foldl prot1_byte
          (m, { in_data := true, mask := mask_value cells, chan := base }) =
        tail.foldl prot1_byte
          (write_cells m base cells, { in_data := false, mask := 0, chan := c }) := by
  induction cells with
  | nil => intro base m tail _ h; exact absurd rfl h
  | cons c cs ih =>
    intro base m tail hlen hv
    simp only [List.length_cons] at hlen
    cases c with
    | none =>
      have hv1 : mask_value cs ≠ 0 := by
        intro e
        apply hv
        simp [mask_value, e]
      have hmv : mask_value (none :: cs) = 2 * mask_value cs := by simp [mask_value]
      obtain ⟨c1, hc1⟩ := ih (base + 1) m tail (by omega) hv1
      refine ⟨c1, ?_⟩
      rw [hmv]
      show (row_payload cs ++ tail).foldl prot1_byte _ = tail.foldl prot1_byte
        (write_cells m (base + 1) cs, _)
      rw [← hc1]
      have hne := row_payload_ne_nil cs hv1
      cases hp : row_payload cs with
      | nil => exact absurd hp hne
      | cons b rest =>
        simp only [List.cons_append, List.foldl_cons]
        rw [prot1_byte_skip m _ base b hv1 (by omega)]
    | some b =>
      have hmv : mask_value (some b :: cs) = 1 + 2 * mask_value cs := by simp [mask_value]
      rw [hmv]
      show ∃ c, ((b :: row_payload cs) ++ tail).foldl prot1_byte _ = tail.foldl prot1_byte
        (write_cells (motu_in_port_write_byte m base b) (base + 1) cs, _)
      simp only [List.cons_append, List.foldl_cons]
      rw [prot1_byte_hit m _ base b (by omega)]
      by_cases hz : mask_value cs = 0
      · refine ⟨base + 1, ?_⟩
        rw [if_pos hz, (mask_value_zero cs hz).1, (mask_value_zero cs hz).2, hz]
        rfl
      · rw [if_neg hz]
        exact ih (base + 1) _ tail (by omega) hz

theorem prot1_scan_rows (lens : Nat → Int) (bufs : Nat → Nat → Nat) (n : Nat) (hn : n ≤ 8)
    (is : List Nat) :
    ∀ (m : motu) (sc : prot1_scan) (tail : List Nat), sc.in_data = false →
      ∃ sc1, sc1.in_data = false ∧
        (rows_bytes lens bufs n is ++ tail).foldl prot1_byte (m, sc) =
          tail.foldl prot1_byte (write_rows lens bufs n m is, sc1) := by
  induction is with
  | nil => intro m sc tail h; exact ⟨sc, h, rfl⟩
  | cons i rest ih =>
    intro m sc tail h
    simp only [rows_bytes, write_rows]
    by_cases hz : mask_value (pull_cells lens bufs n i) = 0
    · rw [if_pos hz, if_pos hz]
      exact ⟨sc, h, rfl⟩
    · rw [if_neg hz, if_neg hz]
      have hlt := mask_value_lt (pull_cells lens bufs n i)
      rw [pull_cells_length] at hlt
      have h256 : mask_value (pull_cells lens bufs n i) < 256 := by
        have : 2 ^ n ≤ 2 ^ 8 := Nat.pow_le_pow_right (by decide) hn
        omega
      rw [Nat.mod_eq_of_lt h256]
      simp only [List.cons_append, List.foldl_cons, List.append_assoc]
      rw [prot1_byte_idle m sc _ h, if_neg hz]
      obtain ⟨c, hc⟩ := prot1_scan_row (pull_cells lens bufs n i) 0 m
        (rows_bytes lens bufs n rest ++ tail) (by simp; exact hn) hz
      rw [hc]
      exact ih _ _ tail rfl

/-- The scanning loop of the decoder on a packet of the encoder writes the
rows to the input ports. -/
theorem prot1_scan_encoded (lens : Nat → Int) (bufs : Nat → Nat → Nat) (n : Nat) (hn : n ≤ 8)
    (m : motu) (c : Nat) :
    (prot1_scan_packet m ([c, 0] ++ rows_bytes lens bufs n [0, 1, 2] ++ [0, 0])).1 =
      write_rows lens bufs n m [0, 1, 2] := by
  unfold prot1_scan_packet
  have hd : ([c, 0] ++ rows_bytes lens bufs n [0, 1, 2] ++ [0, 0]).drop 2 =
      rows_bytes lens bufs n [0, 1, 2] ++ [0, 0] := by simp
  rw [hd]
  obtain ⟨sc1, h1, h2⟩ := prot1_scan_rows lens bufs n hn [0, 1, 2] m
    { in_data := false, mask := 0, chan := 0 } [0, 0] rfl
  rw [h2]
  simp only [List.foldl_cons, List.foldl_nil]
  rw [prot1_byte_idle _ sc1 0 h1, prot1_byte_idle _ _ 0 (by simp)]

/-! ### The effect of a decoded packet on one input port -/

theorem write_byte_port (m : motu) (q p : Nat) (b : Nat) (hq : q < m.in_ports.length) :
    (motu_in_port_write_byte m q b).in_port p =
      (if q = p then in_port_write_byte (m.in_port p) b else m.in_port p) ∧
    (motu_in_port_write_byte m q b).in_ports.length = m.in_ports.length ∧
    (motu_in_port_write_byte m q b).out_ports = m.out_ports ∧
    (motu_in_port_write_byte m q b).n_ports_out = m.n_ports_out ∧
    (motu_in_port_write_byte m q b).midi_out_buf = m.midi_out_buf := by
  unfold motu_in_port_write_byte
  refine ⟨?_, by simp, by simp [set_in_port_nat], by simp [set_in_port_nat],
    by simp [set_in_port_nat]⟩
  by_cases h : q = p
  · subst h
    rw [if_pos rfl]
    exact in_port_set_same m _ _ (by omega) (by simpa using hq)
  · rw [if_neg h]
    exact in_port_set_other m _ _ _ (by omega)

theorem flush_port (m : motu) (q p : Nat) (hq : q < m.in_ports.length) :
    (motu_in_port_flush m q).in_port p =
      (if q = p then in_port_flush (m.in_port p) else m.in_port p) ∧
    (motu_in_port_flush m q).in_ports.length = m.in_ports.length ∧
    (motu_in_port_flush m q).out_ports = m.out_ports ∧
    (motu_in_port_flush m q).n_ports_out = m.n_ports_out ∧
    (motu_in_port_flush m q).midi_out_buf = m.midi_out_buf := by
  unfold motu_in_port_flush
  refine ⟨?_, by simp, by simp [set_in_port_nat], by simp [set_in_port_nat],
    by simp [set_in_port_nat]⟩
  by_cases h : q = p
  · subst h
    rw [if_pos rfl]
    exact in_port_set_same m _ _ (by omega) (by simpa using hq)
  · rw [if_neg h]
    exact in_port_set_other m _ _ _ (by omega)

/-- The byte of port `p` in a row that starts at port `base`. -/
theorem write_cells_port (cells : List (Option Nat)) (p : Nat) :
    ∀ (base : Nat) (m : motu), base + cells.length ≤ m.in_ports.length →
      (write_cells m base cells).in_port p =
        (match (if base ≤ p then cells.getD (p - base) none else none) with
          | some b => in_port_write_byte (m.in_port p) b
          | none => m.in_port p) ∧
      (write_cells m base cells).in_ports.length = m.in_ports.length ∧
      (write_cells m base cells).out_ports = m.out_ports ∧
      (write_cells m base cells).n_ports_out = m.n_ports_out ∧
      (write_cells m base cells).midi_out_buf = m.midi_out_buf := by
  induction cells with
  | nil =>
    intro base m _
    refine ⟨?_, rfl, rfl, rfl, rfl⟩
    simp [write_cells]
  | cons c cs ih =>
    intro base m hlen
    simp only [List.length_cons] at hlen
    cases c with
    | none =>
      obtain ⟨i1, i2, i3, i4, i5⟩ := ih (base + 1) m (by omega)
      refine ⟨?_, i2, i3, i4, i5⟩
      show (write_cells m (base + 1) cs).in_port p = _
      rw [i1]
      by_cases h1 : base + 1 ≤ p
      · have e : p - base = (p - (base + 1)) + 1 := by omega
        have hb1 : base ≤ p := by omega
        rw [if_pos h1, if_pos hb1, e]
        simp
      · rw [if_neg h1]
        by_cases h2 : base ≤ p
        · have e : p - base = 0 := by omega
          rw [if_pos h2, e]
          simp
        · rw [if_neg h2]
    | some b =>
      obtain ⟨w1, w2, w3, w4, w5⟩ := write_byte_port m base p b (by omega)
      obtain ⟨i1, i2, i3, i4, i5⟩ := ih (base + 1) (motu_in_port_write_byte m base b)
        (by rw [w2]; omega)
      refine ⟨?_, i2.trans w2, i3.trans w3, i4.trans w4, i5.trans w5⟩
      show (write_cells (motu_in_port_write_byte m base b) (base + 1) cs).in_port p = _
      rw [i1, w1]
      by_cases h1 : base + 1 ≤ p
      · have e : p - base = (p - (base + 1)) + 1 := by omega
        have hb1 : base ≤ p := by omega
        have hne : ¬ base = p := by omega
        rw [if_pos h1, if_pos hb1, if_neg hne, e]
        simp
      · rw [if_neg h1]
        by_cases h2 : base ≤ p
        · have e : p - base = 0 := by omega
          have e2 : base = p := by omega
          rw [if_pos h2, e, if_pos e2]
          simp
        · have hne : ¬ base = p := by omega
          rw [if_neg h2, if_neg hne]

theorem pull_cells_getD (lens : Nat → Int) (bufs : Nat → Nat → Nat) (n i p : Nat) :
    (pull_cells lens bufs n i).getD p none =
      (if p < n ∧ lens p > (i : Int) then some (bufs p i) else none) := by
  unfold pull_cells
  by_cases hp : p < n
  · rw [List.getD_eq_getElem _ _ (by simpa using hp)]
    simp only [List.getElem_map, List.getElem_range]
    by_cases hl : lens p > (i : Int)
    · rw [if_pos hl, if_pos ⟨hp, hl⟩]
    · rw [if_neg hl, if_neg (fun h => hl h.2)]
  · rw [if_neg (fun h => hp h.1)]
    simp only [List.getD_eq_getElem?_getD]
    rw [List.getElem?_eq_none (by simpa using hp)]
    rfl

theorem mask_value_zero_getD (cs : List (Option Nat)) (h : mask_value cs = 0) (j : Nat) :
    cs.getD j none = none := by
  induction cs generalizing j with
  | nil => simp
  | cons c cs ih =>
    cases c with
    | some b => simp [mask_value] at h
    | none =>
      have hv : mask_value cs = 0 := by
        simp only [mask_value] at h
        simp at h
        exact h
      cases j with
      | zero => simp
      | succ j => simpa using ih hv j

/-- The rows of a packet give port `p` the bytes of its chunk, in order. -/
theorem write_rows_port (lens : Nat → Int) (bufs : Nat → Nat → Nat) (n : Nat) (p : Nat)
    (chunk : List Nat) (hl : lens p = (chunk.length : Int))
    (hb : ∀ j, bufs p j = chunk.getD j 0) (hp : p < n) (k : Nat) :
    ∀ (i : Nat) (m : motu), n ≤ m.in_ports.length →
      (write_rows lens bufs n m (List.range' i k)).in_port p =
        ((chunk.drop i).take k).foldl in_port_write_byte (m.in_port p) := by
  induction k with
  | zero => intro i m _; simp [write_rows]
  | succ k ih =>
    intro i m hlen
    rw [List.range'_succ]
    simp only [write_rows]
    have hcell := pull_cells_getD lens bufs n i p
    by_cases hz : mask_value (pull_cells lens bufs n i) = 0
    · rw [if_pos hz]
      have hnone := mask_value_zero_getD _ hz p
      rw [hcell] at hnone
      have hle : chunk.length ≤ i := by
        by_contra hc
        rw [if_pos ⟨hp, by rw [hl]; omega⟩] at hnone
        exact absurd hnone (by simp)
      rw [List.drop_eq_nil_of_le hle]
      rfl
    · rw [if_neg hz]
      obtain ⟨c1, c2, _⟩ := write_cells_port (pull_cells lens bufs n i) p 0 m
        (by simp; exact hlen)
      rw [ih (i + 1) _ (by rw [c2]; exact hlen), c1]
      simp only [Nat.zero_le, if_true, Nat.sub_zero]
      rw [hcell]
      by_cases hgt : i < chunk.length
      · rw [if_pos ⟨hp, by rw [hl]; omega⟩]
        rw [List.drop_eq_getElem_cons hgt]
        simp only [List.take_succ_cons, List.foldl_cons]
        rw [hb i, List.getD_eq_getElem _ _ hgt]
      · rw [if_neg (fun h => hgt (by have := h.2; rw [hl] at this; omega))]
        rw [List.drop_eq_nil_of_le (by omega), List.drop_eq_nil_of_le (by omega)]
        simp

theorem write_rows_frame (lens : Nat → Int) (bufs : Nat → Nat → Nat) (n : Nat) (is : List Nat) :
    ∀ m : motu, n ≤ m.in_ports.length →
      (write_rows lens bufs n m is).in_ports.length = m.in_ports.length ∧
      (write_rows lens bufs n m is).out_ports = m.out_ports ∧
      (write_rows lens bufs n m is).n_ports_out = m.n_ports_out ∧
      (write_rows lens bufs n m is).midi_out_buf = m.midi_out_buf := by
  induction is with
  | nil => intro m _; exact ⟨rfl, rfl, rfl, rfl⟩
  | cons i rest ih =>
    intro m hlen
    simp only [write_rows]
    split_ifs
    · exact ⟨rfl, rfl, rfl, rfl⟩
    · obtain ⟨_, c2, c3, c4, c5⟩ := write_cells_port (pull_cells lens bufs n i) 0 0 m
        (by simp; exact hlen)
      obtain ⟨i1, i2, i3, i4⟩ := ih _ (by rw [c2]; exact hlen)
      exact ⟨by rw [i1, c2], by rw [i2, c3], by rw [i3, c4], by rw [i4, c5]⟩

theorem take_zero_of_size (ip : motu_in_port) (h : ¬ in_port_get_buf_size ip > 0) :
    ip.buf.take (in_port_get_buf_size ip) = [] := by
  have : in_port_get_buf_size ip = 0 := by omega
  rw [this]
  rfl

theorem received_single (q p : Nat) (sub : Bool) (d : List Nat) :
    received (if sub = true then [Event.receive q d] else []) p =
      (if q = p ∧ sub = true then d else []) := by
  cases sub
  · simp [received]
  · by_cases h : q = p <;> simp [received, h]

theorem prot1_deliver_port (m : motu) (ev : List Event) (q p : Nat)
    (hq : q < m.in_ports.length) :
    (prot1_deliver (m, ev) q).1.in_port p =
      (if q = p then in_port_deliver (m.in_port p) else m.in_port p) ∧
    received (prot1_deliver (m, ev) q).2 p =
      received ev p ++
        (if q = p ∧ (m.in_port p).substream = true then
          (m.in_port p).buf.take (in_port_get_buf_size (m.in_port p)) else []) ∧
    (prot1_deliver (m, ev) q).1.in_ports.length = m.in_ports.length ∧
    (prot1_deliver (m, ev) q).1.out_ports = m.out_ports ∧
    (prot1_deliver (m, ev) q).1.n_ports_out = m.n_ports_out ∧
    (prot1_deliver (m, ev) q).1.midi_out_buf = m.midi_out_buf := by
  unfold prot1_deliver motu_in_port_get_buf_size
  dsimp only
  by_cases hlen : in_port_get_buf_size (m.in_port q) > 0
  · rw [if_pos hlen]
    obtain ⟨f1, f2, f3, f4, f5⟩ := flush_port m q p hq
    refine ⟨?_, ?_, f2, f3, f4, f5⟩
    · show (motu_in_port_flush m q).in_port p = _
      rw [f1]
      by_cases h : q = p
      · subst h
        rw [if_pos rfl, if_pos rfl]
        unfold in_port_deliver
        rw [if_pos hlen]
      · rw [if_neg h, if_neg h]
    · show received (ev ++ _) p = _
      rw [received_append, received_single]
      by_cases h : q = p
      · subst h; rfl
      · rw [if_neg (fun hh => h hh.1), if_neg (fun hh => h hh.1)]
  · rw [if_neg hlen]
    refine ⟨?_, ?_, rfl, rfl, rfl, rfl⟩
    · by_cases h : q = p
      · subst h
        rw [if_pos rfl]
        unfold in_port_deliver
        rw [if_neg hlen]
      · rw [if_neg h]
    · by_cases h : q = p
      · subst h
        rw [take_zero_of_size _ hlen]
        simp
      · rw [if_neg (fun hh => h hh.1)]
        simp

/-- The closing loop of the decoder delivers and flushes every port of `ps`
once. -/
theorem deliver_loop_port (p : Nat) (ps : List Nat) :
    ∀ (m : motu) (ev : List Event), ps.Nodup → (∀ q ∈ ps, q < m.in_ports.length) →
      (ps.foldl prot1_deliver (m, ev)).1.in_port p =
        (if p ∈ ps then in_port_deliver (m.in_port p) else m.in_port p) ∧
      received (ps.foldl prot1_deliver (m, ev)).2 p =
        received ev p ++
          (if p ∈ ps ∧ (m.in_port p).substream = true then
            (m.in_port p).buf.take (in_port_get_buf_size (m.in_port p)) else []) ∧
      (ps.foldl prot1_deliver (m, ev)).1.in_ports.length = m.in_ports.length ∧
      (ps.foldl prot1_deliver (m, ev)).1.out_ports = m.out_ports ∧
      (ps.foldl prot1_deliver (m, ev)).1.n_ports_out = m.n_ports_out ∧
      (ps.foldl prot1_deliver (m, ev)).1.midi_out_buf = m.midi_out_buf := by
  induction ps with
  | nil => intro m ev _ _; simp
  | cons q qs ih =>
    intro m ev hnd hlt
    obtain ⟨hq, hqs⟩ := List.nodup_cons.mp hnd
    obtain ⟨d1, d2, d3, d4, d5, d6⟩ := prot1_deliver_port m ev q p (hlt q (by simp))
    obtain ⟨i1, i2, i3, i4, i5, i6⟩ := ih (prot1_deliver (m, ev) q).1 (prot1_deliver (m, ev) q).2
      hqs (fun x hx => by rw [d3]; exact hlt x (by simp [hx]))
    simp only [List.foldl_cons]
    refine ⟨?_, ?_, i3.trans d3, i4.trans d4, i5.trans d5, i6.trans d6⟩
    · rw [i1]
      by_cases h : q = p
      · subst h
        rw [if_neg hq, d1, if_pos rfl, if_pos (List.mem_cons_self _ _)]
      · have hne : ¬ p = q := fun e => h e.symm
        rw [d1, if_neg h]
        by_cases hm : p ∈ qs
        · rw [if_pos hm, if_pos (List.mem_cons_of_mem _ hm)]
        · rw [if_neg hm, if_neg (fun hh => by
            rcases List.mem_cons.mp hh with e | e
            · exact hne e
            · exact hm e)]
    · rw [i2]
      by_cases h : q = p
      · subst h
        rw [if_neg (fun hh => hq hh.1), d2, List.append_nil]
        by_cases hs : (m.in_port q).substream = true
        · rw [if_pos ⟨rfl, hs⟩, if_pos ⟨List.mem_cons_self _ _, hs⟩]
        · rw [if_neg (fun hh => hs hh.2), if_neg (fun hh => hs hh.2)]
      · have hne : ¬ p = q := fun e => h e.symm
        rw [d2, d1, if_neg h, if_neg (fun hh => h hh.1), List.append_nil]
        by_cases hm : p ∈ qs ∧ (m.in_port p).substream = true
        · rw [if_pos hm, if_pos ⟨List.mem_cons_of_mem _ hm.1, hm.2⟩]
        · rw [if_neg hm, if_neg (fun hh => hm ⟨by
            rcases List.mem_cons.mp hh.1 with e | e
            · exact absurd e hne
            · exact e, hh.2⟩)]

/-! ### One round of the loop-back, one port -/

theorem rows_bytes_nil_iff (lens : Nat → Int) (bufs : Nat → Nat → Nat) (n i : Nat)
    (rest : List Nat) :
    rows_bytes lens bufs n (i :: rest) = [] ↔ mask_value (pull_cells lens bufs n i) = 0 := by
  simp only [rows_bytes]
  split_ifs with h
  · simp [h]
  · simp [h]

theorem loop_round_port (m : motu) (ev : List Event) (tx : Nat → pulled) (n p : Nat)
    (hf : frame_ok m n) (hn : n ≤ 8) (hp : p < n)
    (htx : ∀ q, (tx q).len = ((tx q).bytes.length : Int) ∧ (tx q).bytes.length ≤ 3)
    (hs0 : (m.in_port p).buf_send_len = 0) :
    frame_ok (prot1_loop_round (m, ev) tx).1 n ∧
    (prot1_loop_round (m, ev) tx).1.in_port p =
      in_port_deliver ((tx p).bytes.foldl in_port_write_byte (m.in_port p)) ∧
    (((tx p).bytes.foldl in_port_write_byte (m.in_port p)).substream = true →
      received (prot1_loop_round (m, ev) tx).2 p =
        received ev p ++
          ((tx p).bytes.foldl in_port_write_byte (m.in_port p)).buf.take
            (in_port_get_buf_size ((tx p).bytes.foldl in_port_write_byte (m.in_port p)))) := by
  obtain ⟨f1, f2, f3, f4⟩ := hf
  obtain ⟨s1, s2, s3, s4, s5⟩ := send_prot1_packet m tx f2 (by rw [f3]; exact hn)
  rw [f3] at s5
  have hlen_p : pull_len m tx p = ((tx p).bytes.length : Int) := by
    unfold pull_len
    rw [f4 p hp, if_pos rfl]
    exact (htx p).1
  have hport0 : (motu_midi_send_prot1 m tx 0).1.in_port p = m.in_port p :=
    in_port_congr _ _ s1 _
  unfold prot1_loop_round
  dsimp only
  rw [s5]
  by_cases hz : rows_bytes (pull_len m tx) (pull_byte tx) n [0, 1, 2] = []
  · -- no port has a byte: nothing is submitted, nothing is decoded
    rw [if_pos hz]
    have hm0 := (rows_bytes_nil_iff _ _ _ _ _).mp hz
    have hnone := mask_value_zero_getD _ hm0 p
    rw [pull_cells_getD] at hnone
    have hempty : (tx p).bytes = [] := by
      by_contra hc
      have hpos : 0 < (tx p).bytes.length := List.length_pos.mpr hc
      rw [if_pos ⟨hp, by rw [hlen_p]; simp; omega⟩] at hnone
      exact absurd hnone (by simp)
    have hsz : in_port_get_buf_size (m.in_port p) = 0 := by
      unfold in_port_get_buf_size
      split_ifs <;> omega
    simp only [prot1_packets, List.append_nil]
    refine ⟨⟨by rw [s1]; exact f1, s4, by rw [s3]; exact f3, by rw [s2]; exact f4⟩, ?_, ?_⟩
    · rw [hport0, hempty]
      unfold in_port_deliver
      simp only [List.foldl_nil]
      rw [if_neg (by omega)]
    · intro _
      rw [hempty]
      simp only [List.foldl_nil]
      rw [hsz]
      simp
  · rw [if_neg hz]
    simp only [submitted, prot1_packets, List.append_nil]
    have hlen2 : ¬ ([m.counter, 0] ++ rows_bytes (pull_len m tx) (pull_byte tx) n [0, 1, 2]
        ++ [0, 0]).length < 2 := by
      simp
    unfold motu_midi_handle_input_prot1
    rw [if_neg hlen2, prot1_scan_encoded _ _ n hn]
    have hms : n ≤ (motu_midi_send_prot1 m tx 0).1.in_ports.length := by
      rw [s1, f1]; omega
    obtain ⟨w1, w2, w3, w4⟩ := write_rows_frame (pull_len m tx) (pull_byte tx) n [0, 1, 2]
      (motu_midi_send_prot1 m tx 0).1 hms
    have hwp := write_rows_port (pull_len m tx) (pull_byte tx) n p (tx p).bytes hlen_p
      (fun j => rfl) hp 3 0 (motu_midi_send_prot1 m tx 0).1 hms
    have hr : List.range' 0 3 = [0, 1, 2] := rfl
    rw [hr, hport0, List.drop_zero, List.take_of_length_le (htx p).2] at hwp
    obtain ⟨d1, d2, d3, d4, d5, d6⟩ := deliver_loop_port p (List.range 8)
      (write_rows (pull_len m tx) (pull_byte tx) n (motu_midi_send_prot1 m tx 0).1 [0, 1, 2]) []
      (List.nodup_range 8)
      (fun q hq => by rw [w1, s1, f1]; have := List.mem_range.mp hq; omega)
    have hmem : p ∈ List.range 8 := List.mem_range.mpr (by omega)
    refine ⟨⟨by rw [d3, w1, s1]; exact f1, by rw [d6, w4]; exact s4,
      by rw [d5, w3, s3]; exact f3, by rw [d4, w2, s2]; exact f4⟩, ?_, ?_⟩
    · rw [d1, if_pos hmem, hwp]
    · intro hsub
      rw [received_append, d2, hwp, if_pos ⟨hmem, hsub⟩]
      rfl

/-! ### The loop-back over a sequence of rounds -/

theorem loop_inv_round (n p : Nat) (hn : n ≤ 8) (hp : p < n) (s : motu × List Event)
    (a : aport) (tx : Nat → pulled)
    (htx : ∀ q, (tx q).len = ((tx q).bytes.length : Int) ∧ (tx q).bytes.length ≤ 3)
    (h : loop_inv n p s a) :
    loop_inv n p (prot1_loop_round s tx) (a.run (tx p).bytes) := by
  obtain ⟨m, ev⟩ := s
  obtain ⟨hf, hsim, h0, hsub, hbl, hok⟩ := h
  dsimp only at hf hsim h0 hsub hbl
  have h3 := (htx p).2
  obtain ⟨r1, r2, r3⟩ := loop_round_port m ev tx n p hf hn hp htx h0
  obtain ⟨c1, c2, c3⟩ := sim_write_chunk (tx p).bytes (m.in_port p) (received ev p) a hsim
    (by omega)
  obtain ⟨e1, e2, e3, e4⟩ := sim_deliver _ _ _ c1 (by omega)
  have hok2 := aport_run_ok (tx p).bytes a hok
  refine ⟨r1, ?_, ?_, ?_, ?_, hok2⟩
  · rw [r2, r3 (c3.trans hsub)]
    exact e1
  · rw [r2]
    exact e2
  · rw [r2, e4, c3]
    exact hsub
  · rw [r2]
    have hc := contents_length
      (in_port_deliver ((tx p).bytes.foldl in_port_write_byte (m.in_port p)))
      (by rw [e1.2.2.2.2.2, e3]; omega)
    obtain ⟨_, _, p3, p4, _, _⟩ := e1
    obtain ⟨_, _, k3, k4⟩ := hok2
    have hl := congrArg List.length p3
    rw [List.length_append, hc] at hl
    rw [e2] at p4
    omega

theorem sent_cons (tx : Nat → pulled) (rest : List (Nat → pulled)) (p : Nat) :
    sent (tx :: rest) p = (tx p).bytes ++ sent rest p := by
  simp [sent]

theorem loop_inv_rounds (n p : Nat) (hn : n ≤ 8) (hp : p < n) (rounds : List (Nat → pulled)) :
    ∀ (s : motu × List Event) (a : aport),
      (∀ tx ∈ rounds, ∀ q, (tx q).len = ((tx q).bytes.length : Int) ∧
        (tx q).bytes.length ≤ 3) →
      loop_inv n p s a →
      loop_inv n p (rounds.foldl prot1_loop_round s) (a.run (sent rounds p)) := by
  induction rounds with
  | nil =>
    intro s a _ h
    exact h
  | cons tx rest ih =>
    intro s a htx h
    rw [List.foldl_cons, sent_cons, aport_run_append]
    exact ih _ _ (fun t ht => htx t (List.mem_cons_of_mem _ ht))
      (loop_inv_round n p hn hp s a tx (htx tx (List.mem_cons_self _ _)) h)

/-- Protocol-1 loop-back round trip, on the sequences the decoder
reassembles.  On a session with at most
8 output ports, a producer and a consumer registered on every port and
empty input ports with no stored status, let every port be handed, in pulls
of at most 3 bytes, the wire bytes of a sequence of complete valid MIDI
messages in which every running-status message directly follows a channel
message with the same status and every system-exclusive message comes when
the decoder has no stored status (`loopback_valid`).  Running
`motu_midi_send_prot1` for every pull and feeding each submitted packet to
`motu_midi_handle_input_prot1` delivers to every port exactly its sequence
with the implied status bytes written out. -/
theorem prot1_loopback_roundtrip (m : motu) (rounds : List (Nat → pulled))
    (msgs : Nat → List midi_msg)
    (hlen : m.in_ports.length = 9) (hbuf : m.midi_out_buf.length = BUFSIZE)
    (hn : m.n_ports_out.toNat ≤ 8)
    (hout : ∀ p, p < m.n_ports_out.toNat → m.out_ports.getD p false = true)
    (hin : ∀ p, p < m.n_ports_out.toNat →
      (m.in_port p).substream = true ∧ (m.in_port p).buf_len = 0 ∧
      (m.in_port p).buf_send_len = 0 ∧ (m.in_port p).last_cmd = 0 ∧
      (m.in_port p).cmd_bytes_remaining = 0 ∧ (m.in_port p).buf.length = 64)
    (htx : ∀ tx ∈ rounds, ∀ q, (tx q).len = ((tx q).bytes.length : Int) ∧
      (tx q).bytes.length ≤ 3)
    (hmsg : ∀ p, p < m.n_ports_out.toNat →
      loopback_valid none (msgs p) = true ∧ sent rounds p = wire_bytes (msgs p)) :
    ∀ p, p < m.n_ports_out.toNat →
      received (prot1_loopback m rounds).2 p = explicit_bytes (msgs p) := by
  intro p hp
  obtain ⟨i1, i2, i3, i4, i5, i6⟩ := hin p hp
  obtain ⟨hv, hs⟩ := hmsg p hp
  have hinv0 : loop_inv m.n_ports_out.toNat p (m, [])
      { last_cmd := 0, cbr := 0, out := [], sendable := 0 } := by
    refine ⟨⟨hlen, hbuf, rfl, hout⟩, ⟨i4.symm, i5.symm, ?_, ?_, ?_, i6⟩, i3, i1, ?_, ?_⟩
    · show [] = received [] p ++ (m.in_port p).contents
      unfold motu_in_port.contents
      rw [i2]
      rfl
    · show 0 = (received [] p).length + (m.in_port p).buf_send_len
      rw [i3]
      rfl
    · rw [i2, i3]
    · show (m.in_port p).buf_len ≤ 3
      omega
    · exact ⟨fun _ => rfl, fun h => absurd h (by decide), Nat.le_refl _, by decide⟩
  have h := loop_inv_rounds m.n_ports_out.toNat p hn hp rounds (m, []) _ htx hinv0
  rw [hs] at h
  obtain ⟨_, ⟨_, _, q3, q4, _, _⟩, z0, _, _, _⟩ := h
  obtain ⟨o1, o2⟩ := aport_run_messages (msgs p) none
    { last_cmd := 0, cbr := 0, out := [], sendable := 0 } hv ⟨rfl, rfl, rfl⟩
  rw [z0, o2, q3, List.length_append] at q4
  have hc : ((List.foldl prot1_loop_round (m, []) rounds).1.in_port p).contents = [] :=
    List.length_eq_zero.mp (by omega)
  rw [q3, hc, List.append_nil] at o1
  unfold prot1_loopback
  rw [o1]
  rfl

set_option maxRecDepth 100000 in
/-- An instance of the round trip: on the express 128, port 0 is handed
`90 40 7F 41 7F F8` in two pulls (a note-on, a note-on under running status,
a timing clock) and receives `90 40 7F 90 41 7F F8`. -/
theorem prot1_loopback_roundtrip_witness :
    received (prot1_loopback express_128_open
        [pull_port0 [0x90, 0x40, 0x7F], pull_port0 [0x41, 0x7F, 0xF8]]).2 0 =
      [0x90, 0x40, 0x7F, 0x90, 0x41, 0x7F, 0xF8] :=
  (prot1_loopback_roundtrip express_128_open
    [pull_port0 [0x90, 0x40, 0x7F], pull_port0 [0x41, 0x7F, 0xF8]]
    (fun p => if p = 0 then
      [midi_msg.chan 0x90 [0x40, 0x7F], midi_msg.run 0x90 [0x41, 0x7F], midi_msg.sys 0xF8 []]
      else [])
    (by decide) (by decide) (by decide) (by decide) (by decide)
    (by
      intro tx ht q
      simp only [List.mem_cons, List.mem_singleton, List.not_mem_nil, or_false] at ht
      rcases ht with rfl | rfl <;> (unfold pull_port0; by_cases hq : q = 0 <;> simp [hq]))
    (by decide) 0 (by decide)).trans (by decide)

/-! ## The command-length table -/

set_option maxRecDepth 100000 in
/-- C18 (counterexample): the table gives `FF` the length 1, not the
sentinel, and gives `F4`, `F5` and `FD`, which lie in `F1 .. FE`, the
sentinel -1 and not a length 1 or 2. -/
theorem cmd_table_counterexample :
    get_cmd_num_bytes 0xFF = 1 ∧ get_cmd_num_bytes 0xFF ≠ -1 ∧
    get_cmd_num_bytes 0xF4 = -1 ∧ get_cmd_num_bytes 0xF5 = -1 ∧ get_cmd_num_bytes 0xFD = -1 ∧
    ¬ (get_cmd_num_bytes 0xF4 = 1 ∨ get_cmd_num_bytes 0xF4 = 2) := by
  decide

set_option maxRecDepth 100000 in
/-- C18 (amended): the command-length table.  For every byte `b`,
`get_cmd_num_bytes b` is 2 for the high nibbles `C` and `D` and 3 for the
high nibbles `8`, `9`, `A`, `B`, `E`; it is the sentinel -1 for `F0`, for
`F4`, `F5`, `FD` and for every `b < 0x80`; it is 2 for `F1` and `F3` and 1
for every other byte from `F2` to `FF`. -/
theorem cmd_table_mapping (b : Nat) (hb : b < 256) :
    ((0x80 ≤ b ∧ b ≤ 0xEF) →
      get_cmd_num_bytes b = (if b / 16 = 0xC ∨ b / 16 = 0xD then 2 else 3)) ∧
    (b = 0xF0 → get_cmd_num_bytes b = -1) ∧
    ((0xF1 ≤ b ∧ b ≠ 0xF4 ∧ b ≠ 0xF5 ∧ b ≠ 0xFD) →
      get_cmd_num_bytes b = (if b = 0xF1 ∨ b = 0xF3 then 2 else 1)) ∧
    ((b = 0xF4 ∨ b = 0xF5 ∨ b = 0xFD) → get_cmd_num_bytes b = -1) ∧
    (b < 0x80 → get_cmd_num_bytes b = -1) := by
  revert b
  decide

/-- Witness for C18 (amended): the note-on status `90` has length 3. -/
theorem cmd_table_mapping_witness : get_cmd_num_bytes 0x90 = 3 :=
  ((cmd_table_mapping 0x90 (by decide)).1 (by decide)).trans (by decide)

/-! ## The output FIFO at capacity -/

theorem fifo_in_byte_cursor (f : motufifo) (b : Nat) (hp : f.p_in < N_MBUF) :
    (fifo_in_byte f b).mbuf = f.mbuf.set f.p_in b ∧
    (fifo_in_byte f b).p_in = (f.p_in + 1) % N_MBUF ∧
    (fifo_in_byte f b).p_out = f.p_out := by
  have e : (if f.p_in + 1 ≥ N_MBUF then 0 else f.p_in + 1) = (f.p_in + 1) % N_MBUF := by
    unfold N_MBUF at hp ⊢
    split_ifs <;> omega
  unfold fifo_in_byte
  dsimp only
  rw [e]
  split_ifs <;> exact ⟨rfl, rfl, rfl⟩

theorem fifo_in_stored (bs : List Nat) :
    ∀ f : motufifo, f.buf_len ≤ N_MBUF → f.p_in < N_MBUF → f.mbuf.length = N_MBUF →
      (fifo_in f bs).2 = decide (bs.length > N_MBUF - f.buf_len) ∧
      (fifo_in f bs).1.buf_len = f.buf_len + min bs.length (N_MBUF - f.buf_len) ∧
      (fifo_in f bs).1.p_in = (f.p_in + min bs.length (N_MBUF - f.buf_len)) % N_MBUF ∧
      (fifo_in f bs).1.p_out = f.p_out ∧
      (fifo_in f bs).1.mbuf.length = N_MBUF ∧
      (∀ j, j < min bs.length (N_MBUF - f.buf_len) →
        (fifo_in f bs).1.mbuf.getD ((f.p_in + j) % N_MBUF) 0 = bs.getD j 0) ∧
      (∀ c, (∀ j, j < min bs.length (N_MBUF - f.buf_len) → c ≠ (f.p_in + j) % N_MBUF) →
        (fifo_in f bs).1.mbuf.getD c 0 = f.mbuf.getD c 0) ∧
      (f.buf_len = N_MBUF → (fifo_in f bs).1 = f) := by
  induction bs with
  | nil =>
    intro f hl hp hm
    have hk : min ([] : List Nat).length (N_MBUF - f.buf_len) = 0 := by simp
    rw [hk]
    exact ⟨by simp [fifo_in], rfl, (Nat.mod_eq_of_lt hp).symm, rfl, hm,
      fun j hj => absurd hj (by omega), fun _ _ => rfl, fun _ => rfl⟩
  | cons b bs ih =>
    intro f hl hp hm
    simp only [fifo_in, List.length_cons]
    by_cases hfull : f.buf_len ≥ N_MBUF
    · rw [if_pos hfull]
      have hk : min (bs.length + 1) (N_MBUF - f.buf_len) = 0 := by omega
      rw [hk]
      refine ⟨by simp; omega, rfl, (Nat.mod_eq_of_lt hp).symm, rfl, hm,
        fun j hj => absurd hj (by omega), fun _ _ => rfl, fun _ => rfl⟩
    · rw [if_neg hfull]
      obtain ⟨c1, c2, c3⟩ := fifo_in_byte_cursor f b hp
      have hl1 : (fifo_in_byte f b).buf_len ≤ N_MBUF := by
        rw [fifo_in_byte_buf_len]; omega
      have hp1 : (fifo_in_byte f b).p_in < N_MBUF := by
        rw [c2]; exact Nat.mod_lt _ (by decide)
      have hm1 : (fifo_in_byte f b).mbuf.length = N_MBUF := by
        rw [c1, List.length_set]; exact hm
      obtain ⟨i1, i2, i3, i4, i5, i6, i7, _⟩ := ih (fifo_in_byte f b) hl1 hp1 hm1
      rw [fifo_in_byte_buf_len] at i1 i2 i3 i6 i7
      rw [c2] at i3 i6 i7
      have hk : min (bs.length + 1) (N_MBUF - f.buf_len) =
          min bs.length (N_MBUF - (f.buf_len + 1)) + 1 := by omega
      rw [hk]
      unfold N_MBUF at *
      refine ⟨?_, ?_, ?_, ?_, i5, ?_, ?_, ?_⟩
      · rw [i1]
        simp only [gt_iff_lt, decide_eq_decide]
        omega
      · rw [i2]; omega
      · rw [i3]; omega
      · rw [i4, c3]
      · intro j hj
        rcases j with _ | j
        · rw [i7 _ (fun j hj => by omega), c1]
          simp only [Nat.add_zero, Nat.mod_eq_of_lt hp, List.getD_cons_zero]
          exact getD_set_same _ _ _ _ (by omega)
        · have := i6 j (by omega)
          rw [List.getD_cons_succ, ← this]
          congr 1
          omega
      · intro c hc
        rw [i7 c (fun j hj => by have := hc (j + 1) (by omega); omega), c1]
        have h0 := hc 0 (by omega)
        simp only [Nat.add_zero, Nat.mod_eq_of_lt hp] at h0
        exact getD_set_ne _ _ _ _ _ (by omega)
      · intro h
        omega

theorem fifo_set_other (m : motu) (port q : Nat) (f : motufifo) (h : q ≠ port) :
    (m.set_fifo port f).fifo q = m.fifo q := by
  simp [motu.fifo, motu.set_fifo, List.getElem?_set_ne (Ne.symm h)]

/-- C19: FIFO overflow drops the remainder and nothing else.  For a FIFO
with `buf_len = l ≤ 64` (and a write cursor inside the ring), a push of `n`
bytes with `mfifo_in` stores exactly the first `min n (64 - l)` bytes, in
order, in the ring cells from the write cursor on, leaves every other cell,
the read cursor and every other FIFO as they were, makes
`buf_len = l + min n (64 - l)`, reports the overflow once if `n > 64 - l`
and not at all otherwise, and changes nothing in a FIFO with `l = 64`. -/
theorem mfifo_in_overflow_drops_rest (m : motu) (port : Nat) (buf : List Nat)
    (hport : port < m.mfifo.length) (hl : (m.fifo port).buf_len ≤ N_MBUF)
    (hp : (m.fifo port).p_in < N_MBUF) (hm : (m.fifo port).mbuf.length = N_MBUF) :
    ((mfifo_in m port buf buf.length).1.fifo port).buf_len =
      (m.fifo port).buf_len + min buf.length (N_MBUF - (m.fifo port).buf_len) ∧
    (∀ j, j < min buf.length (N_MBUF - (m.fifo port).buf_len) →
      ((mfifo_in m port buf buf.length).1.fifo port).mbuf.getD
        (((m.fifo port).p_in + j) % N_MBUF) 0 = buf.getD j 0) ∧
    (∀ c, (∀ j, j < min buf.length (N_MBUF - (m.fifo port).buf_len) →
        c ≠ ((m.fifo port).p_in + j) % N_MBUF) →
      ((mfifo_in m port buf buf.length).1.fifo port).mbuf.getD c 0 =
        (m.fifo port).mbuf.getD c 0) ∧
    ((mfifo_in m port buf buf.length).1.fifo port).p_in =
      ((m.fifo port).p_in + min buf.length (N_MBUF - (m.fifo port).buf_len)) % N_MBUF ∧
    ((mfifo_in m port buf buf.length).1.fifo port).p_out = (m.fifo port).p_out ∧
    (mfifo_in m port buf buf.length).2 =
      (if buf.length > N_MBUF - (m.fifo port).buf_len then [Event.warn_fifo_overflow port]
       else []) ∧
    ((m.fifo port).buf_len = N_MBUF →
      (mfifo_in m port buf buf.length).1.fifo port = m.fifo port) ∧
    (∀ q, q ≠ port → (mfifo_in m port buf buf.length).1.fifo q = m.fifo q) := by
  obtain ⟨h1, h2, h3, h4, _, h6, h7, h8⟩ := fifo_in_stored buf (m.fifo port) hl hp hm
  have hf := mfifo_in_fifo m port buf hport
  refine ⟨by rw [hf]; exact h2, fun j hj => by rw [hf]; exact h6 j hj,
    fun c hc => by rw [hf]; exact h7 c hc, by rw [hf]; exact h3, by rw [hf]; exact h4, ?_,
    fun h => by rw [hf]; exact h8 h, fun q hq => ?_⟩
  · simp only [mfifo_in, Int.toNat_ofNat, List.take_length, h1]
    by_cases hc : buf.length > N_MBUF - (m.fifo port).buf_len
    · simp [hc]
    · simp [hc]
  · simp only [mfifo_in]
    exact fifo_set_other _ _ _ _ hq

set_option maxRecDepth 100000 in
/-- Witness for C19: on the express XT, after 63 bytes were pushed into the
FIFO of port 0, the push of `90 40 7F` stores one byte (`buf_len = 64`) and
reports the overflow once. -/
theorem mfifo_in_overflow_drops_rest_witness :
    ((mfifo_in (mfifo_push_all express_xt_ready 0 [List.replicate 63 0x01]) 0 [0x90, 0x40, 0x7F]
      ([0x90, 0x40, 0x7F] : List Nat).length).1.fifo 0).buf_len = 64 ∧
    (mfifo_in (mfifo_push_all express_xt_ready 0 [List.replicate 63 0x01]) 0 [0x90, 0x40, 0x7F]
      ([0x90, 0x40, 0x7F] : List Nat).length).2 = [Event.warn_fifo_overflow 0] := by
  have h := mfifo_in_overflow_drops_rest
    (mfifo_push_all express_xt_ready 0 [List.replicate 63 0x01]) 0 [0x90, 0x40, 0x7F]
    (by decide) (by decide) (by decide) (by decide)
  exact ⟨h.1.trans (by decide), h.2.2.2.2.2.1.trans (by decide)⟩

/-! ## The encoders with nothing to send -/

theorem mask_value_none (lens : Nat → Int) (bufs : Nat → Nat → Nat) (i n : Nat)
    (h : ∀ p, p < n → ¬ lens p > (i : Int)) : mask_value (pull_cells lens bufs n i) = 0 := by
  induction n with
  | zero => rfl
  | succ n ih =>
    rw [pull_cells_succ, mask_value_append, ih (fun p hp => h p (by omega)),
      if_neg (h n (by omega))]
    simp

theorem pull_errors_no_submit (m : motu) (tx : Nat → pulled) :
    ∀ e ∈ pull_errors m tx, Event.is_submit e = false := by
  unfold pull_errors
  have key : ∀ (l : List Nat) (ev : List Event), (∀ e ∈ ev, Event.is_submit e = false) →
      ∀ e ∈ l.foldl
        (fun ev p =>
          if pull_len m tx p < 0 then ev ++ [Event.err_transmit p (pull_len m tx p)] else ev)
        ev, Event.is_submit e = false := by
    intro l
    induction l with
    | nil => intro ev h; exact h
    | cons p l ih =>
      intro ev h
      simp only [List.foldl_cons]
      apply ih
      split_ifs
      · intro e he
        rcases List.mem_append.mp he with h1 | h1
        · exact h e h1
        · rw [List.mem_singleton.mp h1]; rfl
      · exact h
  exact key _ [] (fun e he => absurd he (List.not_mem_nil e))

theorem send_prot1_idle (m : motu) (tx : Nat → pulled) (ret : Int)
    (hidle : ∀ p, (tx p).len ≤ 0) :
    (motu_midi_send_prot1 m tx ret).2 = pull_errors m tx ∧
    (motu_midi_send_prot1 m tx ret).1.midi_out_active = 0 := by
  have hz : (prot1_mask_loop (pull_len m tx) m.n_ports_out.toNat 0).1 = 0 := by
    rw [prot1_mask_loop_eq (pull_len m tx) (pull_byte tx)]
    apply mask_value_none
    intro p _
    unfold pull_len
    have := hidle p
    push_cast
    split_ifs <;> omega
  unfold motu_midi_send_prot1
  simp [prot1_rows, hz]

theorem fifo_set_self (m : motu) (p q : Nat) : (m.set_fifo p (m.fifo p)).fifo q = m.fifo q := by
  by_cases h : q = p
  · subst h
    by_cases hl : q < m.mfifo.length
    · exact fifo_set_same m q _ hl
    · simp [motu.fifo, motu.set_fifo, List.set_eq_of_length_le (Nat.le_of_not_lt hl)]
  · exact fifo_set_other m p q _ h

theorem prot2_pull_idle (tx : Nat → pulled) (hidle : ∀ p, (tx p).len ≤ 0) (ps : List Nat) :
    ∀ s : motu × List Event,
      (∀ q, (prot2_pull tx ps s).1.fifo q = s.1.fifo q) ∧
      (prot2_pull tx ps s).1.midi_out_active = s.1.midi_out_active ∧
      (prot2_pull tx ps s).1.out_ports = s.1.out_ports ∧
      (prot2_pull tx ps s).1.n_ports_out = s.1.n_ports_out ∧
      ((∀ e ∈ s.2, Event.is_submit e = false) →
        ∀ e ∈ (prot2_pull tx ps s).2, Event.is_submit e = false) := by
  induction ps with
  | nil => intro s; exact ⟨fun _ => rfl, rfl, rfl, rfl, fun h => h⟩
  | cons p ps ih =>
    intro s
    simp only [prot2_pull]
    by_cases hreg : s.1.out_ports.getD p false = true
    · rw [if_pos hreg]
      have h0 : (tx p).len.toNat = 0 := by have := hidle p; omega
      have hm : mfifo_in s.1 p (tx p).bytes (tx p).len = (s.1.set_fifo p (s.1.fifo p), []) := by
        simp [mfifo_in, h0, fifo_in]
      rw [hm]
      dsimp only
      obtain ⟨a1, a2, a3, a4, a5⟩ := ih (s.1.set_fifo p (s.1.fifo p),
        s.2 ++ [] ++ if (tx p).len < 0 then [Event.err_transmit p (tx p).len] else [])
      refine ⟨fun q => (a1 q).trans (fifo_set_self _ _ _), a2, a3, a4, fun h => a5 ?_⟩
      intro e he
      simp only [List.append_nil] at he
      rcases List.mem_append.mp he with h1 | h1
      · exact h e h1
      · split_ifs at h1
        · rw [List.mem_singleton.mp h1]; rfl
        · exact absurd h1 (List.not_mem_nil e)
    · rw [if_neg hreg]
      exact ih s

theorem pack_ports_idle (ps : List Nat) (s : pack_state)
    (h : ∀ p ∈ ps, (s.m.fifo p).buf_send_len = 0) : pack_ports ps s = some (s, false) := by
  induction ps with
  | nil => rfl
  | cons p ps ih =>
    have hp : pack_port PACK_FUEL s p = some (s, false) := by
      have hfuel : PACK_FUEL = BUFSIZE + 1 + 1 := rfl
      rw [hfuel, pack_port, if_neg (by simp [h p (List.mem_cons_self _ _)])]
    simp only [pack_ports, hp]
    exact ih (fun q hq => h q (List.mem_cons_of_mem _ hq))

/-- C11: the encoders with nothing to send.  When every producer yields no
bytes, `motu_midi_send_prot1` (in any state) calls `usb_submit_urb` not at
all and returns with `midi_out_active` clear; `motu_midi_send_prot2`, in any
state in which no FIFO holds sendable bytes, returns, calls
`usb_submit_urb` not at all and leaves `midi_out_active` as it was, so the
flag is false on return whenever it was false on entry. -/
theorem encoders_idle_submit_nothing (m : motu) (tx : Nat → pulled) (ret : Int)
    (hidle : ∀ p, (tx p).len ≤ 0) :
    ((∀ e ∈ (motu_midi_send_prot1 m tx ret).2, Event.is_submit e = false) ∧
      (m.midi_out_active = 0 → (motu_midi_send_prot1 m tx ret).1.midi_out_active = 0)) ∧
    ((∀ p, (m.fifo p).buf_send_len = 0) →
      ∃ r, motu_midi_send_prot2 m tx ret = some r ∧
        (∀ e ∈ r.2, Event.is_submit e = false) ∧
        r.1.midi_out_active = m.midi_out_active ∧
        (m.midi_out_active = 0 → r.1.midi_out_active = 0)) := by
  constructor
  · obtain ⟨h1, h2⟩ := send_prot1_idle m tx ret hidle
    exact ⟨by rw [h1]; exact pull_errors_no_submit m tx, fun _ => h2⟩
  · intro hf
    obtain ⟨a1, a2, _, _, a5⟩ := prot2_pull_idle tx hidle (List.range m.n_ports_out.toNat) (m, [])
    have hp := pack_ports_idle (List.range m.n_ports_out.toNat)
      { m := (prot2_pull tx (List.range m.n_ports_out.toNat) (m, [])).1, i := 0, k := 0,
        ev := (prot2_pull tx (List.range m.n_ports_out.toNat) (m, [])).2 }
      (fun p _ => by rw [a1 p]; exact hf p)
    refine ⟨_, by unfold motu_midi_send_prot2; simp only [hp]; rfl, ?_, ?_, ?_⟩
    · exact a5 (fun e he => absurd he (List.not_mem_nil e))
    · exact a2
    · intro h; rw [← h]; exact a2

theorem express_xt_ready_fifo (p : Nat) : express_xt_ready.fifo p = blank_fifo := by
  have h : express_xt_ready.mfifo = List.replicate 9 blank_fifo := by decide
  unfold motu.fifo
  rw [h, List.getD_eq_getElem?_getD]
  exact List.getElem?_getD_replicate_default_eq (d := blank_fifo) 9 _

set_option maxRecDepth 100000 in
/-- Witness for C11: the express 128 (protocol 1) and the express XT
(protocol 2, FIFOs empty) with producers that hand over nothing. -/
theorem encoders_idle_submit_nothing_witness :
    (∀ e ∈ (motu_midi_send_prot1 express_128_open (fun _ => { len := 0, bytes := [] }) 0).2,
      Event.is_submit e = false) ∧
    ∃ r, motu_midi_send_prot2 express_xt_ready (fun _ => { len := 0, bytes := [] }) 0 = some r ∧
      (∀ e ∈ r.2, Event.is_submit e = false) ∧ r.1.midi_out_active = 0 :=
  ⟨(encoders_idle_submit_nothing express_128_open (fun _ => { len := 0, bytes := [] }) 0
      (fun _ => Int.le_refl 0)).1.1,
    match (encoders_idle_submit_nothing express_xt_ready (fun _ => { len := 0, bytes := [] }) 0
      (fun _ => Int.le_refl 0)).2 (fun p => by rw [express_xt_ready_fifo]; rfl) with
    | ⟨r, h1, h2, _, h4⟩ => ⟨r, h1, h2, h4 (by decide)⟩⟩

/-! ## The protocol-1 packet -/

theorem mask_value_testBit (cs : List (Option Nat)) :
    ∀ p, (mask_value cs).testBit p = (cs.getD p none).isSome := by
  induction cs with
  | nil => intro p; simp [mask_value]
  | cons c cs ih =>
    intro p
    cases p with
    | zero =>
      rw [Nat.testBit_zero]
      cases c <;> simp [mask_value]
    | succ p =>
      rw [Nat.testBit_succ, List.getD_cons_succ, ← ih p]
      congr 1
      simp only [mask_value]
      split_ifs <;> omega

theorem row_payload_filter (lens : Nat → Int) (bufs : Nat → Nat → Nat) (n i : Nat) :
    row_payload (pull_cells lens bufs n i) =
      ((List.range n).filter (fun p => decide (lens p > (i : Int)))).map (fun p => bufs p i) := by
  induction n with
  | zero => rfl
  | succ n ih =>
    rw [pull_cells_succ, row_payload_append, ih, List.range_succ, List.filter_append,
      List.map_append]
    congr 1
    by_cases h : lens n > (i : Int)
    · simp [h]
    · simp [h]

theorem rows_bytes_length_le (lens : Nat → Int) (bufs : Nat → Nat → Nat) (n : Nat)
    (is : List Nat) : (rows_bytes lens bufs n is).length ≤ is.length * (n + 1) := by
  induction is with
  | nil => simp [rows_bytes]
  | cons i rest ih =>
    simp only [rows_bytes]
    split_ifs
    · simp
    · have hle := row_payload_length_le (pull_cells lens bufs n i)
      rw [pull_cells_length] at hle
      simp only [List.length_cons, List.length_append]
      have : (rest.length + 1) * (n + 1) = rest.length * (n + 1) + (n + 1) := by ring
      omega

/-- C12: the protocol-1 packet format.  For every counter value and every
pull result of `n_ports_out ≤ 8` ports in which some port has a byte,
`motu_midi_send_prot1` builds in `midi_out_buf` exactly the packet
`[c, 0] ++ rows ++ [0, 0]`, hands it to `usb_submit_urb`, sets the transfer
length to its length and advances the counter to `(c + 1) mod 256`.  The
rows are those of the offsets 0, 1, 2 up to the first zero mask; bit `p` of
the mask of offset `i` is set iff `p < n_ports_out` and `lens[p] > i`, the
mask fits a byte, and the payload of the row is `bufs[p][i]` for the ports
with `lens[p] > i` in ascending order. -/
theorem prot1_packet_format (m : motu) (tx : Nat → pulled) (ret : Int)
    (hbuf : m.midi_out_buf.length = BUFSIZE) (hn : m.n_ports_out.toNat ≤ 8)
    (hsome : ∃ p, p < m.n_ports_out.toNat ∧ pull_len m tx p > 0) :
    (motu_midi_send_prot1 m tx ret).1.midi_out_buf.take
        (prot1_packet m.counter (pull_len m tx) (pull_byte tx) m.n_ports_out.toNat).length =
      prot1_packet m.counter (pull_len m tx) (pull_byte tx) m.n_ports_out.toNat ∧
    (motu_midi_send_prot1 m tx ret).1.midi_out_urb.transfer_buffer_length =
      (prot1_packet m.counter (pull_len m tx) (pull_byte tx) m.n_ports_out.toNat).length ∧
    (motu_midi_send_prot1 m tx ret).1.counter = (m.counter + 1) % 256 ∧
    submitted (motu_midi_send_prot1 m tx ret).2 =
      [prot1_packet m.counter (pull_len m tx) (pull_byte tx) m.n_ports_out.toNat] ∧
    (∀ i, mask_value (pull_cells (pull_len m tx) (pull_byte tx) m.n_ports_out.toNat i) < 256) ∧
    (∀ i p, (mask_value (pull_cells (pull_len m tx) (pull_byte tx) m.n_ports_out.toNat i)).testBit p
      = decide (p < m.n_ports_out.toNat ∧ pull_len m tx p > (i : Int))) ∧
    (∀ i, row_payload (pull_cells (pull_len m tx) (pull_byte tx) m.n_ports_out.toNat i) =
      ((List.range m.n_ports_out.toNat).filter (fun p => decide (pull_len m tx p > (i : Int)))).map
        (fun p => pull_byte tx p i)) := by
  have hB : BUFSIZE = 128 := rfl
  have hl0 : ((m.midi_out_buf.set 0 m.counter).set 1 0).length = BUFSIZE := by simp [hbuf]
  obtain ⟨r1, r2, r3⟩ := prot1_rows_view (pull_len m tx) (pull_byte tx) m.n_ports_out.toNat
    [0, 1, 2] ((m.midi_out_buf.set 0 m.counter).set 1 0, 2) hl0
    (by simp only [List.length_cons, List.length_nil]; omega)
  have hlen := rows_bytes_length_le (pull_len m tx) (pull_byte tx) m.n_ports_out.toNat [0, 1, 2]
  simp only [List.length_cons, List.length_nil] at hlen
  have hz : rows_bytes (pull_len m tx) (pull_byte tx) m.n_ports_out.toNat [0, 1, 2] ≠ [] := by
    intro hz
    obtain ⟨p, hp, hpos⟩ := hsome
    have h0 := mask_value_zero_getD _ ((rows_bytes_nil_iff _ _ _ _ _).mp hz) p
    rw [pull_cells_getD, if_pos ⟨hp, by simpa using hpos⟩] at h0
    exact absurd h0 (by simp)
  have hpos : 0 < (rows_bytes (pull_len m tx) (pull_byte tx)
      m.n_ports_out.toNat [0, 1, 2]).length := List.length_pos.mpr hz
  obtain ⟨p1, p2, p3⟩ := prot1_put_view _ 0 r3 (by rw [r2]; omega)
  obtain ⟨q1, q2, q3⟩ := prot1_put_view _ 0 p3 (by rw [p2, r2]; omega)
  have hpk : (prot1_put (prot1_put (prot1_rows (pull_len m tx) (pull_byte tx)
      m.n_ports_out.toNat [0, 1, 2] ((m.midi_out_buf.set 0 m.counter).set 1 0, 2)).1 0) 0).1.take
      (prot1_put (prot1_put (prot1_rows (pull_len m tx) (pull_byte tx)
      m.n_ports_out.toNat [0, 1, 2] ((m.midi_out_buf.set 0 m.counter).set 1 0, 2)).1 0) 0).2 =
      prot1_packet m.counter (pull_len m tx) (pull_byte tx) m.n_ports_out.toNat := by
    rw [q1, p1, r1, take_two_set _ _ _ (by omega)]
    simp [prot1_packet]
  have hpl : (prot1_put (prot1_put (prot1_rows (pull_len m tx) (pull_byte tx)
      m.n_ports_out.toNat [0, 1, 2] ((m.midi_out_buf.set 0 m.counter).set 1 0, 2)).1 0) 0).2 =
      (prot1_packet m.counter (pull_len m tx) (pull_byte tx) m.n_ports_out.toNat).length := by
    rw [q2, p2, r2]
    simp [prot1_packet]
    omega
  refine ⟨?_, ?_, ?_, ?_, ?_, ?_, ?_⟩
  · rw [← hpl, ← hpk]
    unfold motu_midi_send_prot1
    dsimp only
    rw [if_neg (by rw [r2]; omega)]
    split_ifs <;> rfl
  · rw [← hpl]
    unfold motu_midi_send_prot1
    dsimp only
    rw [if_neg (by rw [r2]; omega)]
    split_ifs <;> rfl
  · unfold motu_midi_send_prot1
    dsimp only
    rw [if_neg (by rw [r2]; omega)]
    split_ifs <;> rfl
  · rw [← hpk]
    unfold motu_midi_send_prot1
    dsimp only
    rw [if_neg (by rw [r2]; omega)]
    split_ifs <;>
      (rw [submitted_append, submitted_pull_errors]; simp only [submitted, List.nil_append])
  · intro i
    have h := mask_value_lt (pull_cells (pull_len m tx) (pull_byte tx) m.n_ports_out.toNat i)
    rw [pull_cells_length] at h
    have : 2 ^ m.n_ports_out.toNat ≤ 2 ^ 8 := Nat.pow_le_pow_right (by decide) hn
    omega
  · intro i p
    rw [mask_value_testBit, pull_cells_getD]
    by_cases h : p < m.n_ports_out.toNat ∧ pull_len m tx p > (i : Int)
    · rw [if_pos h]
      exact (decide_eq_true h).symm
    · rw [if_neg h]
      exact (decide_eq_false h).symm
  · intro i
    exact row_payload_filter _ _ _ _

set_option maxRecDepth 100000 in
/-- Witness for C12: the express 128 with counter 0, `90 40 7F` pulled from
port 0 and `F8` from port 2, submits
`00 00 | 05 90 F8 | 01 40 | 01 7F | 00 00`. -/
theorem prot1_packet_format_witness :
    submitted (motu_midi_send_prot1 express_128_open
      (fun p => if p = 0 then { len := 3, bytes := [0x90, 0x40, 0x7F] }
        else if p = 2 then { len := 1, bytes := [0xF8] } else { len := 0, bytes := [] }) 0).2 =
      [[0, 0, 5, 0x90, 0xF8, 1, 0x40, 1, 0x7F, 0, 0]] :=
  (prot1_packet_format express_128_open
    (fun p => if p = 0 then { len := 3, bytes := [0x90, 0x40, 0x7F] }
      else if p = 2 then { len := 1, bytes := [0xF8] } else { len := 0, bytes := [] }) 0
    (by decide) (by decide) ⟨0, by decide, by decide⟩).2.2.2.1.trans (by decide)

/-! ## Protocol-1 decoder: mask demultiplexing -/

set_option maxRecDepth 100000 in
theorem mask_ports_eq_bits (msk : Nat) (h : msk < 256) : mask_ports msk = bits_from 8 msk 0 := by
  revert msk
  decide

theorem bits_from_ne_nil (fuel : Nat) :
    ∀ v base, v ≠ 0 → v < 2 ^ fuel → bits_from fuel v base ≠ [] := by
  induction fuel with
  | zero => intro v base h0 hlt; simp at hlt; exact absurd hlt h0
  | succ f ih =>
    intro v base h0 hlt
    rw [bits_from]
    split_ifs with hodd
    · simp
    · exact ih _ _ (by omega) (by rw [pow_succ] at hlt; omega)

theorem bits_from_zero (fuel base : Nat) : bits_from fuel 0 base = [] := by
  induction fuel generalizing base with
  | zero => rfl
  | succ f ih => rw [bits_from, if_neg (by decide)]; exact ih _

/-- Scanning the payload of one block: the bytes go to the ports at the set
bits of the mask, lowest first, and the decoder is out of data mode after
the last one. -/
theorem prot1_scan_block (fuel : Nat) :
    ∀ (v base : Nat) (m : motu) (payload tail : List Nat),
      base + fuel ≤ 8 → v ≠ 0 → v < 2 ^ fuel →
      payload.length = (bits_from fuel v base).length →
      ∃ c, (payload ++ tail).foldl prot1_byte (m, { in_data := true, mask := v, chan := base }) =
        tail.foldl prot1_byte
          (apply_writes m ((bits_from fuel v base).zip payload),
            { in_data := false, mask := 0, chan := c }) := by
  induction fuel with
  | zero => intro v base m payload tail _ h0 hlt; simp at hlt; exact absurd hlt h0
  | succ f ih =>
    intro v base m payload tail hb h0 hlt hlen
    rw [pow_succ] at hlt
    rw [bits_from] at hlen ⊢
    by_cases hodd : v % 2 = 1
    · rw [if_pos hodd] at hlen ⊢
      have hv : v = 1 + 2 * (v / 2) := by omega
      cases payload with
      | nil => simp at hlen
      | cons b rest =>
        simp only [List.length_cons, Nat.add_right_cancel_iff] at hlen
        simp only [List.cons_append, List.foldl_cons, List.zip_cons_cons, apply_writes]
        rw [hv, prot1_byte_hit m _ base b (by omega)]
        rw [← hv]
        by_cases hz : v / 2 = 0
        · rw [if_pos hz, hz]
          rw [hz, bits_from_zero] at hlen
          have hr : rest = [] := List.length_eq_zero.mp hlen
          rw [hr, bits_from_zero]
          exact ⟨base + 1, rfl⟩
        · rw [if_neg hz]
          exact ih (v / 2) (base + 1) _ rest tail (by omega) hz (by omega) hlen
    · rw [if_neg hodd] at hlen ⊢
      have hv : v = 2 * (v / 2) := by omega
      have hz : v / 2 ≠ 0 := by omega
      have hne := bits_from_ne_nil f (v / 2) (base + 1) hz (by omega)
      cases payload with
      | nil =>
        exact absurd (List.length_eq_zero.mp hlen.symm) hne
      | cons b rest =>
        obtain ⟨c, hc⟩ := ih (v / 2) (base + 1) m (b :: rest) tail (by omega) hz (by omega) hlen
        refine ⟨c, ?_⟩
        rw [← hc]
        simp only [List.cons_append, List.foldl_cons]
        rw [hv, prot1_byte_skip m _ base b hz (by omega), ← hv]

theorem apply_writes_append (m : motu) (a b : List (Nat × Nat)) :
    apply_writes m (a ++ b) = apply_writes (apply_writes m a) b := by
  simp [apply_writes]

theorem prot1_scan_blocks (blocks : List (Nat × List Nat)) :
    ∀ (m : motu) (sc : prot1_scan), sc.in_data = false →
      (∀ blk ∈ blocks, blk.1 < 256 ∧ blk.2.length = (mask_ports blk.1).length) →
      ∃ sc1, sc1.in_data = false ∧
        (blocks.map block_bytes).flatten.foldl prot1_byte (m, sc) =
          (apply_writes m (blocks.map block_writes).flatten, sc1) := by
  induction blocks with
  | nil => intro m sc h _; exact ⟨sc, h, rfl⟩
  | cons blk rest ih =>
    intro m sc h hw
    obtain ⟨h256, hlen⟩ := hw blk (List.mem_cons_self _ _)
    have hrest : ∀ b ∈ rest, b.1 < 256 ∧ b.2.length = (mask_ports b.1).length :=
      fun b hb => hw b (List.mem_cons_of_mem _ hb)
    rw [mask_ports_eq_bits _ h256] at hlen
    simp only [List.map_cons, List.flatten_cons, block_bytes, block_writes, List.cons_append,
      List.foldl_cons, apply_writes_append]
    rw [prot1_byte_idle m sc _ h, mask_ports_eq_bits _ h256]
    by_cases hz : blk.1 = 0
    · rw [if_pos hz]
      rw [hz, bits_from_zero] at hlen
      rw [List.length_eq_zero.mp hlen, hz, bits_from_zero]
      exact ih m _ rfl hrest
    · rw [if_neg hz]
      obtain ⟨c, hc⟩ := prot1_scan_block 8 blk.1 0 m blk.2 ((rest.map block_bytes).flatten)
        (by omega) hz (by omega) hlen
      rw [hc]
      exact ih _ _ rfl hrest

theorem mask_ports_lt (msk p : Nat) (h : p ∈ mask_ports msk) : p < 8 := by
  unfold mask_ports at h
  exact List.mem_range.mp (List.mem_filter.mp h).1

/-- C13: protocol-1 mask demultiplexing.  For a packet `h0, h1, blocks`,
where each block is a mask byte followed by as many payload bytes as the
mask has set bits (a zero byte is a block without payload), the scanning
loop of `motu_midi_handle_input_prot1` makes exactly the calls
`motu_in_port_write_byte(port, byte)` that send payload byte `j` of each
block to the port at the `j`-th lowest set bit of its mask, block after
block in packet order; every port written is below 8; the decoder then runs
its deliver-and-flush loop on the result.  The bytes `h0`, `h1` do not occur
in the result. -/
theorem prot1_mask_demux (m : motu) (h0 h1 : Nat) (blocks : List (Nat × List Nat))
    (hw : ∀ blk ∈ blocks, blk.1 < 256 ∧ blk.2.length = (mask_ports blk.1).length) :
    (prot1_scan_packet m (h0 :: h1 :: (blocks.map block_bytes).flatten)).1 =
      apply_writes m (blocks.map block_writes).flatten ∧
    motu_midi_handle_input_prot1 m (h0 :: h1 :: (blocks.map block_bytes).flatten) =
      (List.range 8).foldl prot1_deliver (apply_writes m (blocks.map block_writes).flatten, []) ∧
    (∀ w ∈ (blocks.map block_writes).flatten, w.1 < 8) := by
  obtain ⟨sc1, _, hs⟩ := prot1_scan_blocks blocks m { in_data := false, mask := 0, chan := 0 }
    rfl hw
  have hscan : (prot1_scan_packet m (h0 :: h1 :: (blocks.map block_bytes).flatten)).1 =
      apply_writes m (blocks.map block_writes).flatten := by
    unfold prot1_scan_packet
    simp only [List.drop_succ_cons, List.drop_zero]
    rw [hs]
  refine ⟨hscan, ?_, ?_⟩
  · unfold motu_midi_handle_input_prot1
    rw [if_neg (by simp), hscan]
  · intro w hw2
    obtain ⟨l, hl, hwl⟩ := List.mem_flatten.mp hw2
    obtain ⟨blk, _, rfl⟩ := List.mem_map.mp hl
    unfold block_writes at hwl
    exact mask_ports_lt _ _ (List.of_mem_zip hwl).1

set_option maxRecDepth 100000 in
/-- Witness for C13: the packet `07 09 | 05 90 F8 | 00 | 01 40` writes `90`
to port 0, `F8` to port 2 and then `40` to port 0. -/
theorem prot1_mask_demux_witness :
    (prot1_scan_packet express_128_open [7, 9, 5, 0x90, 0xF8, 0, 1, 0x40]).1 =
      apply_writes express_128_open [(0, 0x90), (2, 0xF8), (0, 0x40)] :=
  (prot1_mask_demux express_128_open 7 9 [(5, [0x90, 0xF8]), (0, []), (1, [0x40])]
    (by decide)).1

/-! ## Protocol-2 decoder: classification of a command byte -/

set_option maxRecDepth 100000 in
/-- C20 (failing input): the timing clock `F8` has table length 1; decoded
in the Data state on the micro express it is stored with
`cmd_bytes_remaining = 3`, not 1, and is not delivered when 1 byte is
buffered: it is delivered with the next two bytes, as `F8 90 40`. -/
theorem prot2_system_command_counterexample :
    get_cmd_num_bytes 0xF8 = 1 ∧
    (motu_midi_handle_input_prot2 micro_express_open [0, 0xF5, 0]).1.in_state = 2 ∧
    (motu_midi_handle_input_prot2 micro_express_open [0, 0xF5, 0, 0xF8]).1.in_state = 3 ∧
    ((motu_midi_handle_input_prot2 micro_express_open [0, 0xF5, 0, 0xF8]).1.in_port 0).last_cmd
      = 0xF8 ∧
    ((motu_midi_handle_input_prot2 micro_express_open
      [0, 0xF5, 0, 0xF8]).1.in_port 0).cmd_bytes_remaining = 3 ∧
    ((motu_midi_handle_input_prot2 micro_express_open
      [0, 0xF5, 0, 0xF8]).1.in_port 0).cmd_bytes_remaining ≠ 1 ∧
    ((motu_midi_handle_input_prot2 micro_express_open [0, 0xF5, 0, 0xF8]).1.in_port 0).contents
      = [0xF8] ∧
    (motu_midi_handle_input_prot2 micro_express_open [0, 0xF5, 0, 0xF8]).2 = [] ∧
    (motu_midi_handle_input_prot2 micro_express_open [0, 0xF5, 0, 0xF8, 0x90, 0x40]).2 =
      [Event.receive 0 [0xF8, 0x90, 0x40]] := by
  decide

theorem prot2_step_system (m : motu) (p : Nat) (ip : motu_in_port) (b : Nat)
    (hv : prot2_view m 2 p ip) (hb0 : 0xF0 < b) (hb1 : b < 0xFF) (h5 : b ≠ 0xF5)
    (hlen : ip.buf_len < IN_BUF_SIZE) :
    (prot2_byte m b).2 = [] ∧
    prot2_view (prot2_byte m b).1 3 p
      { (in_port_store { ip with last_cmd := b } b) with cmd_bytes_remaining := 3 } := by
  obtain ⟨hst, hl, hp, hip⟩ := hv
  have e : prot2_byte m b = prot2_data_store m { ip with last_cmd := b } b := by
    have hh : b &&& 0x80 ≠ 0 := byte_high_set b (by omega) (by omega)
    have hff : b ≠ 0xFF := by omega
    simp [prot2_byte, prot2_case2, hst, hff, hh, hl, hip]
  rw [e]
  unfold prot2_data_store
  rw [if_neg (by simp only [ge_iff_le, not_le]; exact hlen)]
  dsimp only
  have hc : (in_port_store { ip with last_cmd := b } b).last_cmd = b := rfl
  rw [hc, if_neg h5, if_neg (by omega), if_neg (by omega)]
  exact ⟨rfl, view_after_set m 3 p _ hl hp⟩

/-- Classification of a command byte in the Data state, as the decoder
does it.  A
command byte `b` other than `F0`, `F5` and the filler `FF`, decoded in the
Data state with room in the buffer of the selected port, is stored as that
port's `last_cmd` and appended, and the decoder moves to FixedLen;
`cmd_bytes_remaining` becomes the table length `L` (2 or 3) when
`b < 0xF0` and 3 when `b > 0xF0`, whatever the table says.  The message is
delivered once that many bytes are buffered, and the decoder is back in the
Data state with an empty buffer. -/
theorem prot2_command_classification (m : motu) (p : Nat) (ip : motu_in_port) (b : Nat)
    (hv : prot2_view m 2 p ip) (hb0 : 0x80 ≤ b) (hb1 : b < 0xFF) (h0 : b ≠ 0xF0)
    (h5 : b ≠ 0xF5) (hroom : ip.buf_len < IN_BUF_SIZE) :
    (prot2_byte m b).2 = [] ∧
    prot2_view (prot2_byte m b).1 3 p
      { (in_port_store { ip with last_cmd := b } b) with
        cmd_bytes_remaining := if b < 0xF0 then toU8 (get_cmd_num_bytes b) else 3 } ∧
    (b < 0xF0 → ((toU8 (get_cmd_num_bytes b) : Nat) : Int) = get_cmd_num_bytes b ∧
      (get_cmd_num_bytes b = 2 ∨ get_cmd_num_bytes b = 3)) ∧
    (∀ ds : List Nat, ds ≠ [] → (∀ d ∈ ds, d ≠ 0xFF) → ip.buf.length = 64 →
      ip.buf_len + 1 + ds.length = (if b < 0xF0 then toU8 (get_cmd_num_bytes b) else 3) →
      (prot2_bytes m (b :: ds)).2 =
        (if ip.substream then [Event.receive p (ip.contents ++ b :: ds)] else []) ∧
      ∃ ip1, prot2_view (prot2_bytes m (b :: ds)).1 2 p ip1 ∧ ip1.buf_len = 0 ∧
        ip1.last_cmd = b) := by
  have hstep : (prot2_byte m b).2 = [] ∧
      prot2_view (prot2_byte m b).1 3 p
        { (in_port_store { ip with last_cmd := b } b) with
          cmd_bytes_remaining := if b < 0xF0 then toU8 (get_cmd_num_bytes b) else 3 } := by
    by_cases hlt : b < 0xF0
    · rw [if_pos hlt]
      exact prot2_step_command m p ip b hv hb0 hlt hroom
    · rw [if_neg hlt]
      exact prot2_step_system m p ip b hv (by omega) hb1 h5 hroom
  have hL : b < 0xF0 → ((toU8 (get_cmd_num_bytes b) : Nat) : Int) = get_cmd_num_bytes b ∧
      (get_cmd_num_bytes b = 2 ∨ get_cmd_num_bytes b = 3) := by
    intro hlt
    have h23 := channel_status_length b hb0 (by omega)
    exact ⟨toU8_small _ (by omega) (by omega), h23⟩
  refine ⟨hstep.1, hstep.2, hL, ?_⟩
  intro ds hne hff hbuf hlen
  have hcap : (if b < 0xF0 then toU8 (get_cmd_num_bytes b) else 3) ≤ IN_BUF_SIZE := by
    by_cases hlt : b < 0xF0
    · rw [if_pos hlt]
      have := hL hlt
      unfold IN_BUF_SIZE
      omega
    · rw [if_neg hlt]; decide
  have hroom2 : ip.buf_len < ip.buf.length := by rw [hbuf]; exact hroom
  obtain ⟨e2, ip1, v1, z1, z2, _⟩ := prot2_fixed_complete ds (prot2_byte m b).1 p _ hstep.2 hne hff
    (by simp only [in_port_store]; omega) hcap (by simp [in_port_store, hbuf])
  rw [prot2_bytes_cons, hstep.1, e2]
  refine ⟨?_, ip1, v1, z1, z2⟩
  have hc : ({ (in_port_store { ip with last_cmd := b } b) with
      cmd_bytes_remaining := if b < 0xF0 then toU8 (get_cmd_num_bytes b) else 3 }
        : motu_in_port).contents = ip.contents ++ [b] := by
    have := contents_store { ip with last_cmd := b } b hroom2
    simpa [motu_in_port.contents, in_port_store] using this
  rw [hc]
  simp [in_port_store]

set_option maxRecDepth 100000 in
/-- An instance of the classification: on the micro express with port 0
selected,
the program change `C0` and a data byte deliver `C0 05`. -/
theorem prot2_command_classification_witness :
    (prot2_bytes (motu_midi_handle_input_prot2 micro_express_open [0, 0xF5, 0]).1
      [0xC0, 0x05]).2 = [Event.receive 0 [0xC0, 0x05]] :=
  ((prot2_command_classification
    (motu_midi_handle_input_prot2 micro_express_open [0, 0xF5, 0]).1 0
    ((motu_midi_handle_input_prot2 micro_express_open [0, 0xF5, 0]).1.in_port 0) 0xC0
    (by unfold prot2_view; decide) (by decide) (by decide) (by decide) (by decide) (by decide)).2.2.2
      [0x05] (by decide) (by decide) (by decide) (by decide)).1.trans (by decide)

/-! ## Protocol-2 decoder: the selected port -/

theorem prot2_data_store_frame (m : motu) (ip : motu_in_port) (b : Nat) :
    (prot2_data_store m ip b).1.last_in_port = m.last_in_port ∧
    (prot2_data_store m ip b).1.n_ports_in = m.n_ports_in ∧
    (prot2_data_store m ip b).1.in_ports.length = m.in_ports.length ∧
    ((prot2_data_store m ip b).1.in_state = 0 ∨ (prot2_data_store m ip b).1.in_state = 1 ∨
      (prot2_data_store m ip b).1.in_state = 3 ∨ (prot2_data_store m ip b).1.in_state = 4) := by
  unfold prot2_data_store
  dsimp only
  split_ifs <;> simp

theorem prot2_data_store_select_ok (m : motu) (ip : motu_in_port) (b : Nat)
    (hv : 0 ≤ m.last_in_port ∧ m.last_in_port < m.n_ports_in) :
    prot2_select_ok (prot2_data_store m ip b).1 := by
  obtain ⟨f1, f2, _, f4⟩ := prot2_data_store_frame m ip b
  exact ⟨by omega, fun _ => by rw [f1, f2]; exact hv⟩

theorem prot2_byte_frame (m : motu) (b : Nat) :
    (prot2_byte m b).1.n_ports_in = m.n_ports_in ∧
    (prot2_byte m b).1.in_ports.length = m.in_ports.length := by
  unfold prot2_byte
  split_ifs
  · unfold prot2_case0; split_ifs <;> simp
  · unfold prot2_case1; split_ifs <;> simp
  · unfold prot2_case2
    dsimp only
    split_ifs
    · simp
    · exact ⟨(prot2_data_store_frame _ _ _).2.1, (prot2_data_store_frame _ _ _).2.2.1⟩
    · exact ⟨(prot2_data_store_frame _ _ _).2.1, (prot2_data_store_frame _ _ _).2.2.1⟩
    · simp
  · unfold prot2_case34
    dsimp only
    split_ifs <;> simp
  · simp

theorem prot2_byte_select_ok (m : motu) (b : Nat) (h : prot2_select_ok m) :
    prot2_select_ok (prot2_byte m b).1 := by
  obtain ⟨h1, h2⟩ := h
  unfold prot2_byte
  split_ifs with s0 s1 s2 s34
  · unfold prot2_case0
    split_ifs
    · exact ⟨by simp, fun h => by simp at h⟩
    · exact ⟨h1, h2⟩
  · unfold prot2_case1
    split_ifs with hb hn
    · exact ⟨by simp, fun h => by simp at h⟩
    · refine ⟨by simp, fun _ => ?_⟩
      simp only [goto_last_in_port, set_in_port_last_in_port, select_last_in_port,
        goto_n_ports_in, set_in_port_n_ports_in, select_n_ports_in]
      omega
    · exact ⟨h1, h2⟩
  · have hv := h2 (Or.inl s2)
    unfold prot2_case2
    dsimp only
    split_ifs
    · exact ⟨by simp, fun h => by simp at h⟩
    · exact prot2_data_store_select_ok _ _ _ hv
    · exact prot2_data_store_select_ok _ _ _ hv
    · exact ⟨h1, h2⟩
  · have hv := h2 (by omega)
    unfold prot2_case34
    dsimp only
    split_ifs
    · exact ⟨by simp, fun h => by simp at h⟩
    · exact ⟨by simp, fun _ => by simpa using hv⟩
    · exact ⟨by simpa using h1, fun _ => by simpa using hv⟩
    · exact ⟨h1, h2⟩
  · exact ⟨h1, h2⟩

theorem prot2_reachable_select (m : motu) (h : prot2_reachable m) :
    prot2_select_ok m ∧ m.n_ports_in ≤ 9 ∧ m.in_ports.length = 9 := by
  induction h with
  | probe n_in n_out h =>
    exact ⟨⟨Or.inl rfl, fun h => by simp [probe_state] at h⟩, h, by simp [probe_state]⟩
  | trigger m number up _ ih =>
    unfold motu_midi_input_trigger
    split_ifs
    · exact ih
    · obtain ⟨⟨a, b⟩, c, d⟩ := ih
      exact ⟨⟨by simpa using a, by simpa using b⟩, by simpa using c, by simpa using d⟩
  | out_trigger m number up _ ih => exact ih
  | byte m b _ ih =>
    obtain ⟨f1, f2⟩ := prot2_byte_frame m b
    exact ⟨prot2_byte_select_ok m b ih.1, by rw [f1]; exact ih.2.1, by rw [f2]; exact ih.2.2⟩

theorem prot2_reachable_buf_size (m : motu) (h : prot2_reachable m) :
    ∀ j, (m.in_port j).buf.length = IN_BUF_SIZE := by
  induction h with
  | probe n_in n_out h =>
    intro j; rw [probe_state_in_port]; rfl
  | trigger m number up _ ih =>
    intro j
    rcases trigger_in_port m number up j with h | h <;> rw [h]
    · exact ih j
    · exact ih number
  | out_trigger m number up _ ih => exact ih
  | byte m b _ ih =>
    apply prot2_byte_pred (fun ip => ip.buf.length = IN_BUF_SIZE) _ _ _ _ _ m b ih
    · intro ip b h _ _; simpa [in_port_store] using h
    · intro ip h _; simpa [in_port_store] using h
    · intro ip h; exact h
    · intro ip b h _; exact h
    · intro ip x h; exact h

theorem prot2_packets_reachable (pkts : List (List Nat)) :
    ∀ m : motu, prot2_reachable m → prot2_reachable (prot2_packets m pkts).1 := by
  induction pkts with
  | nil => intro m h; exact h
  | cons pkt rest ih =>
    intro m h
    exact ih _ (prot2_packet_reachable m pkt h)

/-- C17: validity of the selected port in the protocol-2 decoder.  In every
state reached from the probed driver record (`in_state = 0`,
`last_in_port = -1`, any `n_ports_in ≤ 9`) by (de)registering consumers and
by decoding bytes of packets, `in_state` is one of `0 .. 4` and, in Data,
FixedLen and SysEx, `0 ≤ last_in_port < n_ports_in ≤ 9`; `in_ports` has its
9 records, each with a 64-byte buffer holding at most 64 bytes, so for every
byte the decoder may be given next, every access `in_ports[..]` and every
write `buf[buf_len]` of that step is inside its array.  Decoding any
sequence of packets stays within these states. -/
theorem prot2_selected_port_valid :
    (∀ n_in n_out : Int, n_in ≤ 9 →
      prot2_reachable (probe_state n_in n_out (-1)) ∧
      (probe_state n_in n_out (-1)).in_state = 0 ∧
      (probe_state n_in n_out (-1)).last_in_port = -1) ∧
    (∀ (m : motu) (pkts : List (List Nat)), prot2_reachable m →
      prot2_reachable (prot2_packets m pkts).1) ∧
    (∀ m : motu, prot2_reachable m →
      (m.in_state = 0 ∨ m.in_state = 1 ∨ m.in_state = 2 ∨ m.in_state = 3 ∨ m.in_state = 4) ∧
      ((m.in_state = 2 ∨ m.in_state = 3 ∨ m.in_state = 4) →
        0 ≤ m.last_in_port ∧ m.last_in_port < m.n_ports_in) ∧
      m.n_ports_in ≤ 9 ∧ m.in_ports.length = 9 ∧
      (∀ j, (m.in_port j).buf.length = IN_BUF_SIZE ∧ (m.in_port j).buf_len ≤ IN_BUF_SIZE) ∧
      (∀ b, prot2_access_ok m b)) := by
  refine ⟨fun n_in n_out h => ⟨prot2_reachable.probe n_in n_out h, rfl, rfl⟩,
    fun m pkts h => prot2_packets_reachable pkts m h, fun m h => ?_⟩
  obtain ⟨⟨s1, s2⟩, hn, hl⟩ := prot2_reachable_select m h
  have hb := prot2_reachable_buf_size m h
  refine ⟨s1, s2, hn, hl, fun j => ⟨hb j, (prot2_reachable_bounds m h j).2⟩, fun b => ⟨?_, ?_⟩⟩
  · intro _ _ hlt
    omega
  · intro hst _
    obtain ⟨v1, v2⟩ := s2 hst
    exact ⟨v1, by omega, hb _⟩

set_option maxRecDepth 100000 in
/-- Witness for C17: the micro express after the packets `00 F5 04 90` and
`00 FF 40`: the decoder is in FixedLen with port 4 selected. -/
theorem prot2_selected_port_valid_witness :
    (prot2_packets micro_express_open [[0, 0xF5, 4, 0x90], [0, 0xFF, 0x40]]).1.in_state = 3 ∧
    (0 ≤ (prot2_packets micro_express_open [[0, 0xF5, 4, 0x90], [0, 0xFF, 0x40]]).1.last_in_port ∧
     (prot2_packets micro_express_open [[0, 0xF5, 4, 0x90], [0, 0xFF, 0x40]]).1.last_in_port <
      (prot2_packets micro_express_open [[0, 0xF5, 4, 0x90], [0, 0xFF, 0x40]]).1.n_ports_in) :=
  ⟨by decide,
    (prot2_selected_port_valid.2.2 _
      (prot2_selected_port_valid.2.1 micro_express_open [[0, 0xF5, 4, 0x90], [0, 0xFF, 0x40]]
        micro_express_open_reachable)).2.1 (by decide)⟩

/-! ## Protocol-2 packer: the counters `i` and `k` -/

theorem pack_port_inv (I Q : pack_state → Prop)
    (hiter : ∀ s p, I s → (s.m.fifo p).buf_send_len ≠ 0 →
      ((pack_iter s p).2 = false → I (pack_iter s p).1) ∧
      ((pack_iter s p).2 = true → Q (pack_iter s p).1))
    (fuel : Nat) :
    ∀ (s : pack_state) (p : Nat) (r : pack_state × Bool), pack_port fuel s p = some r → I s →
      (r.2 = false → I r.1) ∧ (r.2 = true → Q r.1) := by
  induction fuel with
  | zero => intro s p r h; simp [pack_port] at h
  | succ n ih =>
    intro s p r h hI
    rw [pack_port] at h
    by_cases hs : (s.m.fifo p).buf_send_len ≠ 0
    · rw [if_pos hs] at h
      dsimp only at h
      by_cases hstop : (pack_iter s p).2 = true
      · rw [if_pos hstop] at h
        cases h
        exact ⟨fun hf => by rw [hstop] at hf; exact absurd hf (by decide),
          fun _ => (hiter s p hI hs).2 hstop⟩
      · rw [if_neg hstop] at h
        exact ih _ _ _ h ((hiter s p hI hs).1 (by simpa using hstop))
    · rw [if_neg hs] at h
      cases h
      exact ⟨fun _ => hI, fun hf => by simp at hf⟩

theorem pack_ports_inv (I Q : pack_state → Prop)
    (hiter : ∀ s p, I s → (s.m.fifo p).buf_send_len ≠ 0 →
      ((pack_iter s p).2 = false → I (pack_iter s p).1) ∧
      ((pack_iter s p).2 = true → Q (pack_iter s p).1))
    (ps : List Nat) :
    ∀ (s : pack_state) (r : pack_state × Bool), pack_ports ps s = some r → I s →
      (r.2 = false → I r.1) ∧ (r.2 = true → Q r.1) := by
  induction ps with
  | nil =>
    intro s r h hI
    simp only [pack_ports, Option.some.injEq] at h
    subst h
    exact ⟨fun _ => hI, fun hf => by simp at hf⟩
  | cons p ps ih =>
    intro s r h hI
    simp only [pack_ports] at h
    cases hp : pack_port PACK_FUEL s p with
    | none => rw [hp] at h; cases h
    | some r1 =>
      rw [hp] at h
      dsimp only at h
      have h1 := pack_port_inv I Q hiter PACK_FUEL s p r1 hp hI
      by_cases hstop : r1.2 = true
      · rw [if_pos hstop] at h
        cases h
        exact ⟨fun hf => by rw [hstop] at hf; exact absurd hf (by decide), fun _ => h1.2 hstop⟩
      · rw [if_neg hstop] at h
        exact ih _ _ h (h1.1 (by simpa using hstop))

theorem pack_fill_counted (n : Nat) :
    ∀ s : pack_state, pack_counted s →
      pack_counted (pack_fill n s).1 ∧ s.i ≤ (pack_fill n s).1.i ∧
      ((pack_fill n s).2 = false → 12 ≤ s.k + n →
        (pack_fill n s).1.k = 12 ∧ (pack_fill n s).1.i + s.k = s.i + 12) := by
  have hB : BUFSIZE = 128 := rfl
  induction n with
  | zero =>
    intro s h
    obtain ⟨h1, h2, h3⟩ := h
    refine ⟨⟨h1, h2, h3⟩, Nat.le_refl _, fun _ hk => ?_⟩
    show s.k = 12 ∧ s.i + s.k = s.i + 12
    omega
  | succ n ih =>
    intro s h
    obtain ⟨h1, h2, h3⟩ := h
    rw [pack_fill]
    by_cases hk : s.k < 12
    · rw [if_pos hk]
      by_cases hi : s.i ≥ BUFSIZE
      · rw [if_pos hi]
        exact ⟨⟨h1, h2, h3⟩, Nat.le_refl _, fun hf => by simp [pack_stop] at hf⟩
      · rw [if_neg hi]
        obtain ⟨s1, hs1, hi1, hk1⟩ : ∃ s1 : pack_state,
            s1 = { (pack_emit s 0xFF) with k := s.k + 1 } ∧ s1.i = s.i + 1 ∧ s1.k = s.k + 1 :=
          ⟨_, rfl, rfl, rfl⟩
        rw [← hs1]
        have hc : pack_counted s1 := ⟨by omega, by omega, by omega⟩
        obtain ⟨a1, a2, a3⟩ := ih s1 hc
        refine ⟨a1, by omega, fun hf hn => ?_⟩
        have := a3 hf (by omega)
        exact ⟨this.1, by omega⟩
    · rw [if_neg hk]
      refine ⟨⟨h1, h2, h3⟩, Nat.le_refl _, fun _ _ => ?_⟩
      show s.k = 12 ∧ s.i + s.k = s.i + 12
      omega

theorem pack_marker_counted (s : pack_state) (p : Nat) (h : pack_counted s) (hk : s.k < 10) :
    pack_counted (pack_marker s p).1 ∧
    ((pack_marker s p).2 = false → s.i < (pack_marker s p).1.i ∧ (pack_marker s p).1.k < 13 ∧
      (pack_marker s p).1.i ≤ s.i + 3 ∧ s.i + 3 < BUFSIZE) := by
  have hB : BUFSIZE = 128 := rfl
  obtain ⟨h1, h2, h3⟩ := h
  unfold pack_marker
  by_cases hi : s.i + 3 ≥ BUFSIZE
  · rw [if_pos hi]
    exact ⟨⟨h1, h2, h3⟩, fun hf => by simp [pack_stop] at hf⟩
  · rw [if_neg hi]
    have e1 : (pack_switch s p).i = s.i + 2 := rfl
    have e2 : (pack_switch s p).k = s.k + 2 := rfl
    dsimp only
    split_ifs
    · obtain ⟨s1, hs1, hi1, hk1⟩ : ∃ s1 : pack_state,
          s1 = { (pack_emit (pack_switch s p) ((pack_switch s p).m.fifo p).last_cmd) with
            k := (pack_switch s p).k + 1 } ∧ s1.i = s.i + 3 ∧ s1.k = s.k + 3 :=
        ⟨_, rfl, rfl, rfl⟩
      rw [← hs1]
      dsimp only
      exact ⟨⟨by omega, by omega, by omega⟩, fun _ => ⟨by omega, by omega, by omega, by omega⟩⟩
    · dsimp only
      exact ⟨⟨by omega, by omega, by omega⟩, fun _ => ⟨by omega, by omega, by omega, by omega⟩⟩

theorem pack_data_counted (s : pack_state) (p : Nat) (h : pack_counted s) (hk : s.k < 12) :
    pack_counted (pack_data s p).1 ∧
    ((pack_data s p).2 = false → (pack_data s p).1.i = s.i + 1 ∧
      (pack_data s p).1.k = s.k + 1) := by
  have hB : BUFSIZE = 128 := rfl
  obtain ⟨h1, h2, h3⟩ := h
  unfold pack_data
  by_cases hi : s.i ≥ BUFSIZE
  · rw [if_pos hi]
    exact ⟨⟨h1, h2, h3⟩, fun hf => by simp [pack_stop] at hf⟩
  · rw [if_neg hi]
    refine ⟨⟨?_, ?_, ?_⟩, fun _ => ⟨rfl, rfl⟩⟩
    · show s.k + 1 ≤ 12
      omega
    · show (s.i + 1) % 14 = s.k + 1
      omega
    · show s.i + 1 ≤ BUFSIZE
      omega

theorem pack_trailer_counted (s : pack_state) (h : pack_counted s) :
    pack_counted (pack_trailer s).1 ∧ s.i ≤ (pack_trailer s).1.i ∧
    ((pack_trailer s).2 = false → (pack_trailer s).1.k < 12) := by
  have hB : BUFSIZE = 128 := rfl
  obtain ⟨h1, h2, h3⟩ := h
  unfold pack_trailer
  by_cases hk : s.k = 12
  · rw [if_pos hk]
    by_cases hi : s.i + 2 ≥ BUFSIZE
    · rw [if_pos hi]
      exact ⟨⟨h1, h2, h3⟩, Nat.le_refl _, fun hf => by simp [pack_stop] at hf⟩
    · rw [if_neg hi]
      refine ⟨⟨?_, ?_, ?_⟩, ?_, fun _ => ?_⟩
      · show 0 ≤ 12
        omega
      · show (s.i + 1 + 1) % 14 = 0
        omega
      · show s.i + 1 + 1 ≤ BUFSIZE
        omega
      · show s.i ≤ s.i + 1 + 1
        omega
      · show 0 < 12
        omega
  · rw [if_neg hk]
    refine ⟨⟨h1, h2, h3⟩, Nat.le_refl _, fun _ => ?_⟩
    show s.k < 12
    omega

theorem pack_branch_counted (s : pack_state) (p : Nat) (h : pack_counted s) (hk : s.k < 12) :
    pack_counted (pack_branch s p).1 ∧
    ((pack_branch s p).2 = false → s.i < (pack_branch s p).1.i) := by
  unfold pack_branch
  by_cases hp : (p : Int) ≠ s.m.last_out_port
  · rw [if_pos hp]
    by_cases h10 : s.k < 10
    · rw [if_pos h10]
      have := pack_marker_counted s p h h10
      exact ⟨this.1, fun hf => (this.2 hf).1⟩
    · rw [if_neg h10]
      obtain ⟨a1, a2, a3⟩ := pack_fill_counted 12 s h
      refine ⟨a1, fun hf => ?_⟩
      have := a3 hf (by omega)
      omega
  · rw [if_neg hp]
    have := pack_data_counted s p h hk
    exact ⟨this.1, fun hf => by rw [(this.2 hf).1]; omega⟩

/-- One iteration of the packing loop keeps the counters in agreement;
unless it leaves by `goto send_buffer` it moves the write index forward and
ends with `k < 12`. -/
theorem pack_iter_counted (s : pack_state) (p : Nat) (h : pack_counted s) (hk : s.k < 12) :
    pack_counted (pack_iter s p).1 ∧
    ((pack_iter s p).2 = false → s.i < (pack_iter s p).1.i ∧ (pack_iter s p).1.k < 12) := by
  obtain ⟨b1, b2⟩ := pack_branch_counted s p h hk
  unfold pack_iter
  dsimp only
  by_cases hstop : (pack_branch s p).2 = true
  · rw [if_pos hstop]
    exact ⟨b1, fun hf => by rw [hstop] at hf; exact absurd hf (by decide)⟩
  · rw [if_neg hstop]
    obtain ⟨t1, t2, t3⟩ := pack_trailer_counted (pack_branch s p).1 b1
    exact ⟨t1, fun hf => ⟨Nat.lt_of_lt_of_le (b2 (by simpa using hstop)) t2, t3 hf⟩⟩

theorem pack_iter_head (s : pack_state) (p : Nat) (h : pack_counted s ∧ s.k < 12)
    (_ : (s.m.fifo p).buf_send_len ≠ 0) :
    ((pack_iter s p).2 = false → pack_counted (pack_iter s p).1 ∧ (pack_iter s p).1.k < 12) ∧
    ((pack_iter s p).2 = true → pack_counted (pack_iter s p).1) := by
  obtain ⟨c1, c2⟩ := pack_iter_counted s p h.1 h.2
  exact ⟨fun hf => ⟨c1, (c2 hf).2⟩, fun _ => c1⟩

/-- The loop of one port ends within the iterations granted to it: every
iteration that stays in the loop moves the write index forward, and the
write index never passes `BUFSIZE`. -/
theorem pack_port_total (fuel : Nat) :
    ∀ (s : pack_state) (p : Nat), pack_counted s → s.k < 12 → BUFSIZE + 2 ≤ fuel + s.i →
      ∃ r, pack_port fuel s p = some r := by
  induction fuel with
  | zero =>
    intro s p h _ hf
    have := h.2.2
    omega
  | succ n ih =>
    intro s p h hk hf
    rw [pack_port]
    by_cases hs : (s.m.fifo p).buf_send_len ≠ 0
    · rw [if_pos hs]
      dsimp only
      by_cases hstop : (pack_iter s p).2 = true
      · rw [if_pos hstop]
        exact ⟨_, rfl⟩
      · rw [if_neg hstop]
        obtain ⟨c1, c2⟩ := pack_iter_counted s p h hk
        have := c2 (by simpa using hstop)
        exact ih _ p c1 this.2 (by omega)
    · rw [if_neg hs]
      exact ⟨_, rfl⟩

theorem pack_ports_total (ps : List Nat) :
    ∀ s : pack_state, pack_counted s → s.k < 12 → ∃ r, pack_ports ps s = some r := by
  induction ps with
  | nil => intro s _ _; exact ⟨_, rfl⟩
  | cons p ps ih =>
    intro s h hk
    obtain ⟨r1, hr1⟩ := pack_port_total PACK_FUEL s p h hk (by unfold PACK_FUEL; omega)
    simp only [pack_ports, hr1]
    by_cases hstop : r1.2 = true
    · rw [if_pos hstop]
      exact ⟨_, rfl⟩
    · rw [if_neg hstop]
      have := (pack_port_inv (fun s => pack_counted s ∧ s.k < 12) pack_counted pack_iter_head
        PACK_FUEL s p r1 hr1 ⟨h, hk⟩).1 (by simpa using hstop)
      exact ih _ this.1 this.2

theorem pack_start_counted (m : motu) (tx : Nat → pulled) :
    pack_counted (pack_start m tx) ∧ (pack_start m tx).k < 12 :=
  ⟨⟨Nat.zero_le _, rfl, Nat.zero_le _⟩, Nat.zero_lt_succ _⟩

/-- `motu_midi_send_prot2` returns: the packing loops end within the
iterations granted to them, whatever the state and the pull result. -/
theorem send_prot2_total (m : motu) (tx : Nat → pulled) (ret : Int) :
    ∃ r, pack_ports (List.range m.n_ports_out.toNat) (pack_start m tx) = some r ∧
      motu_midi_send_prot2 m tx ret = some (pack_send r.1 ret) := by
  obtain ⟨r, hr⟩ := pack_ports_total (List.range m.n_ports_out.toNat) (pack_start m tx)
    (pack_start_counted m tx).1 (pack_start_counted m tx).2
  refine ⟨r, hr, ?_⟩
  unfold motu_midi_send_prot2
  unfold pack_start at hr
  simp only [hr]

/-! ## Protocol-2 packer: a port switch stays inside its group -/

theorem pack_head_counted (s0 s : pack_state) (h0 : pack_counted s0 ∧ s0.k < 12)
    (h : pack_head s0 s) : pack_counted s ∧ s.k < 12 := by
  induction h with
  | start => exact h0
  | next s p _ _ hf ih =>
    obtain ⟨c1, c2⟩ := pack_iter_counted s p ih.1 ih.2
    exact ⟨c1, (c2 hf).2⟩

theorem pack_ports_heads (s0 : pack_state) (ps : List Nat) (s : pack_state)
    (r : pack_state × Bool) (hr : pack_ports ps s = some r) (hs : pack_head s0 s) :
    (r.2 = false → pack_head s0 r.1) ∧
    (r.2 = true → ∃ s1 p, pack_head s0 s1 ∧ (s1.m.fifo p).buf_send_len ≠ 0 ∧
      (pack_iter s1 p).2 = true ∧ r.1 = (pack_iter s1 p).1) :=
  pack_ports_inv (pack_head s0)
    (fun x => ∃ s1 p, pack_head s0 s1 ∧ (s1.m.fifo p).buf_send_len ≠ 0 ∧
      (pack_iter s1 p).2 = true ∧ x = (pack_iter s1 p).1)
    (fun s p hI hne => ⟨fun hf => pack_head.next s p hI hne hf,
      fun ht => ⟨s, p, hI, hne, ht, rfl⟩⟩)
    ps s r hr hs

/-- C14: a port switch is never split across a group boundary.  Every run
of `motu_midi_send_prot2` ends its packing loops, passing only through the
loop-head states `pack_head`.  At every loop head `k < 12`, the write index
is `14 * (closed groups) + k` and at most `BUFSIZE`; inside an iteration `k`
never passes 12 (in the filler loop, after the branch, after the trailer).
The switch-marker branch is taken only with `k ≤ 9` (with `k ≥ 10` the
iteration fills the group instead); when it writes, it writes 2 or 3 bytes,
at `i`, `i + 1` (and `i + 2`), and these lie in the same 14-byte group as
`i`, in payload slots (slot index below 12), in front of the trailer slots
12 and 13 of that group. -/
theorem pack_switch_not_split (m : motu) (tx : Nat → pulled) :
    (∃ r, pack_ports (List.range m.n_ports_out.toNat) (pack_start m tx) = some r ∧
      (r.2 = false → pack_head (pack_start m tx) r.1) ∧
      (r.2 = true → ∃ s1 p, pack_head (pack_start m tx) s1 ∧
        (s1.m.fifo p).buf_send_len ≠ 0 ∧ (pack_iter s1 p).2 = true ∧
        r.1 = (pack_iter s1 p).1)) ∧
    (∀ s, pack_head (pack_start m tx) s →
      s.k < 12 ∧ s.i % 14 = s.k ∧ s.i ≤ BUFSIZE ∧
      ∀ p : Nat,
        (∀ n, (pack_fill n s).1.k ≤ 12) ∧ (pack_branch s p).1.k ≤ 12 ∧
        (pack_iter s p).1.k ≤ 12 ∧
        ((p : Int) ≠ s.m.last_out_port → 10 ≤ s.k → pack_branch s p = pack_fill 12 s) ∧
        (¬ (p : Int) ≠ s.m.last_out_port → pack_branch s p = pack_data s p) ∧
        ((p : Int) ≠ s.m.last_out_port → s.k < 10 →
          pack_branch s p = pack_marker s p ∧
          (BUFSIZE ≤ s.i + 3 → (pack_marker s p).1.i = s.i ∧ (pack_marker s p).1.k = s.k) ∧
          (s.i + 3 < BUFSIZE →
            s.i + 2 ≤ (pack_marker s p).1.i ∧ (pack_marker s p).1.i ≤ s.i + 3 ∧
            (pack_marker s p).1.k + s.i = s.k + (pack_marker s p).1.i ∧
            (pack_marker s p).1.k ≤ 12 ∧
            (s.i + 1) / 14 = s.i / 14 ∧ (s.i + 2) / 14 = s.i / 14 ∧
            (s.i + 1) % 14 < 12 ∧ (s.i + 2) % 14 < 12))) := by
  have hB : BUFSIZE = 128 := rfl
  constructor
  · obtain ⟨r, hr, _⟩ := send_prot2_total m tx 0
    exact ⟨r, hr, pack_ports_heads _ _ _ r hr pack_head.start⟩
  · intro s hs
    obtain ⟨hc, hk⟩ := pack_head_counted _ s (pack_start_counted m tx) hs
    obtain ⟨c1, c2, c3⟩ := hc
    refine ⟨hk, c2, c3, fun p => ⟨fun n => (pack_fill_counted n s ⟨c1, c2, c3⟩).1.1,
      (pack_branch_counted s p ⟨c1, c2, c3⟩ hk).1.1,
      (pack_iter_counted s p ⟨c1, c2, c3⟩ hk).1.1, ?_, ?_, ?_⟩⟩
    · intro hp h10
      unfold pack_branch
      rw [if_pos hp, if_neg (by omega)]
    · intro hp
      unfold pack_branch
      rw [if_neg hp]
    · intro hp h10
      refine ⟨by unfold pack_branch; rw [if_pos hp, if_pos h10], ?_, ?_⟩
      · intro hfull
        unfold pack_marker
        rw [if_pos hfull]
        exact ⟨rfl, rfl⟩
      · intro hroom
        have hm := pack_marker_counted s p ⟨c1, c2, c3⟩ h10
        have hflag : (pack_marker s p).2 = false := by
          unfold pack_marker
          rw [if_neg (by omega)]
          dsimp only
          split_ifs <;> rfl
        obtain ⟨m1, m2, m3, _⟩ := hm.2 hflag
        obtain ⟨d1, d2, d3⟩ := hm.1
        have h2 : s.i + 2 ≤ (pack_marker s p).1.i := by
          unfold pack_marker
          rw [if_neg (by omega)]
          dsimp only
          split_ifs
          · show s.i + 2 ≤ s.i + 2 + 1
            omega
          · show s.i + 2 ≤ s.i + 2
            omega
        refine ⟨h2, m3, ?_, d1, ?_, ?_, ?_, ?_⟩ <;> omega

set_option maxRecDepth 100000 in
/-- Witness for C14: the express XT with a note-on pulled from every port,
after the first iteration of the packing loop (the marker `F5 00`). -/
theorem pack_switch_not_split_witness :
    (pack_iter (pack_start express_xt_ready tx_note_on) 0).1.k < 12 ∧
    (pack_iter (pack_start express_xt_ready tx_note_on) 0).1.i % 14 =
      (pack_iter (pack_start express_xt_ready tx_note_on) 0).1.k :=
  ⟨((pack_switch_not_split express_xt_ready tx_note_on).2 _
      (pack_head.next _ 0 pack_head.start (by decide) (by decide))).1,
    ((pack_switch_not_split express_xt_ready tx_note_on).2 _
      (pack_head.next _ 0 pack_head.start (by decide) (by decide))).2.1⟩

/-! ## Protocol-2 packer: group framing -/

theorem pack_trailers_stable (s r : pack_state) (h : pack_stable s r) (ht : pack_trailers s)
    (hq : r.i / 14 = s.i / 14) : pack_trailers r := by
  intro g hg
  have hlt : 14 * g + 14 ≤ s.i := by omega
  obtain ⟨t1, t2⟩ := ht g hlt
  exact ⟨(h.2.2 _ (by omega)).trans t1, (h.2.2 _ (by omega)).trans t2⟩

theorem pack_branch_group (s : pack_state) (p : Nat) (h : pack_counted s) (hk : s.k < 12)
    (hf : (pack_branch s p).2 = false) : (pack_branch s p).1.i / 14 = s.i / 14 := by
  have hc := (pack_branch_counted s p h hk).1
  revert hf hc
  unfold pack_branch
  by_cases hp : (p : Int) ≠ s.m.last_out_port
  · rw [if_pos hp]
    by_cases h10 : s.k < 10
    · rw [if_pos h10]
      intro hf hc
      obtain ⟨m1, _, m3, _⟩ := (pack_marker_counted s p h h10).2 hf
      obtain ⟨_, h2, _⟩ := h
      omega
    · rw [if_neg h10]
      intro hf hc
      have := (pack_fill_counted 12 s h).2.2 hf (by omega)
      obtain ⟨_, h2, _⟩ := h
      omega
  · rw [if_neg hp]
    intro hf hc
    have := (pack_data_counted s p h hk).2 hf
    obtain ⟨_, h2, _⟩ := h
    omega

theorem pack_trailer_framed (s : pack_state) (hc : pack_counted s)
    (hl : s.m.midi_out_buf.length = BUFSIZE) (ht : pack_trailers s)
    (hf : (pack_trailer s).2 = false) : pack_framed (pack_trailer s).1 := by
  have hB : BUFSIZE = 128 := rfl
  obtain ⟨t1, _, t3⟩ := pack_trailer_counted s hc
  have hst := pack_trailer_stable s
  refine ⟨t1, t3 hf, hst.2.1.trans hl, ?_⟩
  revert hf hst
  unfold pack_trailer
  by_cases hk : s.k = 12
  · rw [if_pos hk]
    by_cases hi : s.i + 2 ≥ BUFSIZE
    · rw [if_pos hi]
      intro hf; simp [pack_stop] at hf
    · rw [if_neg hi]
      intro _ hst g hg
      obtain ⟨c1, c2, c3⟩ := hc
      have hi2 : ({ (pack_emit (pack_emit s 1) 0) with k := 0 } : pack_state).i = s.i + 2 := rfl
      rw [hi2] at hg
      by_cases hold : 14 * g + 14 ≤ s.i
      · obtain ⟨u1, u2⟩ := ht g hold
        exact ⟨(hst.2.2 _ (by omega)).trans u1, (hst.2.2 _ (by omega)).trans u2⟩
      · have e12 : 14 * g + 12 = s.i := by omega
        have e13 : 14 * g + 13 = s.i + 1 := by omega
        rw [e12, e13]
        have a1 := pack_emit_at s 1 (by omega)
        have a2 := pack_emit_at (pack_emit s 1) 0 (by
          have := (pack_emit_stable s 1).2.1
          rw [this, a1.2]; omega)
        have a3 := (pack_emit_stable (pack_emit s 1) 0).2.2 s.i (by rw [a1.2]; omega)
        rw [a1.2] at a2
        exact ⟨a3.trans a1.1, a2.1⟩
  · rw [if_neg hk]
    intro _ _
    exact ht

theorem pack_iter_framed (s : pack_state) (p : Nat) (h : pack_framed s)
    (_ : (s.m.fifo p).buf_send_len ≠ 0) :
    ((pack_iter s p).2 = false → pack_framed (pack_iter s p).1) ∧
    ((pack_iter s p).2 = true → True) := by
  refine ⟨fun hf => ?_, fun _ => trivial⟩
  obtain ⟨hc, hk, hl, ht⟩ := h
  revert hf
  unfold pack_iter
  dsimp only
  by_cases hstop : (pack_branch s p).2 = true
  · rw [if_pos hstop]
    intro hf
    rw [hstop] at hf
    exact absurd hf (by decide)
  · rw [if_neg hstop]
    intro hf
    have hb : (pack_branch s p).2 = false := by simpa using hstop
    have hst := pack_branch_stable s p
    exact pack_trailer_framed _ (pack_branch_counted s p hc hk).1 (hst.2.1.trans hl)
      (pack_trailers_stable s _ hst ht (pack_branch_group s p hc hk hb)) hf

theorem prot2_pull_buf (tx : Nat → pulled) (ps : List Nat) :
    ∀ s : motu × List Event, (prot2_pull tx ps s).1.midi_out_buf = s.1.midi_out_buf := by
  induction ps with
  | nil => intro s; rfl
  | cons p ps ih =>
    intro s
    simp only [prot2_pull]
    by_cases hreg : s.1.out_ports.getD p false = true
    · rw [if_pos hreg, ih]
      rfl
    · rw [if_neg hreg]
      exact ih s

theorem pack_start_framed (m : motu) (tx : Nat → pulled)
    (hbuf : m.midi_out_buf.length = BUFSIZE) : pack_framed (pack_start m tx) := by
  refine ⟨(pack_start_counted m tx).1, (pack_start_counted m tx).2, ?_, ?_⟩
  · show (prot2_pull tx _ (m, [])).1.midi_out_buf.length = BUFSIZE
    rw [prot2_pull_buf]
    exact hbuf
  · intro g hg
    have : (pack_start m tx).i = 0 := rfl
    omega

theorem pack_fill_rest_full (n : Nat) :
    ∀ s : pack_state, s.k ≤ 12 → s.i + (12 - s.k) ≤ BUFSIZE → 12 ≤ s.k + n →
      (pack_fill_rest n s).k = 12 ∧ (pack_fill_rest n s).i = s.i + (12 - s.k) := by
  induction n with
  | zero =>
    intro s h1 _ h3
    show s.k = 12 ∧ s.i = s.i + (12 - s.k)
    omega
  | succ n ih =>
    intro s h1 h2 h3
    rw [pack_fill_rest]
    by_cases hk : s.k < 12 ∧ s.i < BUFSIZE
    · rw [if_pos hk]
      obtain ⟨s1, hs1, hi1, hk1⟩ : ∃ s1 : pack_state,
          s1 = { (pack_emit s 0xFF) with k := s.k + 1 } ∧ s1.i = s.i + 1 ∧ s1.k = s.k + 1 :=
        ⟨_, rfl, rfl, rfl⟩
      rw [← hs1]
      obtain ⟨a1, a2⟩ := ih s1 (by omega) (by omega) (by omega)
      exact ⟨a1, by omega⟩
    · rw [if_neg hk]
      omega

theorem getD_take_lt (l : List Nat) (n j : Nat) (h : j < n) :
    (l.take n).getD j 0 = l.getD j 0 := by
  simp [List.getD_eq_getElem?_getD, List.getElem?_take, h]

/-- The closing statements after `send_buffer`, when they are not cut short:
the open group is filled and gets its trailer. -/
theorem pack_close_framed (s : pack_state) (h : pack_framed s) (hpos : s.i ≠ 0)
    (hroom : s.k ≠ 0 → s.i + (12 - s.k) + 2 ≤ BUFSIZE) :
    0 < (pack_close s).i ∧ (pack_close s).i % 14 = 0 ∧ (pack_close s).i ≤ BUFSIZE ∧
    (pack_close s).m.midi_out_buf.length = BUFSIZE ∧ pack_trailers (pack_close s) := by
  have hB : BUFSIZE = 128 := rfl
  obtain ⟨⟨c1, c2, c3⟩, hk, hl, ht⟩ := h
  have hst := pack_close_stable s
  revert hst
  unfold pack_close
  by_cases hk0 : s.k ≠ 0
  · rw [if_pos hk0]
    have hr := hroom hk0
    obtain ⟨f1, f2⟩ := pack_fill_rest_full 12 s c1 (by omega) (by omega)
    have fst := pack_fill_rest_stable 12 s
    have fl : (pack_fill_rest 12 s).m.midi_out_buf.length = BUFSIZE := fst.2.1.trans hl
    dsimp only
    rw [if_pos (by omega)]
    intro hst
    have a1 := pack_emit_at (pack_fill_rest 12 s) 1 (by omega)
    have a2 := pack_emit_at (pack_emit (pack_fill_rest 12 s) 1) 0 (by
      have := (pack_emit_stable (pack_fill_rest 12 s) 1).2.1
      rw [this, a1.2]; omega)
    have a3 := (pack_emit_stable (pack_emit (pack_fill_rest 12 s) 1) 0).2.2
      (pack_fill_rest 12 s).i (by rw [a1.2]; omega)
    rw [a1.2] at a2
    have hi : (pack_emit (pack_emit (pack_fill_rest 12 s) 1) 0).i = s.i + (12 - s.k) + 2 := by
      rw [a2.2, f2]
    refine ⟨by omega, by omega, by omega, hst.2.1.trans hl, ?_⟩
    intro g hg
    rw [hi] at hg
    by_cases hold : 14 * g + 14 ≤ s.i
    · obtain ⟨u1, u2⟩ := ht g hold
      exact ⟨(hst.2.2 _ (by omega)).trans u1, (hst.2.2 _ (by omega)).trans u2⟩
    · have e12 : 14 * g + 12 = (pack_fill_rest 12 s).i := by omega
      have e13 : 14 * g + 13 = (pack_fill_rest 12 s).i + 1 := by omega
      rw [e12, e13]
      exact ⟨a3.trans a1.1, a2.1⟩
  · rw [if_neg hk0]
    intro _
    exact ⟨by omega, by omega, c3, hl, ht⟩

/-! ## Protocol-2 output FIFOs: the invariant -/

theorem fifo_in_byte_bounded (f : motufifo) (b : Nat) (h : f.bounded)
    (hroom : ¬ f.buf_len ≥ N_MBUF) : (fifo_in_byte f b).bounded := by
  obtain ⟨h1, h2⟩ := h
  unfold fifo_in_byte
  dsimp only
  unfold motufifo.bounded
  split_ifs <;> dsimp only <;> omega

theorem fifo_in_bounded (bs : List Nat) :
    ∀ f : motufifo, f.bounded → (fifo_in f bs).1.bounded := by
  induction bs with
  | nil => intro f h; exact h
  | cons b bs ih =>
    intro f h
    rw [fifo_in]
    split_ifs with hfull
    · exact h
    · exact ih _ (fifo_in_byte_bounded f b h hfull)

theorem fifo_set_cases (m : motu) (p q : Nat) (f : motufifo) :
    (m.set_fifo p f).fifo q = f ∨ (m.set_fifo p f).fifo q = m.fifo q := by
  by_cases h : q = p
  · subst h
    by_cases hl : q < m.mfifo.length
    · exact Or.inl (fifo_set_same m q f hl)
    · right
      simp [motu.fifo, motu.set_fifo, List.set_eq_of_length_le (Nat.le_of_not_lt hl)]
  · exact Or.inr (fifo_set_other m p q f h)

theorem fifo_set_bounded (m : motu) (p : Nat) (f : motufifo) (hf : f.bounded)
    (hm : ∀ q, (m.fifo q).bounded) : ∀ q, ((m.set_fifo p f).fifo q).bounded := by
  intro q
  rcases fifo_set_cases m p q f with h | h <;> rw [h]
  · exact hf
  · exact hm q

theorem mfifo_in_bounded (m : motu) (port : Nat) (buf : List Nat) (len : Int)
    (hm : ∀ q, (m.fifo q).bounded) : ∀ q, ((mfifo_in m port buf len).1.fifo q).bounded := by
  unfold mfifo_in
  exact fifo_set_bounded m port _ (fifo_in_bounded _ _ (hm port)) hm

theorem prot2_pull_bounded (tx : Nat → pulled) (ps : List Nat) :
    ∀ s : motu × List Event, (∀ q, (s.1.fifo q).bounded) →
      ∀ q, ((prot2_pull tx ps s).1.fifo q).bounded := by
  induction ps with
  | nil => intro s h; exact h
  | cons p ps ih =>
    intro s h
    simp only [prot2_pull]
    by_cases hreg : s.1.out_ports.getD p false = true
    · rw [if_pos hreg]
      exact ih _ (mfifo_in_bounded s.1 p _ _ h)
    · rw [if_neg hreg]
      exact ih s h

theorem pack_fill_mfifo (n : Nat) : ∀ s : pack_state, (pack_fill n s).1.m.mfifo = s.m.mfifo := by
  induction n with
  | zero => intro s; rfl
  | succ n ih =>
    intro s
    rw [pack_fill]
    split_ifs
    · rfl
    · rw [ih]; rfl
    · rfl

theorem pack_marker_mfifo (s : pack_state) (p : Nat) :
    (pack_marker s p).1.m.mfifo = s.m.mfifo := by
  unfold pack_marker
  dsimp only
  split_ifs <;> rfl

theorem pack_trailer_mfifo (s : pack_state) : (pack_trailer s).1.m.mfifo = s.m.mfifo := by
  unfold pack_trailer
  split_ifs <;> rfl

theorem fifo_congr (m1 m2 : motu) (h : m1.mfifo = m2.mfifo) (q : Nat) :
    m1.fifo q = m2.fifo q := by
  unfold motu.fifo
  rw [h]

theorem pack_data_bounded (s : pack_state) (p : Nat) (hm : ∀ q, (s.m.fifo q).bounded)
    (hne : (s.m.fifo p).buf_send_len ≠ 0) : ∀ q, ((pack_data s p).1.m.fifo q).bounded := by
  unfold pack_data
  split_ifs
  · exact hm
  · dsimp only
    obtain ⟨h1, h2⟩ := hm p
    have hN : N_MBUF = 64 := rfl
    have a1 := toU32_sub (s.m.fifo p).buf_len 1 (by omega) (by omega)
    have a2 := toU32_sub (s.m.fifo p).buf_send_len 1 (by omega) (by omega)
    simp only [Nat.cast_one] at a1 a2
    have hb : ∀ f : motufifo, f.buf_len = toU32 (((s.m.fifo p).buf_len : Int) - 1) →
        f.buf_send_len = toU32 (((s.m.fifo p).buf_send_len : Int) - 1) → f.bounded := by
      intro f e1 e2
      unfold motufifo.bounded
      rw [e1, e2, a1, a2]
      omega
    intro q
    apply fifo_set_bounded _ p _ _ _ q
    · split_ifs <;> exact hb _ rfl rfl
    · intro q2
      have e : ∀ f, (pack_emit { s with m := s.m.set_fifo p f }
          ((s.m.fifo p).mbuf.getD (s.m.fifo p).p_out 0)).m.fifo q2 = (s.m.set_fifo p f).fifo q2 :=
        fun f => rfl
      rw [e]
      apply fifo_set_bounded _ p _ _ hm q2
      split_ifs
      · exact ⟨h1, h2⟩
      · exact ⟨h1, h2⟩

theorem pack_iter_bounded (s : pack_state) (p : Nat) (hm : ∀ q, (s.m.fifo q).bounded)
    (hne : (s.m.fifo p).buf_send_len ≠ 0) : ∀ q, ((pack_iter s p).1.m.fifo q).bounded := by
  have hb : ∀ q, ((pack_branch s p).1.m.fifo q).bounded := by
    unfold pack_branch
    split_ifs
    · intro q; rw [fifo_congr _ _ (pack_marker_mfifo s p)]; exact hm q
    · intro q; rw [fifo_congr _ _ (pack_fill_mfifo 12 s)]; exact hm q
    · exact pack_data_bounded s p hm hne
  unfold pack_iter
  dsimp only
  split_ifs
  · exact hb
  · intro q; rw [fifo_congr _ _ (pack_trailer_mfifo _)]; exact hb q

theorem pack_fill_rest_mfifo (n : Nat) :
    ∀ s : pack_state, (pack_fill_rest n s).m.mfifo = s.m.mfifo := by
  induction n with
  | zero => intro s; rfl
  | succ n ih =>
    intro s
    rw [pack_fill_rest]
    split_ifs
    · rw [ih]; rfl
    · rfl

theorem pack_send_mfifo (s : pack_state) (ret : Int) :
    (pack_send s ret).1.mfifo = s.m.mfifo := by
  have hc : (pack_close s).m.mfifo = s.m.mfifo := by
    unfold pack_close
    dsimp only
    split_ifs
    · exact pack_fill_rest_mfifo 12 s
    · exact pack_fill_rest_mfifo 12 s
    · rfl
  unfold pack_send
  split_ifs
  · rw [← hc]
    unfold pack_submit
    dsimp only
    split_ifs <;> rfl
  · rfl

/-- An invocation of `motu_midi_send_prot2` keeps the FIFO invariant. -/
theorem send_prot2_bounded (m : motu) (tx : Nat → pulled) (ret : Int) (r : motu × List Event)
    (h : motu_midi_send_prot2 m tx ret = some r) (hm : ∀ q, (m.fifo q).bounded) :
    ∀ q, (r.1.fifo q).bounded := by
  obtain ⟨r1, hr1, hs⟩ := send_prot2_total m tx ret
  rw [hs] at h
  cases h
  have h0 : ∀ q, ((pack_start m tx).m.fifo q).bounded :=
    prot2_pull_bounded tx _ (m, []) hm
  have h1 := pack_ports_inv (fun s => ∀ q, (s.m.fifo q).bounded)
    (fun s => ∀ q, (s.m.fifo q).bounded)
    (fun s p hI hne => ⟨fun _ => pack_iter_bounded s p hI hne,
      fun _ => pack_iter_bounded s p hI hne⟩) _ _ r1 hr1 h0
  intro q
  rw [fifo_congr _ _ (pack_send_mfifo r1.1 ret)]
  cases hf : r1.2 with
  | false => exact h1.1 hf q
  | true => exact h1.2 hf q

theorem probe_state_fifo (n_in n_out lp : Int) (p : Nat) :
    (probe_state n_in n_out lp).fifo p = blank_fifo := by
  unfold motu.fifo probe_state
  simp only [List.getD_eq_getElem?_getD]
  exact List.getElem?_getD_replicate_default_eq (d := blank_fifo) 9 _

theorem fifo_reachable_bounded (m : motu) (h : fifo_reachable m) : ∀ q, (m.fifo q).bounded := by
  induction h with
  | probe n_in n_out lp =>
    intro q
    rw [probe_state_fifo]
    exact ⟨Nat.le_refl _, Nat.zero_le _⟩
  | trigger m number up _ ih =>
    intro q
    have e : (motu_midi_input_trigger m number up).mfifo = m.mfifo := by
      unfold motu_midi_input_trigger motu.set_in_port
      split_ifs <;> rfl
    rw [fifo_congr _ _ e]
    exact ih q
  | out_trigger m number up _ ih => exact ih
  | push m port buf len _ ih => exact mfifo_in_bounded m port buf len ih
  | send m tx ret r _ hs ih => exact send_prot2_bounded m tx ret r hs ih

/-- C16: the output-FIFO invariant.  In every state reached from the probed
driver record (every FIFO empty: `buf_len = buf_send_len = 0`,
`p_in = p_out = 0`) by (de)registering consumers and producers, by pushes
with `mfifo_in` and by invocations of `motu_midi_send_prot2`, every FIFO
satisfies `buf_send_len ≤ buf_len ≤ 64`.  Every invocation of
`motu_midi_send_prot2` returns, so the states after it exist. -/
theorem fifo_bounds_invariant :
    (∀ (n_in n_out last_port : Int) (p : Nat),
      fifo_reachable (probe_state n_in n_out last_port) ∧
      ((probe_state n_in n_out last_port).fifo p).buf_len = 0 ∧
      ((probe_state n_in n_out last_port).fifo p).buf_send_len = 0 ∧
      ((probe_state n_in n_out last_port).fifo p).p_in = 0 ∧
      ((probe_state n_in n_out last_port).fifo p).p_out = 0) ∧
    (∀ (m : motu) (tx : Nat → pulled) (ret : Int),
      ∃ r, motu_midi_send_prot2 m tx ret = some r) ∧
    (∀ m : motu, fifo_reachable m →
      ∀ p, (m.fifo p).buf_send_len ≤ (m.fifo p).buf_len ∧ (m.fifo p).buf_len ≤ 64) := by
  refine ⟨fun n_in n_out lp p => ⟨fifo_reachable.probe n_in n_out lp, ?_⟩,
    fun m tx ret => ?_, fun m h p => fifo_reachable_bounded m h p⟩
  · rw [probe_state_fifo]
    exact ⟨rfl, rfl, rfl, rfl⟩
  · obtain ⟨r, _, hs⟩ := send_prot2_total m tx ret
    exact ⟨_, hs⟩

theorem express_xt_ready_fifo_reachable : fifo_reachable express_xt_ready := by
  unfold express_xt_ready express_xt_open
  simp only [List.range, List.range.loop, List.foldl]
  repeat apply fifo_reachable.out_trigger
  repeat apply fifo_reachable.trigger
  exact fifo_reachable.probe 9 9 (-1)

set_option maxRecDepth 100000 in
/-- Witness for C16: the express XT after the push of `90 40` into the FIFO
of port 0 and an invocation of `motu_midi_send_prot2` with a note-on pulled
from every port. -/
theorem fifo_bounds_invariant_witness :
    ∃ r, motu_midi_send_prot2 (mfifo_in express_xt_ready 0 [0x90, 0x40] 2).1 tx_note_on 0 =
        some r ∧
      (r.1.fifo 0).buf_send_len ≤ (r.1.fifo 0).buf_len ∧ (r.1.fifo 0).buf_len ≤ 64 :=
  match fifo_bounds_invariant.2.1 (mfifo_in express_xt_ready 0 [0x90, 0x40] 2).1 tx_note_on 0
  with
  | ⟨r, hr⟩ => ⟨r, hr, fifo_bounds_invariant.2.2 r.1
      (fifo_reachable.send _ tx_note_on 0 r
        (fifo_reachable.push _ 0 [0x90, 0x40] 2 express_xt_ready_fifo_reachable) hr) 0⟩

/-! ## Protocol-2 packer: the closing statements without room -/

set_option maxRecDepth 1000000 in
/-- The boundary of the group framing: with 64 + 41 sendable bytes the
packing loops end, without `goto send_buffer`, at `i = 127`, `k = 1`; the
closing filler loop stops at `i = 128` and the closing trailer finds no
room, so 128 bytes are assembled and the last, open group has no trailer
(the assembled bytes end with `F7 FF`). -/
theorem pack_close_without_room :
    (pack_ports (List.range 9)
        (pack_start express_xt_two_sysex (fun _ => { len := 0, bytes := [] }))).map
      (fun r => (r.1.i, r.1.k, r.2, r.1.ev)) = some (127, 1, false, []) ∧
    (pack_ports (List.range 9)
        (pack_start express_xt_two_sysex (fun _ => { len := 0, bytes := [] }))).map
      (fun r => ((pack_close r.1).i, (pack_close r.1).m.midi_out_buf.drop 126)) =
      some (128, [0xF7, 0xFF]) := by
  decide

/-! ## Protocol-1 input port: a new command byte -/

set_option maxRecDepth 100000 in
/-- C23 (failing input): the timing clock `F8` (table length 1) pushed into
the empty FIFO of port 0 of the express XT is queued (`buf_len = 1`) but not
marked sendable (`buf_send_len = 0`), and the following invocation of
`motu_midi_send_prot2` submits nothing; data bytes pushed after it do not
make it sendable either, only the end of a later message or group does (here
the note-on `90 40 7F`). -/
theorem mfifo_one_byte_message_not_sendable :
    get_cmd_num_bytes 0xF8 = 1 ∧
    ((mfifo_in express_xt_ready 0 [0xF8] 1).1.fifo 0).buf_len = 1 ∧
    ((mfifo_in express_xt_ready 0 [0xF8] 1).1.fifo 0).buf_send_len = 0 ∧
    (motu_midi_send_prot2 (mfifo_in express_xt_ready 0 [0xF8] 1).1
        (fun _ => { len := 0, bytes := [] }) 0).map (fun r => r.2) = some [] ∧
    ((mfifo_in express_xt_ready 0 [0xF8, 0x40, 0x41] 3).1.fifo 0).buf_send_len = 0 ∧
    ((mfifo_in express_xt_ready 0 [0xF8, 0x90, 0x40] 3).1.fifo 0).buf_send_len = 0 ∧
    ((mfifo_in (mfifo_in express_xt_ready 0 [0xF8, 0x90, 0x40] 3).1 0 [0x7F] 1).1.fifo
      0).buf_send_len = 4 := by
  decide

theorem fifo_in_byte_status (f : motufifo) (s : Nat) (hs : 0x80 ≤ s) (h256 : s < 256)
    (h0 : s ≠ 0xF0) (h7 : s ≠ 0xF7) :
    fifo_in_byte f s =
      { f with mbuf := f.mbuf.set f.p_in s,
               p_in := if f.p_in + 1 ≥ N_MBUF then 0 else f.p_in + 1,
               buf_len := f.buf_len + 1,
               cmd_len := toU32 (get_cmd_num_bytes s - 1),
               remaining := toU32 (get_cmd_num_bytes s - 1) } := by
  unfold fifo_in_byte
  dsimp only
  rw [if_pos (byte_high_set s hs h256), if_neg h0, if_neg h7]

theorem fifo_in_byte_data (f : motufifo) (d : Nat) (hd : d < 0x80) (hc : f.cmd_len ≠ 0) :
    (fifo_in_byte f d).buf_len = f.buf_len + 1 ∧
    (fifo_in_byte f d).cmd_len = f.cmd_len ∧
    (fifo_in_byte f d).remaining =
      toU32 (((if f.remaining = 0 then f.cmd_len else f.remaining : Nat) : Int) - 1) ∧
    (fifo_in_byte f d).buf_send_len =
      (if toU32 (((if f.remaining = 0 then f.cmd_len else f.remaining : Nat) : Int) - 1) = 0
        then f.buf_len + 1 else f.buf_send_len) := by
  unfold fifo_in_byte
  dsimp only
  rw [if_neg (by rw [byte_high_clear d hd]; simp), if_pos hc]
  by_cases hr : f.remaining = 0
  · rw [if_pos hr, if_pos hr]
    dsimp only
    split_ifs <;> exact ⟨rfl, rfl, rfl, rfl⟩
  · rw [if_neg hr, if_neg hr]
    dsimp only
    split_ifs <;> exact ⟨rfl, rfl, rfl, rfl⟩

theorem toU32_pred (e : Nat) (h1 : 0 < e) (h2 : e < 4294967296) :
    toU32 ((e : Int) - 1) = e - 1 := by
  have := toU32_sub e 1 (by omega) h2
  simpa using this

/-- Data bytes of one group pushed into a FIFO in which a fixed-length
command is active: `e` is the number of data bytes the group still needs. -/
theorem fifo_in_group_part (ds : List Nat) :
    ∀ f : motufifo, f.cmd_len ≠ 0 →
      ds.length ≤ (if f.remaining = 0 then f.cmd_len else f.remaining) →
      (if f.remaining = 0 then f.cmd_len else f.remaining) < 4294967296 →
      (∀ d ∈ ds, d < 0x80) → f.buf_len + ds.length ≤ N_MBUF →
      (fifo_in f ds).2 = false ∧
      (fifo_in f ds).1.buf_len = f.buf_len + ds.length ∧
      (fifo_in f ds).1.cmd_len = f.cmd_len ∧
      (ds ≠ [] → (fifo_in f ds).1.remaining =
        (if f.remaining = 0 then f.cmd_len else f.remaining) - ds.length) ∧
      (fifo_in f ds).1.buf_send_len =
        (if ds ≠ [] ∧ ds.length = (if f.remaining = 0 then f.cmd_len else f.remaining)
          then f.buf_len + ds.length else f.buf_send_len) := by
  induction ds with
  | nil =>
    intro f _ _ _ _ _
    exact ⟨rfl, rfl, rfl, fun h => absurd rfl h, by simp [fifo_in]⟩
  | cons d rest ih =>
    intro f hc hlen hlt hd hfit
    simp only [List.length_cons] at hlen hfit
    have hN : N_MBUF = 64 := rfl
    obtain ⟨b1, b2, b3, b4⟩ := fifo_in_byte_data f d (hd d (List.mem_cons_self _ _)) hc
    have he : 0 < (if f.remaining = 0 then f.cmd_len else f.remaining) := by omega
    rw [toU32_pred _ he hlt] at b3 b4
    rw [fifo_in, if_neg (by omega)]
    by_cases hr : rest = []
    · subst hr
      have e : fifo_in (fifo_in_byte f d) [] = (fifo_in_byte f d, false) := rfl
      rw [e]
      have hl1 : ([d] : List Nat).length = 1 := rfl
      rw [hl1]
      refine ⟨rfl, b1, b2, fun _ => b3, ?_⟩
      show (fifo_in_byte f d).buf_send_len = _
      rw [b4]
      by_cases h1 : (if f.remaining = 0 then f.cmd_len else f.remaining) = 1
      · rw [if_pos (by omega), if_pos ⟨by simp, h1.symm⟩]
      · rw [if_neg (by omega), if_neg (fun h => h1 h.2.symm)]
    · have hpos : 0 < rest.length := List.length_pos.mpr hr
      have hrem : (fifo_in_byte f d).remaining ≠ 0 := by rw [b3]; omega
      have he1 : (if (fifo_in_byte f d).remaining = 0 then (fifo_in_byte f d).cmd_len
          else (fifo_in_byte f d).remaining) =
          (if f.remaining = 0 then f.cmd_len else f.remaining) - 1 := by
        rw [if_neg hrem, b3]
      obtain ⟨i1, i2, i3, i4, i5⟩ := ih (fifo_in_byte f d) (by rw [b2]; exact hc)
        (by rw [he1]; omega) (by rw [he1]; omega)
        (fun x hx => hd x (List.mem_cons_of_mem _ hx)) (by rw [b1]; omega)
      rw [he1] at i4 i5
      refine ⟨i1, by rw [i2, b1]; simp only [List.length_cons]; omega, by rw [i3, b2],
        fun _ => by rw [i4 hr]; simp only [List.length_cons]; omega, ?_⟩
      rw [i5, b1, b4]
      simp only [List.length_cons]
      by_cases hfull : rest.length = (if f.remaining = 0 then f.cmd_len else f.remaining) - 1
      · rw [if_pos ⟨hr, hfull⟩, if_pos ⟨by simp, by omega⟩]
        omega
      · rw [if_neg (fun h => hfull h.2), if_neg (fun h => hfull (by omega)), if_neg (by omega)]

theorem fifo_in_groups (gs : List (List Nat)) :
    ∀ (f : motufifo) (c : Nat), f.cmd_len = c → 0 < c → c < 4294967296 →
      (f.remaining = 0 ∨ f.remaining = c) →
      (∀ g ∈ gs, g.length = c ∧ ∀ d ∈ g, d < 0x80) →
      f.buf_len + gs.flatten.length ≤ N_MBUF →
      (fifo_in f gs.flatten).2 = false ∧
      (fifo_in f gs.flatten).1.buf_len = f.buf_len + gs.flatten.length ∧
      (fifo_in f gs.flatten).1.cmd_len = c ∧
      ((fifo_in f gs.flatten).1.remaining = 0 ∨ (fifo_in f gs.flatten).1.remaining = c) ∧
      (fifo_in f gs.flatten).1.buf_send_len =
        (if gs = [] then f.buf_send_len else f.buf_len + gs.flatten.length) := by
  induction gs with
  | nil =>
    intro f c hc _ _ hr _ _
    exact ⟨rfl, rfl, hc, hr, rfl⟩
  | cons g rest ih =>
    intro f c hc hpos hlt hr hg hfit
    simp only [List.flatten_cons, List.length_append] at hfit ⊢
    obtain ⟨gl, gd⟩ := hg g (List.mem_cons_self _ _)
    have he : (if f.remaining = 0 then f.cmd_len else f.remaining) = c := by
      rcases hr with h | h
      · rw [if_pos h, hc]
      · by_cases hz : f.remaining = 0
        · rw [if_pos hz, hc]
        · rw [if_neg hz, h]
    obtain ⟨p1, p2, p3, p4, p5⟩ := fifo_in_group_part g f (by omega) (by rw [he, gl])
      (by rw [he]; exact hlt) gd (by omega)
    have hgne : g ≠ [] := by
      intro h
      rw [h] at gl
      simp at gl
      omega
    rw [he] at p4 p5
    rw [if_pos ⟨hgne, gl⟩] at p5
    have p4b := p4 hgne
    rw [gl, Nat.sub_self] at p4b
    rw [fifo_in_append, p1]
    simp only [Bool.false_eq_true, if_false]
    obtain ⟨i1, i2, i3, i4, i5⟩ := ih (fifo_in f g).1 c (by rw [p3, hc]) hpos hlt (Or.inl p4b)
      (fun x hx => hg x (List.mem_cons_of_mem _ hx)) (by rw [p2]; omega)
    refine ⟨i1, by rw [i2, p2]; omega, i3, i4, ?_⟩
    rw [i5, if_neg (List.cons_ne_nil g rest)]
    by_cases hrest : rest = []
    · rw [if_pos hrest, p5, hrest]
      simp
    · rw [if_neg hrest, p2]
      omega

/-- Messages of table length 2 or 3: such a message and every further
running-status group become sendable exactly when they are complete.  After
the pushes of `s`, the groups `gs` (each `L - 1` data
bytes; the first completes the message) and a proper prefix `pre` of a
further group, cut into calls of `mfifo_in` in any way, into a FIFO with
`buf_len = buf_send_len = 0`, `buf_send_len` covers `s` and the complete
groups and `buf_len` everything. -/
theorem mfifo_fixed_message_groups (m : motu) (port s : Nat) (gs : List (List Nat))
    (pre : List Nat) (chunks : List (List Nat))
    (hport : port < m.mfifo.length)
    (h0 : (m.fifo port).buf_len = 0) (h1 : (m.fifo port).buf_send_len = 0)
    (hs0 : 0x80 ≤ s) (hs1 : s < 256)
    (hL : get_cmd_num_bytes s = 2 ∨ get_cmd_num_bytes s = 3)
    (hg : ∀ g ∈ gs, (g.length : Int) = get_cmd_num_bytes s - 1 ∧ ∀ d ∈ g, d < 0x80)
    (hpre : (pre.length : Int) < get_cmd_num_bytes s - 1 ∧ ∀ d ∈ pre, d < 0x80)
    (hfit : 1 + gs.flatten.length + pre.length ≤ 64)
    (hc : chunks.flatten = s :: (gs.flatten ++ pre)) :
    ((mfifo_push_all m port chunks).fifo port).buf_len = 1 + gs.flatten.length + pre.length ∧
    ((mfifo_push_all m port chunks).fifo port).buf_send_len =
      (if gs = [] then 0 else 1 + gs.flatten.length) := by
  have hN : N_MBUF = 64 := rfl
  have hF0 : s ≠ 0xF0 := by
    intro h; rw [h] at hL; revert hL; decide
  have hF7 : s ≠ 0xF7 := by
    intro h; rw [h] at hL; revert hL; decide
  obtain ⟨c, hcv, hc12⟩ : ∃ c : Nat, (c : Int) = get_cmd_num_bytes s - 1 ∧ (c = 1 ∨ c = 2) := by
    rcases hL with h | h
    · exact ⟨1, by rw [h]; rfl, Or.inl rfl⟩
    · exact ⟨2, by rw [h]; rfl, Or.inr rfl⟩
  have hcu : toU32 (get_cmd_num_bytes s - 1) = c := by
    rw [← hcv]
    unfold toU32
    rcases hc12 with h | h <;> rw [h] <;> rfl
  rw [mfifo_push_all_fits chunks m port hport
    (by rw [hc, h0]; simp only [List.length_cons, List.length_append]; omega), hc]
  rw [fifo_in, if_neg (by omega)]
  have hst := fifo_in_byte_status (m.fifo port) s hs0 hs1 hF0 hF7
  obtain ⟨f1, hf1⟩ : ∃ f1 : motufifo, f1 = fifo_in_byte (m.fifo port) s := ⟨_, rfl⟩
  rw [← hf1]
  rw [← hf1] at hst
  have a1 : f1.cmd_len = c := by rw [hst]; exact hcu
  have a2 : f1.remaining = c := by rw [hst]; exact hcu
  have a3 : f1.buf_len = (m.fifo port).buf_len + 1 := by rw [hst]
  have a4 : f1.buf_send_len = (m.fifo port).buf_send_len := by rw [hst]
  rw [fifo_in_append]
  obtain ⟨g1, g2, g3, g4, g5⟩ := fifo_in_groups gs f1 c a1 (by omega) (by omega) (Or.inr a2)
    (fun g hgm => ⟨by have := (hg g hgm).1; omega, (hg g hgm).2⟩) (by omega)
  rw [g1]
  simp only [Bool.false_eq_true, if_false]
  have he : (if (fifo_in f1 gs.flatten).1.remaining = 0 then (fifo_in f1 gs.flatten).1.cmd_len
      else (fifo_in f1 gs.flatten).1.remaining) = c := by
    rcases g4 with h | h
    · rw [if_pos h, g3]
    · rw [h, g3]
      split_ifs <;> rfl
  obtain ⟨q1, q2, q3, q4, q5⟩ := fifo_in_group_part pre (fifo_in f1 gs.flatten).1
    (by rw [g3]; omega) (by rw [he]; have := hpre.1; omega) (by rw [he]; omega) hpre.2
    (by rw [g2]; omega)
  rw [he] at q5
  rw [if_neg (fun h => by have := hpre.1; omega)] at q5
  refine ⟨?_, ?_⟩
  · rw [q2, g2]
    omega
  · rw [q5, g5]
    by_cases hgs : gs = []
    · rw [if_pos hgs, if_pos hgs, a4]
      exact h1
    · rw [if_neg hgs, if_neg hgs]
      omega

/-! ## Protocol-1 input overflow -/

theorem prot1_deliver_receive_only (ps : List Nat) :
    ∀ s : motu × List Event, (∀ e ∈ s.2, ∃ p d, e = Event.receive p d) →
      ∀ e ∈ (ps.foldl prot1_deliver s).2, ∃ p d, e = Event.receive p d := by
  induction ps with
  | nil => intro s h; exact h
  | cons p rest ih =>
    intro s h
    rw [List.foldl_cons]
    apply ih
    unfold prot1_deliver
    dsimp only
    split_ifs
    · intro e he
      rcases List.mem_append.1 he with h1 | h1
      · exact h e h1
      · exact ⟨p, _, List.mem_singleton.1 h1⟩
    · intro e he
      rw [List.append_nil] at he
      exact h e he
    · exact h

/-- The protocol-1 input handler reports nothing: whatever the state and the
buffer, the only kernel calls it makes are calls of `snd_rawmidi_receive`. -/
theorem prot1_input_receive_only (m : motu) (buf : List Nat) :
    ∀ e ∈ (motu_midi_handle_input_prot1 m buf).2, ∃ p d, e = Event.receive p d := by
  unfold motu_midi_handle_input_prot1
  split_ifs
  · intro e he
    simp at he
  · exact prot1_deliver_receive_only _ _ (fun e he => by simp at he)

set_option maxRecDepth 100000 in
/-- C24 (failing input): on the express 128 after probing, with every port
empty, the 84-byte packet `prot1_running_packet` yields 80 bytes for port 0.
The scan stores the first 64 and drops the rest (`buf_len = 64`), and the
handler hands the 64 stored bytes to the consumer and reports nothing: its
only kernel call is the one `snd_rawmidi_receive`.  The same holds for the
132-byte buffer `prot1_plain_packet`, which routes 65 bytes to port 0. -/
theorem prot1_overflow_not_reported :
    prot1_running_packet.length = 84 ∧
    ((express_128_open.in_port 0).buf_len = 0) ∧
    ((prot1_scan_packet express_128_open prot1_running_packet).1.in_port 0).buf_len = 64 ∧
    (motu_midi_handle_input_prot1 express_128_open prot1_running_packet).2 =
      [Event.receive 0 (List.replicate 32 [0xC0, 5]).flatten] ∧
    prot1_plain_packet.length = 132 ∧
    ((prot1_scan_packet express_128_open prot1_plain_packet).1.in_port 0).buf_len = 64 ∧
    (motu_midi_handle_input_prot1 express_128_open prot1_plain_packet).2 =
      [Event.receive 0 (List.replicate 64 5)] := by
  decide

/-! ## A full FIFO with nothing sendable -/

theorem fifo_in_full (f : motufifo) (bs : List Nat) (h : f.buf_len = N_MBUF) :
    (fifo_in f bs).1 = f ∧ (bs ≠ [] → (fifo_in f bs).2 = true) := by
  cases bs with
  | nil => exact ⟨rfl, fun h => absurd rfl h⟩
  | cons b bs =>
    rw [fifo_in, if_pos (by omega)]
    exact ⟨rfl, fun _ => rfl⟩

theorem mfifo_in_full (m : motu) (port : Nat) (buf : List Nat) (len : Int) (p : Nat)
    (h : (m.fifo p).buf_len = N_MBUF) : (mfifo_in m port buf len).1.fifo p = m.fifo p := by
  unfold mfifo_in
  dsimp only
  by_cases hp : p = port
  · subst hp
    rw [(fifo_in_full _ _ h).1]
    exact fifo_set_self m p p
  · exact fifo_set_other m port p _ hp

theorem prot2_pull_full (tx : Nat → pulled) (p : Nat) (ps : List Nat) :
    ∀ s : motu × List Event, (s.1.fifo p).buf_len = N_MBUF →
      (prot2_pull tx ps s).1.fifo p = s.1.fifo p := by
  induction ps with
  | nil => intro s _; rfl
  | cons q ps ih =>
    intro s h
    simp only [prot2_pull]
    by_cases hreg : s.1.out_ports.getD q false = true
    · rw [if_pos hreg]
      have e := mfifo_in_full s.1 q (tx q).bytes (tx q).len p h
      rw [ih _ (by rw [e]; exact h), e]
    · rw [if_neg hreg]
      exact ih s h

theorem pack_data_fifo_other (s : pack_state) (q p : Nat) (h : p ≠ q) :
    (pack_data s q).1.m.fifo p = s.m.fifo p := by
  unfold pack_data
  split_ifs
  · rfl
  · dsimp only
    have e : ∀ (f g : motufifo) (c : Nat),
        ((pack_emit { s with m := s.m.set_fifo q f } c).m.set_fifo q g).fifo p = s.m.fifo p := by
      intro f g c
      rw [fifo_set_other _ q p g h]
      show (s.m.set_fifo q f).fifo p = _
      exact fifo_set_other _ q p f h
    exact e _ _ _

theorem pack_iter_fifo_other (s : pack_state) (q p : Nat) (h : p ≠ q) :
    (pack_iter s q).1.m.fifo p = s.m.fifo p := by
  have hb : (pack_branch s q).1.m.fifo p = s.m.fifo p := by
    unfold pack_branch
    split_ifs
    · exact fifo_congr _ _ (pack_marker_mfifo s q) p
    · exact fifo_congr _ _ (pack_fill_mfifo 12 s) p
    · exact pack_data_fifo_other s q p h
  unfold pack_iter
  dsimp only
  split_ifs
  · exact hb
  · rw [fifo_congr _ _ (pack_trailer_mfifo _) p]
    exact hb

theorem pack_head_full (s0 : pack_state) (p : Nat) (hsend : (s0.m.fifo p).buf_send_len = 0)
    (s : pack_state) (h : pack_head s0 s) : s.m.fifo p = s0.m.fifo p := by
  induction h with
  | start => rfl
  | next s q _ hne _ ih =>
    have hq : p ≠ q := by
      intro e
      subst e
      rw [ih] at hne
      exact hne hsend
    rw [pack_iter_fifo_other s q p hq, ih]

theorem send_prot2_full (m : motu) (p : Nat) (hfull : (m.fifo p).buf_len = N_MBUF)
    (hsend : (m.fifo p).buf_send_len = 0) (tx : Nat → pulled) (ret : Int) :
    (∃ r, motu_midi_send_prot2 m tx ret = some r ∧ r.1.fifo p = m.fifo p) ∧
    (∀ s, pack_head (pack_start m tx) s → s.m.fifo p = m.fifo p) := by
  have h0 : (pack_start m tx).m.fifo p = m.fifo p := prot2_pull_full tx p _ (m, []) hfull
  have hh : ∀ s, pack_head (pack_start m tx) s → s.m.fifo p = m.fifo p := by
    intro s hs
    rw [pack_head_full _ p (by rw [h0]; exact hsend) s hs, h0]
  refine ⟨?_, hh⟩
  obtain ⟨r1, hr1, hs⟩ := send_prot2_total m tx ret
  refine ⟨_, hs, ?_⟩
  rw [fifo_congr _ _ (pack_send_mfifo r1.1 ret)]
  obtain ⟨a1, a2⟩ := pack_ports_heads (pack_start m tx) _ _ r1 hr1 pack_head.start
  cases hf : r1.2 with
  | false => exact hh _ (a1 hf)
  | true =>
    obtain ⟨s1, q, b1, b2, _, b4⟩ := a2 hf
    have hq : p ≠ q := by
      intro e
      subst e
      rw [hh s1 b1] at b2
      exact b2 hsend
    rw [b4, pack_iter_fifo_other s1 q p hq]
    exact hh s1 b1

theorem fifo_later_full (m0 : motu) (p : Nat) (hfull : (m0.fifo p).buf_len = N_MBUF)
    (hsend : (m0.fifo p).buf_send_len = 0) (m : motu) (h : fifo_later m0 m) :
    m.fifo p = m0.fifo p := by
  induction h with
  | start => rfl
  | trigger m number up _ ih =>
    have e : (motu_midi_input_trigger m number up).mfifo = m.mfifo := by
      unfold motu_midi_input_trigger motu.set_in_port
      split_ifs <;> rfl
    rw [fifo_congr _ _ e]
    exact ih
  | out_trigger m number up _ ih => exact ih
  | push m port buf len _ ih =>
    rw [mfifo_in_full m port buf len p (by rw [ih]; exact hfull)]
    exact ih
  | send m tx ret r _ hs ih =>
    obtain ⟨r2, e2, f2⟩ := (send_prot2_full m p (by rw [ih]; exact hfull)
      (by rw [ih]; exact hsend) tx ret).1
    rw [e2] at hs
    cases hs
    rw [f2]
    exact ih

/-- C27: a full FIFO with nothing sendable is stuck for ever.  Let the FIFO
of port `p` have `buf_len = 64` and `buf_send_len = 0` in the state `m0`.
Then in `m0` and in every state `m` reached from it by (de)registrations,
pushes with `mfifo_in` and invocations of `motu_midi_send_prot2`: the FIFO
of `p` is the one of `m0`, field by field; every push (into any port, of any
bytes) leaves it so, and a push of at least one byte into `p` is answered
with the overflow warning; every invocation of `motu_midi_send_prot2`
returns and leaves it so; and at every head of the packing loop during the
invocation it is still the one of `m0`, so `buf_send_len` is 0 and the loop
of port `p` is never entered. -/
theorem full_fifo_stuck (m0 : motu) (p : Nat) (hfull : (m0.fifo p).buf_len = N_MBUF)
    (hsend : (m0.fifo p).buf_send_len = 0) (m : motu) (hm : fifo_later m0 m) :
    m.fifo p = m0.fifo p ∧
    (∀ (port : Nat) (buf : List Nat) (len : Int),
      (mfifo_in m port buf len).1.fifo p = m0.fifo p) ∧
    (∀ (buf : List Nat) (len : Int), buf.take len.toNat ≠ [] →
      (mfifo_in m p buf len).2 = [Event.warn_fifo_overflow p]) ∧
    (∀ (tx : Nat → pulled) (ret : Int),
      ∃ r, motu_midi_send_prot2 m tx ret = some r ∧ r.1.fifo p = m0.fifo p) ∧
    (∀ (tx : Nat → pulled) (s : pack_state),
      pack_head (pack_start m tx) s → s.m.fifo p = m0.fifo p) := by
  have e := fifo_later_full m0 p hfull hsend m hm
  have h1 : (m.fifo p).buf_len = N_MBUF := by rw [e]; exact hfull
  have h2 : (m.fifo p).buf_send_len = 0 := by rw [e]; exact hsend
  refine ⟨e, ?_, ?_, ?_, ?_⟩
  · intro port buf len
    rw [mfifo_in_full m port buf len p h1]
    exact e
  · intro buf len hne
    unfold mfifo_in
    dsimp only
    rw [(fifo_in_full _ _ h1).2 hne]
    rfl
  · intro tx ret
    obtain ⟨r, a, b⟩ := (send_prot2_full m p h1 h2 tx ret).1
    exact ⟨r, a, by rw [b]; exact e⟩
  · intro tx s hs
    rw [(send_prot2_full m p h1 h2 tx 0).2 s hs]
    exact e

set_option maxRecDepth 100000 in
/-- Witness for C27: the express XT with `F0` and 63 data bytes queued on
port 0 (`buf_len = 64`, `buf_send_len = 0`), and the state after the push of
the rest `01 F7` of the message, which is dropped. -/
theorem full_fifo_stuck_witness :
    (express_xt_long_sysex.fifo 0).buf_len = N_MBUF ∧
    (express_xt_long_sysex.fifo 0).buf_send_len = 0 ∧
    fifo_later express_xt_long_sysex (mfifo_in express_xt_long_sysex 0 [1, 0xF7] 2).1 ∧
    ((mfifo_in express_xt_long_sysex 0 [1, 0xF7] 2).1.fifo 0 = express_xt_long_sysex.fifo 0 ∧
    (∀ (port : Nat) (buf : List Nat) (len : Int),
      (mfifo_in (mfifo_in express_xt_long_sysex 0 [1, 0xF7] 2).1 port buf len).1.fifo 0 =
        express_xt_long_sysex.fifo 0) ∧
    (∀ (buf : List Nat) (len : Int), buf.take len.toNat ≠ [] →
      (mfifo_in (mfifo_in express_xt_long_sysex 0 [1, 0xF7] 2).1 0 buf len).2 =
        [Event.warn_fifo_overflow 0]) ∧
    (∀ (tx : Nat → pulled) (ret : Int),
      ∃ r, motu_midi_send_prot2 (mfifo_in express_xt_long_sysex 0 [1, 0xF7] 2).1 tx ret = some r ∧
        r.1.fifo 0 = express_xt_long_sysex.fifo 0) ∧
    (∀ (tx : Nat → pulled) (s : pack_state),
      pack_head (pack_start (mfifo_in express_xt_long_sysex 0 [1, 0xF7] 2).1 tx) s →
        s.m.fifo 0 = express_xt_long_sysex.fifo 0)) :=
  ⟨by decide, by decide, fifo_later.push _ 0 [1, 0xF7] 2 fifo_later.start,
    full_fifo_stuck express_xt_long_sysex 0 (by decide) (by decide) _
      (fifo_later.push _ 0 [1, 0xF7] 2 fifo_later.start)⟩

/-! ## Protocol-2 packer: termination -/

theorem pack_port_more_fuel (fuel : Nat) :
    ∀ (s : pack_state) (p : Nat) (r : pack_state × Bool), pack_port fuel s p = some r →
      ∀ n, pack_port (fuel + n) s p = some r := by
  induction fuel with
  | zero => intro s p r h; simp only [pack_port] at h; cases h
  | succ fuel ih =>
    intro s p r h n
    have e : fuel + 1 + n = (fuel + n) + 1 := by omega
    rw [e, pack_port]
    rw [pack_port] at h
    by_cases hne : (s.m.fifo p).buf_send_len ≠ 0
    · rw [if_pos hne] at h ⊢
      dsimp only at h ⊢
      by_cases hstop : (pack_iter s p).2 = true
      · rw [if_pos hstop] at h ⊢
        exact h
      · rw [if_neg hstop] at h ⊢
        exact ih _ _ _ h n
    · rw [if_neg hne] at h ⊢
      exact h

theorem pack_fill_exit (n : Nat) :
    ∀ s : pack_state, 12 ≤ s.k + n →
      ((pack_fill n s).2 = false → 12 ≤ (pack_fill n s).1.k) ∧
      ∀ j, pack_fill (n + j) s = pack_fill n s := by
  induction n with
  | zero =>
    intro s h
    refine ⟨fun _ => by show 12 ≤ s.k; omega, fun j => ?_⟩
    cases j with
    | zero => rfl
    | succ j =>
      have e : 0 + (j + 1) = j + 1 := by omega
      have e2 : pack_fill 0 s = (s, false) := rfl
      rw [e, e2, pack_fill, if_neg (by omega)]
  | succ n ih =>
    intro s h
    have e : ∀ j, n + 1 + j = (n + j) + 1 := fun j => by omega
    by_cases hk : s.k < 12
    · by_cases hi : s.i ≥ BUFSIZE
      · refine ⟨fun hf => ?_, fun j => ?_⟩
        · rw [pack_fill, if_pos hk, if_pos hi] at hf
          simp [pack_stop] at hf
        · rw [e, pack_fill, pack_fill, if_pos hk, if_pos hk, if_pos hi, if_pos hi]
      · obtain ⟨a1, a2⟩ := ih { (pack_emit s 0xFF) with k := s.k + 1 }
          (by show 12 ≤ s.k + 1 + n; omega)
        refine ⟨fun hf => ?_, fun j => ?_⟩
        · rw [pack_fill, if_pos hk, if_neg hi] at hf ⊢
          exact a1 hf
        · rw [e, pack_fill, pack_fill, if_pos hk, if_pos hk, if_neg hi, if_neg hi]
          exact a2 j
    · refine ⟨fun _ => ?_, fun j => ?_⟩
      · rw [pack_fill, if_neg hk]
        show 12 ≤ s.k
        omega
      · rw [e, pack_fill, pack_fill, if_neg hk, if_neg hk]

theorem pack_fill_rest_exit (n : Nat) :
    ∀ s : pack_state, 12 ≤ s.k + n →
      ¬ ((pack_fill_rest n s).k < 12 ∧ (pack_fill_rest n s).i < BUFSIZE) ∧
      ∀ j, pack_fill_rest (n + j) s = pack_fill_rest n s := by
  induction n with
  | zero =>
    intro s h
    refine ⟨fun hc => ?_, fun j => ?_⟩
    · have : (pack_fill_rest 0 s).k = s.k := rfl
      omega
    · cases j with
      | zero => rfl
      | succ j =>
        have e : 0 + (j + 1) = j + 1 := by omega
        have e2 : pack_fill_rest 0 s = s := rfl
        rw [e, e2, pack_fill_rest, if_neg (by omega)]
  | succ n ih =>
    intro s h
    have e : ∀ j, n + 1 + j = (n + j) + 1 := fun j => by omega
    by_cases hc : s.k < 12 ∧ s.i < BUFSIZE
    · obtain ⟨a1, a2⟩ := ih { (pack_emit s 0xFF) with k := s.k + 1 }
        (by show 12 ≤ s.k + 1 + n; omega)
      refine ⟨?_, fun j => ?_⟩
      · rw [pack_fill_rest, if_pos hc]
        exact a1
      · rw [e, pack_fill_rest, pack_fill_rest, if_pos hc, if_pos hc]
        exact a2 j
    · refine ⟨?_, fun j => ?_⟩
      · rw [pack_fill_rest, if_neg hc]
        exact hc
      · rw [e, pack_fill_rest, pack_fill_rest, if_neg hc, if_neg hc]

theorem split_frames_more_fuel (fuel : Nat) :
    ∀ (oc off k : Nat) (d : List iso_desc), oc ≤ fuel →
      ∀ j, split_frames (fuel + j) oc off k d = split_frames fuel oc off k d := by
  induction fuel with
  | zero =>
    intro oc off k d h j
    have h0 : oc = 0 := by omega
    subst h0
    cases j with
    | zero => rfl
    | succ j =>
      have e : 0 + (j + 1) = j + 1 := by omega
      have e2 : split_frames 0 0 off k d = (d, k) := rfl
      rw [e, e2, split_frames, if_neg (by omega)]
  | succ fuel ih =>
    intro oc off k d h j
    have e : fuel + 1 + j = (fuel + j) + 1 := by omega
    rw [e, split_frames, split_frames]
    by_cases hc : oc > 0
    · rw [if_pos hc, if_pos hc]
      dsimp only
      have hj : oc - (if oc > 14 then 14 else oc) ≤ fuel := by
        split_ifs <;> omega
      split_ifs
      · exact ih _ _ _ _ (by omega) j
      · exact ih _ _ _ _ (by omega) j
      · exact ih _ _ _ _ (by omega) j
      · exact ih _ _ _ _ (by omega) j
    · rw [if_neg hc, if_neg hc]

theorem fifo_inside (m : motu) (p : Nat) (h : (m.fifo p).buf_send_len ≠ 0) :
    p < m.mfifo.length := by
  by_contra hl
  apply h
  have e : m.fifo p = blank_fifo := by
    unfold motu.fifo
    rw [List.getD_eq_getElem?_getD, List.getElem?_eq_none (Nat.le_of_not_lt hl)]
    rfl
  rw [e]
  rfl

theorem pack_fill_last_out_port (n : Nat) :
    ∀ s : pack_state, (pack_fill n s).1.m.last_out_port = s.m.last_out_port := by
  induction n with
  | zero => intro s; rfl
  | succ n ih =>
    intro s
    rw [pack_fill]
    split_ifs
    · rfl
    · rw [ih]; rfl
    · rfl

theorem pack_marker_switched (s : pack_state) (p : Nat) (hf : (pack_marker s p).2 = false) :
    (pack_marker s p).1.m.last_out_port = (p : Int) := by
  revert hf
  unfold pack_marker
  split_ifs
  · intro hf
    simp [pack_stop] at hf
  · intro _
    dsimp only
    split_ifs <;> rfl

theorem pack_data_dequeued (s : pack_state) (p : Nat) (hp : p < s.m.mfifo.length)
    (hf : (pack_data s p).2 = false) :
    ((pack_data s p).1.m.fifo p).buf_send_len =
      toU32 (((s.m.fifo p).buf_send_len : Int) - 1) ∧
    ((pack_data s p).1.m.fifo p).buf_len = toU32 (((s.m.fifo p).buf_len : Int) - 1) ∧
    ((pack_data s p).1.m.fifo p).p_out =
      (if (s.m.fifo p).p_out + 1 ≥ N_MBUF then 0 else (s.m.fifo p).p_out + 1) := by
  revert hf
  unfold pack_data
  by_cases hi : s.i ≥ BUFSIZE
  · rw [if_pos hi]
    intro hf
    simp [pack_stop] at hf
  · rw [if_neg hi]
    intro _
    dsimp only
    have e : ∀ (f g : motufifo) (c : Nat),
        ((pack_emit { s with m := s.m.set_fifo p f } c).m.set_fifo p g).fifo p = g := by
      intro f g c
      apply fifo_set_same
      show p < (s.m.set_fifo p f).mfifo.length
      unfold motu.set_fifo
      simp only [List.length_set]
      exact hp
    rw [e]
    split_ifs <;> exact ⟨rfl, rfl, rfl⟩

/-- One iteration of the packing loop from a state with agreeing counters
and `k < 12`: it leaves through the capacity exit, or it moves the write
index forward (never past `BUFSIZE`) and has dequeued a byte, switched to
the port, or completed the open group. -/
theorem pack_iter_progress (s : pack_state) (p : Nat) (h : pack_counted s) (hk : s.k < 12)
    (hne : (s.m.fifo p).buf_send_len ≠ 0) :
    (pack_iter s p).2 = true ∨
    ((pack_iter s p).2 = false ∧ s.i < (pack_iter s p).1.i ∧ (pack_iter s p).1.i ≤ BUFSIZE ∧
      (pack_dequeued s (pack_iter s p).1 p ∨ pack_switched s (pack_iter s p).1 p ∨
        pack_completed s (pack_iter s p).1 p)) := by
  by_cases hstop : (pack_iter s p).2 = true
  · exact Or.inl hstop
  · right
    have hf : (pack_iter s p).2 = false := by simpa using hstop
    obtain ⟨c1, c2⟩ := pack_iter_counted s p h hk
    refine ⟨hf, (c2 hf).1, c1.2.2, ?_⟩
    have hbf : (pack_branch s p).2 = false := by
      by_contra hb
      apply hstop
      unfold pack_iter
      dsimp only
      rw [if_pos (by simpa using hb)]
      simpa using hb
    have hit : pack_iter s p = pack_trailer (pack_branch s p).1 := by
      unfold pack_iter
      dsimp only
      rw [if_neg (by rw [hbf]; decide)]
    rw [hit] at hf ⊢
    by_cases hp : (p : Int) ≠ s.m.last_out_port
    · by_cases h10 : s.k < 10
      · have hb : pack_branch s p = pack_marker s p := by
          unfold pack_branch
          rw [if_pos hp, if_pos h10]
        rw [hb] at hbf ⊢
        right; left
        refine ⟨hp, h10, ?_, ?_⟩
        · rw [pack_trailer_last_out_port]
          exact pack_marker_switched s p hbf
        · rw [pack_trailer_mfifo, pack_marker_mfifo]
      · have hb : pack_branch s p = pack_fill 12 s := by
          unfold pack_branch
          rw [if_pos hp, if_neg h10]
        rw [hb] at hbf hf ⊢
        right; right
        obtain ⟨_, _, a3⟩ := pack_fill_counted 12 s h
        obtain ⟨k12, i12⟩ := a3 hbf (by omega)
        have ht : (pack_trailer (pack_fill 12 s).1).1.k = 0 ∧
            (pack_trailer (pack_fill 12 s).1).1.i = (pack_fill 12 s).1.i + 2 := by
          revert hf
          unfold pack_trailer
          rw [if_pos k12]
          split_ifs
          · intro hf
            simp [pack_stop] at hf
          · intro _
            exact ⟨rfl, rfl⟩
        refine ⟨hp, by omega, ht.1, by rw [ht.2]; omega, ?_, ?_⟩
        · rw [pack_trailer_mfifo, pack_fill_mfifo]
        · rw [pack_trailer_last_out_port, pack_fill_last_out_port]
    · have hb : pack_branch s p = pack_data s p := by
        unfold pack_branch
        rw [if_neg hp]
      rw [hb] at hbf ⊢
      left
      obtain ⟨d1, d2, d3⟩ := pack_data_dequeued s p (fifo_inside s.m p hne) hbf
      have e := fifo_congr _ _ (pack_trailer_mfifo (pack_data s p).1) p
      refine ⟨by simpa using hp, ?_, ?_, ?_⟩
      · rw [e]; exact d1
      · rw [e]; exact d2
      · rw [e]; exact d3

/-- C26: the protocol-2 packer always terminates.  For every driver state
(any port count, in particular `n_ports_out ≤ 9`, any `last_out_port`, any
FIFO contents, cursors and lengths) and everything the producers hand over,
`motu_midi_send_prot2` returns.  At every head `s` of the packing loop
`k < 12` and `i ≤ BUFSIZE`; the loop `while(buf_send_len)` of every port
started there ends within its iteration allowance, with the same result for
every larger allowance; and every iteration either leaves through the
capacity exit or moves `i` forward (still at most `BUFSIZE`, which bounds the
number of iterations) and has dequeued a byte, emitted the marker that makes
the port current, or completed the open group.  The filler loops end with
their condition false after at most 12 iterations and the sub-frame loop
after at most `out_count` iterations: their results do not change with a
larger allowance. -/
theorem send_prot2_terminates (m : motu) (tx : Nat → pulled) (ret : Int) :
    (∃ r, motu_midi_send_prot2 m tx ret = some r) ∧
    (∀ s, pack_head (pack_start m tx) s →
      s.k < 12 ∧ s.i ≤ BUFSIZE ∧
      ∀ p : Nat,
        (∃ r, pack_port PACK_FUEL s p = some r ∧
          ∀ n, pack_port (PACK_FUEL + n) s p = some r) ∧
        ((s.m.fifo p).buf_send_len ≠ 0 →
          (pack_iter s p).2 = true ∨
          ((pack_iter s p).2 = false ∧ s.i < (pack_iter s p).1.i ∧
            (pack_iter s p).1.i ≤ BUFSIZE ∧
            (pack_dequeued s (pack_iter s p).1 p ∨ pack_switched s (pack_iter s p).1 p ∨
              pack_completed s (pack_iter s p).1 p)))) ∧
    (∀ (s : pack_state) (n : Nat),
      pack_fill (12 + n) s = pack_fill 12 s ∧
      ((pack_fill 12 s).2 = false → 12 ≤ (pack_fill 12 s).1.k) ∧
      pack_fill_rest (12 + n) s = pack_fill_rest 12 s ∧
      ¬ ((pack_fill_rest 12 s).k < 12 ∧ (pack_fill_rest 12 s).i < BUFSIZE)) ∧
    (∀ (out_count out_offset k : Nat) (d : List iso_desc) (n : Nat),
      split_frames (out_count + n) out_count out_offset k d =
        split_frames out_count out_count out_offset k d) := by
  refine ⟨?_, ?_, ?_, ?_⟩
  · obtain ⟨r, _, hs⟩ := send_prot2_total m tx ret
    exact ⟨_, hs⟩
  · intro s hs
    obtain ⟨hc, hk⟩ := pack_head_counted _ s (pack_start_counted m tx) hs
    refine ⟨hk, hc.2.2, fun p => ⟨?_, pack_iter_progress s p hc hk⟩⟩
    obtain ⟨r, hr⟩ := pack_port_total PACK_FUEL s p hc hk (by unfold PACK_FUEL; omega)
    exact ⟨r, hr, pack_port_more_fuel PACK_FUEL s p r hr⟩
  · intro s n
    exact ⟨(pack_fill_exit 12 s (by omega)).2 n, (pack_fill_exit 12 s (by omega)).1,
      (pack_fill_rest_exit 12 s (by omega)).2 n, (pack_fill_rest_exit 12 s (by omega)).1⟩
  · intro oc off k d n
    exact split_frames_more_fuel oc oc off k d (Nat.le_refl _) n

set_option maxRecDepth 100000 in
/-- Witness for C26: the express XT with a note-on pulled from every port.
The invocation returns; the first iteration for port 0 emits the switch
marker, the next one dequeues a byte. -/
theorem send_prot2_terminates_witness :
    (∃ r, motu_midi_send_prot2 express_xt_ready tx_note_on 0 = some r) ∧
    pack_switched (pack_start express_xt_ready tx_note_on)
      (pack_iter (pack_start express_xt_ready tx_note_on) 0).1 0 ∧
    ((pack_iter (pack_iter (pack_start express_xt_ready tx_note_on) 0).1 0).2 = true ∨
      ((pack_iter (pack_iter (pack_start express_xt_ready tx_note_on) 0).1 0).2 = false ∧
        (pack_iter (pack_start express_xt_ready tx_note_on) 0).1.i <
          (pack_iter (pack_iter (pack_start express_xt_ready tx_note_on) 0).1 0).1.i ∧
        (pack_iter (pack_iter (pack_start express_xt_ready tx_note_on) 0).1 0).1.i ≤ BUFSIZE ∧
        (pack_dequeued (pack_iter (pack_start express_xt_ready tx_note_on) 0).1
            (pack_iter (pack_iter (pack_start express_xt_ready tx_note_on) 0).1 0).1 0 ∨
          pack_switched (pack_iter (pack_start express_xt_ready tx_note_on) 0).1
            (pack_iter (pack_iter (pack_start express_xt_ready tx_note_on) 0).1 0).1 0 ∨
          pack_completed (pack_iter (pack_start express_xt_ready tx_note_on) 0).1
            (pack_iter (pack_iter (pack_start express_xt_ready tx_note_on) 0).1 0).1 0))) :=
  ⟨(send_prot2_terminates express_xt_ready tx_note_on 0).1,
    by unfold pack_switched; decide,
    (((send_prot2_terminates express_xt_ready tx_note_on 0).2.1 _
      (pack_head.next _ 0 pack_head.start (by decide) (by decide))).2.2 0).2 (by decide)⟩

/-! ## Protocol-1 input: the deliverable prefix -/

theorem holds_append (ip : motu_in_port) (E : List Nat) (c lc r b : Nat)
    (h : port_holds ip E c lc r) (hroom : E.length < 64) :
    port_holds (in_port_append_byte ip b) (E ++ [b]) c lc r := by
  obtain ⟨h1, h2, h3, h4, h5, h6⟩ := h
  rw [append_eq_store _ b (by unfold IN_BUF_SIZE; omega)]
  refine ⟨?_, ?_, h3, h4, h5, ?_⟩
  · rw [contents_store ip b (by omega), h1]
  · show ip.buf_len + 1 = (E ++ [b]).length
    rw [List.length_append, h2]
    rfl
  · show (ip.buf.set ip.buf_len b).length = 64
    rw [List.length_set]
    exact h6

theorem holds_status (ip : motu_in_port) (E : List Nat) (c lc r s : Nat)
    (h : port_holds ip E c lc r) (h0 : 0x80 ≤ s) (h1 : s ≤ 0xEF) (hroom : E.length < 64) :
    port_holds (in_port_write_byte ip s) (E ++ [s]) E.length s (midi_channel_length s - 1) := by
  obtain ⟨e1, e2, e3, e4, e5, e6⟩ := h
  have hg := get_cmd_channel s h0 h1
  have hm : midi_channel_length s = 2 ∨ midi_channel_length s = 3 := by
    unfold midi_channel_length
    split_ifs <;> simp
  unfold in_port_write_byte
  dsimp only
  rw [if_neg (by omega), if_pos (by omega)]
  unfold write_command
  dsimp only
  have hu : toU8 (get_cmd_num_bytes s - 1) = midi_channel_length s - 1 := by
    rw [hg]
    have := toU8_pred (midi_channel_length s) (by omega) (by omega)
    exact this
  rw [hu]
  exact holds_append _ E E.length s _ s ⟨e1, e2, e2, rfl, rfl, e6⟩ hroom

theorem holds_data (ip : motu_in_port) (E : List Nat) (c lc r d : Nat)
    (h : port_holds ip E c lc r) (hd : d < 0x80) (hlc : 0 < lc) (hr : 0 < r) (hr2 : r < 256)
    (hroom : E.length < 64) :
    port_holds (in_port_write_byte ip d) (E ++ [d])
      (if r = 1 then E.length + 1 else c) lc (r - 1) := by
  obtain ⟨e1, e2, e3, e4, e5, e6⟩ := h
  unfold in_port_write_byte
  dsimp only
  rw [get_cmd_data d hd, if_neg (by decide), if_neg (by decide), if_pos (by omega)]
  unfold write_running
  rw [write_prime_skip ip (by omega)]
  dsimp only
  have ha := holds_append { ip with cmd_bytes_remaining := toU8 ((ip.cmd_bytes_remaining : Int) - 1) }
    E c lc (r - 1) d ⟨e1, e2, e3, e4, by rw [e5]; exact toU8_pred r hr (by omega), e6⟩ hroom
  obtain ⟨a1, a2, a3, a4, a5, a6⟩ := ha
  by_cases h1 : r = 1
  · rw [if_pos (by rw [a5]; omega), if_pos h1]
    refine ⟨a1, a2, ?_, a4, a5, a6⟩
    show (in_port_append_byte _ d).buf_len = E.length + 1
    rw [a2, List.length_append]
    rfl
  · rw [if_neg (by rw [a5]; omega), if_neg h1]
    exact ⟨a1, a2, a3, a4, a5, a6⟩

theorem holds_prime (ip : motu_in_port) (E : List Nat) (c s d : Nat)
    (h : port_holds ip E c s 0) (hd : d < 0x80) (h0 : 0x80 ≤ s) (h1 : s ≤ 0xEF)
    (hroom : E.length + 2 ≤ 64) :
    port_holds (in_port_write_byte ip d) (E ++ [s, d])
      (if midi_channel_length s = 2 then E.length + 2 else E.length) s
      (midi_channel_length s - 2) := by
  obtain ⟨e1, e2, e3, e4, e5, e6⟩ := h
  subst e4
  have hg := get_cmd_channel ip.last_cmd h0 h1
  have hm : midi_channel_length ip.last_cmd = 2 ∨ midi_channel_length ip.last_cmd = 3 := by
    unfold midi_channel_length
    split_ifs <;> simp
  unfold in_port_write_byte
  dsimp only
  rw [get_cmd_data d hd, if_neg (by decide), if_neg (by decide), if_pos (by omega)]
  unfold write_running
  have hp : port_holds (write_prime ip) (E ++ [ip.last_cmd]) E.length ip.last_cmd
      (midi_channel_length ip.last_cmd - 1) := by
    unfold write_prime
    rw [if_pos (by omega)]
    dsimp only
    have ha := holds_append { ip with buf_send_len := ip.buf_len } E E.length ip.last_cmd 0
      ip.last_cmd ⟨e1, e2, e2, rfl, e5, e6⟩ (by omega)
    obtain ⟨a1, a2, a3, a4, a5, a6⟩ := ha
    refine ⟨a1, a2, a3, a4, ?_, a6⟩
    show toU8 (get_cmd_num_bytes (in_port_append_byte _ ip.last_cmd).last_cmd - 1) = _
    rw [a4, hg]
    exact toU8_pred (midi_channel_length ip.last_cmd) (by omega) (by omega)
  obtain ⟨p1, p2, p3, p4, p5, p6⟩ := hp
  dsimp only
  have ha := holds_append
    { (write_prime ip) with
      cmd_bytes_remaining := toU8 (((write_prime ip).cmd_bytes_remaining : Int) - 1) }
    (E ++ [ip.last_cmd]) E.length ip.last_cmd (midi_channel_length ip.last_cmd - 2) d
    ⟨p1, p2, p3, p4, by
      show toU8 (((write_prime ip).cmd_bytes_remaining : Int) - 1) = _
      rw [p5, toU8_pred _ (by omega) (by omega)]
      omega, p6⟩
    (by rw [List.length_append]; simp; omega)
  obtain ⟨a1, a2, a3, a4, a5, a6⟩ := ha
  have el : E ++ [ip.last_cmd] ++ [d] = E ++ [ip.last_cmd, d] := by simp
  rw [el] at a1 a2
  by_cases h2 : midi_channel_length ip.last_cmd = 2
  · rw [if_pos (by rw [a5]; omega), if_pos h2]
    refine ⟨a1, a2, ?_, a4, a5, a6⟩
    show (in_port_append_byte _ d).buf_len = E.length + 2
    rw [a2, List.length_append]
    rfl
  · rw [if_neg (by rw [a5]; omega), if_neg h2]
    exact ⟨a1, a2, a3, a4, a5, a6⟩

theorem holds_data_run (lc : Nat) (hlc : 0 < lc) (ds : List Nat) :
    ∀ (ip : motu_in_port) (E : List Nat) (c r : Nat), port_holds ip E c lc r →
      (∀ d ∈ ds, d < 0x80) → 0 < r → r < 256 → ds.length ≤ r → E.length + ds.length ≤ 64 →
      port_holds (ds.foldl in_port_write_byte ip) (E ++ ds)
        (if ds.length = r then E.length + ds.length else c) lc (r - ds.length) := by
  induction ds with
  | nil =>
    intro ip E c r h _ hr _ _ _
    rw [List.append_nil, if_neg (by simp; omega)]
    exact h
  | cons d ds ih =>
    intro ip E c r h hd hr hr2 hl hroom
    simp only [List.length_cons] at hl hroom
    have h1 := holds_data ip E c lc r d h (hd d (List.mem_cons_self _ _)) hlc hr hr2 (by omega)
    rw [List.foldl_cons]
    have el : E ++ d :: ds = E ++ [d] ++ ds := by simp
    rw [el]
    by_cases hr1 : r = 1
    · have hnil : ds = [] := List.eq_nil_of_length_eq_zero (by omega)
      subst hnil
      rw [if_pos hr1] at h1
      simp only [List.length_cons, List.length_nil, List.foldl_nil, List.append_nil]
      rw [if_pos (by omega)]
      have e : r - (0 + 1) = r - 1 := by omega
      rw [e]
      exact h1
    · rw [if_neg hr1] at h1
      have h2 := ih _ _ _ _ h1 (fun x hx => hd x (List.mem_cons_of_mem _ hx)) (by omega)
        (by omega) (by omega) (by rw [List.length_append]; simp; omega)
      have e1 : r - 1 - ds.length = r - (d :: ds).length := by simp; omega
      rw [e1] at h2
      have e2 : (if ds.length = r - 1 then (E ++ [d]).length + ds.length else c) =
          (if (d :: ds).length = r then E.length + (d :: ds).length else c) := by
        simp only [List.length_append, List.length_cons, List.length_nil]
        split_ifs <;> omega
      rw [e2] at h2
      exact h2

theorem channel_length_cases (s : Nat) :
    midi_channel_length s = 2 ∨ midi_channel_length s = 3 := by
  unfold midi_channel_length
  split_ifs <;> simp

/-- The first `k` bytes of a channel message with explicit status, written
to a port between two messages. -/
theorem holds_chan_part (ip : motu_in_port) (E : List Nat) (lc s : Nat) (ds : List Nat)
    (k : Nat) (h : port_holds ip E E.length lc 0) (h0 : 0x80 ≤ s) (h1 : s ≤ 0xEF)
    (hlen : ds.length + 1 = midi_channel_length s) (hd : ∀ d ∈ ds, d < 0x80)
    (hk : k ≤ ds.length + 1) (hroom : E.length + k ≤ 64) :
    port_holds (((s :: ds).take k).foldl in_port_write_byte ip) (E ++ (s :: ds).take k)
      (if k = ds.length + 1 then E.length + k else E.length)
      (if k = 0 then lc else s) (if k = 0 then 0 else ds.length + 1 - k) := by
  have hm := channel_length_cases s
  cases k with
  | zero =>
    simp only [List.take_zero, List.foldl_nil, List.append_nil, if_true]
    rw [if_neg (by omega)]
    exact h
  | succ k =>
    rw [List.take_succ_cons, List.foldl_cons]
    have hs := holds_status ip E E.length lc 0 s h h0 h1 (by omega)
    have hr := holds_data_run s (by omega) (ds.take k) _ _ _ _ hs
      (fun d hx => hd d (List.mem_of_mem_take hx)) (by omega) (by omega)
      (by rw [List.length_take]; omega) (by rw [List.length_take, List.length_append]; simp; omega)
    have el : E ++ s :: ds.take k = E ++ [s] ++ ds.take k := by simp
    have t1 : (if k + 1 = 0 then lc else s) = s := if_neg (Nat.succ_ne_zero k)
    have t2 : (if k + 1 = 0 then 0 else ds.length + 1 - (k + 1)) = ds.length + 1 - (k + 1) :=
      if_neg (Nat.succ_ne_zero k)
    rw [el, t1, t2]
    have lt : (ds.take k).length = k := by rw [List.length_take]; omega
    rw [lt] at hr
    have e1 : midi_channel_length s - 1 - k = ds.length + 1 - (k + 1) := by omega
    have e2 : (if k = midi_channel_length s - 1 then (E ++ [s]).length + k else E.length) =
        (if k + 1 = ds.length + 1 then E.length + (k + 1) else E.length) := by
      simp only [List.length_append, List.length_cons, List.length_nil]
      split_ifs <;> omega
    rw [e1, e2] at hr
    exact hr

/-- The first `k` bytes of a channel message in running status, written to
a port between two messages. -/
theorem holds_run_part (ip : motu_in_port) (E : List Nat) (s : Nat) (ds : List Nat)
    (k : Nat) (h : port_holds ip E E.length s 0) (h0 : 0x80 ≤ s) (h1 : s ≤ 0xEF)
    (hlen : ds.length + 1 = midi_channel_length s) (hd : ∀ d ∈ ds, d < 0x80)
    (hk : k ≤ ds.length) (hroom : k ≠ 0 → E.length + 1 + k ≤ 64) :
    port_holds ((ds.take k).foldl in_port_write_byte ip)
      (E ++ (if k = 0 then [] else s :: ds.take k))
      (if k = ds.length then E.length + 1 + k else E.length) s
      (if k = 0 then 0 else ds.length - k) := by
  have hm := channel_length_cases s
  cases k with
  | zero =>
    simp only [List.take_zero, List.foldl_nil, if_true, List.append_nil]
    rw [if_neg (by omega)]
    exact h
  | succ k =>
    have hroom2 := hroom (by omega)
    cases ds with
    | nil => simp at hk
    | cons d ds =>
      simp only [List.length_cons] at hlen hk
      have t1 : (if k + 1 = 0 then [] else s :: (d :: ds).take (k + 1)) =
          s :: (d :: ds).take (k + 1) := if_neg (Nat.succ_ne_zero k)
      have t2 : (if k + 1 = 0 then 0 else (d :: ds).length - (k + 1)) =
          (d :: ds).length - (k + 1) := if_neg (Nat.succ_ne_zero k)
      rw [t1, t2, List.take_succ_cons, List.foldl_cons]
      have hp := holds_prime ip E E.length s d h (hd d (List.mem_cons_self _ _)) h0 h1 (by omega)
      have el : E ++ s :: d :: ds.take k = E ++ [s, d] ++ ds.take k := by simp
      rw [el]
      have lt : (ds.take k).length = k := by rw [List.length_take]; omega
      by_cases h2 : midi_channel_length s = 2
      · have hnil : ds = [] := List.eq_nil_of_length_eq_zero (by omega)
        subst hnil
        have hk0 : k = 0 := by simpa using hk
        subst hk0
        rw [if_pos h2] at hp
        simp only [List.take_nil, List.foldl_nil, List.append_nil, List.length_cons,
          List.length_nil]
        have e : midi_channel_length s - 2 = 0 + 1 - (0 + 1) := by omega
        rw [e] at hp
        rw [if_pos trivial]
        exact hp
      · rw [if_neg h2] at hp
        have hr := holds_data_run s (by omega) (ds.take k) _ _ _ _ hp
          (fun x hx => hd x (List.mem_cons_of_mem _ (List.mem_of_mem_take hx))) (by omega)
          (by omega) (by rw [lt]; omega) (by rw [lt, List.length_append]; simp; omega)
        rw [lt] at hr
        have e1 : midi_channel_length s - 2 - k = (d :: ds).length - (k + 1) := by
          simp only [List.length_cons]; omega
        have e2 : (if k = midi_channel_length s - 2 then (E ++ [s, d]).length + k else E.length) =
            (if k + 1 = (d :: ds).length then E.length + 1 + (k + 1) else E.length) := by
          simp only [List.length_append, List.length_cons, List.length_nil]
          split_ifs <;> omega
        rw [e1, e2] at hr
        exact hr

theorem holds_messages (msgs : List midi_msg) :
    ∀ (ip : motu_in_port) (E : List Nat) (ctx : Option Nat) (last : midi_msg) (k : Nat),
      port_holds ip E E.length (ctx.getD 0) 0 →
      channel_valid ctx (msgs ++ [last]) = true → k < last.wire.length →
      E.length + (explicit_bytes msgs).length + (last.explicit_part k).length ≤ 64 →
      ∃ lc r, port_holds ((wire_bytes msgs ++ last.wire.take k).foldl in_port_write_byte ip)
        (E ++ (explicit_bytes msgs ++ last.explicit_part k))
        (E.length + (explicit_bytes msgs).length) lc r := by
  induction msgs with
  | nil =>
    intro ip E ctx last k h hv hk hfit
    have w0 : wire_bytes [] = [] := rfl
    have x0 : explicit_bytes [] = [] := rfl
    rw [w0, x0, List.nil_append, List.nil_append, List.length_nil, Nat.add_zero]
    rw [x0, List.length_nil, Nat.add_zero] at hfit
    cases last with
    | chan s ds =>
      simp only [List.nil_append, channel_valid, midi_msg.well_formed, Bool.and_eq_true,
        decide_eq_true_eq, all_data_iff] at hv
      obtain ⟨⟨⟨⟨h0, h1⟩, hlen⟩, hd⟩, _⟩ := hv
      have hk2 : k < ds.length + 1 := hk
      have ex : (midi_msg.chan s ds).explicit_part k = (s :: ds).take k := rfl
      have wx : (midi_msg.chan s ds).wire = s :: ds := rfl
      rw [ex] at hfit ⊢
      rw [wx]
      rw [List.length_take] at hfit
      have hp := holds_chan_part ip E (ctx.getD 0) s ds k h h0 h1 hlen hd (by omega)
        (by simp only [List.length_cons] at hfit; omega)
      rw [if_neg (by omega)] at hp
      exact ⟨_, _, hp⟩
    | run s ds =>
      simp only [List.nil_append, channel_valid, midi_msg.well_formed, Bool.and_eq_true,
        decide_eq_true_eq, all_data_iff] at hv
      obtain ⟨⟨⟨⟨⟨h0, h1⟩, hlen⟩, hd⟩, hctx⟩, _⟩ := hv
      subst hctx
      have hk2 : k < ds.length := hk
      have ex : (midi_msg.run s ds).explicit_part k = (if k = 0 then [] else s :: ds.take k) :=
        rfl
      have wx : (midi_msg.run s ds).wire = ds := rfl
      rw [ex] at hfit ⊢
      rw [wx]
      have hp := holds_run_part ip E s ds k h h0 h1 hlen hd (by omega) (by
        intro hk0
        rw [if_neg hk0, List.length_cons, List.length_take] at hfit
        omega)
      have t : (if k = ds.length then E.length + 1 + k else E.length) = E.length :=
        if_neg (by omega)
      rw [t] at hp
      exact ⟨_, _, hp⟩
    | sys s ds => simp [channel_valid] at hv
    | sysex ds => simp [channel_valid] at hv
  | cons msg rest ih =>
    intro ip E ctx last k h hv hk hfit
    have hw : wire_bytes (msg :: rest) = msg.wire ++ wire_bytes rest := by
      simp [wire_bytes]
    have he : explicit_bytes (msg :: rest) = msg.explicit ++ explicit_bytes rest := by
      simp [explicit_bytes]
    rw [hw, he, List.append_assoc, List.foldl_append]
    rw [he, List.length_append] at hfit
    have step : ∃ ctx1, channel_valid ctx1 (rest ++ [last]) = true ∧
        port_holds (msg.wire.foldl in_port_write_byte ip) (E ++ msg.explicit)
          (E ++ msg.explicit).length (ctx1.getD 0) 0 := by
      cases msg with
      | chan s ds =>
        simp only [List.cons_append, channel_valid, midi_msg.well_formed, Bool.and_eq_true,
          decide_eq_true_eq, all_data_iff] at hv
        obtain ⟨⟨⟨⟨h0, h1⟩, hlen⟩, hd⟩, hrest⟩ := hv
        refine ⟨some s, hrest, ?_⟩
        have ex : (midi_msg.chan s ds).explicit = s :: ds := rfl
        have wx : (midi_msg.chan s ds).wire = s :: ds := rfl
        rw [ex] at hfit ⊢
        rw [wx]
        simp only [List.length_cons] at hfit
        have hp := holds_chan_part ip E (ctx.getD 0) s ds (ds.length + 1) h h0 h1 hlen hd
          (Nat.le_refl _) (by omega)
        have tk : (s :: ds).take (ds.length + 1) = s :: ds :=
          List.take_of_length_le (by simp)
        rw [tk, if_pos rfl, if_neg (Nat.succ_ne_zero _), if_neg (Nat.succ_ne_zero _),
          Nat.sub_self] at hp
        have el : (E ++ s :: ds).length = E.length + (ds.length + 1) := by simp
        rw [el]
        exact hp
      | run s ds =>
        simp only [List.cons_append, channel_valid, midi_msg.well_formed, Bool.and_eq_true,
          decide_eq_true_eq, all_data_iff] at hv
        obtain ⟨⟨⟨⟨⟨h0, h1⟩, hlen⟩, hd⟩, hctx⟩, hrest⟩ := hv
        subst hctx
        refine ⟨some s, hrest, ?_⟩
        have ex : (midi_msg.run s ds).explicit = s :: ds := rfl
        have wx : (midi_msg.run s ds).wire = ds := rfl
        rw [ex] at hfit ⊢
        rw [wx]
        simp only [List.length_cons] at hfit
        have hm := channel_length_cases s
        have hp := holds_run_part ip E s ds ds.length h h0 h1 hlen hd (Nat.le_refl _)
          (fun _ => by omega)
        have tk : ds.take ds.length = ds := List.take_of_length_le (Nat.le_refl _)
        have hne : ds.length ≠ 0 := by omega
        rw [tk, if_neg hne, if_pos rfl, if_neg hne, Nat.sub_self] at hp
        have el : (E ++ s :: ds).length = E.length + 1 + ds.length := by simp; omega
        rw [el]
        exact hp
      | sys s ds => simp [channel_valid] at hv
      | sysex ds => simp [channel_valid] at hv
    obtain ⟨ctx1, hv1, hb⟩ := step
    obtain ⟨lc, r, hr⟩ := ih _ _ ctx1 last k hb hv1 hk
      (by rw [List.length_append]; omega)
    refine ⟨lc, r, ?_⟩
    have e1 : E ++ msg.explicit ++ (explicit_bytes rest ++ last.explicit_part k) =
        E ++ (msg.explicit ++ (explicit_bytes rest ++ last.explicit_part k)) := by simp
    have e2 : (E ++ msg.explicit).length + (explicit_bytes rest).length =
        E.length + (msg.explicit.length + (explicit_bytes rest).length) := by
      rw [List.length_append]; omega
    rw [e1, e2] at hr
    rw [List.length_append, List.append_assoc]
    exact hr

theorem write_bytes_port (port : Nat) (bs : List Nat) :
    ∀ m : motu, port < m.in_ports.length →
      (motu_in_port_write_bytes m port bs).in_port port =
        bs.foldl in_port_write_byte (m.in_port port) := by
  induction bs with
  | nil => intro m _; rfl
  | cons b bs ih =>
    intro m hp
    obtain ⟨w1, w2, _⟩ := write_byte_port m port port b hp
    rw [if_pos rfl] at w1
    have e : motu_in_port_write_bytes m port (b :: bs) =
        motu_in_port_write_bytes (motu_in_port_write_byte m port b) port bs := rfl
    rw [e, ih _ (by rw [w2]; exact hp), w1, List.foldl_cons]

/-- C22: the deliverable prefix of a protocol-1 input port holds only
complete messages.  Let the port be empty (`buf_len = buf_send_len = 0`,
`last_cmd = 0`, `cmd_bytes_remaining = 0`) and let `motu_in_port_write_byte`
be fed the wire bytes of the complete channel messages `msgs` (explicit or
running status, `channel_valid`) and then the first `k` wire bytes of one
further such message `last`, `k` less than its wire length, with at most 64
bytes in all once every implied status byte is written out.  Then the buffer
holds the messages with every implied status byte written out followed by
the expanded prefix of `last`, `buf_send_len` is the length of the expanded
complete messages, and the bytes beyond `buf_send_len` are exactly the
expanded prefix. -/
theorem prot1_deliverable_complete (m : motu) (port : Nat) (msgs : List midi_msg)
    (last : midi_msg) (k : Nat) (hport : port < m.in_ports.length)
    (hlen : (m.in_port port).buf_len = 0) (hsend : (m.in_port port).buf_send_len = 0)
    (hcmd : (m.in_port port).last_cmd = 0) (hcbr : (m.in_port port).cmd_bytes_remaining = 0)
    (hbuf : (m.in_port port).buf.length = 64)
    (hv : channel_valid none (msgs ++ [last]) = true) (hk : k < last.wire.length)
    (hfit : (explicit_bytes msgs).length + (last.explicit_part k).length ≤ 64) :
    ((motu_in_port_write_bytes m port (wire_bytes msgs ++ last.wire.take k)).in_port
      port).contents = explicit_bytes msgs ++ last.explicit_part k ∧
    ((motu_in_port_write_bytes m port (wire_bytes msgs ++ last.wire.take k)).in_port
      port).buf_len = (explicit_bytes msgs).length + (last.explicit_part k).length ∧
    ((motu_in_port_write_bytes m port (wire_bytes msgs ++ last.wire.take k)).in_port
      port).buf_send_len = (explicit_bytes msgs).length ∧
    (((motu_in_port_write_bytes m port (wire_bytes msgs ++ last.wire.take k)).in_port
      port).contents.take (explicit_bytes msgs).length = explicit_bytes msgs) ∧
    (((motu_in_port_write_bytes m port (wire_bytes msgs ++ last.wire.take k)).in_port
      port).contents.drop (explicit_bytes msgs).length = last.explicit_part k) := by
  have h0 : port_holds (m.in_port port) [] ([] : List Nat).length
      ((none : Option Nat).getD 0) 0 := by
    refine ⟨?_, hlen, hsend, hcmd, hcbr, hbuf⟩
    unfold motu_in_port.contents
    rw [hlen]
    rfl
  obtain ⟨lc, r, p1, p2, p3, _⟩ := holds_messages msgs (m.in_port port) [] none last k h0 hv hk
    (by simpa using hfit)
  rw [write_bytes_port port _ m hport]
  simp only [List.nil_append, List.length_nil, Nat.zero_add] at p1 p2 p3
  refine ⟨p1, ?_, p3, ?_, ?_⟩
  · rw [p2, List.length_append]
  · rw [p1, List.take_left]
  · rw [p1, List.drop_left]

set_option maxRecDepth 100000 in
/-- Witness for C22: the empty port 0 of the express 128 is fed
`90 40 7F  41 7F  42`: a note-on, a second one in running status and the
first byte of a third one in running status.  The buffer holds
`90 40 7F 90 41 7F 90 42`, of which the first 6 bytes are deliverable. -/
theorem prot1_deliverable_complete_witness :
    channel_valid none ([midi_msg.chan 0x90 [0x40, 0x7F], midi_msg.run 0x90 [0x41, 0x7F]] ++
      [midi_msg.run 0x90 [0x42, 0x7F]]) = true ∧
    wire_bytes [midi_msg.chan 0x90 [0x40, 0x7F], midi_msg.run 0x90 [0x41, 0x7F]] ++
      (midi_msg.run 0x90 [0x42, 0x7F]).wire.take 1 = [0x90, 0x40, 0x7F, 0x41, 0x7F, 0x42] ∧
    ((motu_in_port_write_bytes express_128_open 0
      [0x90, 0x40, 0x7F, 0x41, 0x7F, 0x42]).in_port 0).contents =
        [0x90, 0x40, 0x7F, 0x90, 0x41, 0x7F, 0x90, 0x42] ∧
    ((motu_in_port_write_bytes express_128_open 0
      [0x90, 0x40, 0x7F, 0x41, 0x7F, 0x42]).in_port 0).buf_send_len = 6 :=
  ⟨by decide, by decide,
    (prot1_deliverable_complete express_128_open 0
      [midi_msg.chan 0x90 [0x40, 0x7F], midi_msg.run 0x90 [0x41, 0x7F]]
      (midi_msg.run 0x90 [0x42, 0x7F]) 1 (by decide) (by decide) (by decide) (by decide)
      (by decide) (by decide) (by decide) (by decide) (by decide)).1,
    (prot1_deliverable_complete express_128_open 0
      [midi_msg.chan 0x90 [0x40, 0x7F], midi_msg.run 0x90 [0x41, 0x7F]]
      (midi_msg.run 0x90 [0x42, 0x7F]) 1 (by decide) (by decide) (by decide) (by decide)
      (by decide) (by decide) (by decide) (by decide) (by decide)).2.2.1⟩

/-! ## Protocol-2 packer: the bytes taken from the FIFOs -/

theorem fifo_cells_succ (f : motufifo) (d n : Nat) :
    fifo_cells f d (n + 1) =
      f.mbuf.getD ((f.p_out + d) % N_MBUF) 0 :: fifo_cells f (d + 1) n := by
  unfold fifo_cells
  rw [List.range'_succ, List.map_cons]

theorem fifo_queue_succ (f : motufifo) (d : Nat) :
    fifo_queue f (d + 1) = fifo_queue f d ++ [f.mbuf.getD ((f.p_out + d) % N_MBUF) 0] := by
  unfold fifo_queue fifo_cells
  rw [List.range'_concat, List.map_append]
  simp

theorem fifo_advance_zero (f : motufifo) (h : f.p_out < N_MBUF) : fifo_advance f 0 = f := by
  unfold fifo_advance
  have e1 : (f.p_out + 0) % N_MBUF = f.p_out := by
    rw [Nat.add_zero]
    exact Nat.mod_eq_of_lt h
  have e2 : last_command f.last_cmd (fifo_queue f 0) = f.last_cmd := rfl
  rw [e1, e2]
  rfl

/-- The FIFO record after the statements of the branch `p == last_out_port`
that dequeue one byte. -/
theorem fifo_advance_succ (f : motufifo) (d : Nat) (h : d < f.buf_send_len)
    (hb : f.buf_send_len ≤ f.buf_len) (hl : f.buf_len ≤ N_MBUF) :
    fifo_dequeue (fifo_advance f d) = fifo_advance f (d + 1) := by
  unfold fifo_dequeue
  have hN : N_MBUF = 64 := rfl
  have a1 := toU32_sub (f.buf_len - d) 1 (by omega) (by omega)
  have a2 := toU32_sub (f.buf_send_len - d) 1 (by omega) (by omega)
  simp only [Nat.cast_one] at a1 a2
  have hp : (if (f.p_out + d) % N_MBUF + 1 ≥ N_MBUF then 0 else (f.p_out + d) % N_MBUF + 1) =
      (f.p_out + (d + 1)) % N_MBUF := by
    rw [hN]
    split_ifs <;> omega
  have hq := fifo_queue_succ f d
  dsimp only
  by_cases hc : (fifo_advance f d).mbuf.getD (fifo_advance f d).p_out 0 &&& 0x80 ≠ 0
  · rw [if_pos hc]
    unfold fifo_advance at hc ⊢
    dsimp only at hc ⊢
    rw [a1, a2, hp, hq]
    unfold last_command
    rw [List.foldl_append]
    simp only [List.foldl_cons, List.foldl_nil]
    rw [if_pos hc]
    simp only [motufifo.mk.injEq, true_and, and_true]
    omega
  · rw [if_neg hc]
    unfold fifo_advance at hc ⊢
    dsimp only at hc ⊢
    rw [a1, a2, hp, hq]
    unfold last_command
    rw [List.foldl_append]
    simp only [List.foldl_cons, List.foldl_nil]
    rw [if_neg hc]
    simp only [motufifo.mk.injEq, true_and, and_true]
    omega

theorem pack_data_effect (s : pack_state) (p : Nat) (hin : p < s.m.mfifo.length)
    (hbuf : s.m.midi_out_buf.length = BUFSIZE) (hf : (pack_data s p).2 = false) :
    (pack_data s p).1.m.fifo p = fifo_dequeue (s.m.fifo p) ∧
    (pack_data s p).1.m.midi_out_buf.getD s.i 0 =
      (s.m.fifo p).mbuf.getD (s.m.fifo p).p_out 0 ∧
    (pack_data s p).1.i = s.i + 1 := by
  revert hf
  unfold pack_data
  by_cases hi : s.i ≥ BUFSIZE
  · rw [if_pos hi]
    intro hf
    simp [pack_stop] at hf
  · rw [if_neg hi]
    intro _
    dsimp only
    refine ⟨?_, ?_, rfl⟩
    · have e : ∀ (f g : motufifo) (c : Nat),
          ((pack_emit { s with m := s.m.set_fifo p f } c).m.set_fifo p g).fifo p = g := by
        intro f g c
        apply fifo_set_same
        show p < (s.m.set_fifo p f).mfifo.length
        unfold motu.set_fifo
        simp only [List.length_set]
        exact hin
      rw [e]
      rfl
    · have e : ∀ (f g : motufifo) (c : Nat),
          ((pack_emit { s with m := s.m.set_fifo p f } c).m.set_fifo p g).midi_out_buf =
            s.m.midi_out_buf.set s.i c := fun _ _ _ => rfl
      rw [e]
      exact getD_set_same _ _ _ _ (by rw [hbuf]; omega)

/-- An iteration of the packing loop for the current port that does not
leave through the capacity exit: the FIFO of the port has dequeued one byte,
which is in `midi_out_buf` at the old write index. -/
theorem pack_iter_data_effect (s : pack_state) (p : Nat) (hin : p < s.m.mfifo.length)
    (hbuf : s.m.midi_out_buf.length = BUFSIZE) (hp : (p : Int) = s.m.last_out_port)
    (hf : (pack_iter s p).2 = false) :
    (pack_iter s p).1.m.fifo p = fifo_dequeue (s.m.fifo p) ∧
    (pack_iter s p).1.m.midi_out_buf.getD s.i 0 =
      (s.m.fifo p).mbuf.getD (s.m.fifo p).p_out 0 := by
  have hb : pack_branch s p = pack_data s p := by
    unfold pack_branch
    rw [if_neg (by simpa using hp)]
  have hbf : (pack_branch s p).2 = false := by
    by_contra hb2
    have : (pack_iter s p).2 = true := by
      unfold pack_iter
      dsimp only
      rw [if_pos (by simpa using hb2)]
      simpa using hb2
    rw [this] at hf
    exact absurd hf (by decide)
  have hit : pack_iter s p = pack_trailer (pack_branch s p).1 := by
    unfold pack_iter
    dsimp only
    rw [if_neg (by rw [hbf]; decide)]
  rw [hit, hb]
  rw [hb] at hbf
  obtain ⟨d1, d2, d3⟩ := pack_data_effect s p hin hbuf hbf
  refine ⟨?_, ?_⟩
  · rw [fifo_congr _ _ (pack_trailer_mfifo (pack_data s p).1) p]
    exact d1
  · rw [(pack_trailer_stable (pack_data s p).1).2.2 s.i (by rw [d3]; omega)]
    exact d2

theorem pack_iter_other_effect (s : pack_state) (p : Nat)
    (hp : (p : Int) ≠ s.m.last_out_port) :
    (pack_iter s p).1.m.mfifo = s.m.mfifo := by
  have hb : (pack_branch s p).1.m.mfifo = s.m.mfifo := by
    unfold pack_branch
    rw [if_pos hp]
    split_ifs
    · exact pack_marker_mfifo s p
    · exact pack_fill_mfifo 12 s
  unfold pack_iter
  dsimp only
  split_ifs
  · exact hb
  · rw [pack_trailer_mfifo]
    exact hb

theorem pack_trace_head (s0 s : pack_state) (log : List (Nat × Nat × Nat))
    (h : pack_trace s0 s log) : pack_head s0 s := by
  induction h with
  | start => exact pack_head.start
  | data s p log _ hne hf _ ih => exact pack_head.next s p ih hne hf
  | other s p log _ hne hf _ ih => exact pack_head.next s p ih hne hf

theorem log_in_buffer_stable (log : List (Nat × Nat × Nat)) (s r : pack_state)
    (h : log_in_buffer log s) (hs : pack_stable s r) : log_in_buffer log r := by
  refine ⟨h.1, fun e he => ?_⟩
  obtain ⟨a, b⟩ := h.2 e he
  exact ⟨Nat.lt_of_lt_of_le a hs.1, by rw [hs.2.2 e.1 a]; exact b⟩

theorem log_in_buffer_snoc (log : List (Nat × Nat × Nat)) (s r : pack_state) (p c : Nat)
    (h : log_in_buffer log s) (hs : pack_stable s r) (hi : s.i < r.i)
    (hc : r.m.midi_out_buf.getD s.i 0 = c) : log_in_buffer (log ++ [(s.i, p, c)]) r := by
  obtain ⟨k1, k2⟩ := log_in_buffer_stable log s r h hs
  refine ⟨?_, fun e he => ?_⟩
  · rw [List.map_append, List.pairwise_append]
    refine ⟨k1, by simp, fun a ha b hb => ?_⟩
    simp only [List.map_cons, List.map_nil, List.mem_singleton] at hb
    obtain ⟨e, he, rfl⟩ := List.mem_map.1 ha
    rw [hb]
    exact (h.2 e he).1
  · rcases List.mem_append.1 he with h1 | h1
    · exact k2 e h1
    · rw [List.mem_singleton.1 h1]
      exact ⟨hi, hc⟩

/-- The loop of one port, when it ends with `buf_send_len = 0`: it has
dequeued the rest of the sendable bytes of the port, in the order of the
queue, and has touched no other FIFO. -/
theorem pack_port_drain (s0 : pack_state) (h0 : pack_counted s0 ∧ s0.k < 12) (p : Nat)
    (F : motufifo) (hF : F.ring_ok) (fuel : Nat) :
    ∀ (s : pack_state) (log : List (Nat × Nat × Nat)) (d : Nat) (r : pack_state),
      pack_port fuel s p = some (r, false) → pack_trace s0 s log → log_in_buffer log s →
      s.m.midi_out_buf.length = BUFSIZE → d ≤ F.buf_send_len →
      s.m.fifo p = fifo_advance F d →
      ∃ log2, pack_trace s0 r (log ++ log2) ∧ log_in_buffer (log ++ log2) r ∧
        r.m.midi_out_buf.length = BUFSIZE ∧
        r.m.fifo p = fifo_advance F F.buf_send_len ∧
        log2.map (fun e => e.2) =
          (fifo_cells F d (F.buf_send_len - d)).map (fun b => (p, b)) ∧
        ∀ q, q ≠ p → r.m.fifo q = s.m.fifo q := by
  obtain ⟨_, f2, f3, f4⟩ := hF
  induction fuel with
  | zero => intro s log d r h; simp [pack_port] at h
  | succ fuel ih =>
    intro s log d r h ht hl hbuf hd hfp
    have hsl : (s.m.fifo p).buf_send_len = F.buf_send_len - d := by rw [hfp]; rfl
    rw [pack_port] at h
    by_cases hne : (s.m.fifo p).buf_send_len ≠ 0
    · rw [if_pos hne] at h
      dsimp only at h
      by_cases hstop : (pack_iter s p).2 = true
      · rw [if_pos hstop] at h
        have : (pack_iter s p).2 = false := by
          have := congrArg (fun o : Option (pack_state × Bool) => o.map (fun x => x.2)) h
          simpa using this
        rw [hstop] at this
        exact absurd this (by decide)
      · rw [if_neg hstop] at h
        have hf : (pack_iter s p).2 = false := by simpa using hstop
        obtain ⟨hc, hk⟩ := pack_head_counted s0 s h0 (pack_trace_head s0 s log ht)
        have hi := ((pack_iter_counted s p hc hk).2 hf).1
        have hst := pack_iter_stable s p
        have hbuf1 : (pack_iter s p).1.m.midi_out_buf.length = BUFSIZE := by
          rw [hst.2.1]
          exact hbuf
        by_cases hp : (p : Int) = s.m.last_out_port
        · obtain ⟨e1, e2⟩ := pack_iter_data_effect s p (fifo_inside s.m p hne) hbuf hp hf
          rw [hfp, fifo_advance_succ F d (by omega) f2 f3] at e1
          have ht1 := pack_trace.data s p log ht hne hf hp
          have hl1 := log_in_buffer_snoc log s (pack_iter s p).1 p _ hl hst hi e2
          obtain ⟨log3, t1, t2, t3, t4, t5, t6⟩ := ih _ _ (d + 1) r h ht1 hl1 hbuf1 (by omega) e1
          refine ⟨(s.i, p, (s.m.fifo p).mbuf.getD (s.m.fifo p).p_out 0) :: log3, ?_, ?_, t3, t4,
            ?_, ?_⟩
          · rw [List.append_assoc] at t1
            exact t1
          · rw [List.append_assoc] at t2
            exact t2
          · have hn : F.buf_send_len - d = (F.buf_send_len - (d + 1)) + 1 := by omega
            rw [hn, fifo_cells_succ, List.map_cons, List.map_cons, t5, hfp]
            rfl
          · intro q hq
            rw [t6 q hq]
            exact pack_iter_fifo_other s p q hq
        · have e1 : (pack_iter s p).1.m.fifo p = fifo_advance F d := by
            rw [fifo_congr _ _ (pack_iter_other_effect s p hp) p]
            exact hfp
          have ht1 := pack_trace.other s p log ht hne hf hp
          have hl1 := log_in_buffer_stable log s (pack_iter s p).1 hl hst
          obtain ⟨log3, t1, t2, t3, t4, t5, t6⟩ := ih _ _ d r h ht1 hl1 hbuf1 hd e1
          refine ⟨log3, t1, t2, t3, t4, t5, ?_⟩
          intro q hq
          rw [t6 q hq]
          exact pack_iter_fifo_other s p q hq
    · rw [if_neg hne] at h
      have hr : s = r := by
        have := congrArg (fun o : Option (pack_state × Bool) => o.map (fun x => x.1)) h
        simpa using this
      subst hr
      have hd2 : F.buf_send_len - d = 0 := by
        rw [← hsl]
        simpa using hne
      refine ⟨[], ?_, ?_, hbuf, ?_, ?_, fun _ _ => rfl⟩
      · rw [List.append_nil]; exact ht
      · rw [List.append_nil]; exact hl
      · have : d = F.buf_send_len := by omega
        rw [hfp, this]
      · rw [hd2]
        rfl

theorem pack_ports_drain (s0 : pack_state) (h0 : pack_counted s0 ∧ s0.k < 12)
    (F : Nat → motufifo) (ps : List Nat) :
    ps.Nodup → (∀ q ∈ ps, (F q).ring_ok) →
    ∀ (s : pack_state) (log : List (Nat × Nat × Nat)) (r : pack_state),
      pack_ports ps s = some (r, false) → pack_trace s0 s log → log_in_buffer log s →
      s.m.midi_out_buf.length = BUFSIZE → (∀ q ∈ ps, s.m.fifo q = F q) →
      ∃ log2, pack_trace s0 r (log ++ log2) ∧ log_in_buffer (log ++ log2) r ∧
        r.m.midi_out_buf.length = BUFSIZE ∧
        (∀ q ∈ ps, r.m.fifo q = fifo_advance (F q) (F q).buf_send_len) ∧
        (∀ q, q ∉ ps → r.m.fifo q = s.m.fifo q) ∧
        log2.map (fun e => e.2) =
          (ps.map (fun q =>
            (fifo_queue (F q) (F q).buf_send_len).map (fun b => (q, b)))).flatten := by
  induction ps with
  | nil =>
    intro _ _ s log r h ht hl hbuf _
    simp only [pack_ports, Option.some.injEq, Prod.mk.injEq, and_true] at h
    subst h
    refine ⟨[], ?_, ?_, hbuf, fun q hq => by simp at hq, fun _ _ => rfl, rfl⟩
    · rw [List.append_nil]; exact ht
    · rw [List.append_nil]; exact hl
  | cons p ps ih =>
    intro hnd hF s log r h ht hl hbuf hfs
    obtain ⟨hpn, hnd2⟩ := List.nodup_cons.1 hnd
    simp only [pack_ports] at h
    cases hp : pack_port PACK_FUEL s p with
    | none => rw [hp] at h; cases h
    | some r1 =>
      rw [hp] at h
      dsimp only at h
      by_cases hstop : r1.2 = true
      · rw [if_pos hstop] at h
        have : r1.2 = false := by
          have := congrArg (fun o : Option (pack_state × Bool) => o.map (fun x => x.2)) h
          simpa using this
        rw [hstop] at this
        exact absurd this (by decide)
      · rw [if_neg hstop] at h
        have hr1 : r1 = (r1.1, false) := by
          have : r1.2 = false := by simpa using hstop
          rw [← this]
        rw [hr1] at hp
        obtain ⟨log2, a1, a2, a3, a4, a5, a6⟩ := pack_port_drain s0 h0 p (F p)
          (hF p (List.mem_cons_self _ _)) PACK_FUEL s log 0 r1.1 hp ht hl hbuf (Nat.zero_le _)
          (by
            rw [fifo_advance_zero _ (hF p (List.mem_cons_self _ _)).2.2.2]
            exact hfs p (List.mem_cons_self _ _))
        obtain ⟨log3, b1, b2, b3, b4, b5, b6⟩ := ih hnd2
          (fun q hq => hF q (List.mem_cons_of_mem _ hq)) r1.1 (log ++ log2) r h a1 a2 a3
          (fun q hq => by
            rw [a6 q (fun e => hpn (e ▸ hq))]
            exact hfs q (List.mem_cons_of_mem _ hq))
        refine ⟨log2 ++ log3, ?_, ?_, b3, ?_, ?_, ?_⟩
        · rw [← List.append_assoc]; exact b1
        · rw [← List.append_assoc]; exact b2
        · intro q hq
          rcases List.mem_cons.1 hq with e | e
          · subst e
            rw [b5 q hpn]
            exact a4
          · exact b4 q e
        · intro q hq
          have hq1 : q ≠ p := fun e => hq (e ▸ List.mem_cons_self _ _)
          have hq2 : q ∉ ps := fun e => hq (List.mem_cons_of_mem _ e)
          rw [b5 q hq2, a6 q hq1]
        · rw [List.map_append, a5, b6, List.map_cons, List.flatten_cons, Nat.sub_zero]
          rfl

theorem fifo_in_byte_ring_ok (f : motufifo) (b : Nat) (h : f.ring_ok)
    (hroom : ¬ f.buf_len ≥ N_MBUF) : (fifo_in_byte f b).ring_ok := by
  have hN : N_MBUF = 64 := rfl
  obtain ⟨h1, h2, h3, h4⟩ := h
  obtain ⟨c1, c2, c3⟩ := fifo_in_byte_cursor f b (by rw [h1, hN]; omega)
  obtain ⟨b1, b2⟩ := fifo_in_byte_bounded f b ⟨h2, h3⟩ hroom
  have hl : (fifo_in_byte f b).buf_len = f.buf_len + 1 := by
    unfold fifo_in_byte
    dsimp only
    split_ifs <;> rfl
  refine ⟨?_, b1, b2, by rw [c3]; exact h4⟩
  rw [c2, c3, hl, h1, hN]
  omega

theorem fifo_in_ring_ok (bs : List Nat) :
    ∀ f : motufifo, f.ring_ok → (fifo_in f bs).1.ring_ok := by
  induction bs with
  | nil => intro f h; exact h
  | cons b bs ih =>
    intro f h
    rw [fifo_in]
    split_ifs with hfull
    · exact h
    · exact ih _ (fifo_in_byte_ring_ok f b h hfull)

theorem prot2_pull_ring_ok (tx : Nat → pulled) (n : Nat) (ps : List Nat) :
    ∀ s : motu × List Event, (∀ q, q < n → (s.1.fifo q).ring_ok) →
      ∀ q, q < n → ((prot2_pull tx ps s).1.fifo q).ring_ok := by
  induction ps with
  | nil => intro s h; exact h
  | cons p ps ih =>
    intro s h
    simp only [prot2_pull]
    by_cases hreg : s.1.out_ports.getD p false = true
    · rw [if_pos hreg]
      apply ih
      intro q hq
      unfold mfifo_in
      dsimp only
      rcases fifo_set_cases s.1 p q (fifo_in (s.1.fifo p) ((tx p).bytes.take (tx p).len.toNat)).1
        with e | e
      · by_cases hqp : q = p
        · subst hqp
          rw [e]
          exact fifo_in_ring_ok _ _ (h q hq)
        · rw [fifo_set_other _ p q _ hqp]
          exact h q hq
      · rw [e]
        exact h q hq
    · rw [if_neg hreg]
      exact ih s h

/-- C25 (amended): the packer dequeues exactly the sendable prefix, in push
order.  Let every FIFO of the ports `0 .. n_ports_out - 1` satisfy
`p_in = (p_out + buf_len) mod 64` and `buf_send_len ≤ buf_len ≤ 64`, with
the read cursor inside the ring, and let the packing loops of the invocation
end without a capacity exit, in the state `s`.  The invocation first pushes
what the producers hand over; the FIFOs are then those of `pack_start`, they
satisfy the same conditions, and they are the FIFOs before the invocation
when no producer hands over a byte.  Measured from there: the invocation
returns; every port has `buf_send_len = 0`, `buf_len` reduced by the old
`buf_send_len`, `p_out` advanced by the same amount modulo 64, the ring
cells, `p_in`, `cmd_len` and `remaining` as they were, and `last_cmd` the
last dequeued byte with the high bit set (the old value if there is none);
the FIFOs of other indices are untouched; and the dequeue log of the run
lists, port by port in ascending order, exactly the first `buf_send_len`
queued bytes of each port in the order of the queue, each of them stored in
`midi_out_buf` at its logged position, the positions increasing. -/
theorem pack_dequeues_sendable (m : motu) (tx : Nat → pulled) (ret : Int)
    (s : pack_state) (hbuf : m.midi_out_buf.length = BUFSIZE)
    (hinv : ∀ p, p < m.n_ports_out.toNat → (m.fifo p).ring_ok)
    (hrun : pack_ports (List.range m.n_ports_out.toNat) (pack_start m tx) = some (s, false)) :
    motu_midi_send_prot2 m tx ret = some (pack_send s ret) ∧
    ((∀ p, (tx p).len ≤ 0) → ∀ p, (pack_start m tx).m.fifo p = m.fifo p) ∧
    (∀ p, p < m.n_ports_out.toNat →
      ((pack_start m tx).m.fifo p).ring_ok ∧
      ((pack_send s ret).1.fifo p).buf_send_len = 0 ∧
      ((pack_send s ret).1.fifo p).buf_len =
        ((pack_start m tx).m.fifo p).buf_len - ((pack_start m tx).m.fifo p).buf_send_len ∧
      ((pack_send s ret).1.fifo p).p_out =
        (((pack_start m tx).m.fifo p).p_out + ((pack_start m tx).m.fifo p).buf_send_len) %
          N_MBUF ∧
      ((pack_send s ret).1.fifo p).mbuf = ((pack_start m tx).m.fifo p).mbuf ∧
      ((pack_send s ret).1.fifo p).p_in = ((pack_start m tx).m.fifo p).p_in ∧
      ((pack_send s ret).1.fifo p).cmd_len = ((pack_start m tx).m.fifo p).cmd_len ∧
      ((pack_send s ret).1.fifo p).remaining = ((pack_start m tx).m.fifo p).remaining ∧
      ((pack_send s ret).1.fifo p).last_cmd =
        last_command ((pack_start m tx).m.fifo p).last_cmd
          (fifo_queue ((pack_start m tx).m.fifo p)
            ((pack_start m tx).m.fifo p).buf_send_len) ∧
      ((pack_send s ret).1.fifo p).ring_ok) ∧
    (∀ p, ¬ p < m.n_ports_out.toNat →
      (pack_send s ret).1.fifo p = (pack_start m tx).m.fifo p) ∧
    ∃ log : List (Nat × Nat × Nat),
      pack_trace (pack_start m tx) s log ∧
      log.map (fun e => e.2) =
        ((List.range m.n_ports_out.toNat).map (fun q =>
          (fifo_queue ((pack_start m tx).m.fifo q)
            ((pack_start m tx).m.fifo q).buf_send_len).map (fun b => (q, b)))).flatten ∧
      (log.map (fun e => e.1)).Pairwise (fun a b => a < b) ∧
      ∀ e ∈ log, e.1 < s.i ∧ (pack_send s ret).1.midi_out_buf.getD e.1 0 = e.2.2 := by
  have hN : N_MBUF = 64 := rfl
  have hS : ∀ p, p < m.n_ports_out.toNat → ((pack_start m tx).m.fifo p).ring_ok :=
    prot2_pull_ring_ok tx _ _ (m, []) hinv
  have hb0 : (pack_start m tx).m.midi_out_buf.length = BUFSIZE := by
    have e : (pack_start m tx).m.midi_out_buf = m.midi_out_buf := prot2_pull_buf tx _ (m, [])
    rw [e]
    exact hbuf
  obtain ⟨log, t1, t2, _, t4, t5, t6⟩ := pack_ports_drain (pack_start m tx)
    (pack_start_counted m tx) (fun q => (pack_start m tx).m.fifo q)
    (List.range m.n_ports_out.toNat) (List.nodup_range _)
    (fun q hq => hS q (List.mem_range.1 hq)) (pack_start m tx) [] s hrun pack_trace.start
    ⟨List.Pairwise.nil, fun e he => by simp at he⟩ hb0 (fun _ _ => rfl)
  rw [List.nil_append] at t1 t2
  refine ⟨?_, ?_, ?_, ?_, log, t1, t6, t2.1, fun e he => ?_⟩
  · obtain ⟨r, hr, hs⟩ := send_prot2_total m tx ret
    rw [hrun] at hr
    cases hr
    exact hs
  · intro hidle p
    exact (prot2_pull_idle tx hidle _ (m, [])).1 p
  · intro p hp
    have e := t4 p (List.mem_range.2 hp)
    rw [fifo_congr _ _ (pack_send_mfifo s ret) p, e]
    obtain ⟨r1, r2, r3, r4⟩ := hS p hp
    refine ⟨⟨r1, r2, r3, r4⟩, ?_, rfl, rfl, rfl, rfl, rfl, rfl, rfl, ?_, ?_, ?_, ?_⟩
    · show ((pack_start m tx).m.fifo p).buf_send_len - ((pack_start m tx).m.fifo p).buf_send_len
        = 0
      exact Nat.sub_self _
    · show ((pack_start m tx).m.fifo p).p_in =
        ((((pack_start m tx).m.fifo p).p_out + ((pack_start m tx).m.fifo p).buf_send_len) %
          N_MBUF + (((pack_start m tx).m.fifo p).buf_len -
            ((pack_start m tx).m.fifo p).buf_send_len)) % N_MBUF
      rw [r1, hN]
      omega
    · show ((pack_start m tx).m.fifo p).buf_send_len - ((pack_start m tx).m.fifo p).buf_send_len
        ≤ ((pack_start m tx).m.fifo p).buf_len - ((pack_start m tx).m.fifo p).buf_send_len
      omega
    · show ((pack_start m tx).m.fifo p).buf_len - ((pack_start m tx).m.fifo p).buf_send_len
        ≤ N_MBUF
      omega
    · show (((pack_start m tx).m.fifo p).p_out + ((pack_start m tx).m.fifo p).buf_send_len) %
        N_MBUF < N_MBUF
      exact Nat.mod_lt _ (by decide)
  · intro p hp
    rw [fifo_congr _ _ (pack_send_mfifo s ret) p]
    exact t5 p (fun h => hp (List.mem_range.1 h))
  · obtain ⟨a, b⟩ := t2.2 e he
    exact ⟨a, by rw [pack_send_stable s ret e.1 a]; exact b⟩

set_option maxRecDepth 100000 in
/-- Witness for C25: the express XT with `90 40 7F 41` queued on port 0 (3
bytes sendable) and `C0 05` on port 2, no producer handing over a byte.  The
packing loops end without a capacity exit; port 0 is left with
`buf_send_len = 0` and `buf_len = 1`. -/
theorem pack_dequeues_sendable_witness :
    (∀ p, p < express_xt_pending.n_ports_out.toNat → (express_xt_pending.fifo p).ring_ok) ∧
    pack_ports (List.range express_xt_pending.n_ports_out.toNat)
      (pack_start express_xt_pending pull_nothing) =
        some (pack_result express_xt_pending pull_nothing, false) ∧
    ((pack_start express_xt_pending pull_nothing).m.fifo 0).buf_send_len = 3 ∧
    ((pack_start express_xt_pending pull_nothing).m.fifo 0).buf_len = 4 ∧
    motu_midi_send_prot2 express_xt_pending pull_nothing 0 =
      some (pack_send (pack_result express_xt_pending pull_nothing) 0) ∧
    ((pack_send (pack_result express_xt_pending pull_nothing) 0).1.fifo 0).buf_send_len = 0 ∧
    ((pack_send (pack_result express_xt_pending pull_nothing) 0).1.fifo 0).buf_len =
      ((pack_start express_xt_pending pull_nothing).m.fifo 0).buf_len -
        ((pack_start express_xt_pending pull_nothing).m.fifo 0).buf_send_len :=
  ⟨by unfold motufifo.ring_ok; decide, by decide, by decide, by decide,
    (pack_dequeues_sendable express_xt_pending pull_nothing 0
      (pack_result express_xt_pending pull_nothing) (by decide)
      (by unfold motufifo.ring_ok; decide) (by decide)).1,
    ((pack_dequeues_sendable express_xt_pending pull_nothing 0
      (pack_result express_xt_pending pull_nothing) (by decide)
      (by unfold motufifo.ring_ok; decide) (by decide)).2.2.1 0 (by decide)).2.1,
    ((pack_dequeues_sendable express_xt_pending pull_nothing 0
      (pack_result express_xt_pending pull_nothing) (by decide)
      (by unfold motufifo.ring_ok; decide) (by decide)).2.2.1 0 (by decide)).2.2.1⟩

set_option maxRecDepth 100000 in
/-- C25 as stated fails when a producer hands over bytes: on the express XT
with every FIFO empty (so the conditions hold and `buf_send_len = 0` on port
0), the producer of port 0 hands over the note-on `90 40 7F`.  The invocation
is not cut short, yet it takes three bytes from the FIFO of port 0 (the
packet starts `F5 00 90 40 7F`, `p_out` goes from 0 to 3, `last_cmd` becomes
`90`) and `p_in` and `cmd_len` change (0 to 3, 0 to 2). -/
theorem send_prot2_pull_counterexample :
    (∀ p, p < express_xt_ready.n_ports_out.toNat →
      (express_xt_ready.fifo p).p_in =
        ((express_xt_ready.fifo p).p_out + (express_xt_ready.fifo p).buf_len) % N_MBUF ∧
      (express_xt_ready.fifo p).buf_send_len ≤ (express_xt_ready.fifo p).buf_len ∧
      (express_xt_ready.fifo p).buf_len ≤ N_MBUF) ∧
    (express_xt_ready.fifo 0).buf_send_len = 0 ∧
    (express_xt_ready.fifo 0).p_in = 0 ∧ (express_xt_ready.fifo 0).p_out = 0 ∧
    (express_xt_ready.fifo 0).cmd_len = 0 ∧
    (pack_ports (List.range express_xt_ready.n_ports_out.toNat)
      (pack_start express_xt_ready (pull_port0 [0x90, 0x40, 0x7F]))).map (fun r => r.2) =
        some false ∧
    (motu_midi_send_prot2 express_xt_ready (pull_port0 [0x90, 0x40, 0x7F]) 0).map
      (fun r => ((r.1.fifo 0).p_in, (r.1.fifo 0).p_out, (r.1.fifo 0).cmd_len,
        (r.1.fifo 0).last_cmd, r.1.midi_out_buf.take 5)) =
        some (3, 3, 2, 0x90, [0xF5, 0x00, 0x90, 0x40, 0x7F]) := by
  decide

/-! ## Protocol-2 packer: the payload of the groups -/

theorem pack_appends_refl (s : pack_state) : pack_appends s s [] :=
  ⟨rfl, rfl, (List.append_nil _).symm⟩

theorem pack_appends_trans (a b c : pack_state) (x y : List Nat) (h1 : pack_appends a b x)
    (h2 : pack_appends b c y) : pack_appends a c (x ++ y) := by
  obtain ⟨a1, a2, a3⟩ := h1
  obtain ⟨b1, b2, b3⟩ := h2
  refine ⟨by rw [b1, a1, List.length_append]; omega, b2.trans a2, ?_⟩
  rw [b3, a3, List.append_assoc]

theorem pack_appends_of_eq (s r : pack_state) (hi : r.i = s.i)
    (hb : r.m.midi_out_buf = s.m.midi_out_buf) : pack_appends s r [] :=
  ⟨by rw [hi]; rfl, by rw [hb], by rw [hi, hb, List.append_nil]⟩

theorem pack_emit_appends (s : pack_state) (b : Nat) (h : s.i < s.m.midi_out_buf.length) :
    pack_appends s (pack_emit s b) [b] :=
  ⟨rfl, List.length_set _ _ _, take_set_succ _ _ _ h⟩

theorem pack_fill_appends (n : Nat) :
    ∀ s : pack_state, s.m.midi_out_buf.length = BUFSIZE → (pack_fill n s).2 = false →
      s.k ≤ 12 → 12 ≤ s.k + n →
      pack_appends s (pack_fill n s).1 (List.replicate (12 - s.k) 0xFF) ∧
      (pack_fill n s).1.k = 12 := by
  induction n with
  | zero =>
    intro s _ _ h1 h2
    have e : 12 - s.k = 0 := by omega
    rw [e]
    exact ⟨pack_appends_refl s, by show s.k = 12; omega⟩
  | succ n ih =>
    intro s hb hf h1 h2
    rw [pack_fill] at hf ⊢
    by_cases hk : s.k < 12
    · rw [if_pos hk] at hf ⊢
      by_cases hi : s.i ≥ BUFSIZE
      · rw [if_pos hi] at hf
        simp [pack_stop] at hf
      · rw [if_neg hi] at hf ⊢
        have he := pack_emit_appends s 0xFF (by rw [hb]; omega)
        have hm : pack_appends s { (pack_emit s 0xFF) with k := s.k + 1 } [0xFF] :=
          pack_appends_trans _ _ _ _ _ he (pack_appends_of_eq _ _ rfl rfl)
        obtain ⟨a1, a2⟩ := ih { (pack_emit s 0xFF) with k := s.k + 1 }
          (by rw [← hb]; exact hm.2.1) hf (by show s.k + 1 ≤ 12; omega)
          (by show 12 ≤ s.k + 1 + n; omega)
        refine ⟨?_, a2⟩
        have e : List.replicate (12 - s.k) 0xFF =
            [0xFF] ++ [] ++ List.replicate (12 - (s.k + 1)) 0xFF := by
          have : 12 - s.k = (12 - (s.k + 1)) + 1 := by omega
          rw [this, List.replicate_succ]
          rfl
        rw [e]
        exact pack_appends_trans _ _ _ _ _ hm a1
    · rw [if_neg hk]
      have e : 12 - s.k = 0 := by omega
      rw [e]
      exact ⟨pack_appends_refl s, by show s.k = 12; omega⟩

theorem pack_marker_appends (s : pack_state) (p : Nat)
    (hb : s.m.midi_out_buf.length = BUFSIZE) (hf : (pack_marker s p).2 = false) :
    pack_appends s (pack_marker s p).1
      (render (if (s.m.fifo p).mbuf.getD (s.m.fifo p).p_out 0 &&& 0x80 = 0 then
        [out_piece.marker p, out_piece.prime (s.m.fifo p).last_cmd]
        else [out_piece.marker p])) ∧
    (pack_marker s p).1.k = s.k +
      (render (if (s.m.fifo p).mbuf.getD (s.m.fifo p).p_out 0 &&& 0x80 = 0 then
        [out_piece.marker p, out_piece.prime (s.m.fifo p).last_cmd]
        else [out_piece.marker p])).length := by
  have hB : BUFSIZE = 128 := rfl
  revert hf
  unfold pack_marker
  by_cases hi : s.i + 3 ≥ BUFSIZE
  · rw [if_pos hi]
    intro hf
    simp [pack_stop] at hf
  · rw [if_neg hi]
    intro _
    dsimp only
    have e1 := pack_emit_appends s 0xF5 (by rw [hb]; omega)
    have e2 := pack_emit_appends (pack_emit s 0xF5) p (by rw [e1.2.1, hb, e1.1]; simp; omega)
    have e3 : pack_appends s (pack_switch s p) [0xF5, p] :=
      pack_appends_trans _ _ _ _ _ (pack_appends_trans _ _ _ _ _ e1 e2)
        (pack_appends_of_eq _ _ rfl rfl)
    have hfifo : (pack_switch s p).m.fifo p = s.m.fifo p := rfl
    have hk : (pack_switch s p).k = s.k + 2 := rfl
    rw [hfifo]
    by_cases hd : (s.m.fifo p).mbuf.getD (s.m.fifo p).p_out 0 &&& 0x80 = 0
    · rw [if_pos hd, if_pos hd]
      have e4 := pack_emit_appends (pack_switch s p) (s.m.fifo p).last_cmd
        (by rw [e3.2.1, hb, e3.1]; simp; omega)
      refine ⟨?_, rfl⟩
      have e5 := pack_appends_trans _ _ _ _ _ e3 e4
      have e6 := pack_appends_trans _ _ _ _ _ e5
        (pack_appends_of_eq (pack_emit (pack_switch s p) (s.m.fifo p).last_cmd)
          { (pack_emit (pack_switch s p) (s.m.fifo p).last_cmd) with
            k := (pack_switch s p).k + 1 } rfl rfl)
      exact e6
    · rw [if_neg hd, if_neg hd]
      exact ⟨e3, rfl⟩

theorem pack_data_appends (s : pack_state) (p : Nat)
    (hb : s.m.midi_out_buf.length = BUFSIZE) (hf : (pack_data s p).2 = false) :
    pack_appends s (pack_data s p).1 [(s.m.fifo p).mbuf.getD (s.m.fifo p).p_out 0] ∧
    (pack_data s p).1.k = s.k + 1 := by
  revert hf
  unfold pack_data
  by_cases hi : s.i ≥ BUFSIZE
  · rw [if_pos hi]
    intro hf
    simp [pack_stop] at hf
  · rw [if_neg hi]
    intro _
    dsimp only
    refine ⟨?_, rfl⟩
    have e : ∀ f : motufifo, pack_appends s
        (pack_emit { s with m := s.m.set_fifo p f }
          ((s.m.fifo p).mbuf.getD (s.m.fifo p).p_out 0))
        [(s.m.fifo p).mbuf.getD (s.m.fifo p).p_out 0] := by
      intro f
      have e0 : pack_appends s { s with m := s.m.set_fifo p f } [] :=
        pack_appends_of_eq _ _ rfl rfl
      have e1 := pack_emit_appends { s with m := s.m.set_fifo p f }
        ((s.m.fifo p).mbuf.getD (s.m.fifo p).p_out 0)
        (by show s.i < s.m.midi_out_buf.length; rw [hb]; omega)
      exact pack_appends_trans _ _ _ _ _ e0 e1
    exact pack_appends_trans _ _ _ _ _ (e _) (pack_appends_of_eq _ _ rfl rfl)

theorem pack_trailer_appends (s : pack_state) (hb : s.m.midi_out_buf.length = BUFSIZE)
    (hf : (pack_trailer s).2 = false) :
    pack_appends s (pack_trailer s).1 (if s.k = 12 then [0x01, 0x00] else []) ∧
    (pack_trailer s).1.k = (if s.k = 12 then 0 else s.k) := by
  have hB : BUFSIZE = 128 := rfl
  revert hf
  unfold pack_trailer
  by_cases hk : s.k = 12
  · rw [if_pos hk, if_pos hk, if_pos hk]
    by_cases hi : s.i + 2 ≥ BUFSIZE
    · rw [if_pos hi]
      intro hf
      simp [pack_stop] at hf
    · rw [if_neg hi]
      intro _
      have e1 := pack_emit_appends s 1 (by rw [hb]; omega)
      have e2 := pack_emit_appends (pack_emit s 1) 0 (by rw [e1.2.1, hb, e1.1]; simp; omega)
      exact ⟨pack_appends_trans _ _ _ _ _ (pack_appends_trans _ _ _ _ _ e1 e2)
        (pack_appends_of_eq _ _ rfl rfl), rfl⟩
  · rw [if_neg hk, if_neg hk, if_neg hk]
    intro _
    exact ⟨pack_appends_refl s, rfl⟩

theorem render_fillers (n : Nat) :
    render (List.replicate n out_piece.filler) = List.replicate n 0xFF := by
  induction n with
  | zero => rfl
  | succ n ih =>
    rw [List.replicate_succ, List.replicate_succ]
    unfold render at ih ⊢
    rw [List.map_cons, List.flatten_cons, ih]
    rfl

theorem render_append (a b : List out_piece) : render (a ++ b) = render a ++ render b := by
  unfold render
  rw [List.map_append, List.flatten_append]

/-- One iteration of the packing loop that does not leave by
`goto send_buffer` appends the bytes of its payload pieces, and the trailer
`01 00` when they fill the group. -/
theorem pack_iter_appends (s : pack_state) (p : Nat) (hc : pack_counted s) (hk : s.k < 12)
    (hb : s.m.midi_out_buf.length = BUFSIZE) (hf : (pack_iter s p).2 = false) :
    pack_appends s (pack_iter s p).1
      (render (iter_payload s p) ++
        (if s.k + (render (iter_payload s p)).length = 12 then [0x01, 0x00] else [])) ∧
    (pack_iter s p).1.k =
      (if s.k + (render (iter_payload s p)).length = 12 then 0
        else s.k + (render (iter_payload s p)).length) ∧
    s.k + (render (iter_payload s p)).length ≤ 12 := by
  have hbf : (pack_branch s p).2 = false := by
    by_contra hb2
    have : (pack_iter s p).2 = true := by
      unfold pack_iter
      dsimp only
      rw [if_pos (by simpa using hb2)]
      simpa using hb2
    rw [this] at hf
    exact absurd hf (by decide)
  have hit : pack_iter s p = pack_trailer (pack_branch s p).1 := by
    unfold pack_iter
    dsimp only
    rw [if_neg (by rw [hbf]; decide)]
  have key : pack_appends s (pack_branch s p).1 (render (iter_payload s p)) ∧
      (pack_branch s p).1.k = s.k + (render (iter_payload s p)).length := by
    revert hbf
    unfold pack_branch iter_payload
    by_cases hp : (p : Int) ≠ s.m.last_out_port
    · rw [if_pos hp, if_pos hp]
      by_cases h10 : s.k < 10
      · rw [if_pos h10, if_pos h10]
        intro hbf
        exact pack_marker_appends s p hb hbf
      · rw [if_neg h10, if_neg h10]
        intro hbf
        obtain ⟨a1, a2⟩ := pack_fill_appends 12 s hb hbf (by omega) (by omega)
        rw [render_fillers]
        refine ⟨a1, ?_⟩
        rw [a2, List.length_replicate]
        omega
    · rw [if_neg hp, if_neg hp]
      intro hbf
      exact pack_data_appends s p hb hbf
  obtain ⟨k1, k2⟩ := key
  have hc2 := (pack_branch_counted s p hc hk).1
  rw [hit] at hf ⊢
  obtain ⟨t1, t2⟩ := pack_trailer_appends (pack_branch s p).1 (by rw [k1.2.1]; exact hb) hf
  rw [k2] at t1 t2
  exact ⟨pack_appends_trans _ _ _ _ _ k1 t1, t2, by rw [← k2]; exact hc2.1⟩

theorem render_groups_snoc (gs : List (List out_piece)) (g : List out_piece) :
    render_groups (gs ++ [g]) = render_groups gs ++ (render g ++ [0x01, 0x00]) := by
  unfold render_groups
  rw [List.map_append, List.flatten_append]
  simp

theorem pack_laid_out_step (s r : pack_state) (L : List (List out_piece) × List out_piece)
    (ps : List out_piece) (h : pack_laid_out s L)
    (ha : pack_appends s r (render ps ++
      (if s.k + (render ps).length = 12 then [0x01, 0x00] else [])))
    (hk : r.k = (if s.k + (render ps).length = 12 then 0 else s.k + (render ps).length)) :
    pack_laid_out r (layout_add L ps) := by
  obtain ⟨h1, h2, h3⟩ := h
  obtain ⟨_, _, a3⟩ := ha
  have hl : (render (L.2 ++ ps)).length = s.k + (render ps).length := by
    rw [render_append, List.length_append, h2]
  unfold layout_add
  by_cases h12 : s.k + (render ps).length = 12
  · rw [if_pos (by rw [hl]; exact h12)]
    rw [if_pos h12] at a3 hk
    refine ⟨?_, by rw [hk]; rfl, ?_⟩
    · show r.m.midi_out_buf.take r.i = render_groups (L.1 ++ [L.2 ++ ps]) ++ render []
      rw [a3, h1, render_groups_snoc, render_append]
      simp [render]
    · intro g hg
      rcases List.mem_append.1 hg with e | e
      · exact h3 g e
      · rw [List.mem_singleton.1 e, hl]
        exact h12
  · rw [if_neg (by rw [hl]; exact h12)]
    rw [if_neg h12] at a3 hk
    refine ⟨?_, by rw [hk]; exact hl, h3⟩
    show r.m.midi_out_buf.take r.i = render_groups L.1 ++ render (L.2 ++ ps)
    rw [a3, h1, render_append]
    simp

theorem pack_iter_laid_out (s0 : pack_state) (s : pack_state) (p : Nat)
    (h : pack_framed s ∧ ∃ L, pack_layout s0 s L ∧ pack_laid_out s L)
    (hne : (s.m.fifo p).buf_send_len ≠ 0) :
    ((pack_iter s p).2 = false →
      pack_framed (pack_iter s p).1 ∧
        ∃ L, pack_layout s0 (pack_iter s p).1 L ∧ pack_laid_out (pack_iter s p).1 L) ∧
    ((pack_iter s p).2 = true → True) := by
  refine ⟨fun hf => ?_, fun _ => trivial⟩
  obtain ⟨hfr, L, hl, hk⟩ := h
  obtain ⟨a1, a2, _⟩ := pack_iter_appends s p hfr.1 hfr.2.1 hfr.2.2.1 hf
  exact ⟨(pack_iter_framed s p hfr hne).1 hf, layout_add L (iter_payload s p),
    pack_layout.next s p L hl hne hf, pack_laid_out_step s _ L _ hk a1 a2⟩

theorem pack_fill_rest_appends (n : Nat) :
    ∀ s : pack_state, s.m.midi_out_buf.length = BUFSIZE → s.k ≤ 12 →
      s.i + (12 - s.k) ≤ BUFSIZE → 12 ≤ s.k + n →
      pack_appends s (pack_fill_rest n s) (List.replicate (12 - s.k) 0xFF) := by
  induction n with
  | zero =>
    intro s _ h1 _ h3
    have e : 12 - s.k = 0 := by omega
    rw [e]
    exact pack_appends_refl s
  | succ n ih =>
    intro s hb h1 h2 h3
    rw [pack_fill_rest]
    by_cases hk : s.k < 12 ∧ s.i < BUFSIZE
    · rw [if_pos hk]
      have he := pack_emit_appends s 0xFF (by rw [hb]; exact hk.2)
      have hm : pack_appends s { (pack_emit s 0xFF) with k := s.k + 1 } [0xFF] :=
        pack_appends_trans _ _ _ _ _ he (pack_appends_of_eq _ _ rfl rfl)
      have a1 := ih { (pack_emit s 0xFF) with k := s.k + 1 }
        (by rw [← hb]; exact hm.2.1) (by show s.k + 1 ≤ 12; omega)
        (by show s.i + 1 + (12 - (s.k + 1)) ≤ BUFSIZE; omega)
        (by show 12 ≤ s.k + 1 + n; omega)
      have e : List.replicate (12 - s.k) 0xFF =
          [0xFF] ++ [] ++ List.replicate (12 - (s.k + 1)) 0xFF := by
        have : 12 - s.k = (12 - (s.k + 1)) + 1 := by omega
        rw [this, List.replicate_succ]
        rfl
      rw [e]
      exact pack_appends_trans _ _ _ _ _ hm a1
    · rw [if_neg hk]
      have e : 12 - s.k = 0 := by omega
      rw [e]
      exact pack_appends_refl s

/-- The closing statements, when they find room: a partial open group is
padded with `FF` to 12 payload bytes and gets its trailer. -/
theorem pack_close_laid_out (s : pack_state) (L : List (List out_piece) × List out_piece)
    (hfr : pack_framed s) (h : pack_laid_out s L)
    (hroom : s.k ≠ 0 → s.i + (12 - s.k) + 2 ≤ BUFSIZE) :
    (pack_close s).m.midi_out_buf.take (pack_close s).i = render_groups (layout_close L) ∧
    ∀ g ∈ layout_close L, (render g).length = 12 := by
  have hB : BUFSIZE = 128 := rfl
  obtain ⟨⟨c1, c2, c3⟩, hk, hl, _⟩ := hfr
  obtain ⟨h1, h2, h3⟩ := h
  by_cases hk0 : s.k ≠ 0
  · have hr := hroom hk0
    have f := pack_fill_rest_appends 12 s hl c1 (by omega) (by omega)
    obtain ⟨f1, f2⟩ := pack_fill_rest_full 12 s c1 (by omega) (by omega)
    have hlc : layout_close L =
        L.1 ++ [L.2 ++ List.replicate (12 - (render L.2).length) out_piece.filler] := by
      unfold layout_close
      rw [if_neg (by rw [h2]; exact hk0)]
    have hpc : pack_close s = pack_emit (pack_emit (pack_fill_rest 12 s) 1) 0 := by
      unfold pack_close
      rw [if_pos hk0]
      dsimp only
      rw [if_pos (by rw [f2]; omega)]
    rw [hlc, hpc]
    have e1 := pack_emit_appends (pack_fill_rest 12 s) 1 (by rw [f.2.1, hl, f2]; omega)
    have e2 := pack_emit_appends (pack_emit (pack_fill_rest 12 s) 1) 0
      (by rw [e1.2.1, f.2.1, hl, e1.1, f2]; simp; omega)
    have e3 := pack_appends_trans _ _ _ _ _ (pack_appends_trans _ _ _ _ _ f e1) e2
    refine ⟨?_, ?_⟩
    · rw [e3.2.2, h1, render_groups_snoc, render_append, render_fillers, h2]
      simp
    · intro g hg
      rcases List.mem_append.1 hg with e | e
      · exact h3 g e
      · rw [List.mem_singleton.1 e, render_append, render_fillers, List.length_append,
          List.length_replicate, h2]
        omega
  · have hlc : layout_close L = L.1 := by
      unfold layout_close
      rw [if_pos (by rw [h2]; simpa using hk0)]
    have hpc : pack_close s = s := by
      unfold pack_close
      rw [if_neg hk0]
    rw [hlc, hpc]
    refine ⟨?_, h3⟩
    have e : render L.2 = [] := List.eq_nil_of_length_eq_zero (by rw [h2]; simpa using hk0)
    rw [h1, e, List.append_nil]

/-- C15: group framing of the protocol-2 packet.  When an invocation of
`motu_midi_send_prot2` leaves its packing loops without
`goto send_buffer`, has assembled at least one byte, and the closing filler
loop and trailer find room in the 128 bytes, then the assembled length is a
positive multiple of 14, the assembled bytes are what is handed to
`usb_submit_urb`, and every consecutive 14-byte group of them ends, after
its 12 payload bytes, with the trailer `01 00`.  The payload is accounted
for byte by byte: the run has a layout `L` (the payload pieces of its
iterations: switch markers `F5 p`, priming bytes, bytes taken from the
FIFOs, fillers `FF`), the packet has the groups `layout_close L`, every one
with exactly 12 payload bytes made of such pieces, and the assembled bytes
are these groups, each followed by `01 00`. -/
theorem pack_group_framing (m : motu) (tx : Nat → pulled) (ret : Int) (s : pack_state)
    (hbuf : m.midi_out_buf.length = BUFSIZE)
    (hrun : pack_ports (List.range m.n_ports_out.toNat) (pack_start m tx) = some (s, false))
    (hpos : s.i ≠ 0) (hroom : s.k ≠ 0 → s.i + (12 - s.k) + 2 ≤ BUFSIZE) :
    motu_midi_send_prot2 m tx ret = some (pack_submit (pack_close s) ret) ∧
    0 < (pack_close s).i ∧ (pack_close s).i % 14 = 0 ∧ (pack_close s).i ≤ BUFSIZE ∧
    ((pack_submit (pack_close s) ret).1.midi_out_buf.take (pack_close s).i).length =
      (pack_close s).i ∧
    (∃ frames, Event.submit_iso
        ((pack_submit (pack_close s) ret).1.midi_out_buf.take (pack_close s).i) frames ∈
      (pack_submit (pack_close s) ret).2) ∧
    (∀ g, 14 * g + 14 ≤ (pack_close s).i →
      ((pack_submit (pack_close s) ret).1.midi_out_buf.take (pack_close s).i).getD
        (14 * g + 12) 0 = 1 ∧
      ((pack_submit (pack_close s) ret).1.midi_out_buf.take (pack_close s).i).getD
        (14 * g + 13) 0 = 0) ∧
    (∃ L, pack_layout (pack_start m tx) s L ∧
      (∀ g ∈ layout_close L, (render g).length = 12) ∧
      (pack_submit (pack_close s) ret).1.midi_out_buf.take (pack_close s).i =
        render_groups (layout_close L)) := by
  have hfr0 : pack_framed (pack_start m tx) := pack_start_framed m tx hbuf
  obtain ⟨hfr, L, hL, hK⟩ :=
    (pack_ports_inv
      (fun x => pack_framed x ∧ ∃ L, pack_layout (pack_start m tx) x L ∧ pack_laid_out x L)
      (fun _ => True) (pack_iter_laid_out (pack_start m tx)) _ _ _ hrun
      ⟨hfr0, ([], []), pack_layout.start, rfl, rfl, fun g hg => by simp at hg⟩).1 rfl
  obtain ⟨k1, k2, k3, k4, k5⟩ := pack_close_framed s hfr hpos hroom
  obtain ⟨l1, l2⟩ := pack_close_laid_out s L hfr hK hroom
  have hsend : motu_midi_send_prot2 m tx ret = some (pack_submit (pack_close s) ret) := by
    obtain ⟨r, hr, hs⟩ := send_prot2_total m tx ret
    rw [hrun] at hr
    cases hr
    rw [hs]
    unfold pack_send
    rw [if_pos hpos]
  have hb := pack_submit_buf (pack_close s) ret
  refine ⟨hsend, k1, k2, k3, ?_, ?_, ?_, L, hL, l2, ?_⟩
  · rw [hb, List.length_take, k4]
    omega
  · refine ⟨(split_frames (pack_close s).i (pack_close s).i 0 0
      (pack_close s).m.midi_out_urb.iso_frame_desc).1.take
      (split_frames (pack_close s).i (pack_close s).i 0 0
        (pack_close s).m.midi_out_urb.iso_frame_desc).2, ?_⟩
    unfold pack_submit
    dsimp only
    split_ifs <;> simp
  · intro g hg
    rw [hb, getD_take_lt _ _ _ (by omega), getD_take_lt _ _ _ (by omega)]
    exact k5 g hg
  · rw [hb]
    exact l1

set_option maxRecDepth 100000 in
/-- Witness for C15: the express XT with one note-on pulled from port 0
assembles the single group `F5 00 90 40 7F FF FF FF FF FF FF FF 01 00`: the
marker, the three bytes of the FIFO and seven fillers, then the trailer. -/
theorem pack_group_framing_witness :
    (pack_close pack_one_note).i = 14 ∧
    ((pack_submit (pack_close pack_one_note) 0).1.midi_out_buf.take
      (pack_close pack_one_note).i).getD 12 0 = 1 ∧
    ((pack_submit (pack_close pack_one_note) 0).1.midi_out_buf.take
      (pack_close pack_one_note).i).getD 13 0 = 0 ∧
    (pack_submit (pack_close pack_one_note) 0).1.midi_out_buf.take
      (pack_close pack_one_note).i =
      render_groups [[out_piece.marker 0, out_piece.data 0 0x90, out_piece.data 0 0x40,
        out_piece.data 0 0x7F, out_piece.filler, out_piece.filler, out_piece.filler,
        out_piece.filler, out_piece.filler, out_piece.filler, out_piece.filler]] ∧
    ∃ L, pack_layout (pack_start express_xt_ready (pull_port0 [0x90, 0x40, 0x7F]))
        pack_one_note L ∧
      (pack_submit (pack_close pack_one_note) 0).1.midi_out_buf.take
        (pack_close pack_one_note).i = render_groups (layout_close L) :=
  ⟨by decide,
    ((pack_group_framing express_xt_ready (pull_port0 [0x90, 0x40, 0x7F]) 0 pack_one_note
      (by decide) (by decide) (by decide) (by decide)).2.2.2.2.2.2.1 0 (by decide)).1,
    ((pack_group_framing express_xt_ready (pull_port0 [0x90, 0x40, 0x7F]) 0 pack_one_note
      (by decide) (by decide) (by decide) (by decide)).2.2.2.2.2.2.1 0 (by decide)).2,
    by decide,
    match (pack_group_framing express_xt_ready (pull_port0 [0x90, 0x40, 0x7F]) 0
      pack_one_note (by decide) (by decide) (by decide) (by decide)).2.2.2.2.2.2.2 with
    | ⟨L, h1, _, h3⟩ => ⟨L, h1, h3⟩⟩

end Motu
